import Mathlib

/-!
# c2lua optimizer: block-scoped CSE and unreachable-statement trimming

A shallow embedding of `src/optimizer.c` (the pass `optimize_program` and everything it
calls) together with the properties of it that the specification states.

Modelling conventions.

* The tagged unions `AstExpr` and `AstStmt` are declared in `ast.h`, which is not part of the
  sources at hand; their variants and fields are the ones `optimizer.c` reads, completed from
  the data model of the specification.  Child pointers of a well-formed tree are non-null;
  the fields the code tests for `NULL` in a well-formed tree (`decl.init`, `data.expr`, the
  clauses of a `for`) are `Option`s.
* C strings are `String`s; `snprintf` conversions are the functions `fmt_zu`, `fmt_d`,
  `fmt_lld` and `fmt_g` below.  No buffer in `optimizer.c` is too small for what is
  printed into it, so no truncation is modelled.
* An `AstExpr **` (a rewritable slot) is a `Slot`: the index of the owning statement in the
  block handed to the collector and the path of child indices leading from the slot up to
  the expression field of that statement.  The pass never frees or copies an expression
  node, so the memory it works on is the immutable block plus the finite set of slots it
  has overwritten (`mem`).
* `qsort` belongs to the C library and leaves the order of elements that compare equal
  unspecified; it is a parameter of `apply_cse` and of everything above it.
* The `size_t` counter of `make_temp_name` is a `Nat`: wrapping it would take more
  temporaries than there are addresses for their declarations.
-/

namespace C2Lua

/-! ## Library conversions used by the pass -/

/-- The decimal digit `d` as a character (`'0' + d`). -/
def digit_char (d : Nat) : Char := Char.ofNat (48 + d)

/-- Decimal digits of `n`, least significant first; `fuel` bounds the number of digits. -/
def fmt_digits_rev : Nat → Nat → List Char
  | 0, _ => []
  | fuel + 1, n =>
    if n < 10 then [digit_char n] else digit_char (n % 10) :: fmt_digits_rev fuel (n / 10)

/-- Conversion `%zu` of `snprintf`: an unsigned value in decimal. -/
def fmt_zu (n : Nat) : String := String.mk (fmt_digits_rev (n + 1) n).reverse

/-- Conversion `%d` of `snprintf`: a signed value in decimal. -/
def fmt_d (v : Int) : String :=
  if v < 0 then "-" ++ fmt_zu v.natAbs else fmt_zu v.natAbs

/-- Conversion `%lld` of `snprintf`: a signed value in decimal. -/
def fmt_lld (v : Int) : String := fmt_d v

/-- The C type `double`: an IEEE-754 binary64 value given by its three bit fields. -/
structure Double where
  sign : Bool
  exponent : Fin 2048
  fraction : Fin 4503599627370496
  deriving DecidableEq, Repr

/-- Whether `10 ^ x ≤ num / den`, for a decimal exponent `x` of either sign. -/
def le_pow10 (num den : Nat) (x : Int) : Bool :=
  if 0 ≤ x then decide (10 ^ x.toNat * den ≤ num) else decide (den ≤ num * 10 ^ (-x).toNat)

/-- Largest decimal exponent `x` at or below the start value with `10 ^ x ≤ num / den`. -/
def dec_exponent : Nat → Nat → Nat → Int → Int
  | 0, _, _, x => x
  | fuel + 1, num, den, x =>
    if le_pow10 num den x then x else dec_exponent fuel num den (x - 1)

/-- The quotient `num / den` rounded to the nearest integer, ties to even. -/
def round_half_even (num den : Nat) : Nat :=
  let q := num / den
  let r := num % den
  if den < 2 * r then q + 1 else if 2 * r = den then q + q % 2 else q

/-- Remove the zeros that end a list of digits. -/
def strip_zeros (ds : List Char) : List Char :=
  (ds.reverse.dropWhile (fun c => c == '0')).reverse

/-- The digits `ds` after a decimal point, without trailing zeros; nothing, not even the
point, when no digit remains. -/
def fraction_part (ds : List Char) : List Char :=
  match strip_zeros ds with
  | [] => []
  | d :: rest => '.' :: d :: rest

/-- The decimal digits of `n`, padded on the left with zeros to `width` characters. -/
def zero_padded (width n : Nat) : List Char :=
  let ds := (fmt_zu n).data
  List.replicate (width - ds.length) '0' ++ ds

/-- Conversion `%g` of `snprintf` (precision 6) of the finite non-zero magnitude
`num / den`: the value is rounded to six significant digits; with `x` the decimal exponent
of the rounded value, style `f` with `5 - x` fraction digits is used when `-4 ≤ x < 6` and
style `e` otherwise, and trailing zeros of the fraction are removed.  `bound` is a decimal
exponent the magnitude stays below, from which the search for its own exponent starts. -/
def fmt_g_magnitude (num den : Nat) (bound : Int) : List Char :=
  let x0 := dec_exponent 40 num den bound
  let s := 5 - x0
  let r0 := if 0 ≤ s then round_half_even (num * 10 ^ s.toNat) den
            else round_half_even num (den * 10 ^ (-s).toNat)
  let x := if r0 = 1000000 then x0 + 1 else x0
  let d := if r0 = 1000000 then 100000 else r0
  if -4 ≤ x ∧ x < 6 then
    let nfrac := (5 - x).toNat
    (fmt_zu (d / 10 ^ nfrac)).data ++ fraction_part (zero_padded nfrac (d % 10 ^ nfrac))
  else
    (fmt_zu (d / 100000)).data ++ fraction_part (zero_padded 5 (d % 100000))
      ++ ['e', if x < 0 then '-' else '+'] ++ zero_padded 2 x.natAbs

/-- Conversion `%g` of `snprintf` applied to a `double`. -/
def fmt_g (v : Double) : String :=
  let sgn : List Char := if v.sign then ['-'] else []
  if v.exponent.val = 2047 then
    String.mk (sgn ++ (if v.fraction.val = 0 then ['i', 'n', 'f'] else ['n', 'a', 'n']))
  else
    let m : Nat := if v.exponent.val = 0 then v.fraction.val
                   else 4503599627370496 + v.fraction.val
    let e : Nat := if v.exponent.val = 0 then 1 else v.exponent.val
    let bound : Int := (((e : Int) - 1022) * 30103) / 100000 + 2
    if m = 0 then String.mk (sgn ++ ['0'])
    else if 1075 ≤ e then String.mk (sgn ++ fmt_g_magnitude (m * 2 ^ (e - 1075)) 1 bound)
    else String.mk (sgn ++ fmt_g_magnitude m (2 ^ (1075 - e)) bound)

/-! ## The syntax tree (`ast.h`) -/

/-- Modelled from the spec: the enumeration `TypeKind` of `ast.h`, the resolved type of an
expression.  `TYPE_CHAR` and `TYPE_UNKNOWN` are the enumerators `optimizer.c` names; the
others stand for the remaining members of the enumeration. -/
inductive TypeKind
  | TYPE_INT
  | TYPE_CHAR
  | TYPE_FLOAT
  | TYPE_BOOL
  | TYPE_STRING
  | TYPE_VOID
  | TYPE_ARRAY
  | TYPE_UNKNOWN
  deriving DecidableEq, Repr

/-- Modelled from the spec: the tagged union `AstExpr` of `ast.h`, with the fields
`optimizer.c` reads.  Every node carries its resolved `type`; operators are the integer
values of their enumerators, which is all `expr_make_key` prints of them.  A character of
a `String` stands for one byte of the C string. -/
inductive AstExpr
  | int_literal (type : TypeKind) (int_value : Int)
  | float_literal (type : TypeKind) (float_value : Double)
  | bool_literal (type : TypeKind) (bool_value : Bool)
  | string_literal (type : TypeKind) (string_literal : String)
  | identifier (type : TypeKind) (name : String)
  | binary (type : TypeKind) (op : Int) (left right : AstExpr)
  | unary (type : TypeKind) (op : Int) (operand : AstExpr)
  | call (type : TypeKind) (callee : String) (args : List AstExpr)
  | array_literal (type : TypeKind) (elements : List AstExpr)
  | subscript (type : TypeKind) (array index : AstExpr)
  deriving Repr

/-- Modelled from the spec: the tagged union `AstStmt` of `ast.h` (`STMT_DECL`,
`STMT_ASSIGN`, `STMT_ARRAY_ASSIGN`, `STMT_EXPR`, `STMT_RETURN`, `STMT_WHILE`, `STMT_FOR`,
`STMT_BLOCK`), with the fields `optimizer.c` reads. -/
inductive AstStmt
  | decl (type : TypeKind) (name : String) (init : Option AstExpr) (is_array : Bool)
      (is_used : Bool)
  | assign (target : String) (value : AstExpr)
  | array_assign (array : String) (index : AstExpr) (value : AstExpr)
  | expr (expr : Option AstExpr)
  | return_stmt (expr : Option AstExpr)
  | while_stmt (condition : AstExpr) (body : AstStmt)
  | for_stmt (init : Option AstStmt) (condition : Option AstExpr) (post : Option AstStmt)
      (body : AstStmt)
  | block (statements : List AstStmt)
  deriving Repr

/-- Modelled from the spec: `AstBlock` of `ast.h`; a block is its statement list
(`block->statements`). -/
abbrev AstBlock := List AstStmt

/-- Modelled from the spec: `AstFunction` of `ast.h`: name, parameters, return type and
body. -/
structure AstFunction where
  name : String
  params : List (TypeKind × String)
  return_type : TypeKind
  body : AstBlock

/-- Modelled from the spec: `AstProgram` of `ast.h`: the functions in declaration order. -/
structure AstProgram where
  functions : List AstFunction

/-- The field `expr->type`. -/
def AstExpr.type : AstExpr → TypeKind
  | .int_literal t _ => t
  | .float_literal t _ => t
  | .bool_literal t _ => t
  | .string_literal t _ => t
  | .identifier t _ => t
  | .binary t _ _ _ => t
  | .unary t _ _ => t
  | .call t _ _ => t
  | .array_literal t _ => t
  | .subscript t _ _ => t

/-! ## Canonical keys and eligibility -/

/-- `expr_is_constant`: literals, and unary or binary nodes over constant operands. -/
def expr_is_constant : AstExpr → Bool
  | .int_literal _ _ => true
  | .float_literal _ _ => true
  | .bool_literal _ _ => true
  | .string_literal _ _ => true
  | .unary _ _ operand => expr_is_constant operand
  | .binary _ _ left right => expr_is_constant left && expr_is_constant right
  | _ => false

/-- `expr_is_candidate`: a unary or binary node of known type that is constant. -/
def expr_is_candidate (expr : AstExpr) : Bool :=
  match expr with
  | .binary t _ _ _ => if t = TypeKind.TYPE_UNKNOWN then false else expr_is_constant expr
  | .unary t _ _ => if t = TypeKind.TYPE_UNKNOWN then false else expr_is_constant expr
  | _ => false

/-- `expr_make_key`: the canonical key of an expression. -/
def expr_make_key : AstExpr → String
  | .int_literal t v =>
    if t = TypeKind.TYPE_CHAR then "C:" ++ fmt_lld v else "I:" ++ fmt_lld v
  | .float_literal _ v => "F:" ++ fmt_g v
  | .bool_literal _ b => "B:" ++ fmt_d (if b then 1 else 0)
  | .string_literal _ s => "S:" ++ fmt_zu s.length ++ ":" ++ s
  | .unary _ op operand => "U:" ++ fmt_d op ++ ":" ++ expr_make_key operand
  | .binary _ op left right =>
    "BIN:" ++ fmt_d op ++ ":" ++ expr_make_key left ++ "|" ++ expr_make_key right
  | _ => "<unsupported>"

/-! ## Slots and the candidate registry -/

/-- An `AstExpr **`: the expression field of statement `stmt` of the block being scanned
when `path` is empty, and otherwise child field `path.head` of the node found at
`path.tail`. -/
structure Slot where
  stmt : Nat
  path : List Nat
  deriving DecidableEq, Repr

/-- The address of child field `k` of the node found at `loc`
(`&expr->data.binary.left` is child `0`, `&expr->data.binary.right` child `1`,
`&expr->data.call.args.items[i]` child `i`, and so on). -/
def Slot.child (loc : Slot) (k : Nat) : Slot := ⟨loc.stmt, k :: loc.path⟩

/-- `CseOccurrence`: the slot, the index of the owning statement and the owning statement
(of which the pass reads the kind and the flag `is_used`, neither of which it changes). -/
structure CseOccurrence where
  location : Slot
  stmt_index : Nat
  stmt : AstStmt

/-- `CseEntry`; `occurrence_count` is the length of `occurrences`. -/
structure CseEntry where
  key : String
  type : TypeKind
  first_stmt_index : Nat
  occurrences : List CseOccurrence

/-- `CseEntryList`, in registration order. -/
abbrev CseEntryList := List CseEntry

/-- `find_entry`: the position of the first entry with the given key. -/
def find_entry : CseEntryList → String → Option Nat
  | [], _ => none
  | e :: rest, key =>
    if e.key = key then some 0 else (find_entry rest key).map (fun i => i + 1)

/-- `add_occurrence`: append an occurrence to an entry. -/
def add_occurrence (entry : CseEntry) (location : Slot) (stmt_index : Nat)
    (stmt : AstStmt) : CseEntry :=
  ⟨entry.key, entry.type, entry.first_stmt_index,
    entry.occurrences ++ [⟨location, stmt_index, stmt⟩]⟩

/-- The entry list with `f` applied to the entry at position `i` (the writes
`register_candidate` makes through the pointer `find_entry` returned). -/
def update_entry (f : CseEntry → CseEntry) : Nat → CseEntryList → CseEntryList
  | _, [] => []
  | 0, e :: rest => f e :: rest
  | i + 1, e :: rest => e :: update_entry f i rest

/-- `register_candidate`: `expr` is the node the slot `expr_ptr` holds. -/
def register_candidate (entries : CseEntryList) (expr_ptr : Slot) (expr : AstExpr)
    (stmt_index : Nat) (owner : AstStmt) : CseEntryList :=
  let key := expr_make_key expr
  match find_entry entries key with
  | none =>
    entries ++ [add_occurrence ⟨key, expr.type, stmt_index, []⟩ expr_ptr stmt_index owner]
  | some i =>
    update_entry (fun entry =>
      add_occurrence
        ⟨entry.key, entry.type,
          if stmt_index < entry.first_stmt_index then stmt_index else entry.first_stmt_index,
          entry.occurrences⟩
        expr_ptr stmt_index owner) i entries

/-! ## The collector -/

mutual
/-- `collect_expr_candidates`: `expr` is the node the slot `expr_ptr` holds; children are
visited first, then the node itself is registered when it qualifies. -/
def collect_expr_candidates (expr_ptr : Slot) (expr : AstExpr) (stmt_index : Nat)
    (owner : AstStmt) (entries : CseEntryList) : CseEntryList :=
  let entries :=
    match expr with
    | .binary _ _ left right =>
      collect_expr_candidates (expr_ptr.child 1) right stmt_index owner
        (collect_expr_candidates (expr_ptr.child 0) left stmt_index owner entries)
    | .unary _ _ operand =>
      collect_expr_candidates (expr_ptr.child 0) operand stmt_index owner entries
    | .call _ _ args => collect_expr_list expr_ptr 0 args stmt_index owner entries
    | .array_literal _ elements =>
      collect_expr_list expr_ptr 0 elements stmt_index owner entries
    | .subscript _ array index =>
      collect_expr_candidates (expr_ptr.child 1) index stmt_index owner
        (collect_expr_candidates (expr_ptr.child 0) array stmt_index owner entries)
    | _ => entries
  if expr_is_candidate expr then
    register_candidate entries expr_ptr expr stmt_index owner
  else entries
/-- The loops of `collect_expr_candidates` over call arguments and array elements; `i` is
the index of the first item of the list. -/
def collect_expr_list (parent : Slot) (i : Nat) (items : List AstExpr) (stmt_index : Nat)
    (owner : AstStmt) (entries : CseEntryList) : CseEntryList :=
  match items with
  | [] => entries
  | item :: rest =>
    collect_expr_list parent (i + 1) rest stmt_index owner
      (collect_expr_candidates (parent.child i) item stmt_index owner entries)
end

/-- `collect_statement_candidates`. -/
def collect_statement_candidates (stmt : AstStmt) (stmt_index : Nat)
    (entries : CseEntryList) : CseEntryList :=
  match stmt with
  | .decl _ _ init is_array _ =>
    match is_array, init with
    | false, some e => collect_expr_candidates ⟨stmt_index, []⟩ e stmt_index stmt entries
    | _, _ => entries
  | .assign _ value =>
    collect_expr_candidates ⟨stmt_index, []⟩ value stmt_index stmt entries
  | .array_assign _ _ value =>
    collect_expr_candidates ⟨stmt_index, []⟩ value stmt_index stmt entries
  | .expr (some e) => collect_expr_candidates ⟨stmt_index, []⟩ e stmt_index stmt entries
  | .return_stmt (some e) =>
    collect_expr_candidates ⟨stmt_index, []⟩ e stmt_index stmt entries
  | .expr none => entries
  | .return_stmt none => entries
  | .while_stmt _ _ => entries
  | .for_stmt _ _ _ _ => entries
  | .block _ => entries

/-- The loop of `collect_block_candidates` from statement index `i` on. -/
def collect_block_loop : Nat → List AstStmt → CseEntryList → CseEntryList
  | _, [], entries => entries
  | i, stmt :: rest, entries =>
    collect_block_loop (i + 1) rest (collect_statement_candidates stmt i entries)

/-- `collect_block_candidates`, run on the empty registry of `optimize_block`. -/
def collect_block_candidates (block : AstBlock) : CseEntryList :=
  collect_block_loop 0 block []

/-! ## Memory while `apply_cse` runs -/

/-- Child `k` of a node, in the numbering of `Slot.child`. -/
def expr_child (k : Nat) : AstExpr → Option AstExpr
  | .binary _ _ left right => if k = 0 then some left else if k = 1 then some right else none
  | .unary _ _ operand => if k = 0 then some operand else none
  | .call _ _ args => args[k]?
  | .array_literal _ elements => elements[k]?
  | .subscript _ array index => if k = 0 then some array else if k = 1 then some index else none
  | _ => none

/-- The node a path leads to below `root`. -/
def expr_at (root : AstExpr) : List Nat → Option AstExpr
  | [] => some root
  | k :: path => (expr_at root path).bind (expr_child k)

/-- The expression field of a statement whose address `collect_statement_candidates`
hands to the collector, when the statement has one. -/
def stmt_slot : AstStmt → Option AstExpr
  | .decl _ _ init is_array _ => if is_array then none else init
  | .assign _ value => some value
  | .array_assign _ _ value => some value
  | .expr e => e
  | .return_stmt e => e
  | _ => none

/-- The node a slot holds in the block as the collector saw it. -/
def slot_init (block : AstBlock) (loc : Slot) : Option AstExpr :=
  (block[loc.stmt]?).bind (fun s => (stmt_slot s).bind (fun root => expr_at root loc.path))

/-- A pointer to an expression node: a node of the block (named by the slot that held it
when the block was scanned) or a node allocated by the pass. -/
inductive NodeRef
  | parsed (loc : Slot)
  | fresh (node : AstExpr)

/-- A pointer to a statement: statement `index` of the block as scanned, or a declaration
built by `ast_stmt_make_decl` in `apply_cse` with its initializer pointer and its flag
`is_used`. -/
inductive StmtRef
  | parsed (index : Nat)
  | synthesized (type : TypeKind) (name : String) (init : NodeRef) (is_used : Bool)

/-- Memory while `apply_cse` runs: the statement array of the block, the slots that have
been overwritten with what they hold now, and the counter of `make_temp_name`. -/
structure CsePass where
  statements : List StmtRef
  mem : Slot → Option AstExpr
  counter : Nat

/-- The assignment `*slot = node`. -/
def write_slot (mem : Slot → Option AstExpr) (slot : Slot) (node : AstExpr) :
    Slot → Option AstExpr :=
  fun s => if s = slot then some node else mem s

/-- The expression `*slot`: a null pointer when the slot does not exist. -/
def read_slot (block : AstBlock) (mem : Slot → Option AstExpr) (slot : Slot) :
    Option NodeRef :=
  match mem slot with
  | some node => some (NodeRef.fresh node)
  | none => (slot_init block slot).map (fun _ => NodeRef.parsed slot)

mutual
/-- The tree below a node of the block as memory holds it: `expr` is the node as scanned
and `loc` the slot that held it; each child field is read through `mem`. -/
def load_node (mem : Slot → Option AstExpr) (loc : Slot) : AstExpr → AstExpr
  | .binary t op left right =>
    .binary t op ((mem (loc.child 0)).getD (load_node mem (loc.child 0) left))
      ((mem (loc.child 1)).getD (load_node mem (loc.child 1) right))
  | .unary t op operand =>
    .unary t op ((mem (loc.child 0)).getD (load_node mem (loc.child 0) operand))
  | .call t callee args => .call t callee (load_list mem loc 0 args)
  | .array_literal t elements => .array_literal t (load_list mem loc 0 elements)
  | .subscript t array index =>
    .subscript t ((mem (loc.child 0)).getD (load_node mem (loc.child 0) array))
      ((mem (loc.child 1)).getD (load_node mem (loc.child 1) index))
  | e => e
/-- The trees held by the item fields `i`, `i + 1`, ... of the node at `parent`. -/
def load_list (mem : Slot → Option AstExpr) (parent : Slot) (i : Nat) :
    List AstExpr → List AstExpr
  | [] => []
  | item :: rest =>
    (mem (parent.child i)).getD (load_node mem (parent.child i) item)
      :: load_list mem parent (i + 1) rest
end

/-- The tree a slot holds in memory; `expr` is the node it held when scanned. -/
def load (mem : Slot → Option AstExpr) (loc : Slot) (expr : AstExpr) : AstExpr :=
  (mem loc).getD (load_node mem loc expr)

/-- Statement `i` of the scanned block as memory holds it. -/
def load_stmt (mem : Slot → Option AstExpr) (i : Nat) : AstStmt → AstStmt
  | .decl t name (some init) false is_used =>
    .decl t name (some (load mem ⟨i, []⟩ init)) false is_used
  | .assign target value => .assign target (load mem ⟨i, []⟩ value)
  | .array_assign array index value => .array_assign array index (load mem ⟨i, []⟩ value)
  | .expr (some e) => .expr (some (load mem ⟨i, []⟩ e))
  | .return_stmt (some e) => .return_stmt (some (load mem ⟨i, []⟩ e))
  | s => s

/-- The tree an expression pointer leads to in memory. -/
def load_ref (block : AstBlock) (mem : Slot → Option AstExpr) : NodeRef → Option AstExpr
  | .fresh node => some node
  | .parsed loc => (slot_init block loc).map (load_node mem loc)

/-- Modelled from the spec: `ast_stmt_make_decl` of `ast.c`, which builds a scalar
declaration statement of the given type, name and initializer, its flag `is_used` clear. -/
def ast_stmt_make_decl (type : TypeKind) (name : String) (init : Option AstExpr) : AstStmt :=
  .decl type name init false false

/-- The assignment `decl->data.decl.is_used = 1` of `apply_cse`, made when `flag` holds. -/
def mark_used (flag : Bool) : AstStmt → AstStmt
  | .decl type name init is_array is_used => .decl type name init is_array (flag || is_used)
  | s => s

/-- The statement a statement pointer leads to in memory. -/
def load_stmt_ref (block : AstBlock) (mem : Slot → Option AstExpr) : StmtRef → Option AstStmt
  | .parsed i => (block[i]?).map (load_stmt mem i)
  | .synthesized type name init is_used =>
    some (mark_used is_used (ast_stmt_make_decl type name (load_ref block mem init)))

/-- The block as memory holds it. -/
def snapshot (block : AstBlock) (pass : CsePass) : AstBlock :=
  pass.statements.filterMap (load_stmt_ref block pass.mem)

/-- Memory when `apply_cse` is entered. -/
def initial_pass (block : AstBlock) (counter : Nat) : CsePass :=
  ⟨(List.range block.length).map StmtRef.parsed, fun _ => none, counter⟩

/-! ## The rewriter -/

/-- `make_temp_name` at counter value `counter`. -/
def make_temp_name (counter : Nat) : String := "__c2lua_cse_" ++ fmt_zu counter

/-- Modelled from the spec: `ast_expr_make_identifier` of `ast.c`, which builds an
identifier node of the given name; its type is not resolved yet. -/
def ast_expr_make_identifier (name : String) : AstExpr :=
  .identifier TypeKind.TYPE_UNKNOWN name

/-- The assignment `expr->type = type`. -/
def AstExpr.set_type (type : TypeKind) : AstExpr → AstExpr
  | .int_literal _ v => .int_literal type v
  | .float_literal _ v => .float_literal type v
  | .bool_literal _ v => .bool_literal type v
  | .string_literal _ v => .string_literal type v
  | .identifier _ name => .identifier type name
  | .binary _ op left right => .binary type op left right
  | .unary _ op operand => .unary type op operand
  | .call _ callee args => .call type callee args
  | .array_literal _ elements => .array_literal type elements
  | .subscript _ array index => .subscript type array index

/-- `make_temp_identifier`. -/
def make_temp_identifier (name : String) (type : TypeKind) : AstExpr :=
  (ast_expr_make_identifier name).set_type type

/-- `insert_statement`. -/
def insert_statement (list : List StmtRef) (index : Nat) (stmt : StmtRef) : List StmtRef :=
  let index := if index > list.length then list.length else index
  list.take index ++ stmt :: list.drop index

/-- `compare_entries_by_index`. -/
def compare_entries_by_index (a b : CseEntry) : Int :=
  if a.first_stmt_index < b.first_stmt_index then -1
  else if a.first_stmt_index > b.first_stmt_index then 1
  else 0

/-- `occurrence_survives_dce`. -/
def occurrence_survives_dce (occ : CseOccurrence) : Bool :=
  match occ.stmt with
  | .decl _ _ _ _ is_used => is_used
  | _ => true

/-- The C library's `qsort` on an array of entry pointers with a comparison function. -/
abbrev Qsort := (CseEntry → CseEntry → Int) → List CseEntry → List CseEntry

/-- What the C standard promises of `qsort`: the result is a rearrangement of the array in
which no element compares greater than a later one. -/
def QsortContract (qsort : Qsort) : Prop :=
  ∀ l : List CseEntry, (qsort compare_entries_by_index l).Perm l ∧
    (qsort compare_entries_by_index l).Pairwise (fun a b => compare_entries_by_index a b ≤ 0)

/-- The writes `*slot = make_temp_identifier(temp_name, entry->type)` of one entry. -/
def replace_occurrences (mem : Slot → Option AstExpr) (temp_name : String)
    (type : TypeKind) : List CseOccurrence → Slot → Option AstExpr
  | [] => mem
  | occ :: rest =>
    replace_occurrences (write_slot mem occ.location (make_temp_identifier temp_name type))
      temp_name type rest

/-- One turn of the main loop of `apply_cse`, for the selected entry `entry`; `inserted`
is the loop's insertion counter. -/
def apply_cse_entry (block : AstBlock) (state : CsePass × Nat) (entry : CseEntry) :
    CsePass × Nat :=
  let pass := state.1
  let inserted := state.2
  if entry.occurrences.length < 2 then state
  else
    match entry.occurrences with
    | [] => state
    | first :: _ =>
      match read_slot block pass.mem first.location with
      | none => state
      | some init_expr =>
        let temp_name := make_temp_name pass.counter
        let mem := replace_occurrences pass.mem temp_name entry.type entry.occurrences
        let has_live_use := entry.occurrences.any occurrence_survives_dce
        let decl := StmtRef.synthesized entry.type temp_name init_expr has_live_use
        (⟨insert_statement pass.statements (entry.first_stmt_index + inserted) decl, mem,
            pass.counter + 1⟩, inserted + 1)

/-- The entries `apply_cse` selects, in the order `qsort` leaves them in. -/
def select_entries (qsort : Qsort) (entries : CseEntryList) : List CseEntry :=
  qsort compare_entries_by_index (entries.filter (fun e => 2 ≤ e.occurrences.length))

/-- Memory when `apply_cse` returns, having been entered with the counter at `counter`. -/
def apply_cse_pass (qsort : Qsort) (block : AstBlock) (entries : CseEntryList)
    (counter : Nat) : CsePass :=
  if entries.length = 0 then initial_pass block counter
  else if (entries.filter (fun e => 2 ≤ e.occurrences.length)).length = 0 then
    initial_pass block counter
  else
    ((select_entries qsort entries).foldl (apply_cse_entry block)
      (initial_pass block counter, 0)).1

/-- `apply_cse`: the block and the counter it leaves behind. -/
def apply_cse (qsort : Qsort) (block : AstBlock) (entries : CseEntryList) (counter : Nat) :
    AstBlock × Nat :=
  let pass := apply_cse_pass qsort block entries counter
  (snapshot block pass, pass.counter)

/-! ## The trimmer and the driver -/

/-- The loop of `eliminate_unreachable`; the result lists the statements it keeps. -/
def eliminate_unreachable_loop : Bool → List AstStmt → List AstStmt
  | _, [] => []
  | true, _ :: rest => eliminate_unreachable_loop true rest
  | false, s :: rest =>
    s :: eliminate_unreachable_loop (match s with | .return_stmt _ => true | _ => false) rest

/-- `eliminate_unreachable`. -/
def eliminate_unreachable (list : List AstStmt) : List AstStmt :=
  eliminate_unreachable_loop false list

/-- A loop that applies a pass to the statements of a list in turn, the counter of
`make_temp_name` being handed from each to the next; `none` when a pass runs out of fuel. -/
def optimize_each (f : Nat → AstStmt → Option (AstStmt × Nat)) :
    Nat → List AstStmt → Option (List AstStmt × Nat)
  | counter, [] => some ([], counter)
  | counter, s :: rest =>
    match f counter s with
    | none => none
    | some (s1, c1) =>
      match optimize_each f c1 rest with
      | none => none
      | some (rest1, c2) => some (s1 :: rest1, c2)

/-- A pass applied to a statement pointer that may be null (the `init` and `post` clauses
of a `for`): `optimize_statement_children` returns at once on a null pointer. -/
def optimize_optional (f : Nat → AstStmt → Option (AstStmt × Nat)) :
    Nat → Option AstStmt → Option (Option AstStmt × Nat)
  | counter, none => some (none, counter)
  | counter, some s =>
    match f counter s with
    | none => none
    | some (s1, c) => some (some s1, c)

mutual
/-- `optimize_block`: the optimized block and the counter left behind.  The first argument
bounds the nesting depth that can be followed; `none` when it is too small. -/
def optimize_block (qsort : Qsort) : Nat → Nat → AstBlock → Option (AstBlock × Nat)
  | 0, _, _ => none
  | fuel + 1, counter, block =>
    let rewritten := apply_cse qsort block (collect_block_candidates block) counter
    match optimize_each (optimize_statement_children qsort fuel) rewritten.2 rewritten.1 with
    | none => none
    | some (statements, c) => some (eliminate_unreachable statements, c)
/-- `optimize_statement_children`. -/
def optimize_statement_children (qsort : Qsort) :
    Nat → Nat → AstStmt → Option (AstStmt × Nat)
  | 0, _, _ => none
  | fuel + 1, counter, .block statements =>
    match optimize_block qsort fuel counter statements with
    | none => none
    | some (b, c) => some (.block b, c)
  | fuel + 1, counter, .while_stmt condition body =>
    match optimize_statement_children qsort fuel counter body with
    | none => none
    | some (body1, c) => some (.while_stmt condition body1, c)
  | fuel + 1, counter, .for_stmt init condition post body =>
    match optimize_optional (optimize_statement_children qsort fuel) counter init with
    | none => none
    | some (init1, c1) =>
      match optimize_statement_children qsort fuel c1 body with
      | none => none
      | some (body1, c2) =>
        match optimize_optional (optimize_statement_children qsort fuel) c2 post with
        | none => none
        | some (post1, c3) => some (.for_stmt init1 condition post1 body1, c3)
  | _ + 1, counter, s => some (s, counter)
end

/-- `optimize_function`. -/
def optimize_function (qsort : Qsort) (fuel counter : Nat) (fn : AstFunction) :
    Option (AstFunction × Nat) :=
  match optimize_block qsort fuel counter fn.body with
  | none => none
  | some (body, c) => some (⟨fn.name, fn.params, fn.return_type, body⟩, c)

/-- The loop of `optimize_program` over the functions. -/
def optimize_functions (qsort : Qsort) (fuel : Nat) :
    Nat → List AstFunction → Option (List AstFunction × Nat)
  | counter, [] => some ([], counter)
  | counter, fn :: rest =>
    match optimize_function qsort fuel counter fn with
    | none => none
    | some (fn1, c1) =>
      match optimize_functions qsort fuel c1 rest with
      | none => none
      | some (rest1, c2) => some (fn1 :: rest1, c2)

/-- `optimize_program`, entered with the counter of `make_temp_name` at `counter` (zero in
a fresh process). -/
def optimize_program (qsort : Qsort) (fuel counter : Nat) (program : AstProgram) :
    Option (AstProgram × Nat) :=
  match optimize_functions qsort fuel counter program.functions with
  | none => none
  | some (functions, c) => some (⟨functions⟩, c)

/-- Nesting depth of a statement: fuel that is enough for `optimize_statement_children`. -/
def stmt_depth : AstStmt → Nat
  | .block statements => block_depth statements + 1
  | .while_stmt _ body => stmt_depth body + 1
  | .for_stmt init _ post body =>
    max (max (match init with | none => 0 | some s => stmt_depth s)
      (match post with | none => 0 | some s => stmt_depth s)) (stmt_depth body) + 1
  | _ => 1
where
  /-- Nesting depth of a statement list: fuel that is enough for `optimize_block`, also
  after `apply_cse` has put declarations into the list. -/
  block_depth : List AstStmt → Nat
    | [] => 2
    | s :: rest => max (stmt_depth s + 1) (block_depth rest)

/-! ## Sorting functions that meet the contract of `qsort` -/

/-- A stable sort: elements that compare equal keep their order. -/
def stable_qsort : Qsort :=
  fun cmp l => l.insertionSort (fun a b => cmp a b ≤ 0)

/-- A sort that reverses the order of elements that compare equal. -/
def reversing_qsort : Qsort :=
  fun cmp l => l.reverse.insertionSort (fun a b => cmp a b ≤ 0)

/-- Whether a statement is a `return` (`s->kind == STMT_RETURN`). -/
def is_return : AstStmt → Bool
  | .return_stmt _ => true
  | _ => false

/-- Structural identity of constant trees as the specification words it: the same variant
and operator at every interior node, the same literal kind (a character-typed integer
literal being a kind of its own) and the same literal value at every leaf. -/
def structurally_identical : AstExpr → AstExpr → Prop
  | .int_literal t1 v1, .int_literal t2 v2 =>
    (t1 = TypeKind.TYPE_CHAR ↔ t2 = TypeKind.TYPE_CHAR) ∧ v1 = v2
  | .float_literal _ v1, .float_literal _ v2 => v1 = v2
  | .bool_literal _ b1, .bool_literal _ b2 => b1 = b2
  | .string_literal _ s1, .string_literal _ s2 => s1 = s2
  | .unary _ op1 a, .unary _ op2 b => op1 = op2 ∧ structurally_identical a b
  | .binary _ op1 l1 r1, .binary _ op2 l2 r2 =>
    op1 = op2 ∧ structurally_identical l1 l2 ∧ structurally_identical r1 r2
  | _, _ => False

/-- Structural identity up to what `%g` prints of a floating-point literal: as
`structurally_identical`, except that two floating-point leaves need only print alike. -/
def key_equivalent : AstExpr → AstExpr → Prop
  | .int_literal t1 v1, .int_literal t2 v2 =>
    (t1 = TypeKind.TYPE_CHAR ↔ t2 = TypeKind.TYPE_CHAR) ∧ v1 = v2
  | .float_literal _ v1, .float_literal _ v2 => fmt_g v1 = fmt_g v2
  | .bool_literal _ b1, .bool_literal _ b2 => b1 = b2
  | .string_literal _ s1, .string_literal _ s2 => s1 = s2
  | .unary _ op1 a, .unary _ op2 b => op1 = op2 ∧ key_equivalent a b
  | .binary _ op1 l1 r1, .binary _ op2 l2 r2 =>
    op1 = op2 ∧ key_equivalent l1 l2 ∧ key_equivalent r1 r2
  | _, _ => False

/-- A remainder of a key string after a complete sub-key: nothing, or text that starts with
the separator of a binary key. -/
def at_separator (s : List Char) : Prop := s = [] ∨ ∃ rest, s = '|' :: rest

/-! ## The registrations of a block, in the order the collector makes them -/

mutual
/-- The candidate nodes below the slot `loc`, which holds `expr`, each with its slot, in the
order `collect_expr_candidates` registers them. -/
def candidate_nodes (loc : Slot) : AstExpr → List (Slot × AstExpr)
  | .binary t op left right =>
    candidate_nodes (loc.child 0) left ++ candidate_nodes (loc.child 1) right ++
      (if expr_is_candidate (.binary t op left right) then [(loc, .binary t op left right)]
       else [])
  | .unary t op operand =>
    candidate_nodes (loc.child 0) operand ++
      (if expr_is_candidate (.unary t op operand) then [(loc, .unary t op operand)] else [])
  | .call _ _ args => candidate_nodes_list loc 0 args
  | .array_literal _ elements => candidate_nodes_list loc 0 elements
  | .subscript _ array index =>
    candidate_nodes (loc.child 0) array ++ candidate_nodes (loc.child 1) index
  | _ => []
/-- The candidate nodes below the item fields `i`, `i + 1`, ... of the node at `parent`. -/
def candidate_nodes_list (parent : Slot) (i : Nat) : List AstExpr → List (Slot × AstExpr)
  | [] => []
  | item :: rest =>
    candidate_nodes (parent.child i) item ++ candidate_nodes_list parent (i + 1) rest
end

/-- One call of `register_candidate`: its arguments, with the node the slot holds. -/
structure Visit where
  location : Slot
  expr : AstExpr
  stmt_index : Nat
  owner : AstStmt

/-- The occurrence a registration records. -/
def Visit.occurrence (v : Visit) : CseOccurrence := ⟨v.location, v.stmt_index, v.owner⟩

/-- The call of `register_candidate` a registration stands for. -/
def register_visit (entries : CseEntryList) (v : Visit) : CseEntryList :=
  register_candidate entries v.location v.expr v.stmt_index v.owner

/-- The registrations made for statement `stmt` at index `i`. -/
def stmt_visits (i : Nat) (stmt : AstStmt) : List Visit :=
  match stmt_slot stmt with
  | some root => (candidate_nodes ⟨i, []⟩ root).map (fun p => ⟨p.1, p.2, i, stmt⟩)
  | none => []

/-- The registrations made for a statement list whose first statement has index `i`. -/
def block_visits : Nat → List AstStmt → List Visit
  | _, [] => []
  | i, stmt :: rest => stmt_visits i stmt ++ block_visits (i + 1) rest

/-- The slots of the occurrences of an entry. -/
def entry_locations (e : CseEntry) : List Slot := e.occurrences.map (fun o => o.location)

/-- The slots of all the occurrences of a registry. -/
def all_locations (entries : CseEntryList) : List Slot := entries.flatMap entry_locations

/-- The entry `register_candidate` creates for a key seen for the first time. -/
def new_entry (v : Visit) : CseEntry :=
  ⟨expr_make_key v.expr, v.expr.type, v.stmt_index, [v.occurrence]⟩

/-- The entry `register_candidate` leaves behind for a key seen before. -/
def extend_entry (e : CseEntry) (v : Visit) : CseEntry :=
  ⟨e.key, e.type, if v.stmt_index < e.first_stmt_index then v.stmt_index else e.first_stmt_index,
    e.occurrences ++ [v.occurrence]⟩

/-- What a registry built from the registrations `visits` looks like: one entry for each key
registered, holding the occurrences of that key in the order of their registration. -/
structure RegistryOf (visits : List Visit) (entries : CseEntryList) : Prop where
  keys_nodup : (entries.map (fun e => e.key)).Nodup
  occurrences_eq : ∀ e ∈ entries, e.occurrences =
    (visits.filter (fun v => expr_make_key v.expr = e.key)).map Visit.occurrence
  covered : ∀ v ∈ visits, ∃ e ∈ entries, e.key = expr_make_key v.expr
  nonempty : ∀ e ∈ entries, e.occurrences ≠ []
  first_le : ∀ e ∈ entries, ∀ o ∈ e.occurrences, e.first_stmt_index ≤ o.stmt_index
  first_mem : ∀ e ∈ entries, ∃ o ∈ e.occurrences, e.first_stmt_index = o.stmt_index

/-! ## The statement array and the memory `apply_cse` leaves behind, in closed form -/

/-- The slot of the first occurrence of an entry (`entry->occurrences[0].location`). -/
def entry_first_slot (e : CseEntry) : Slot :=
  match e.occurrences with
  | [] => ⟨0, []⟩
  | first :: _ => first.location

/-- The declaration `apply_cse` builds for an entry when the counter of `make_temp_name`
stands at `counter`: its initializer is the node the entry's first slot held at scan time. -/
def temp_decl (e : CseEntry) (counter : Nat) : StmtRef :=
  StmtRef.synthesized e.type (make_temp_name counter) (NodeRef.parsed (entry_first_slot e))
    (e.occurrences.any occurrence_survives_dce)

/-- The declarations built for a list of entries from counter value `counter` on, each with
the first statement index of its entry. -/
def temp_decls : Nat → List CseEntry → List (Nat × StmtRef)
  | _, [] => []
  | counter, e :: rest => (e.first_stmt_index, temp_decl e counter) :: temp_decls (counter + 1) rest

/-- A statement array of a block of `n` statements from statement `g` on, with each of the
given declarations placed directly before the statement whose index it comes with. -/
def layout (n : Nat) : Nat → List (Nat × StmtRef) → List StmtRef
  | g, [] => (List.range' g (n - g)).map StmtRef.parsed
  | g, (f, d) :: rest => (List.range' g (f - g)).map StmtRef.parsed ++ d :: layout n f rest

/-- The slots overwritten for a list of entries from counter value `counter` on. -/
def replace_all (mem : Slot → Option AstExpr) : Nat → List CseEntry → Slot → Option AstExpr
  | _, [] => mem
  | counter, e :: rest =>
    replace_all (replace_occurrences mem (make_temp_name counter) e.type e.occurrences)
      (counter + 1) rest

/-! ## Reading the statement array -/

/-- Whether a statement pointer leads to a statement of the scanned block. -/
def StmtRef.is_parsed : StmtRef → Bool
  | .parsed _ => true
  | .synthesized _ _ _ _ => false

/-- Whether a statement pointer leads to a declaration built by `apply_cse`. -/
def StmtRef.is_synthesized : StmtRef → Bool
  | .parsed _ => false
  | .synthesized _ _ _ _ => true

/-- Whether a statement pointer leads to a declaration built by `apply_cse` for the
variable `name`. -/
def StmtRef.declares (name : String) : StmtRef → Bool
  | .synthesized _ n _ _ => decide (n = name)
  | .parsed _ => false

/-- Whether a statement pointer leads to a declaration built by `apply_cse` whose
initializer is the node one of the slots `locs` held at scan time. -/
def StmtRef.initialized_from (locs : List Slot) : StmtRef → Bool
  | .synthesized _ _ (.parsed loc) _ => decide (loc ∈ locs)
  | _ => false

/-- The first slots the declarations built by `apply_cse` took their initializers from, in
the order of the statement array. -/
def synthesized_inits : List StmtRef → List Slot
  | [] => []
  | .synthesized _ _ (.parsed loc) _ :: rest => loc :: synthesized_inits rest
  | _ :: rest => synthesized_inits rest

/-- Modelled from the spec: the enumeration of statement kinds of `ast.h`
(`stmt->kind`). -/
inductive StmtKind
  | STMT_DECL
  | STMT_ASSIGN
  | STMT_ARRAY_ASSIGN
  | STMT_EXPR
  | STMT_RETURN
  | STMT_WHILE
  | STMT_FOR
  | STMT_BLOCK
  deriving DecidableEq, Repr

/-- The field `stmt->kind`. -/
def AstStmt.kind : AstStmt → StmtKind
  | .decl _ _ _ _ _ => .STMT_DECL
  | .assign _ _ => .STMT_ASSIGN
  | .array_assign _ _ _ => .STMT_ARRAY_ASSIGN
  | .expr _ => .STMT_EXPR
  | .return_stmt _ => .STMT_RETURN
  | .while_stmt _ _ => .STMT_WHILE
  | .for_stmt _ _ _ _ => .STMT_FOR
  | .block _ => .STMT_BLOCK

/-- A `qsort` that is stable: it returns what insertion sort returns, which leaves elements
that compare equal in the order they came in. -/
def QsortStable (qsort : Qsort) : Prop :=
  ∀ l : List CseEntry, qsort compare_entries_by_index l =
    l.insertionSort (fun a b => compare_entries_by_index a b ≤ 0)

/-- The block `x = 2 + 3; y = 2 + 3;` (the operator `+` standing for operator number 0). -/
def example_sum_twice : AstBlock :=
  [.assign "x" (.binary .TYPE_INT 0 (.int_literal .TYPE_INT 2) (.int_literal .TYPE_INT 3)),
   .assign "y" (.binary .TYPE_INT 0 (.int_literal .TYPE_INT 2) (.int_literal .TYPE_INT 3))]

/-- The statements of the scanned block from index `i` on, as memory holds them. -/
def load_block (mem : Slot → Option AstExpr) : Nat → List AstStmt → List AstStmt
  | _, [] => []
  | i, s :: rest => load_stmt mem i s :: load_block mem (i + 1) rest

/-- The block as memory holds it once the declarations built by `apply_cse` are deleted
from its statement array. -/
def pre_existing (block : AstBlock) (pass : CsePass) : AstBlock :=
  (pass.statements.filter StmtRef.is_parsed).filterMap (load_stmt_ref block pass.mem)

/-! ## Blocks and entries used as examples -/

/-- The registry entry of `2 + 3` in `example_sum_twice`. -/
def example_sum_entry : CseEntry :=
  ⟨"BIN:0:I:2|I:3", .TYPE_INT, 0,
    [⟨⟨0, []⟩, 0,
        .assign "x" (.binary .TYPE_INT 0 (.int_literal .TYPE_INT 2) (.int_literal .TYPE_INT 3))⟩,
     ⟨⟨1, []⟩, 1,
        .assign "y" (.binary .TYPE_INT 0 (.int_literal .TYPE_INT 2) (.int_literal .TYPE_INT 3))⟩]⟩

/-- The block `tmp0 = 2 + 3; x = tmp0; y = tmp0;`, the temporary being `__c2lua_cse_0` and
flagged as used. -/
def example_sum_twice_rewritten : AstBlock :=
  [.decl .TYPE_INT "__c2lua_cse_0"
      (some (.binary .TYPE_INT 0 (.int_literal .TYPE_INT 2) (.int_literal .TYPE_INT 3)))
      false true,
   .assign "x" (.identifier .TYPE_INT "__c2lua_cse_0"),
   .assign "y" (.identifier .TYPE_INT "__c2lua_cse_0")]

/-- The expression `(1 + 1) * 2` (operator numbers 0 and 2). -/
def example_product : AstExpr :=
  .binary .TYPE_INT 2
    (.binary .TYPE_INT 0 (.int_literal .TYPE_INT 1) (.int_literal .TYPE_INT 1))
    (.int_literal .TYPE_INT 2)

/-- The block `a = (1 + 1) * 2; return a; b = 9;`. -/
def example_single_use : AstBlock :=
  [.assign "a" example_product,
   .return_stmt (some (.identifier .TYPE_INT "a")),
   .assign "b" (.int_literal .TYPE_INT 9)]

/-- The registry entry of `(1 + 1) * 2` in `example_single_use`. -/
def example_single_entry : CseEntry :=
  ⟨"BIN:2:BIN:0:I:1|I:1|I:2", .TYPE_INT, 0, [⟨⟨0, []⟩, 0, .assign "a" example_product⟩]⟩

/-- The block `x = (1 + 1) * 2; y = (1 + 1) * 2;`. -/
def example_nested : AstBlock :=
  [.assign "x" example_product, .assign "y" example_product]

/-- The order of declarations the specification states: the reusable entries sorted by
first statement index, entries of equal index in registration order, each declaration
taking its initializer from the first slot of its entry. -/
def decls_in_first_occurrence_order (qsort : Qsort) (block : AstBlock) (counter : Nat) : Prop :=
  synthesized_inits
      (apply_cse_pass qsort block (collect_block_candidates block) counter).statements =
    (((collect_block_candidates block).filter (fun e => 2 ≤ e.occurrences.length)).insertionSort
      (fun a b => compare_entries_by_index a b ≤ 0)).map entry_first_slot

/-- The `double` nearest to `1.0000001`. -/
def double_1_0000001 : Double := ⟨false, 1023, 450359963⟩

/-- The `double` nearest to `1.0000002`. -/
def double_1_0000002 : Double := ⟨false, 1023, 900719925⟩

/-- The block `x = -1.0000001; y = -1.0000002;` (the operator `-` standing for unary
operator number 0). -/
def example_two_floats : AstBlock :=
  [.assign "x" (.unary .TYPE_FLOAT 0 (.float_literal .TYPE_FLOAT double_1_0000001)),
   .assign "y" (.unary .TYPE_FLOAT 0 (.float_literal .TYPE_FLOAT double_1_0000002))]

/-- The block `c = 'A'; n = 65;`. -/
def example_char_and_int : AstBlock :=
  [.assign "c" (.int_literal .TYPE_CHAR 65), .assign "n" (.int_literal .TYPE_INT 65)]

/-- Two constant trees that differ only in one integer literal, which has the same value
in both and is typed `char` in exactly one of them. -/
def differ_only_in_char_literal : AstExpr → AstExpr → Prop
  | .int_literal t1 v1, .int_literal t2 v2 =>
    v1 = v2 ∧ ((t1 = TypeKind.TYPE_CHAR ∧ t2 ≠ TypeKind.TYPE_CHAR) ∨
      (t1 ≠ TypeKind.TYPE_CHAR ∧ t2 = TypeKind.TYPE_CHAR))
  | .unary t1 op1 a, .unary t2 op2 b =>
    t1 = t2 ∧ op1 = op2 ∧ differ_only_in_char_literal a b
  | .binary t1 op1 l1 r1, .binary t2 op2 l2 r2 =>
    t1 = t2 ∧ op1 = op2 ∧
      ((differ_only_in_char_literal l1 l2 ∧ r1 = r2) ∨
        (l1 = l2 ∧ differ_only_in_char_literal r1 r2))
  | _, _ => False

/-- Two slots hold references to one and the same temporary. -/
def share_temporary (mem : Slot → Option AstExpr) (s1 s2 : Slot) : Prop :=
  ∃ t1 t2 name, mem s1 = some (AstExpr.identifier t1 name) ∧
    mem s2 = some (AstExpr.identifier t2 name)

/-- The block `a = 1 + 2; b = 2 + 1; c = 1 + 2; d = 2 + 1;`. -/
def example_swapped_operands : AstBlock :=
  [.assign "a" (.binary .TYPE_INT 0 (.int_literal .TYPE_INT 1) (.int_literal .TYPE_INT 2)),
   .assign "b" (.binary .TYPE_INT 0 (.int_literal .TYPE_INT 2) (.int_literal .TYPE_INT 1)),
   .assign "c" (.binary .TYPE_INT 0 (.int_literal .TYPE_INT 1) (.int_literal .TYPE_INT 2)),
   .assign "d" (.binary .TYPE_INT 0 (.int_literal .TYPE_INT 2) (.int_literal .TYPE_INT 1))]

/-- The block `a = -'A'; b = -65; c = -'A'; d = -65;`. -/
def example_char_operands : AstBlock :=
  [.assign "a" (.unary .TYPE_INT 0 (.int_literal .TYPE_CHAR 65)),
   .assign "b" (.unary .TYPE_INT 0 (.int_literal .TYPE_INT 65)),
   .assign "c" (.unary .TYPE_INT 0 (.int_literal .TYPE_CHAR 65)),
   .assign "d" (.unary .TYPE_INT 0 (.int_literal .TYPE_INT 65))]

/-! ## Loop conditions -/

/-- The conditions of the `while` and `for` statements of a statement, itself included,
in the order of the text. -/
def stmt_conditions : AstStmt → List (Option AstExpr)
  | .while_stmt condition body => some condition :: stmt_conditions body
  | .for_stmt init condition post body =>
    condition :: ((match init with | none => [] | some s => stmt_conditions s) ++
      stmt_conditions body ++ (match post with | none => [] | some s => stmt_conditions s))
  | .block statements => block_conditions statements
  | _ => []
where
  /-- The conditions of the `while` and `for` statements of a statement list. -/
  block_conditions : List AstStmt → List (Option AstExpr)
    | [] => []
    | s :: rest => stmt_conditions s ++ block_conditions rest

/-- The conditions of the `while` and `for` statements of a program. -/
def program_conditions (program : AstProgram) : List (Option AstExpr) :=
  program.functions.flatMap (fun fn => stmt_conditions.block_conditions fn.body)

/-- Whether a statement is a loop (`STMT_WHILE` or `STMT_FOR`). -/
def is_loop : AstStmt → Bool
  | .while_stmt _ _ => true
  | .for_stmt _ _ _ _ => true
  | _ => false

/-- The block `while (1 + 1) { } x = 1 + 1; y = 1 + 1;`. -/
def example_loop_block : AstBlock :=
  [.while_stmt (.binary .TYPE_INT 0 (.int_literal .TYPE_INT 1) (.int_literal .TYPE_INT 1))
      (.block []),
   .assign "x" (.binary .TYPE_INT 0 (.int_literal .TYPE_INT 1) (.int_literal .TYPE_INT 1)),
   .assign "y" (.binary .TYPE_INT 0 (.int_literal .TYPE_INT 1) (.int_literal .TYPE_INT 1))]

/-- A program whose only function has `example_loop_block` as body. -/
def example_loop_program : AstProgram :=
  ⟨[⟨"main", [], .TYPE_INT, example_loop_block⟩]⟩

/-- The loop conditions of a statement that may be absent (a clause of a `for`). -/
def optional_conditions : Option AstStmt → List (Option AstExpr)
  | none => []
  | some s => stmt_conditions s

/-- Fuel that is enough for `optimize_program`: the largest depth of a function body. -/
def program_depth (program : AstProgram) : Nat :=
  (program.functions.map (fun fn => stmt_depth.block_depth fn.body)).foldr max 0

/-- The program `example_loop_program` optimized: the condition `1 + 1` of the loop stands
as it was, the two assignments after it share a temporary. -/
def example_loop_program_optimized : AstProgram :=
  ⟨[⟨"main", [], .TYPE_INT,
    [.while_stmt (.binary .TYPE_INT 0 (.int_literal .TYPE_INT 1) (.int_literal .TYPE_INT 1))
        (.block []),
     .decl .TYPE_INT "__c2lua_cse_0"
        (some (.binary .TYPE_INT 0 (.int_literal .TYPE_INT 1) (.int_literal .TYPE_INT 1)))
        false true,
     .assign "x" (.identifier .TYPE_INT "__c2lua_cse_0"),
     .assign "y" (.identifier .TYPE_INT "__c2lua_cse_0")]⟩]⟩

/-- What `optimize_block` makes of `example_two_floats`:
`tmp0 = -1.0000001; x = tmp0; y = tmp0;`. -/
def example_two_floats_optimized : AstBlock :=
  [.decl .TYPE_FLOAT "__c2lua_cse_0"
      (some (.unary .TYPE_FLOAT 0 (.float_literal .TYPE_FLOAT double_1_0000001))) false true,
   .assign "x" (.identifier .TYPE_FLOAT "__c2lua_cse_0"),
   .assign "y" (.identifier .TYPE_FLOAT "__c2lua_cse_0")]

/-- What `optimize_block` makes of `example_nested` when `qsort` reverses ties:
`tmp0 = tmp1 * 2; tmp1 = 1 + 1; x = tmp0; y = tmp0;`. -/
def example_nested_reversed : AstBlock :=
  [.decl .TYPE_INT "__c2lua_cse_0"
      (some (.binary .TYPE_INT 2 (.identifier .TYPE_INT "__c2lua_cse_1")
        (.int_literal .TYPE_INT 2))) false true,
   .decl .TYPE_INT "__c2lua_cse_1"
      (some (.binary .TYPE_INT 0 (.int_literal .TYPE_INT 1) (.int_literal .TYPE_INT 1)))
      false true,
   .assign "x" (.identifier .TYPE_INT "__c2lua_cse_0"),
   .assign "y" (.identifier .TYPE_INT "__c2lua_cse_0")]

/-- Characters that may occur in the digits printed by `%zu`: none of the separators a key
is built with, and no sign. -/
def is_numeric_char (c : Char) : Prop := c ≠ '|' ∧ c ≠ ':' ∧ c ≠ '-'

/-! ## The temporary names handed out during a run -/

/-- The names of the declarations built by `apply_cse`, in the order of the statement
array. -/
def synthesized_names : List StmtRef → List String
  | [] => []
  | .synthesized _ name _ _ :: rest => name :: synthesized_names rest
  | .parsed _ :: rest => synthesized_names rest

/-- The names `make_temp_name` returns while its counter goes from `counter` to `bound`. -/
def temp_names_between (counter bound : Nat) : List String :=
  (List.range' counter (bound - counter)).map make_temp_name

/-- The names handed out while a pass `f` is applied to the statements of a list in turn,
`names` being the names handed out for one statement. -/
def names_each (f : Nat → AstStmt → Option (AstStmt × Nat))
    (names : Nat → AstStmt → List String) : Nat → List AstStmt → List String
  | _, [] => []
  | counter, s :: rest =>
    names counter s ++
      match f counter s with
      | none => []
      | some (_, c1) => names_each f names c1 rest

/-- The names handed out for a statement pointer that may be null. -/
def names_optional (names : Nat → AstStmt → List String) : Nat → Option AstStmt → List String
  | _, none => []
  | counter, some s => names counter s

mutual
/-- The names `make_temp_name` returns while `optimize_block` runs, in the order of the
calls: those of the block's own `apply_cse`, then those of the nested scopes of its
statements in turn. -/
def block_temp_names (qsort : Qsort) : Nat → Nat → AstBlock → List String
  | 0, _, _ => []
  | fuel + 1, counter, block =>
    let pass := apply_cse_pass qsort block (collect_block_candidates block) counter
    synthesized_names pass.statements ++
      names_each (optimize_statement_children qsort fuel) (children_temp_names qsort fuel)
        pass.counter (snapshot block pass)
/-- The names `make_temp_name` returns while `optimize_statement_children` runs. -/
def children_temp_names (qsort : Qsort) : Nat → Nat → AstStmt → List String
  | 0, _, _ => []
  | fuel + 1, counter, .block statements => block_temp_names qsort fuel counter statements
  | fuel + 1, counter, .while_stmt _ body => children_temp_names qsort fuel counter body
  | fuel + 1, counter, .for_stmt init _ post body =>
    names_optional (children_temp_names qsort fuel) counter init ++
      match optimize_optional (optimize_statement_children qsort fuel) counter init with
      | none => []
      | some (_, c1) =>
        children_temp_names qsort fuel c1 body ++
          match optimize_statement_children qsort fuel c1 body with
          | none => []
          | some (_, c2) => names_optional (children_temp_names qsort fuel) c2 post
  | _ + 1, _, _ => []
end

/-- The names `make_temp_name` returns while the loop of `optimize_program` runs. -/
def functions_temp_names (qsort : Qsort) (fuel : Nat) : Nat → List AstFunction → List String
  | _, [] => []
  | counter, fn :: rest =>
    block_temp_names qsort fuel counter fn.body ++
      match optimize_function qsort fuel counter fn with
      | none => []
      | some (_, c1) => functions_temp_names qsort fuel c1 rest

/-- The names `make_temp_name` returns while `optimize_program` runs. -/
def program_temp_names (qsort : Qsort) (fuel counter : Nat) (program : AstProgram) :
    List String :=
  functions_temp_names qsort fuel counter program.functions

/-- The program with two functions, the first with body `example_nested`, the second with
body `{ x = 2 + 3; y = 2 + 3; }` nested in a block. -/
def example_two_functions : AstProgram :=
  ⟨[⟨"f", [], .TYPE_INT, example_nested⟩, ⟨"g", [], .TYPE_INT, [.block example_sum_twice]⟩]⟩

/-! ## Identifiers of a program -/

mutual
/-- The names an expression mentions: its identifiers and the functions it calls. -/
def expr_identifiers : AstExpr → List String
  | .identifier _ name => [name]
  | .binary _ _ left right => expr_identifiers left ++ expr_identifiers right
  | .unary _ _ operand => expr_identifiers operand
  | .call _ callee args => callee :: expr_list_identifiers args
  | .array_literal _ elements => expr_list_identifiers elements
  | .subscript _ array index => expr_identifiers array ++ expr_identifiers index
  | _ => []
/-- The names the expressions of a list mention. -/
def expr_list_identifiers : List AstExpr → List String
  | [] => []
  | item :: rest => expr_identifiers item ++ expr_list_identifiers rest
end

/-- The names an expression that may be absent mentions. -/
def optional_expr_identifiers : Option AstExpr → List String
  | none => []
  | some e => expr_identifiers e

/-- The names a statement declares, assigns to or mentions, nested statements included. -/
def stmt_identifiers : AstStmt → List String
  | .decl _ name init _ _ => name :: optional_expr_identifiers init
  | .assign target value => target :: expr_identifiers value
  | .array_assign array index value =>
    array :: (expr_identifiers index ++ expr_identifiers value)
  | .expr e => optional_expr_identifiers e
  | .return_stmt e => optional_expr_identifiers e
  | .while_stmt condition body => expr_identifiers condition ++ stmt_identifiers body
  | .for_stmt init condition post body =>
    (match init with | none => [] | some s => stmt_identifiers s) ++
      optional_expr_identifiers condition ++
      (match post with | none => [] | some s => stmt_identifiers s) ++ stmt_identifiers body
  | .block statements => block_identifiers statements
where
  /-- The names the statements of a list declare, assign to or mention. -/
  block_identifiers : List AstStmt → List String
    | [] => []
    | s :: rest => stmt_identifiers s ++ block_identifiers rest

/-- The variable, parameter and function names that occur in a program. -/
def program_identifiers (program : AstProgram) : List String :=
  program.functions.flatMap
    (fun fn => fn.name :: (fn.params.map Prod.snd ++ stmt_identifiers.block_identifiers fn.body))

/-- The prefix of the names `make_temp_name` builds. -/
def reserved_prefix : String := "__c2lua_cse_"

/-- Whether a name begins with the prefix of the names `make_temp_name` builds. -/
def is_reserved (name : String) : Bool := reserved_prefix.data.isPrefixOf name.data

/-- The guarantee the specification states for temporary names: none of the names handed
out during `optimize_program` is a name that occurs in the program. -/
def temp_names_avoid_identifiers (qsort : Qsort) (fuel counter : Nat) (program : AstProgram) :
    Prop :=
  ∀ name ∈ program_temp_names qsort fuel counter program, name ∉ program_identifiers program

/-- A program whose only function declares a variable `__c2lua_cse_0` of its own:
`int __c2lua_cse_0 = 7; x = 2 + 3; y = 2 + 3;`. -/
def example_collision : AstProgram :=
  ⟨[⟨"main", [], .TYPE_INT,
    .decl .TYPE_INT "__c2lua_cse_0" (some (.int_literal .TYPE_INT 7)) false true ::
      example_sum_twice⟩]⟩

/-- The program `example_collision` optimized: the declaration built by `apply_cse` bears
the name of the variable the program declares itself. -/
def example_collision_optimized : AstProgram :=
  ⟨[⟨"main", [], .TYPE_INT,
    .decl .TYPE_INT "__c2lua_cse_0" (some (.int_literal .TYPE_INT 7)) false true ::
      example_sum_twice_rewritten⟩]⟩

/-! ## Eligibility as the specification words it -/

/-- Whether a node is an integer, floating-point, boolean or string literal. -/
def is_literal : AstExpr → Bool
  | .int_literal _ _ => true
  | .float_literal _ _ => true
  | .bool_literal _ _ => true
  | .string_literal _ _ => true
  | _ => false

/-- Whether the variant of a node is `Binary` or `Unary`. -/
def is_operator : AstExpr → Bool
  | .binary _ _ _ _ => true
  | .unary _ _ _ => true
  | _ => false

/-- Structural constancy as the specification words it: every node of the subtree is a
literal (the leaves) or a unary or binary node (the interior nodes). -/
def structurally_constant (e : AstExpr) : Prop :=
  ∀ (ext : List Nat) (y : AstExpr), expr_at e ext = some y →
    is_literal y = true ∨ is_operator y = true

/-- The expression `f(1 + 2, a[-3])` of unknown type, `f` and `a` being names of the
program. -/
def example_call : AstExpr :=
  .call .TYPE_UNKNOWN "f"
    [.binary .TYPE_INT 0 (.int_literal .TYPE_INT 1) (.int_literal .TYPE_INT 2),
     .subscript .TYPE_INT (.identifier .TYPE_ARRAY "a")
       (.unary .TYPE_INT 1 (.int_literal .TYPE_INT 3))]

/-! ## Liveness as the specification words it -/

/-- A live use as the specification words it: the owning statement is an assignment, an
array-slot assignment, an expression statement or a return, or it is a declaration
flagged used. -/
def is_live_use : AstStmt → Prop
  | .assign _ _ => True
  | .array_assign _ _ _ => True
  | .expr _ => True
  | .return_stmt _ => True
  | .decl _ _ _ _ is_used => is_used = true
  | _ => False

/-- The block `int a = 2 + 3; int b = 2 + 3;`, neither variable flagged used. -/
def example_unused_decls : AstBlock :=
  [.decl .TYPE_INT "a"
      (some (.binary .TYPE_INT 0 (.int_literal .TYPE_INT 2) (.int_literal .TYPE_INT 3)))
      false false,
   .decl .TYPE_INT "b"
      (some (.binary .TYPE_INT 0 (.int_literal .TYPE_INT 2) (.int_literal .TYPE_INT 3)))
      false false]

/-- What `apply_cse` makes of `example_unused_decls`:
`tmp0 = 2 + 3; int a = tmp0; int b = tmp0;`, the temporary not flagged used. -/
def example_unused_decls_rewritten : AstBlock :=
  [.decl .TYPE_INT "__c2lua_cse_0"
      (some (.binary .TYPE_INT 0 (.int_literal .TYPE_INT 2) (.int_literal .TYPE_INT 3)))
      false false,
   .decl .TYPE_INT "a" (some (.identifier .TYPE_INT "__c2lua_cse_0")) false false,
   .decl .TYPE_INT "b" (some (.identifier .TYPE_INT "__c2lua_cse_0")) false false]

/-! ## Scopes -/

/-- Whether a statement opens a scope of its own (`STMT_BLOCK`, `STMT_WHILE`, `STMT_FOR`). -/
def is_nested_scope : AstStmt → Bool
  | .block _ => true
  | .while_stmt _ _ => true
  | .for_stmt _ _ _ _ => true
  | _ => false

/-- The expression `1 + 1`. -/
def example_one_plus_one : AstExpr :=
  .binary .TYPE_INT 0 (.int_literal .TYPE_INT 1) (.int_literal .TYPE_INT 1)

/-- The block `x = 1 + 1; { y = 1 + 1; } while (c) { z = 1 + 1; }`: the expression occurs
once in the block itself, once in a nested block and once in the body of a loop. -/
def example_scopes : AstBlock :=
  [.assign "x" example_one_plus_one,
   .block [.assign "y" example_one_plus_one],
   .while_stmt (.identifier .TYPE_BOOL "c") (.block [.assign "z" example_one_plus_one])]

/-- The block `x = 1 + 1; { y = 1 + 1; z = 1 + 1; }`: the expression occurs once in the
block itself and twice in a nested block. -/
def example_inner_scope : AstBlock :=
  [.assign "x" example_one_plus_one,
   .block [.assign "y" example_one_plus_one, .assign "z" example_one_plus_one]]

/-- The block `example_inner_scope` optimized:
`x = 1 + 1; { tmp0 = 1 + 1; y = tmp0; z = tmp0; }`. -/
def example_inner_scope_optimized : AstBlock :=
  [.assign "x" example_one_plus_one,
   .block [.decl .TYPE_INT "__c2lua_cse_0" (some example_one_plus_one) false true,
     .assign "y" (.identifier .TYPE_INT "__c2lua_cse_0"),
     .assign "z" (.identifier .TYPE_INT "__c2lua_cse_0")]]

/-! ## Pre-order positions -/

mutual
/-- The slots of the nodes found below the slot `loc`, which holds `expr`, that slot
included, in recursive pre-order: a node before its children, the children in the order of
their fields. -/
def preorder_slots (loc : Slot) : AstExpr → List Slot
  | .binary _ _ left right =>
    loc :: (preorder_slots (loc.child 0) left ++ preorder_slots (loc.child 1) right)
  | .unary _ _ operand => loc :: preorder_slots (loc.child 0) operand
  | .call _ _ args => loc :: preorder_slots_list loc 0 args
  | .array_literal _ elements => loc :: preorder_slots_list loc 0 elements
  | .subscript _ array index =>
    loc :: (preorder_slots (loc.child 0) array ++ preorder_slots (loc.child 1) index)
  | _ => [loc]
/-- The slots below the item fields `i`, `i + 1`, ... of the node at `parent`, in
pre-order. -/
def preorder_slots_list (parent : Slot) (i : Nat) : List AstExpr → List Slot
  | [] => []
  | item :: rest =>
    preorder_slots (parent.child i) item ++ preorder_slots_list parent (i + 1) rest
end

/-- The slots of the expression tree the collector scans for statement `stmt` at index
`i`, in pre-order. -/
def stmt_preorder (i : Nat) (stmt : AstStmt) : List Slot :=
  match stmt_slot stmt with
  | some root => preorder_slots ⟨i, []⟩ root
  | none => []

/-- The slots the collector can reach in a statement list whose first statement has index
`i`: statement after statement, and in pre-order within each statement. -/
def block_preorder : Nat → List AstStmt → List Slot
  | _, [] => []
  | i, stmt :: rest => stmt_preorder i stmt ++ block_preorder (i + 1) rest

/-- The statement `a = f(1 + 1, 1 + 1) + (1 + 1);`. -/
def example_repeated_stmt : AstStmt :=
  .assign "a" (.binary .TYPE_INT 0
    (.call .TYPE_INT "f" [example_one_plus_one, example_one_plus_one])
    example_one_plus_one)

/-- The block `a = f(1 + 1, 1 + 1) + (1 + 1); b = 1 + 1;`. -/
def example_repeated : AstBlock :=
  [example_repeated_stmt, .assign "b" example_one_plus_one]

/-- The registry entry of `1 + 1` in `example_repeated`. -/
def example_repeated_entry : CseEntry :=
  ⟨"BIN:0:I:1|I:1", .TYPE_INT, 0,
    [⟨⟨0, [0, 0]⟩, 0, example_repeated_stmt⟩, ⟨⟨0, [1, 0]⟩, 0, example_repeated_stmt⟩,
     ⟨⟨0, [1]⟩, 0, example_repeated_stmt⟩, ⟨⟨1, []⟩, 1, .assign "b" example_one_plus_one⟩]⟩

/-! ## Temporaries behind a `return` -/

/-- The block `x = 5; return x; y = 1 + 1; z = 1 + 1;`. -/
def example_after_return : AstBlock :=
  [.assign "x" (.int_literal .TYPE_INT 5),
   .return_stmt (some (.identifier .TYPE_INT "x")),
   .assign "y" example_one_plus_one,
   .assign "z" example_one_plus_one]

/-- The registry entry of `1 + 1` in `example_after_return`. -/
def example_after_return_entry : CseEntry :=
  ⟨"BIN:0:I:1|I:1", .TYPE_INT, 2,
    [⟨⟨2, []⟩, 2, .assign "y" example_one_plus_one⟩,
     ⟨⟨3, []⟩, 3, .assign "z" example_one_plus_one⟩]⟩

/-- The block `x = 5; return x;`. -/
def example_after_return_optimized : AstBlock :=
  [.assign "x" (.int_literal .TYPE_INT 5), .return_stmt (some (.identifier .TYPE_INT "x"))]

/-! ## The order of slots -/

/-- Slot `s` lies strictly below slot `t`: it is a field of a node found in the subtree the
node held by `t` is the root of. -/
def Slot.below (s t : Slot) : Prop :=
  s.stmt = t.stmt ∧ ∃ ext : List Nat, ext ≠ [] ∧ s.path = ext ++ t.path

/-- Slot `s` comes before slot `t` in the pre-order of the block: it lies in an earlier
statement, or in the same statement and its path from the root, read from the root down,
is smaller in the lexicographic order. -/
def slot_lt (s t : Slot) : Prop :=
  s.stmt < t.stmt ∨ (s.stmt = t.stmt ∧ List.Lex (fun a b : Nat => a < b) s.path.reverse t.path.reverse)

/-! ## Predicates on the memory the pass leaves behind -/

/-- None of the slots that lie strictly between `loc` and the slot reached from it by the
path `ext` has been overwritten. -/
def slot_visible (mem : Slot → Option AstExpr) (loc : Slot) (ext : List Nat) : Prop :=
  ∀ ext1 ext2 : List Nat, ext = ext1 ++ ext2 → ext1 ≠ [] → ext2 ≠ [] →
    mem ⟨loc.stmt, ext2 ++ loc.path⟩ = none

/-- The slot a statement pointer's expression tree hangs from: the expression field of a
statement of the scanned block, or the slot whose scanned node a built declaration has for
initializer. -/
def ref_base : StmtRef → Slot
  | .parsed i => ⟨i, []⟩
  | .synthesized _ _ (.parsed loc) _ => loc
  | .synthesized _ _ (.fresh _) _ => ⟨0, []⟩

/-- Position `p` of the statement array `apply_cse` leaves holds the pointer `ref`, and the
node reached from the root of its expression tree by the path `ext` is one of the scanned
block that no write of the pass has hidden: no slot on the way down to it has been
overwritten, nor has the expression field of the statement when `ref` leads to a statement
of the scanned block. -/
def visible_at (qsort : Qsort) (block : AstBlock) (counter : Nat) (p : Nat) (ext : List Nat)
    (ref : StmtRef) : Prop :=
  (apply_cse_pass qsort block (collect_block_candidates block) counter).statements[p]? =
      some ref ∧
    (∀ ext1 ext2 : List Nat, ext = ext1 ++ ext2 → ext2 ≠ [] →
      (apply_cse_pass qsort block (collect_block_candidates block) counter).mem
        ⟨(ref_base ref).stmt, ext2 ++ (ref_base ref).path⟩ = none) ∧
    ((∃ i, ref = StmtRef.parsed i ∧
        (apply_cse_pass qsort block (collect_block_candidates block) counter).mem ⟨i, []⟩ =
          none) ∨
      (∃ e j, (select_entries qsort (collect_block_candidates block))[j]? = some e ∧
        ref = temp_decl e (counter + j)))

/-- The block `x = 2 + 3; y = 2 + 3; z = __c2lua_cse_0;`: the program itself mentions a
variable that bears the name `apply_cse` is about to hand out. -/
def example_sum_twice_named : AstBlock :=
  example_sum_twice ++ [.assign "z" (.identifier .TYPE_INT "__c2lua_cse_0")]

/-! ## Resolved types -/

/-- Whether every operator node of a constant expression has a resolved type. -/
def constant_typed : AstExpr → Bool
  | .binary t _ left right =>
    decide (t ≠ TypeKind.TYPE_UNKNOWN) && constant_typed left && constant_typed right
  | .unary t _ operand => decide (t ≠ TypeKind.TYPE_UNKNOWN) && constant_typed operand
  | _ => true

/-! # Properties -/

theorem digit_char_val (d : Nat) (h : d < 10) : (digit_char d).toNat = 48 + d := by
  interval_cases d <;> rfl

theorem digit_char_inj (a b : Nat) (ha : a < 10) (hb : b < 10)
    (h : digit_char a = digit_char b) : a = b := by
  have h1 := digit_char_val a ha
  have h2 := digit_char_val b hb
  rw [h] at h1
  omega

theorem digit_char_numeric (d : Nat) (h : d < 10) : is_numeric_char (digit_char d) := by
  interval_cases d <;> exact ⟨by decide, by decide, by decide⟩

theorem fmt_digits_rev_numeric (fuel n : Nat) :
    ∀ c ∈ fmt_digits_rev fuel n, is_numeric_char c := by
  induction fuel generalizing n with
  | zero => intro c hc; simp [fmt_digits_rev] at hc
  | succ f ih =>
    intro c hc
    unfold fmt_digits_rev at hc
    split at hc
    · rename_i h
      simp at hc
      subst hc
      exact digit_char_numeric n h
    · simp at hc
      rcases hc with hc | hc
      · subst hc
        exact digit_char_numeric _ (Nat.mod_lt _ (by decide))
      · exact ih _ c hc

theorem fmt_digits_rev_ne_nil (fuel n : Nat) (h : 0 < fuel) : fmt_digits_rev fuel n ≠ [] := by
  cases fuel with
  | zero => omega
  | succ f => unfold fmt_digits_rev; split <;> simp

theorem fmt_digits_rev_inj (n : Nat) : ∀ (m f1 f2 : Nat), n < f1 → m < f2 →
    fmt_digits_rev f1 n = fmt_digits_rev f2 m → n = m := by
  induction n using Nat.strong_induction_on with
  | _ n ih =>
    intro m f1 f2 h1 h2 h
    cases f1 with
    | zero => omega
    | succ f1 =>
      cases f2 with
      | zero => omega
      | succ f2 =>
        unfold fmt_digits_rev at h
        by_cases hn : n < 10
        · by_cases hm : m < 10
          · simp [hn, hm] at h
            exact digit_char_inj n m hn hm h
          · simp [hn, hm] at h
            exact absurd h.2 (fmt_digits_rev_ne_nil f2 _ (by omega))
        · by_cases hm : m < 10
          · simp [hn, hm] at h
            exact absurd h.2 (fmt_digits_rev_ne_nil f1 _ (by omega))
          · simp [hn, hm] at h
            have hd := digit_char_inj _ _ (Nat.mod_lt n (by decide)) (Nat.mod_lt m (by decide)) h.1
            have hq := ih (n / 10) (by omega) (m / 10) f1 f2 (by omega) (by omega) h.2
            omega

theorem fmt_zu_inj (n m : Nat) (h : fmt_zu n = fmt_zu m) : n = m := by
  unfold fmt_zu at h
  have h1 : (fmt_digits_rev (n + 1) n).reverse = (fmt_digits_rev (m + 1) m).reverse := by
    injection h
  exact fmt_digits_rev_inj n m _ _ (by omega) (by omega) (List.reverse_injective h1)

theorem fmt_zu_numeric (n : Nat) : ∀ c ∈ (fmt_zu n).data, is_numeric_char c := by
  intro c hc
  simp [fmt_zu] at hc
  exact fmt_digits_rev_numeric _ _ c hc

theorem fmt_zu_ne_nil (n : Nat) : (fmt_zu n).data ≠ [] := by
  simp [fmt_zu]
  exact fmt_digits_rev_ne_nil _ _ (by omega)

theorem fmt_d_inj (v w : Int) (h : fmt_d v = fmt_d w) : v = w := by
  unfold fmt_d at h
  have key : ∀ (a b : Nat), "-" ++ fmt_zu a ≠ fmt_zu b := by
    intro a b hab
    have hd : ('-' :: (fmt_zu a).data) = (fmt_zu b).data := by
      rw [← hab]; rfl
    have := fmt_zu_numeric b '-' (by rw [← hd]; simp)
    exact this.2.2 rfl
  by_cases hv : v < 0
  · by_cases hw : w < 0
    · simp only [hv, hw, if_true] at h
      have hd : ('-' :: (fmt_zu v.natAbs).data) = ('-' :: (fmt_zu w.natAbs).data) := by
        have := congrArg String.data h
        simpa using this
      have h2 : fmt_zu v.natAbs = fmt_zu w.natAbs := by
        apply String.ext
        simpa using hd
      have := fmt_zu_inj _ _ h2
      omega
    · simp only [hv, hw, if_true, if_false] at h
      exact absurd h (key _ _)
  · by_cases hw : w < 0
    · simp only [hv, hw, if_true, if_false] at h
      exact absurd h.symm (key _ _)
    · simp only [hv, hw, if_false] at h
      have := fmt_zu_inj _ _ h
      omega

theorem fmt_d_chars (v : Int) : ∀ c ∈ (fmt_d v).data, c ≠ '|' ∧ c ≠ ':' := by
  intro c hc
  unfold fmt_d at hc
  split at hc
  · simp at hc
    rcases hc with hc | hc
    · subst hc; exact ⟨by decide, by decide⟩
    · have := fmt_zu_numeric _ c hc
      exact ⟨this.1, this.2.1⟩
  · have := fmt_zu_numeric _ c hc
    exact ⟨this.1, this.2.1⟩

theorem strip_zeros_subset (ds : List Char) : ∀ c ∈ strip_zeros ds, c ∈ ds := by
  intro c hc
  unfold strip_zeros at hc
  rw [List.mem_reverse] at hc
  have := (List.dropWhile_sublist (fun c => c == '0')).subset hc
  simpa using this

theorem fraction_part_no_bar (ds : List Char) (h : ∀ c ∈ ds, c ≠ '|') :
    ∀ c ∈ fraction_part ds, c ≠ '|' := by
  intro c hc
  unfold fraction_part at hc
  split at hc
  · simp at hc
  · rename_i d rest heq
    simp only [List.mem_cons] at hc
    rcases hc with hc | hc
    · subst hc; decide
    · apply h
      apply strip_zeros_subset
      rw [heq]
      simpa using hc

theorem zero_padded_no_bar (width n : Nat) : ∀ c ∈ zero_padded width n, c ≠ '|' := by
  intro c hc
  unfold zero_padded at hc
  simp only [List.mem_append, List.mem_replicate] at hc
  rcases hc with hc | hc
  · rw [hc.2]; decide
  · exact (fmt_zu_numeric _ c hc).1

theorem mem_ite_cases {p : Prop} [Decidable p] {a b : List Char} {c : Char}
    (h : c ∈ if p then a else b) : c ∈ a ∨ c ∈ b := by
  by_cases hp : p
  · rw [if_pos hp] at h; exact Or.inl h
  · rw [if_neg hp] at h; exact Or.inr h

theorem exp_sign_no_bar (p : Prop) [Decidable p] : (if p then '-' else '+') ≠ '|' := by
  by_cases h : p
  · rw [if_pos h]; decide
  · rw [if_neg h]; decide

theorem fmt_g_magnitude_no_bar (num den : Nat) (bound : Int) :
    ∀ c ∈ fmt_g_magnitude num den bound, c ≠ '|' := by
  intro c hc
  unfold fmt_g_magnitude at hc
  simp only at hc
  rcases mem_ite_cases hc with hc | hc
  · simp only [List.mem_append] at hc
    rcases hc with hc | hc
    · exact (fmt_zu_numeric _ c hc).1
    · exact fraction_part_no_bar _ (zero_padded_no_bar _ _) c hc
  · simp only [List.mem_append, List.mem_cons] at hc
    rcases hc with ((hc | hc) | hc) | hc
    · exact (fmt_zu_numeric _ c hc).1
    · exact fraction_part_no_bar _ (zero_padded_no_bar _ _) c hc
    · rcases hc with hc | hc | hc
      · subst hc; decide
      · rw [hc]; exact exp_sign_no_bar _
      · exact absurd hc (List.not_mem_nil _)
    · exact zero_padded_no_bar _ _ c hc

theorem sign_chars_no_bar (b : Bool) :
    ∀ c ∈ (if b = true then ['-'] else ([] : List Char)), c ≠ '|' := by
  intro c hc
  cases b
  · simp at hc
  · simp at hc; subst hc; decide

theorem fmt_g_no_bar (v : Double) : ∀ c ∈ (fmt_g v).data, c ≠ '|' := by
  intro c hc
  have hs := sign_chars_no_bar v.sign
  unfold fmt_g at hc
  simp only [apply_ite String.data] at hc
  rcases mem_ite_cases hc with hc | hc
  · simp only [List.mem_append] at hc
    rcases hc with hc | hc
    · exact hs c hc
    · rcases mem_ite_cases hc with hc | hc <;>
      · simp only [List.mem_cons] at hc
        rcases hc with hc | hc | hc | hc
        · subst hc; decide
        · subst hc; decide
        · subst hc; decide
        · exact absurd hc (List.not_mem_nil _)
  · rcases mem_ite_cases hc with hc | hc
    · simp only [List.mem_append, List.mem_cons] at hc
      rcases hc with hc | hc | hc
      · exact hs c hc
      · subst hc; decide
      · exact absurd hc (List.not_mem_nil _)
    · rcases mem_ite_cases hc with hc | hc <;>
      · simp only [List.mem_append] at hc
        rcases hc with hc | hc
        · exact hs c hc
        · exact fmt_g_magnitude_no_bar _ _ _ c hc

theorem split_at_char (c : Char) : ∀ (xs ys s t : List Char), c ∉ xs → c ∉ ys →
    xs ++ c :: s = ys ++ c :: t → xs = ys ∧ s = t := by
  intro xs
  induction xs with
  | nil =>
    intro ys s t _ hy h
    cases ys with
    | nil => simpa using h
    | cons y ys =>
      simp at h
      exact absurd (by rw [h.1]; simp) hy
  | cons x xs ih =>
    intro ys s t hx hy h
    cases ys with
    | nil =>
      simp at h
      exact absurd (by rw [← h.1]; simp) hx
    | cons y ys =>
      simp at h
      have := ih ys s t (fun hm => hx (List.mem_cons_of_mem _ hm))
        (fun hm => hy (List.mem_cons_of_mem _ hm)) h.2
      exact ⟨by rw [h.1, this.1], this.2⟩

theorem split_at_separator (xs ys s t : List Char) (hx : ∀ c ∈ xs, c ≠ '|')
    (hy : ∀ c ∈ ys, c ≠ '|') (hs : at_separator s) (ht : at_separator t)
    (h : xs ++ s = ys ++ t) : xs = ys ∧ s = t := by
  have nx : '|' ∉ xs := fun hm => hx _ hm rfl
  have ny : '|' ∉ ys := fun hm => hy _ hm rfl
  rcases hs with rfl | ⟨s1, rfl⟩ <;> rcases ht with rfl | ⟨t1, rfl⟩
  · simpa using h
  · simp at h
    exact absurd (by rw [h]; simp) nx
  · simp at h
    exact absurd (by rw [← h]; simp) ny
  · have := split_at_char '|' xs ys s1 t1 nx ny h
    exact ⟨this.1, by rw [this.2]⟩

theorem key_int_data (t : TypeKind) (v : Int) :
    (expr_make_key (.int_literal t v)).data =
      (if t = TypeKind.TYPE_CHAR then 'C' else 'I') :: ':' :: (fmt_d v).data := by
  unfold expr_make_key fmt_lld
  split <;> rfl

theorem key_float_data (t : TypeKind) (v : Double) :
    (expr_make_key (.float_literal t v)).data = 'F' :: ':' :: (fmt_g v).data := rfl

theorem key_bool_data (t : TypeKind) (b : Bool) :
    (expr_make_key (.bool_literal t b)).data =
      'B' :: ':' :: (fmt_d (if b then 1 else 0)).data := rfl

theorem key_string_data (t : TypeKind) (s : String) :
    (expr_make_key (.string_literal t s)).data =
      'S' :: ':' :: ((fmt_zu s.length).data ++ ':' :: s.data) := by
  simp [expr_make_key, String.data_append]

theorem key_unary_data (t : TypeKind) (op : Int) (a : AstExpr) :
    (expr_make_key (.unary t op a)).data =
      'U' :: ':' :: ((fmt_d op).data ++ ':' :: (expr_make_key a).data) := by
  simp [expr_make_key, String.data_append]

theorem key_binary_data (t : TypeKind) (op : Int) (l r : AstExpr) :
    (expr_make_key (.binary t op l r)).data =
      'B' :: 'I' :: 'N' :: ':' :: ((fmt_d op).data ++ ':' ::
        ((expr_make_key l).data ++ '|' :: (expr_make_key r).data)) := by
  simp [expr_make_key, String.data_append]

theorem fmt_d_no_bar (v : Int) : ∀ c ∈ (fmt_d v).data, c ≠ '|' :=
  fun c hc => (fmt_d_chars v c hc).1

theorem fmt_d_no_colon (v : Int) : ':' ∉ (fmt_d v).data :=
  fun hc => (fmt_d_chars v _ hc).2 rfl

theorem fmt_zu_no_colon (n : Nat) : ':' ∉ (fmt_zu n).data :=
  fun hc => (fmt_zu_numeric n _ hc).2.1 rfl

theorem at_separator_cons (s : List Char) : at_separator ('|' :: s) := Or.inr ⟨s, rfl⟩

theorem key_parse : ∀ (a b : AstExpr) (s t : List Char),
    expr_is_constant a = true → expr_is_constant b = true →
    at_separator s → at_separator t →
    (expr_make_key a).data ++ s = (expr_make_key b).data ++ t →
    key_equivalent a b ∧ s = t
  | .int_literal t1 v1, b, s, t, _, hb, hs, ht, h => by
    cases b <;> simp [expr_is_constant] at hb <;>
      simp only [key_int_data, key_float_data, key_bool_data, key_string_data, key_unary_data,
        key_binary_data, List.cons_append, List.cons.injEq] at h
    case int_literal t2 v2 =>
      have := split_at_separator _ _ s t (fmt_d_no_bar v1) (fmt_d_no_bar v2) hs ht h.2.2
      have hv : v1 = v2 := fmt_d_inj _ _ (String.ext this.1)
      refine ⟨⟨?_, hv⟩, this.2⟩
      have h1 := h.1
      by_cases c1 : t1 = TypeKind.TYPE_CHAR <;> by_cases c2 : t2 = TypeKind.TYPE_CHAR <;>
        simp [c1, c2] at h1 ⊢
    all_goals (exfalso; have h1 := h.1; split at h1 <;> simp at h1)
  | .float_literal _ v1, b, s, t, _, hb, hs, ht, h => by
    cases b <;> simp [expr_is_constant] at hb <;>
      simp only [key_int_data, key_float_data, key_bool_data, key_string_data, key_unary_data,
        key_binary_data, List.cons_append, List.cons.injEq] at h
    case float_literal t2 v2 =>
      have := split_at_separator _ _ s t (fmt_g_no_bar v1) (fmt_g_no_bar v2) hs ht h.2.2
      exact ⟨String.ext this.1, this.2⟩
    all_goals
      first
      | (exfalso; have h1 := h.1; simp at h1; done)
      | (exfalso; have h1 := h.1; split at h1 <;> simp at h1)
  | .bool_literal _ b1, b, s, t, _, hb, hs, ht, h => by
    cases b <;> simp [expr_is_constant] at hb <;>
      simp only [key_int_data, key_float_data, key_bool_data, key_string_data, key_unary_data,
        key_binary_data, List.cons_append, List.cons.injEq] at h
    case bool_literal t2 b2 =>
      have := split_at_separator _ _ s t (fmt_d_no_bar _) (fmt_d_no_bar _) hs ht h.2.2
      have hv := fmt_d_inj _ _ (String.ext this.1)
      refine ⟨?_, this.2⟩
      cases b1 <;> cases b2 <;> simp [key_equivalent] at hv ⊢
    all_goals
      first
      | (exfalso; have h1 := h.1; simp at h1; done)
      | (exfalso; have h1 := h.2.1; simp at h1; done)
      | (exfalso; have h1 := h.1; split at h1 <;> simp at h1)
  | .string_literal _ s1, b, s, t, _, hb, hs, ht, h => by
    cases b <;> simp [expr_is_constant] at hb <;>
      simp only [key_int_data, key_float_data, key_bool_data, key_string_data, key_unary_data,
        key_binary_data, List.cons_append, List.cons.injEq] at h
    case string_literal t2 s2 =>
      have h2 := h.2.2
      rw [List.append_assoc, List.append_assoc, List.cons_append, List.cons_append] at h2
      have := split_at_char ':' _ _ _ _ (fmt_zu_no_colon _) (fmt_zu_no_colon _) h2
      have hl : s1.length = s2.length := fmt_zu_inj _ _ (String.ext this.1)
      have := List.append_inj this.2 hl
      exact ⟨String.ext this.1, this.2⟩
    all_goals
      first
      | (exfalso; have h1 := h.1; simp at h1; done)
      | (exfalso; have h1 := h.1; split at h1 <;> simp at h1)
  | .unary _ op1 a1, b, s, t, ha, hb, hs, ht, h => by
    cases b <;> simp [expr_is_constant] at hb <;>
      simp only [key_int_data, key_float_data, key_bool_data, key_string_data, key_unary_data,
        key_binary_data, List.cons_append, List.cons.injEq] at h
    case unary t2 op2 a2 =>
      have h2 := h.2.2
      rw [List.append_assoc, List.append_assoc, List.cons_append, List.cons_append] at h2
      have := split_at_char ':' _ _ _ _ (fmt_d_no_colon _) (fmt_d_no_colon _) h2
      have hop : op1 = op2 := fmt_d_inj _ _ (String.ext this.1)
      simp only [expr_is_constant] at ha
      have ih := key_parse a1 a2 s t ha hb hs ht this.2
      exact ⟨⟨hop, ih.1⟩, ih.2⟩
    all_goals
      first
      | (exfalso; have h1 := h.1; simp at h1; done)
      | (exfalso; have h1 := h.1; split at h1 <;> simp at h1)
  | .binary _ op1 l1 r1, b, s, t, ha, hb, hs, ht, h => by
    cases b <;> simp [expr_is_constant] at hb <;>
      simp only [key_int_data, key_float_data, key_bool_data, key_string_data, key_unary_data,
        key_binary_data, List.cons_append, List.cons.injEq] at h
    case binary t2 op2 l2 r2 =>
      have h2 := h.2.2.2.2
      rw [List.append_assoc, List.append_assoc, List.cons_append, List.cons_append,
        List.append_assoc, List.append_assoc, List.cons_append, List.cons_append] at h2
      have := split_at_char ':' _ _ _ _ (fmt_d_no_colon _) (fmt_d_no_colon _) h2
      have hop : op1 = op2 := fmt_d_inj _ _ (String.ext this.1)
      simp only [expr_is_constant, Bool.and_eq_true] at ha
      have ihl := key_parse l1 l2 _ _ ha.1 hb.1 (at_separator_cons _) (at_separator_cons _)
        this.2
      have h3 := ihl.2
      simp only [List.cons.injEq, true_and] at h3
      have ihr := key_parse r1 r2 s t ha.2 hb.2 hs ht h3
      exact ⟨⟨hop, ihl.1, ihr.1⟩, ihr.2⟩
    all_goals
      first
      | (exfalso; have h1 := h.1; simp at h1; done)
      | (exfalso; have h1 := h.2.1; simp at h1; done)
      | (exfalso; have h1 := h.1; split at h1 <;> simp at h1)
  | .identifier _ _, _, _, _, ha, _, _, _, _ => by simp [expr_is_constant] at ha
  | .call _ _ _, _, _, _, ha, _, _, _, _ => by simp [expr_is_constant] at ha
  | .array_literal _ _, _, _, _, ha, _, _, _, _ => by simp [expr_is_constant] at ha
  | .subscript _ _ _, _, _, _, ha, _, _, _, _ => by simp [expr_is_constant] at ha

theorem key_equivalent_of_key_eq (a b : AstExpr) (ha : expr_is_constant a = true)
    (hb : expr_is_constant b = true) (h : expr_make_key a = expr_make_key b) :
    key_equivalent a b :=
  (key_parse a b [] [] ha hb (Or.inl rfl) (Or.inl rfl) (by rw [h])).1

theorem key_eq_of_key_equivalent : ∀ (a b : AstExpr), key_equivalent a b →
    expr_make_key a = expr_make_key b
  | .int_literal t1 v1, .int_literal t2 v2, h => by
    simp only [key_equivalent] at h
    unfold expr_make_key
    rw [h.2]
    by_cases c1 : t1 = TypeKind.TYPE_CHAR
    · rw [if_pos c1, if_pos (h.1.mp c1)]
    · rw [if_neg c1, if_neg (fun c2 => c1 (h.1.mpr c2))]
  | .float_literal _ v1, .float_literal _ v2, h => by
    simp only [key_equivalent] at h
    simp only [expr_make_key, h]
  | .bool_literal _ b1, .bool_literal _ b2, h => by
    simp only [key_equivalent] at h
    simp only [expr_make_key, h]
  | .string_literal _ s1, .string_literal _ s2, h => by
    simp only [key_equivalent] at h
    simp only [expr_make_key, h]
  | .unary _ op1 a1, .unary _ op2 a2, h => by
    simp only [key_equivalent] at h
    simp only [expr_make_key, h.1, key_eq_of_key_equivalent a1 a2 h.2]
  | .binary _ op1 l1 r1, .binary _ op2 l2 r2, h => by
    simp only [key_equivalent] at h
    simp only [expr_make_key, h.1, key_eq_of_key_equivalent l1 l2 h.2.1,
      key_eq_of_key_equivalent r1 r2 h.2.2]
  | .identifier _ _, _, h => by simp [key_equivalent] at h
  | .call _ _ _, _, h => by simp [key_equivalent] at h
  | .array_literal _ _, _, h => by simp [key_equivalent] at h
  | .subscript _ _ _, _, h => by simp [key_equivalent] at h
  | .int_literal _ _, .float_literal _ _, h => by simp [key_equivalent] at h

theorem eliminate_unreachable_loop_true (l : List AstStmt) :
    eliminate_unreachable_loop true l = [] := by
  induction l with
  | nil => rfl
  | cons s rest ih => simpa [eliminate_unreachable_loop] using ih

theorem eliminate_unreachable_loop_flag (s : AstStmt) (rest : List AstStmt) :
    eliminate_unreachable_loop false (s :: rest) =
      s :: eliminate_unreachable_loop (is_return s) rest := by
  cases s <;> rfl

theorem eliminate_unreachable_loop_false (l : List AstStmt) :
    eliminate_unreachable_loop false l = l.take (l.findIdx is_return + 1) := by
  induction l with
  | nil => rfl
  | cons s rest ih =>
    rw [eliminate_unreachable_loop_flag, List.findIdx_cons]
    cases h : is_return s
    · simp [ih]
    · simp [eliminate_unreachable_loop_true]

theorem findIdx_is_return_append (pre post : List AstStmt) (e : Option AstExpr)
    (h : ∀ s ∈ pre, is_return s = false) :
    (pre ++ AstStmt.return_stmt e :: post).findIdx is_return = pre.length := by
  induction pre with
  | nil => simp [List.findIdx_cons, is_return]
  | cons s rest ih =>
    have hs : is_return s = false := h s (List.mem_cons_self _ _)
    have hr : ∀ x ∈ rest, is_return x = false := fun x hx => h x (List.mem_cons_of_mem _ hx)
    simp [List.findIdx_cons, hs, ih hr]

theorem findIdx_is_return_none (l : List AstStmt) (h : ∀ s ∈ l, is_return s = false) :
    l.findIdx is_return = l.length := by
  induction l with
  | nil => rfl
  | cons s rest ih =>
    have hs : is_return s = false := h s (List.mem_cons_self _ _)
    have hr : ∀ x ∈ rest, is_return x = false := fun x hx => h x (List.mem_cons_of_mem _ hx)
    simp [List.findIdx_cons, hs, ih hr]

/-- C4: `eliminate_unreachable` keeps exactly the statements up to and including the first
`return` (all of them when there is none), unchanged and in order, whatever follows. -/
theorem eliminate_unreachable_keeps_up_to_first_return (l : List AstStmt) :
    eliminate_unreachable l = l.take (l.findIdx is_return + 1) ∧
    (∀ pre e post, l = pre ++ AstStmt.return_stmt e :: post →
      (∀ s ∈ pre, is_return s = false) →
      eliminate_unreachable l = pre ++ [AstStmt.return_stmt e]) ∧
    ((∀ s ∈ l, is_return s = false) → eliminate_unreachable l = l) := by
  refine ⟨eliminate_unreachable_loop_false l, ?_, ?_⟩
  · intro pre e post hl hpre
    subst hl
    unfold eliminate_unreachable
    rw [eliminate_unreachable_loop_false, findIdx_is_return_append pre post e hpre]
    simp [List.take_append_eq_append_take]
  · intro h
    unfold eliminate_unreachable
    rw [eliminate_unreachable_loop_false, findIdx_is_return_none l h]
    simp

/-! ## The collector as a sequence of registrations -/

theorem collect_expr_eq_foldl : ∀ (expr : AstExpr) (loc : Slot) (i : Nat) (owner : AstStmt)
    (entries : CseEntryList),
    collect_expr_candidates loc expr i owner entries =
      (candidate_nodes loc expr).foldl
        (fun acc p => register_candidate acc p.1 p.2 i owner) entries
  | .binary t op left right, loc, i, owner, entries => by
    unfold collect_expr_candidates candidate_nodes
    simp only [List.foldl_append]
    rw [collect_expr_eq_foldl left, collect_expr_eq_foldl right]
    split <;> simp
  | .unary t op operand, loc, i, owner, entries => by
    unfold collect_expr_candidates candidate_nodes
    simp only [List.foldl_append]
    rw [collect_expr_eq_foldl operand]
    split <;> simp
  | .call t callee args, loc, i, owner, entries => by
    unfold collect_expr_candidates candidate_nodes
    simp only [expr_is_candidate]
    exact collect_list_eq_foldl args loc 0 i owner entries
  | .array_literal t elements, loc, i, owner, entries => by
    unfold collect_expr_candidates candidate_nodes
    simp only [expr_is_candidate]
    exact collect_list_eq_foldl elements loc 0 i owner entries
  | .subscript t array index, loc, i, owner, entries => by
    unfold collect_expr_candidates candidate_nodes
    simp only [List.foldl_append, expr_is_candidate]
    rw [collect_expr_eq_foldl array, collect_expr_eq_foldl index]
    simp
  | .int_literal _ _, loc, i, owner, entries => by
    simp [collect_expr_candidates, candidate_nodes, expr_is_candidate]
  | .float_literal _ _, loc, i, owner, entries => by
    simp [collect_expr_candidates, candidate_nodes, expr_is_candidate]
  | .bool_literal _ _, loc, i, owner, entries => by
    simp [collect_expr_candidates, candidate_nodes, expr_is_candidate]
  | .string_literal _ _, loc, i, owner, entries => by
    simp [collect_expr_candidates, candidate_nodes, expr_is_candidate]
  | .identifier _ _, loc, i, owner, entries => by
    simp [collect_expr_candidates, candidate_nodes, expr_is_candidate]
where
  collect_list_eq_foldl : ∀ (items : List AstExpr) (parent : Slot) (k i : Nat)
      (owner : AstStmt) (entries : CseEntryList),
      collect_expr_list parent k items i owner entries =
        (candidate_nodes_list parent k items).foldl
          (fun acc p => register_candidate acc p.1 p.2 i owner) entries
    | [], parent, k, i, owner, entries => by
      simp [collect_expr_list, candidate_nodes_list]
    | item :: rest, parent, k, i, owner, entries => by
      unfold collect_expr_list candidate_nodes_list
      simp only [List.foldl_append]
      rw [collect_expr_eq_foldl item, collect_list_eq_foldl rest]

theorem foldl_register_map (i : Nat) (owner : AstStmt) (nodes : List (Slot × AstExpr))
    (entries : CseEntryList) :
    nodes.foldl (fun acc p => register_candidate acc p.1 p.2 i owner) entries =
      (nodes.map (fun p => (⟨p.1, p.2, i, owner⟩ : Visit))).foldl register_visit entries := by
  induction nodes generalizing entries with
  | nil => rfl
  | cons p rest ih => simp only [List.foldl_cons, List.map_cons, register_visit, ih]

theorem collect_statement_eq_foldl (stmt : AstStmt) (i : Nat) (entries : CseEntryList) :
    collect_statement_candidates stmt i entries =
      (stmt_visits i stmt).foldl register_visit entries := by
  cases stmt with
  | decl t name init is_array is_used =>
    cases is_array <;> cases init <;>
      simp [collect_statement_candidates, stmt_visits, stmt_slot, collect_expr_eq_foldl,
        foldl_register_map]
  | assign target value =>
    simp [collect_statement_candidates, stmt_visits, stmt_slot, collect_expr_eq_foldl,
      foldl_register_map]
  | array_assign array index value =>
    simp [collect_statement_candidates, stmt_visits, stmt_slot, collect_expr_eq_foldl,
      foldl_register_map]
  | expr e =>
    cases e <;>
      simp [collect_statement_candidates, stmt_visits, stmt_slot, collect_expr_eq_foldl,
        foldl_register_map]
  | return_stmt e =>
    cases e <;>
      simp [collect_statement_candidates, stmt_visits, stmt_slot, collect_expr_eq_foldl,
        foldl_register_map]
  | while_stmt c body => simp [collect_statement_candidates, stmt_visits, stmt_slot]
  | for_stmt init c post body => simp [collect_statement_candidates, stmt_visits, stmt_slot]
  | block b => simp [collect_statement_candidates, stmt_visits, stmt_slot]

theorem collect_block_loop_eq_foldl (stmts : List AstStmt) : ∀ (i : Nat) (entries : CseEntryList),
    collect_block_loop i stmts entries = (block_visits i stmts).foldl register_visit entries := by
  induction stmts with
  | nil => intro i entries; rfl
  | cons s rest ih =>
    intro i entries
    simp only [collect_block_loop, block_visits, List.foldl_append, ih,
      collect_statement_eq_foldl]

theorem collect_block_eq_foldl (block : AstBlock) :
    collect_block_candidates block = (block_visits 0 block).foldl register_visit [] :=
  collect_block_loop_eq_foldl block 0 []

/-! ## What the collector visits -/

theorem expr_at_append (root : AstExpr) (p : List Nat) : ∀ (ext : List Nat),
    expr_at root (ext ++ p) = (expr_at root p).bind (fun e => expr_at e ext) := by
  intro ext
  induction ext with
  | nil => cases h : expr_at root p <;> simp [expr_at, h]
  | cons k ext ih =>
    have hstep : expr_at root (k :: ext ++ p) =
        (expr_at root (ext ++ p)).bind (expr_child k) := rfl
    rw [hstep, ih]
    cases expr_at root p <;> simp [expr_at]

theorem expr_at_child (e x c : AstExpr) (k : Nat) (ext : List Nat)
    (hc : expr_child k e = some c) (hx : expr_at c ext = some x) :
    expr_at e (ext ++ [k]) = some x := by
  rw [expr_at_append]
  simp [expr_at, hc, hx]

theorem candidate_nodes_spec : ∀ (e : AstExpr) (loc : Slot) (s : Slot) (x : AstExpr),
    (s, x) ∈ candidate_nodes loc e →
    expr_is_candidate x = true ∧ s.stmt = loc.stmt ∧
      ∃ ext, s.path = ext ++ loc.path ∧ expr_at e ext = some x
  | .binary t op left right, loc, s, x, h => by
    unfold candidate_nodes at h
    simp only [List.mem_append] at h
    rcases h with (h | h) | h
    · obtain ⟨hc, hs, ext, hp, hx⟩ := candidate_nodes_spec left (loc.child 0) s x h
      refine ⟨hc, hs, ext ++ [0], ?_, expr_at_child _ _ left 0 ext (by simp [expr_child]) hx⟩
      simp [hp, Slot.child]
    · obtain ⟨hc, hs, ext, hp, hx⟩ := candidate_nodes_spec right (loc.child 1) s x h
      refine ⟨hc, hs, ext ++ [1], ?_, expr_at_child _ _ right 1 ext (by simp [expr_child]) hx⟩
      simp [hp, Slot.child]
    · split at h
      · rename_i hcand
        simp only [List.mem_singleton, Prod.mk.injEq] at h
        obtain ⟨rfl, rfl⟩ := h
        exact ⟨hcand, rfl, [], rfl, rfl⟩
      · simp at h
  | .unary t op operand, loc, s, x, h => by
    unfold candidate_nodes at h
    simp only [List.mem_append] at h
    rcases h with h | h
    · obtain ⟨hc, hs, ext, hp, hx⟩ := candidate_nodes_spec operand (loc.child 0) s x h
      refine ⟨hc, hs, ext ++ [0], ?_, expr_at_child _ _ operand 0 ext (by simp [expr_child]) hx⟩
      simp [hp, Slot.child]
    · split at h
      · rename_i hcand
        simp only [List.mem_singleton, Prod.mk.injEq] at h
        obtain ⟨rfl, rfl⟩ := h
        exact ⟨hcand, rfl, [], rfl, rfl⟩
      · simp at h
  | .call t callee args, loc, s, x, h => by
    unfold candidate_nodes at h
    obtain ⟨hc, hs, ext, j, c, hj, hp, hx⟩ := candidate_nodes_list_spec args loc 0 s x h
    refine ⟨hc, hs, ext ++ [j], ?_, expr_at_child _ _ c j ext ?_ hx⟩
    · simp [hp]
    · simpa [expr_child] using hj
  | .array_literal t elements, loc, s, x, h => by
    unfold candidate_nodes at h
    obtain ⟨hc, hs, ext, j, c, hj, hp, hx⟩ := candidate_nodes_list_spec elements loc 0 s x h
    refine ⟨hc, hs, ext ++ [j], ?_, expr_at_child _ _ c j ext ?_ hx⟩
    · simp [hp]
    · simpa [expr_child] using hj
  | .subscript t array index, loc, s, x, h => by
    unfold candidate_nodes at h
    simp only [List.mem_append] at h
    rcases h with h | h
    · obtain ⟨hc, hs, ext, hp, hx⟩ := candidate_nodes_spec array (loc.child 0) s x h
      refine ⟨hc, hs, ext ++ [0], ?_, expr_at_child _ _ array 0 ext (by simp [expr_child]) hx⟩
      simp [hp, Slot.child]
    · obtain ⟨hc, hs, ext, hp, hx⟩ := candidate_nodes_spec index (loc.child 1) s x h
      refine ⟨hc, hs, ext ++ [1], ?_, expr_at_child _ _ index 1 ext (by simp [expr_child]) hx⟩
      simp [hp, Slot.child]
  | .int_literal _ _, loc, s, x, h => by simp [candidate_nodes] at h
  | .float_literal _ _, loc, s, x, h => by simp [candidate_nodes] at h
  | .bool_literal _ _, loc, s, x, h => by simp [candidate_nodes] at h
  | .string_literal _ _, loc, s, x, h => by simp [candidate_nodes] at h
  | .identifier _ _, loc, s, x, h => by simp [candidate_nodes] at h
where
  candidate_nodes_list_spec : ∀ (items : List AstExpr) (parent : Slot) (k : Nat) (s : Slot)
      (x : AstExpr), (s, x) ∈ candidate_nodes_list parent k items →
      expr_is_candidate x = true ∧ s.stmt = parent.stmt ∧
        ∃ ext j c, items[j]? = some c ∧ s.path = ext ++ (k + j) :: parent.path ∧
          expr_at c ext = some x
    | [], parent, k, s, x, h => by simp [candidate_nodes_list] at h
    | item :: rest, parent, k, s, x, h => by
      unfold candidate_nodes_list at h
      simp only [List.mem_append] at h
      rcases h with h | h
      · obtain ⟨hc, hs, ext, hp, hx⟩ := candidate_nodes_spec item (parent.child k) s x h
        exact ⟨hc, hs, ext, 0, item, by simp, by simpa [Slot.child] using hp, hx⟩
      · obtain ⟨hc, hs, ext, j, c, hj, hp, hx⟩ :=
          candidate_nodes_list_spec rest parent (k + 1) s x h
        refine ⟨hc, hs, ext, j + 1, c, by simpa using hj, ?_, hx⟩
        rw [hp]
        congr 2
        omega

theorem path_child_eq (ext1 ext2 p : List Nat) (k1 k2 : Nat)
    (h : ext1 ++ k1 :: p = ext2 ++ k2 :: p) : k1 = k2 := by
  have := List.append_inj' h (by simp)
  simpa using this.2

theorem path_ne_below (ext p : List Nat) (k : Nat) : p ≠ ext ++ k :: p := by
  intro h
  have := congrArg List.length h
  simp at this
  omega

theorem candidate_nodes_child_path (e : AstExpr) (loc : Slot) (k : Nat) (s : Slot)
    (h : s ∈ (candidate_nodes (loc.child k) e).map Prod.fst) :
    ∃ ext, s.path = ext ++ k :: loc.path := by
  simp only [List.mem_map, Prod.exists, exists_and_right, exists_eq_right] at h
  obtain ⟨x, hx⟩ := h
  obtain ⟨_, _, ext, hp, _⟩ := candidate_nodes_spec e (loc.child k) s x hx
  exact ⟨ext, hp⟩

theorem candidate_nodes_list_path (items : List AstExpr) (parent : Slot) (k : Nat) (s : Slot)
    (h : s ∈ (candidate_nodes_list parent k items).map Prod.fst) :
    ∃ ext j, s.path = ext ++ (k + j) :: parent.path := by
  simp only [List.mem_map, Prod.exists, exists_and_right, exists_eq_right] at h
  obtain ⟨x, hx⟩ := h
  obtain ⟨_, _, ext, j, _, _, hp, _⟩ :=
    candidate_nodes_spec.candidate_nodes_list_spec items parent k s x hx
  exact ⟨ext, j, hp⟩

theorem candidate_nodes_nodup : ∀ (e : AstExpr) (loc : Slot),
    ((candidate_nodes loc e).map Prod.fst).Nodup
  | .binary t op left right, loc => by
    unfold candidate_nodes
    simp only [List.map_append]
    rw [List.nodup_append, List.nodup_append]
    refine ⟨⟨candidate_nodes_nodup left _, candidate_nodes_nodup right _, ?_⟩, ?_, ?_⟩
    · intro s h1 h2
      obtain ⟨e1, p1⟩ := candidate_nodes_child_path _ _ _ _ h1
      obtain ⟨e2, p2⟩ := candidate_nodes_child_path _ _ _ _ h2
      rw [p1] at p2
      exact absurd (path_child_eq _ _ _ _ _ p2) (by decide)
    · split <;> simp
    · intro s h1 h2
      split at h2
      · simp only [List.map_cons, List.map_nil, List.mem_singleton] at h2
        subst h2
        rcases List.mem_append.mp h1 with h1 | h1
        · obtain ⟨e1, p1⟩ := candidate_nodes_child_path _ _ _ _ h1
          exact path_ne_below _ _ _ p1
        · obtain ⟨e1, p1⟩ := candidate_nodes_child_path _ _ _ _ h1
          exact path_ne_below _ _ _ p1
      · simp at h2
  | .unary t op operand, loc => by
    unfold candidate_nodes
    simp only [List.map_append]
    rw [List.nodup_append]
    refine ⟨candidate_nodes_nodup operand _, ?_, ?_⟩
    · split <;> simp
    · intro s h1 h2
      split at h2
      · simp only [List.map_cons, List.map_nil, List.mem_singleton] at h2
        subst h2
        obtain ⟨e1, p1⟩ := candidate_nodes_child_path _ _ _ _ h1
        exact path_ne_below _ _ _ p1
      · simp at h2
  | .call t callee args, loc => by
    unfold candidate_nodes
    exact candidate_nodes_list_nodup args loc 0
  | .array_literal t elements, loc => by
    unfold candidate_nodes
    exact candidate_nodes_list_nodup elements loc 0
  | .subscript t array index, loc => by
    unfold candidate_nodes
    simp only [List.map_append]
    rw [List.nodup_append]
    refine ⟨candidate_nodes_nodup array _, candidate_nodes_nodup index _, ?_⟩
    intro s h1 h2
    obtain ⟨e1, p1⟩ := candidate_nodes_child_path _ _ _ _ h1
    obtain ⟨e2, p2⟩ := candidate_nodes_child_path _ _ _ _ h2
    rw [p1] at p2
    exact absurd (path_child_eq _ _ _ _ _ p2) (by decide)
  | .int_literal _ _, loc => by simp [candidate_nodes]
  | .float_literal _ _, loc => by simp [candidate_nodes]
  | .bool_literal _ _, loc => by simp [candidate_nodes]
  | .string_literal _ _, loc => by simp [candidate_nodes]
  | .identifier _ _, loc => by simp [candidate_nodes]
where
  candidate_nodes_list_nodup : ∀ (items : List AstExpr) (parent : Slot) (k : Nat),
      ((candidate_nodes_list parent k items).map Prod.fst).Nodup
    | [], parent, k => by simp [candidate_nodes_list]
    | item :: rest, parent, k => by
      unfold candidate_nodes_list
      simp only [List.map_append]
      rw [List.nodup_append]
      refine ⟨candidate_nodes_nodup item _, candidate_nodes_list_nodup rest parent (k + 1), ?_⟩
      intro s h1 h2
      obtain ⟨e1, p1⟩ := candidate_nodes_child_path _ _ _ _ h1
      obtain ⟨e2, j, p2⟩ := candidate_nodes_list_path _ _ _ _ h2
      rw [p1] at p2
      have := path_child_eq _ _ _ _ _ p2
      omega

/-! ### Registrations of a block -/

theorem stmt_visits_spec (i : Nat) (stmt : AstStmt) (v : Visit) (h : v ∈ stmt_visits i stmt) :
    v.stmt_index = i ∧ v.location.stmt = i ∧ v.owner = stmt ∧
      expr_is_candidate v.expr = true ∧
      ∃ root, stmt_slot stmt = some root ∧ expr_at root v.location.path = some v.expr := by
  unfold stmt_visits at h
  split at h
  · rename_i root hroot
    simp only [List.mem_map, Prod.exists] at h
    obtain ⟨s, x, hm, rfl⟩ := h
    obtain ⟨hc, hs, ext, hp, hx⟩ := candidate_nodes_spec root ⟨i, []⟩ s x hm
    refine ⟨rfl, hs, rfl, hc, root, hroot, ?_⟩
    simp only [List.append_nil] at hp
    simp only [hp, hx]
  · simp at h

theorem stmt_visits_nodup (i : Nat) (stmt : AstStmt) :
    ((stmt_visits i stmt).map (fun v => v.location)).Nodup := by
  unfold stmt_visits
  split
  · rename_i root _
    have := candidate_nodes_nodup root ⟨i, []⟩
    simpa [List.map_map, Function.comp_def] using this
  · simp

theorem block_visits_spec (stmts : List AstStmt) : ∀ (k : Nat) (v : Visit),
    v ∈ block_visits k stmts →
    k ≤ v.stmt_index ∧ v.location.stmt = v.stmt_index ∧
      stmts[v.stmt_index - k]? = some v.owner ∧ expr_is_candidate v.expr = true ∧
      ∃ root, stmt_slot v.owner = some root ∧ expr_at root v.location.path = some v.expr := by
  induction stmts with
  | nil => intro k v h; simp [block_visits] at h
  | cons s rest ih =>
    intro k v h
    simp only [block_visits, List.mem_append] at h
    rcases h with h | h
    · obtain ⟨h1, h2, h3, h4, h5⟩ := stmt_visits_spec k s v h
      subst h3
      refine ⟨by omega, by omega, by simp [h1], h4, h5⟩
    · obtain ⟨h1, h2, h3, h4, h5⟩ := ih (k + 1) v h
      refine ⟨by omega, h2, ?_, h4, h5⟩
      have : v.stmt_index - k = (v.stmt_index - (k + 1)) + 1 := by omega
      rw [this]
      simpa using h3

theorem block_visits_nodup (stmts : List AstStmt) : ∀ (k : Nat),
    ((block_visits k stmts).map (fun v => v.location)).Nodup := by
  induction stmts with
  | nil => intro k; simp [block_visits]
  | cons s rest ih =>
    intro k
    simp only [block_visits, List.map_append]
    rw [List.nodup_append]
    refine ⟨stmt_visits_nodup k s, ih (k + 1), ?_⟩
    intro loc h1 h2
    simp only [List.mem_map] at h1 h2
    obtain ⟨v1, hv1, rfl⟩ := h1
    obtain ⟨v2, hv2, he⟩ := h2
    have a := (stmt_visits_spec k s v1 hv1).2.1
    have b := block_visits_spec rest (k + 1) v2 hv2
    rw [← he] at a
    omega

theorem block_visits_sorted (stmts : List AstStmt) : ∀ (k : Nat),
    (block_visits k stmts).Pairwise (fun a b => a.stmt_index ≤ b.stmt_index) := by
  induction stmts with
  | nil => intro k; simp [block_visits]
  | cons s rest ih =>
    intro k
    simp only [block_visits]
    rw [List.pairwise_append]
    refine ⟨?_, ih (k + 1), ?_⟩
    · rw [List.pairwise_iff_forall_sublist]
      intro a b hab
      have ha := (stmt_visits_spec k s a (hab.subset (by simp))).1
      have hb := (stmt_visits_spec k s b (hab.subset (by simp))).1
      omega
    · intro a ha b hb
      have h1 := (stmt_visits_spec k s a ha).1
      have h2 := (block_visits_spec rest (k + 1) b hb).1
      omega

theorem block_visits_slot_init (block : AstBlock) (v : Visit) (h : v ∈ block_visits 0 block) :
    slot_init block v.location = some v.expr ∧ block[v.stmt_index]? = some v.owner ∧
      v.location.stmt = v.stmt_index ∧ expr_is_candidate v.expr = true := by
  obtain ⟨_, h2, h3, h4, root, h5, h6⟩ := block_visits_spec block 0 v h
  simp only [Nat.sub_zero] at h3
  refine ⟨?_, h3, h2, h4⟩
  unfold slot_init
  rw [h2, h3]
  simp [h5, h6]

/-! ## The registry as a function of the registrations -/

theorem register_visit_nil (v : Visit) : register_visit [] v = [new_entry v] := rfl

theorem register_visit_cons (e : CseEntry) (rest : CseEntryList) (v : Visit) :
    register_visit (e :: rest) v =
      if e.key = expr_make_key v.expr then extend_entry e v :: rest
      else e :: register_visit rest v := by
  unfold register_visit register_candidate
  simp only [find_entry]
  by_cases h : e.key = expr_make_key v.expr
  · simp only [h, if_true]
    rfl
  · simp only [h, if_false]
    cases hf : find_entry rest (expr_make_key v.expr) with
    | none => simp
    | some i => simp [update_entry]

theorem register_visit_cases (entries : CseEntryList) (v : Visit) :
    ((∀ x ∈ entries, x.key ≠ expr_make_key v.expr) ∧
      register_visit entries v = entries ++ [new_entry v]) ∨
    (∃ pre e post, entries = pre ++ e :: post ∧ e.key = expr_make_key v.expr ∧
      (∀ x ∈ pre, x.key ≠ expr_make_key v.expr) ∧
      register_visit entries v = pre ++ extend_entry e v :: post) := by
  induction entries with
  | nil => left; exact ⟨by simp, rfl⟩
  | cons e rest ih =>
    rw [register_visit_cons]
    by_cases h : e.key = expr_make_key v.expr
    · right
      exact ⟨[], e, rest, rfl, h, by simp, by simp [h]⟩
    · rcases ih with ⟨h1, h2⟩ | ⟨pre, e1, post, h1, h2, h3, h4⟩
      · left
        refine ⟨?_, by simp [h, h2]⟩
        intro x hx
        rcases List.mem_cons.mp hx with rfl | hx
        · exact h
        · exact h1 x hx
      · right
        refine ⟨e :: pre, e1, post, by simp [h1], h2, ?_, by simp [h, h4]⟩
        intro x hx
        rcases List.mem_cons.mp hx with rfl | hx
        · exact h
        · exact h3 x hx

theorem registryOf_nil : RegistryOf [] [] :=
  ⟨by simp, by simp, by simp, by simp, by simp, by simp⟩

theorem registryOf_snoc (visits : List Visit) (entries : CseEntryList) (v : Visit)
    (h : RegistryOf visits entries) :
    RegistryOf (visits ++ [v]) (register_visit entries v) := by
  rcases register_visit_cases entries v with ⟨h1, h2⟩ | ⟨pre, e, post, h1, h2, h3, h4⟩
  · rw [h2]
    have hnone : visits.filter (fun w => expr_make_key w.expr = expr_make_key v.expr) = [] := by
      rw [List.filter_eq_nil_iff]
      intro w hw hk
      obtain ⟨e, he, hek⟩ := h.covered w hw
      simp only [decide_eq_true_eq] at hk
      exact h1 e he (hek.trans hk)
    refine ⟨?_, ?_, ?_, ?_, ?_, ?_⟩
    · rw [List.map_append, List.nodup_append]
      refine ⟨h.keys_nodup, by simp, ?_⟩
      intro k hk1 hk2
      simp only [List.map_cons, List.map_nil, List.mem_singleton] at hk2
      simp only [List.mem_map] at hk1
      obtain ⟨x, hx, rfl⟩ := hk1
      exact h1 x hx hk2
    · intro x hx
      rcases List.mem_append.mp hx with hx | hx
      · rw [h.occurrences_eq x hx, List.filter_append]
        have : expr_make_key v.expr ≠ x.key := fun hk => h1 x hx hk.symm
        simp [this]
      · simp only [List.mem_singleton] at hx
        subst hx
        rw [List.filter_append]
        simp only [new_entry]
        rw [hnone]
        simp
    · intro w hw
      rcases List.mem_append.mp hw with hw | hw
      · obtain ⟨e, he, hek⟩ := h.covered w hw
        exact ⟨e, List.mem_append_left _ he, hek⟩
      · simp only [List.mem_singleton] at hw
        subst hw
        exact ⟨new_entry w, by simp, rfl⟩
    · intro x hx
      rcases List.mem_append.mp hx with hx | hx
      · exact h.nonempty x hx
      · simp only [List.mem_singleton] at hx
        subst hx
        simp [new_entry]
    · intro x hx o ho
      rcases List.mem_append.mp hx with hx | hx
      · exact h.first_le x hx o ho
      · simp only [List.mem_singleton] at hx
        subst hx
        simp only [new_entry, List.mem_singleton] at ho
        subst ho
        simp [new_entry, Visit.occurrence]
    · intro x hx
      rcases List.mem_append.mp hx with hx | hx
      · exact h.first_mem x hx
      · simp only [List.mem_singleton] at hx
        subst hx
        exact ⟨v.occurrence, by simp [new_entry], rfl⟩
  · rw [h4]
    subst h1
    have hkeys := h.keys_nodup
    have hpost : ∀ x ∈ post, x.key ≠ expr_make_key v.expr := by
      intro x hx hk
      rw [List.map_append, List.map_cons, List.nodup_append] at hkeys
      have := (List.nodup_cons.mp hkeys.2.1).1
      apply this
      rw [h2, ← hk]
      exact List.mem_map_of_mem _ hx
    have hmem : ∀ x, x ∈ pre ++ extend_entry e v :: post →
        (x ∈ pre ++ e :: post ∧ x.key ≠ expr_make_key v.expr) ∨ x = extend_entry e v := by
      intro x hx
      simp only [List.mem_append, List.mem_cons] at hx ⊢
      rcases hx with hx | rfl | hx
      · exact Or.inl ⟨Or.inl hx, h3 x hx⟩
      · exact Or.inr rfl
      · exact Or.inl ⟨Or.inr (Or.inr hx), hpost x hx⟩
    have he : e ∈ pre ++ e :: post := by simp
    refine ⟨?_, ?_, ?_, ?_, ?_, ?_⟩
    · simpa [extend_entry] using hkeys
    · intro x hx
      rcases hmem x hx with ⟨hx, hk⟩ | rfl
      · rw [h.occurrences_eq x hx, List.filter_append]
        have : expr_make_key v.expr ≠ x.key := fun hk2 => hk hk2.symm
        simp [this]
      · rw [List.filter_append]
        simp only [extend_entry]
        rw [h.occurrences_eq e he]
        simp [h2]
    · intro w hw
      have key : ∀ k, (∃ x ∈ pre ++ e :: post, x.key = k) →
          ∃ x ∈ pre ++ extend_entry e v :: post, x.key = k := by
        intro k ⟨x, hx, hk⟩
        simp only [List.mem_append, List.mem_cons] at hx
        rcases hx with hx | rfl | hx
        · exact ⟨x, by simp [hx], hk⟩
        · exact ⟨extend_entry x v, by simp, hk⟩
        · exact ⟨x, by simp [hx], hk⟩
      rcases List.mem_append.mp hw with hw | hw
      · exact key _ (h.covered w hw)
      · simp only [List.mem_singleton] at hw
        subst hw
        exact ⟨extend_entry e w, by simp, h2⟩
    · intro x hx
      rcases hmem x hx with ⟨hx, _⟩ | rfl
      · exact h.nonempty x hx
      · simp [extend_entry]
    · intro x hx o ho
      rcases hmem x hx with ⟨hx, _⟩ | rfl
      · exact h.first_le x hx o ho
      · simp only [extend_entry, List.mem_append, List.mem_singleton] at ho ⊢
        rcases ho with ho | rfl
        · have := h.first_le e he o ho
          split <;> omega
        · simp only [Visit.occurrence]
          split <;> omega
    · intro x hx
      rcases hmem x hx with ⟨hx, _⟩ | rfl
      · exact h.first_mem x hx
      · obtain ⟨o, ho, hoe⟩ := h.first_mem e he
        simp only [extend_entry]
        by_cases hlt : v.stmt_index < e.first_stmt_index
        · exact ⟨v.occurrence, by simp, by simp [hlt, Visit.occurrence]⟩
        · exact ⟨o, by simp [ho], by rw [if_neg hlt]; exact hoe⟩

theorem registryOf_foldl (visits : List Visit) : ∀ (done : List Visit) (entries : CseEntryList),
    RegistryOf done entries → RegistryOf (done ++ visits) (visits.foldl register_visit entries) := by
  induction visits with
  | nil => intro done entries h; simpa using h
  | cons v rest ih =>
    intro done entries h
    have := ih (done ++ [v]) (register_visit entries v) (registryOf_snoc done entries v h)
    simpa using this

theorem registryOf_collect (block : AstBlock) :
    RegistryOf (block_visits 0 block) (collect_block_candidates block) := by
  rw [collect_block_eq_foldl]
  simpa using registryOf_foldl (block_visits 0 block) [] [] registryOf_nil

/-! ### Facts about the registry of a block -/

theorem registry_occurrence_visit (block : AstBlock) (e : CseEntry)
    (he : e ∈ collect_block_candidates block) (o : CseOccurrence) (ho : o ∈ e.occurrences) :
    ∃ v ∈ block_visits 0 block, expr_make_key v.expr = e.key ∧ v.occurrence = o := by
  have h := (registryOf_collect block).occurrences_eq e he
  rw [h] at ho
  simp only [List.mem_map, List.mem_filter, decide_eq_true_eq] at ho
  obtain ⟨v, ⟨hv, hk⟩, rfl⟩ := ho
  exact ⟨v, hv, hk, rfl⟩

theorem registry_occurrence_spec (block : AstBlock) (e : CseEntry)
    (he : e ∈ collect_block_candidates block) (o : CseOccurrence) (ho : o ∈ e.occurrences) :
    ∃ x, slot_init block o.location = some x ∧ expr_make_key x = e.key ∧
      expr_is_candidate x = true ∧ block[o.stmt_index]? = some o.stmt ∧
      o.location.stmt = o.stmt_index := by
  obtain ⟨v, hv, hk, rfl⟩ := registry_occurrence_visit block e he o ho
  obtain ⟨h1, h2, h3, h4⟩ := block_visits_slot_init block v hv
  exact ⟨v.expr, h1, hk, h4, h2, h3⟩

theorem registry_locations_nodup (block : AstBlock) :
    (all_locations (collect_block_candidates block)).Nodup := by
  have hreg := registryOf_collect block
  have hvis := block_visits_nodup block 0
  unfold all_locations
  rw [List.nodup_flatMap]
  constructor
  · intro e he
    unfold entry_locations
    rw [hreg.occurrences_eq e he, List.map_map]
    exact List.Nodup.sublist (List.Sublist.map _ (List.filter_sublist _)) hvis
  · have hk := hreg.keys_nodup
    rw [List.Nodup, List.pairwise_map] at hk
    refine hk.imp_of_mem ?_
    intro a b ha hb hab loc h1 h2
    unfold entry_locations at h1 h2
    rw [hreg.occurrences_eq a ha] at h1
    rw [hreg.occurrences_eq b hb] at h2
    simp only [List.mem_map, List.mem_filter, decide_eq_true_eq] at h1 h2
    obtain ⟨_, ⟨v1, ⟨hv1, hk1⟩, rfl⟩, rfl⟩ := h1
    obtain ⟨_, ⟨v2, ⟨hv2, hk2⟩, rfl⟩, hl⟩ := h2
    have : v2 = v1 := List.inj_on_of_nodup_map hvis hv2 hv1 hl
    subst this
    exact hab (hk1.symm.trans hk2)

theorem registry_entry_disjoint (block : AstBlock) (a b : CseEntry)
    (ha : a ∈ collect_block_candidates block) (hb : b ∈ collect_block_candidates block)
    (loc : Slot) (h1 : loc ∈ entry_locations a) (h2 : loc ∈ entry_locations b) : a.key = b.key := by
  have hreg := registryOf_collect block
  have hvis := block_visits_nodup block 0
  unfold entry_locations at h1 h2
  rw [hreg.occurrences_eq a ha] at h1
  rw [hreg.occurrences_eq b hb] at h2
  simp only [List.mem_map, List.mem_filter, decide_eq_true_eq] at h1 h2
  obtain ⟨_, ⟨v1, ⟨hv1, hk1⟩, rfl⟩, rfl⟩ := h1
  obtain ⟨_, ⟨v2, ⟨hv2, hk2⟩, rfl⟩, hl⟩ := h2
  have : v2 = v1 := List.inj_on_of_nodup_map hvis hv2 hv1 hl
  subst this
  exact hk1.symm.trans hk2

theorem registry_key_inj (block : AstBlock) (a b : CseEntry)
    (ha : a ∈ collect_block_candidates block) (hb : b ∈ collect_block_candidates block)
    (h : a.key = b.key) : a = b := by
  have hk := (registryOf_collect block).keys_nodup
  exact List.inj_on_of_nodup_map hk ha hb h

theorem registry_occurrences_sorted (block : AstBlock) (e : CseEntry)
    (he : e ∈ collect_block_candidates block) :
    e.occurrences.Pairwise (fun a b => a.stmt_index ≤ b.stmt_index) := by
  rw [(registryOf_collect block).occurrences_eq e he, List.pairwise_map]
  exact List.Pairwise.sublist (List.filter_sublist _) (block_visits_sorted block 0)

theorem registry_first_index (block : AstBlock) (e : CseEntry)
    (he : e ∈ collect_block_candidates block) :
    ∃ first rest, e.occurrences = first :: rest ∧ e.first_stmt_index = first.stmt_index ∧
      first.location.stmt = e.first_stmt_index ∧ e.first_stmt_index < block.length := by
  have hreg := registryOf_collect block
  have hs := registry_occurrences_sorted block e he
  cases hocc : e.occurrences with
  | nil => exact absurd hocc (hreg.nonempty e he)
  | cons first rest =>
    rw [hocc] at hs
    have hle := hreg.first_le e he first (by rw [hocc]; simp)
    obtain ⟨o, ho, hoe⟩ := hreg.first_mem e he
    rw [hocc] at ho
    have hfirst : e.first_stmt_index = first.stmt_index := by
      rcases List.mem_cons.mp ho with rfl | ho
      · exact hoe
      · have := (List.pairwise_cons.mp hs).1 o ho
        omega
    obtain ⟨x, hx, _, _, hb, hl⟩ :=
      registry_occurrence_spec block e he first (by rw [hocc]; simp)
    refine ⟨first, rest, rfl, hfirst, by omega, ?_⟩
    rw [hfirst]
    by_contra hn
    rw [List.getElem?_eq_none (by omega)] at hb
    exact absurd hb (by simp)

/-! ## The main loop of `apply_cse` -/

theorem make_temp_identifier_eq (name : String) (type : TypeKind) :
    make_temp_identifier name type = AstExpr.identifier type name := rfl

theorem replace_occurrences_apply (name : String) (type : TypeKind)
    (occs : List CseOccurrence) : ∀ (mem : Slot → Option AstExpr) (s : Slot),
    replace_occurrences mem name type occs s =
      if s ∈ occs.map (fun o => o.location) then some (make_temp_identifier name type)
      else mem s := by
  induction occs with
  | nil => intro mem s; simp [replace_occurrences]
  | cons o rest ih =>
    intro mem s
    simp only [replace_occurrences, ih, write_slot, List.map_cons, List.mem_cons]
    by_cases h1 : s ∈ rest.map (fun o => o.location)
    · simp [h1]
    · by_cases h2 : s = o.location <;> simp [h1, h2]

theorem range_parsed_split (g f n : Nat) (h1 : g ≤ f) (h2 : f ≤ n) :
    (List.range' g (n - g)).map StmtRef.parsed =
      (List.range' g (f - g)).map StmtRef.parsed ++ (List.range' f (n - f)).map StmtRef.parsed := by
  rw [← List.map_append]
  congr 1
  have := List.range'_append_1 g (f - g) (n - f)
  rw [show g + (f - g) = f by omega] at this
  rw [this]
  congr 1
  omega

theorem insert_statement_at (A S1 S2 : List StmtRef) (i : Nat) (d : StmtRef)
    (h : i = A.length + S1.length) :
    insert_statement (A ++ (S1 ++ S2)) i d = A ++ (S1 ++ d :: S2) := by
  unfold insert_statement
  have hlen : ¬ i > (A ++ (S1 ++ S2)).length := by simp; omega
  simp only [hlen, if_false]
  rw [← List.append_assoc, List.take_left' (by simp [h]), List.drop_left' (by simp [h])]
  simp

theorem apply_cse_entry_step (block : AstBlock) (stmts : List StmtRef)
    (mem : Slot → Option AstExpr) (c k : Nat) (e : CseEntry)
    (h2 : 2 ≤ e.occurrences.length) (hmem : mem (entry_first_slot e) = none)
    (hinit : slot_init block (entry_first_slot e) ≠ none) :
    apply_cse_entry block (⟨stmts, mem, c⟩, k) e =
      (⟨insert_statement stmts (e.first_stmt_index + k) (temp_decl e c),
        replace_occurrences mem (make_temp_name c) e.type e.occurrences, c + 1⟩, k + 1) := by
  unfold apply_cse_entry
  have hlt : ¬ e.occurrences.length < 2 := by omega
  simp only [hlt, if_false]
  cases hocc : e.occurrences with
  | nil => rw [hocc] at h2; simp at h2
  | cons first rest =>
    have hf : entry_first_slot e = first.location := by simp [entry_first_slot, hocc]
    rw [hf] at hmem hinit
    simp only [read_slot, hmem]
    cases hs : slot_init block first.location with
    | none => exact absurd hs hinit
    | some x => simp [temp_decl, hf, hocc]

theorem apply_cse_loop (block : AstBlock) (n : Nat) : ∀ (sel : List CseEntry)
    (A : List StmtRef) (g k c : Nat) (mem : Slot → Option AstExpr),
    A.length = g + k → g ≤ n →
    (∀ e ∈ sel, 2 ≤ e.occurrences.length ∧ slot_init block (entry_first_slot e) ≠ none ∧
      g ≤ e.first_stmt_index ∧ e.first_stmt_index ≤ n ∧ mem (entry_first_slot e) = none) →
    sel.Pairwise (fun a b => a.first_stmt_index ≤ b.first_stmt_index ∧
      entry_first_slot b ∉ entry_locations a) →
    sel.foldl (apply_cse_entry block)
        (⟨A ++ (List.range' g (n - g)).map StmtRef.parsed, mem, c⟩, k) =
      (⟨A ++ layout n g (temp_decls c sel), replace_all mem c sel, c + sel.length⟩,
        k + sel.length) := by
  intro sel
  induction sel with
  | nil => intro A g k c mem _ _ _ _; simp [layout, temp_decls, replace_all]
  | cons e rest ih =>
    intro A g k c mem hA hg hsel hpw
    obtain ⟨h2, hinit, hge, hle, hmem⟩ := hsel e (List.mem_cons_self _ _)
    rw [List.foldl_cons, apply_cse_entry_step block _ mem c k e h2 hmem hinit,
      range_parsed_split g e.first_stmt_index n hge hle,
      insert_statement_at A _ _ _ _ (by simp; omega)]
    have hpw' := List.pairwise_cons.mp hpw
    have := ih (A ++ ((List.range' g (e.first_stmt_index - g)).map StmtRef.parsed ++
        [temp_decl e c])) e.first_stmt_index (k + 1) (c + 1)
      (replace_occurrences mem (make_temp_name c) e.type e.occurrences)
      (by simp; omega) hle
      (by
        intro x hx
        obtain ⟨a1, a2, _, a4, a5⟩ := hsel x (List.mem_cons_of_mem _ hx)
        refine ⟨a1, a2, (hpw'.1 x hx).1, a4, ?_⟩
        rw [replace_occurrences_apply]
        have := (hpw'.1 x hx).2
        unfold entry_locations at this
        simp only [this, if_false]
        exact a5)
      hpw'.2
    simp only [List.append_assoc, List.singleton_append] at this
    rw [this]
    simp only [layout, temp_decls, replace_all, List.length_cons, List.append_assoc]
    refine Prod.ext (by simp; omega) (by simp; omega)

theorem compare_le_zero_iff (a b : CseEntry) :
    compare_entries_by_index a b ≤ 0 ↔ a.first_stmt_index ≤ b.first_stmt_index := by
  unfold compare_entries_by_index
  by_cases h1 : a.first_stmt_index < b.first_stmt_index
  · simp [h1]; omega
  · by_cases h2 : a.first_stmt_index > b.first_stmt_index
    · simp [h1, h2]
    · simp [h1, h2]; omega

theorem select_entries_perm (qsort : Qsort) (hq : QsortContract qsort) (entries : CseEntryList) :
    (select_entries qsort entries).Perm (entries.filter (fun e => 2 ≤ e.occurrences.length)) :=
  (hq _).1

theorem select_entries_sorted (qsort : Qsort) (hq : QsortContract qsort)
    (entries : CseEntryList) :
    (select_entries qsort entries).Pairwise
      (fun a b => a.first_stmt_index ≤ b.first_stmt_index) :=
  ((hq _).2).imp (fun h => (compare_le_zero_iff _ _).mp h)

theorem mem_select_entries (qsort : Qsort) (hq : QsortContract qsort) (entries : CseEntryList)
    (e : CseEntry) :
    e ∈ select_entries qsort entries ↔ e ∈ entries ∧ 2 ≤ e.occurrences.length := by
  rw [(select_entries_perm qsort hq entries).mem_iff]
  simp [List.mem_filter]

theorem registry_nodup (block : AstBlock) : (collect_block_candidates block).Nodup :=
  List.Nodup.of_map _ (registryOf_collect block).keys_nodup

theorem select_entries_nodup (qsort : Qsort) (hq : QsortContract qsort) (block : AstBlock) :
    (select_entries qsort (collect_block_candidates block)).Nodup :=
  (select_entries_perm qsort hq _).nodup_iff.mpr ((registry_nodup block).filter _)

theorem entry_first_slot_mem (e : CseEntry) (h : e.occurrences ≠ []) :
    entry_first_slot e ∈ entry_locations e := by
  unfold entry_first_slot entry_locations
  cases hocc : e.occurrences with
  | nil => exact absurd hocc h
  | cons first rest => simp

theorem layout_nil_zero (n : Nat) : layout n 0 [] = (List.range n).map StmtRef.parsed := by
  simp [layout, List.range_eq_range']

/-- Memory when `apply_cse` returns, in closed form. -/
theorem apply_cse_pass_eq (qsort : Qsort) (hq : QsortContract qsort) (block : AstBlock)
    (c : Nat) :
    apply_cse_pass qsort block (collect_block_candidates block) c =
      ⟨layout block.length 0 (temp_decls c (select_entries qsort (collect_block_candidates block))),
        replace_all (fun _ => none) c (select_entries qsort (collect_block_candidates block)),
        c + (select_entries qsort (collect_block_candidates block)).length⟩ := by
  have hperm := select_entries_perm qsort hq (collect_block_candidates block)
  have hempty : (List.filter (fun e => decide (2 ≤ e.occurrences.length))
      (collect_block_candidates block)).length = 0 →
      select_entries qsort (collect_block_candidates block) = [] := by
    intro h
    rw [List.length_eq_zero] at h
    rw [h] at hperm
    exact List.Perm.eq_nil hperm
  unfold apply_cse_pass
  by_cases h0 : (collect_block_candidates block).length = 0
  · have : select_entries qsort (collect_block_candidates block) = [] := by
      apply hempty
      rw [List.length_eq_zero] at h0
      simp [h0]
    simp [h0, this, initial_pass, temp_decls, replace_all, layout_nil_zero]
  · simp only [h0, if_false]
    by_cases h1 : (List.filter (fun e => decide (2 ≤ e.occurrences.length))
        (collect_block_candidates block)).length = 0
    · simp [h1, hempty h1, initial_pass, temp_decls, replace_all, layout_nil_zero]
    · simp only [h1, if_false]
      have hloop := apply_cse_loop block block.length
        (select_entries qsort (collect_block_candidates block)) [] 0 0 c (fun _ => none)
        rfl (Nat.zero_le _)
        (by
          intro e he
          obtain ⟨heR, h2⟩ := (mem_select_entries qsort hq _ e).mp he
          obtain ⟨first, rest, hocc, _, _, hlt⟩ := registry_first_index block e heR
          obtain ⟨x, hx, _⟩ := registry_occurrence_spec block e heR first (by rw [hocc]; simp)
          have hf : entry_first_slot e = first.location := by simp [entry_first_slot, hocc]
          refine ⟨h2, ?_, Nat.zero_le _, by omega, rfl⟩
          rw [hf, hx]
          simp)
        (by
          have hs := select_entries_sorted qsort hq (collect_block_candidates block)
          have hn := select_entries_nodup qsort hq block
          refine (hs.and hn).imp_of_mem ?_
          intro a b ha hb hab
          refine ⟨hab.1, ?_⟩
          intro hmem
          obtain ⟨haR, _⟩ := (mem_select_entries qsort hq _ a).mp ha
          obtain ⟨hbR, _⟩ := (mem_select_entries qsort hq _ b).mp hb
          have hbm := entry_first_slot_mem b ((registryOf_collect block).nonempty b hbR)
          exact hab.2 (registry_key_inj block a b haR hbR
            (registry_entry_disjoint block a b haR hbR _ hmem hbm)))
      simp only [initial_pass, List.range_eq_range', Nat.sub_zero, List.nil_append,
        Nat.zero_add] at hloop ⊢
      rw [hloop]

/-! ## The memory `apply_cse` leaves behind -/

theorem replace_all_of_not_mem (loc : Slot) : ∀ (sel : List CseEntry) (c : Nat)
    (mem : Slot → Option AstExpr), (∀ e ∈ sel, loc ∉ entry_locations e) →
    replace_all mem c sel loc = mem loc := by
  intro sel
  induction sel with
  | nil => intro c mem _; rfl
  | cons e rest ih =>
    intro c mem h
    simp only [replace_all]
    rw [ih _ _ (fun x hx => h x (List.mem_cons_of_mem _ hx)), replace_occurrences_apply]
    have := h e (List.mem_cons_self _ _)
    unfold entry_locations at this
    simp [this]

theorem replace_all_of_mem (loc : Slot) (e : CseEntry) (post : List CseEntry)
    (hloc : loc ∈ entry_locations e) (hpost : ∀ x ∈ post, loc ∉ entry_locations x) :
    ∀ (pre : List CseEntry) (c : Nat) (mem : Slot → Option AstExpr),
    replace_all mem c (pre ++ e :: post) loc =
      some (AstExpr.identifier e.type (make_temp_name (c + pre.length))) := by
  intro pre
  induction pre with
  | nil =>
    intro c mem
    simp only [List.nil_append, replace_all, List.length_nil, Nat.add_zero]
    rw [replace_all_of_not_mem loc post _ _ hpost, replace_occurrences_apply]
    unfold entry_locations at hloc
    simp [hloc, make_temp_identifier_eq]
  | cons x pre ih =>
    intro c mem
    have := ih (c + 1) (replace_occurrences mem (make_temp_name c) x.type x.occurrences)
    rw [show c + 1 + pre.length = c + (x :: pre).length by simp; omega] at this
    exact this

/-! ## The statement array `apply_cse` leaves behind -/

theorem temp_decls_append (pre : List CseEntry) : ∀ (c : Nat) (rest : List CseEntry),
    temp_decls c (pre ++ rest) = temp_decls c pre ++ temp_decls (c + pre.length) rest := by
  induction pre with
  | nil => intro c rest; simp [temp_decls]
  | cons x pre ih =>
    intro c rest
    have := ih (c + 1) rest
    rw [show c + 1 + pre.length = c + (x :: pre).length by simp; omega] at this
    simp only [List.cons_append, temp_decls, List.cons.injEq, true_and]
    exact this

theorem temp_decls_mem (sel : List CseEntry) : ∀ (c : Nat) (p : Nat × StmtRef),
    p ∈ temp_decls c sel →
    ∃ j x, j < sel.length ∧ x ∈ sel ∧ sel[j]? = some x ∧
      p = (x.first_stmt_index, temp_decl x (c + j)) := by
  induction sel with
  | nil => intro c p h; simp [temp_decls] at h
  | cons e rest ih =>
    intro c p h
    simp only [temp_decls, List.mem_cons] at h
    rcases h with rfl | h
    · exact ⟨0, e, by simp, by simp, by simp, rfl⟩
    · obtain ⟨j, x, hj, hx, hg, rfl⟩ := ih (c + 1) p h
      refine ⟨j + 1, x, by simp; omega, by simp [hx], by simpa using hg, ?_⟩
      congr 2
      omega

theorem layout_filter (n : Nat) (p : StmtRef → Bool) (hp : ∀ i, p (StmtRef.parsed i) = false) :
    ∀ (ds : List (Nat × StmtRef)) (g : Nat),
    (layout n g ds).filter p = (ds.map Prod.snd).filter p := by
  have hmap : ∀ l : List Nat, (l.map StmtRef.parsed).filter p = [] := by
    intro l
    rw [List.filter_eq_nil_iff]
    intro a ha
    simp only [List.mem_map] at ha
    obtain ⟨i, _, rfl⟩ := ha
    simp [hp]
  intro ds
  induction ds with
  | nil => intro g; simp [layout, hmap]
  | cons d rest ih =>
    intro g
    obtain ⟨f, s⟩ := d
    simp only [layout, List.filter_append, hmap, List.nil_append, List.map_cons]
    rw [List.filter_cons, List.filter_cons, ih]

theorem layout_filter_parsed (n : Nat) : ∀ (ds : List (Nat × StmtRef)) (g : Nat),
    (∀ d ∈ ds, d.2.is_parsed = false) → g ≤ n →
    ds.Pairwise (fun a b => a.1 ≤ b.1) → (∀ d ∈ ds, g ≤ d.1 ∧ d.1 ≤ n) →
    (layout n g ds).filter StmtRef.is_parsed = (List.range' g (n - g)).map StmtRef.parsed := by
  have hmap : ∀ l : List Nat, (l.map StmtRef.parsed).filter StmtRef.is_parsed =
      l.map StmtRef.parsed := by
    intro l
    rw [List.filter_eq_self]
    intro a ha
    simp only [List.mem_map] at ha
    obtain ⟨i, _, rfl⟩ := ha
    rfl
  intro ds
  induction ds with
  | nil => intro g _ _ _ _; simp [layout, hmap]
  | cons d rest ih =>
    intro g hs hg hpw hb
    obtain ⟨f, s⟩ := d
    have hf := hb (f, s) (List.mem_cons_self _ _)
    have hsf : s.is_parsed = false := hs (f, s) (List.mem_cons_self _ _)
    simp only [layout, List.filter_append, hmap]
    rw [List.filter_cons, hsf]
    simp only [Bool.false_eq_true, if_false]
    rw [ih f (fun d hd => hs d (List.mem_cons_of_mem _ hd)) hf.2 (List.pairwise_cons.mp hpw).2
      (fun d hd => ⟨(List.pairwise_cons.mp hpw).1 d hd, (hb d (List.mem_cons_of_mem _ hd)).2⟩)]
    exact (range_parsed_split g f n hf.1 hf.2).symm

theorem make_temp_name_inj (a b : Nat) (h : make_temp_name a = make_temp_name b) : a = b := by
  unfold make_temp_name at h
  have := congrArg String.data h
  simp only [String.data_append, List.append_cancel_left_eq] at this
  exact fmt_zu_inj a b (String.ext this)

/-! ## Sorting functions that meet the contract of `qsort` -/

theorem insertionSort_contract (l : List CseEntry) :
    (l.insertionSort (fun a b => compare_entries_by_index a b ≤ 0)).Perm l ∧
    (l.insertionSort (fun a b => compare_entries_by_index a b ≤ 0)).Pairwise
      (fun a b => compare_entries_by_index a b ≤ 0) := by
  haveI : IsTotal CseEntry (fun a b => compare_entries_by_index a b ≤ 0) :=
    ⟨fun a b => by simp only [compare_le_zero_iff]; omega⟩
  haveI : IsTrans CseEntry (fun a b => compare_entries_by_index a b ≤ 0) :=
    ⟨fun a b c => by simp only [compare_le_zero_iff]; omega⟩
  exact ⟨List.perm_insertionSort _ l, List.sorted_insertionSort _ l⟩

theorem stable_qsort_contract : QsortContract stable_qsort :=
  fun l => insertionSort_contract l

theorem reversing_qsort_contract : QsortContract reversing_qsort :=
  fun l => ⟨(insertionSort_contract l.reverse).1.trans (List.reverse_perm l),
    (insertionSort_contract l.reverse).2⟩

theorem stable_qsort_stable : QsortStable stable_qsort := fun _ => rfl

theorem orderedInsert_filter (i : Nat) (a : CseEntry) (l : List CseEntry) :
    (l.orderedInsert (fun a b => compare_entries_by_index a b ≤ 0) a).filter
        (fun e => e.first_stmt_index = i) =
      (a :: l).filter (fun e => e.first_stmt_index = i) := by
  induction l with
  | nil => simp
  | cons b rest ih =>
    simp only [List.orderedInsert]
    split
    · rfl
    · rename_i h
      rw [compare_le_zero_iff] at h
      rw [List.filter_cons, ih]
      simp only [List.filter_cons]
      by_cases h1 : b.first_stmt_index = i <;> by_cases h2 : a.first_stmt_index = i <;>
        simp [h1, h2]
      omega

theorem insertionSort_filter (i : Nat) (l : List CseEntry) :
    (l.insertionSort (fun a b => compare_entries_by_index a b ≤ 0)).filter
        (fun e => e.first_stmt_index = i) =
      l.filter (fun e => e.first_stmt_index = i) := by
  induction l with
  | nil => simp
  | cons a rest ih =>
    simp only [List.insertionSort]
    rw [orderedInsert_filter, List.filter_cons, List.filter_cons, ih]

theorem qsort_singleton (qsort : Qsort) (hq : QsortContract qsort) (e : CseEntry) :
    qsort compare_entries_by_index [e] = [e] :=
  List.perm_singleton.mp (hq [e]).1

theorem temp_decls_filter_nil (q : StmtRef → Bool) (sel : List CseEntry) (c : Nat)
    (h : ∀ j x, x ∈ sel → j < sel.length → q (temp_decl x (c + j)) = false) :
    ((temp_decls c sel).map Prod.snd).filter q = [] := by
  rw [List.filter_eq_nil_iff]
  intro d hd
  simp only [List.mem_map] at hd
  obtain ⟨p, hp, rfl⟩ := hd
  obtain ⟨j, x, hj, hx, _, rfl⟩ := temp_decls_mem sel c p hp
  simp [h j x hx hj]

theorem select_entries_split (qsort : Qsort) (hq : QsortContract qsort) (block : AstBlock)
    (e : CseEntry) (he : e ∈ collect_block_candidates block) (h2 : 2 ≤ e.occurrences.length) :
    ∃ pre post, select_entries qsort (collect_block_candidates block) = pre ++ e :: post ∧
      e ∉ pre ∧ e ∉ post := by
  have hmem := (mem_select_entries qsort hq _ e).mpr ⟨he, h2⟩
  obtain ⟨pre, post, hsp⟩ := List.append_of_mem hmem
  have hn := select_entries_nodup qsort hq block
  rw [hsp] at hn
  refine ⟨pre, post, hsp, ?_, ?_⟩
  · intro hp
    have := (List.nodup_append.mp hn).2.2
    exact this hp (List.mem_cons_self _ _)
  · intro hp
    have := (List.nodup_append.mp hn).2.1
    exact (List.nodup_cons.mp this).1 hp

theorem first_slot_not_shared (block : AstBlock) (e x : CseEntry)
    (he : e ∈ collect_block_candidates block) (hx : x ∈ collect_block_candidates block)
    (hne : x ≠ e) : entry_first_slot x ∉ entry_locations e := by
  intro hmem
  have hxm := entry_first_slot_mem x ((registryOf_collect block).nonempty x hx)
  exact hne (registry_key_inj block x e hx he
    (registry_entry_disjoint block x e hx he _ hxm hmem))

theorem apply_cse_reusable_entry (qsort : Qsort) (hq : QsortContract qsort)
    (block : AstBlock) (counter : Nat) (e : CseEntry)
    (he : e ∈ collect_block_candidates block) (h2 : 2 ≤ e.occurrences.length) :
    ∃ k first x,
      k < ((collect_block_candidates block).filter (fun e => 2 ≤ e.occurrences.length)).length ∧
      e.occurrences.head? = some first ∧
      slot_init block first.location = some x ∧ expr_make_key x = e.key ∧
      (apply_cse_pass qsort block (collect_block_candidates block) counter).statements.filter
          (StmtRef.declares (make_temp_name (counter + k))) =
        [StmtRef.synthesized e.type (make_temp_name (counter + k))
          (NodeRef.parsed first.location) (e.occurrences.any occurrence_survives_dce)] ∧
      (apply_cse_pass qsort block (collect_block_candidates block) counter).statements.filter
          (StmtRef.initialized_from (entry_locations e)) =
        [StmtRef.synthesized e.type (make_temp_name (counter + k))
          (NodeRef.parsed first.location) (e.occurrences.any occurrence_survives_dce)] ∧
      ∀ o ∈ e.occurrences,
        (apply_cse_pass qsort block (collect_block_candidates block) counter).mem o.location =
          some (AstExpr.identifier e.type (make_temp_name (counter + k))) := by
  obtain ⟨pre, post, hsp, hpre, hpost⟩ := select_entries_split qsort hq block e he h2
  obtain ⟨first, rest, hocc, _, _, _⟩ := registry_first_index block e he
  obtain ⟨x, hx, hkey, _⟩ := registry_occurrence_spec block e he first (by rw [hocc]; simp)
  have hfs : entry_first_slot e = first.location := by simp [entry_first_slot, hocc]
  have hlen : (select_entries qsort (collect_block_candidates block)).length =
      ((collect_block_candidates block).filter (fun e => 2 ≤ e.occurrences.length)).length :=
    (select_entries_perm qsort hq _).length_eq
  have hsub : ∀ y, y ∈ pre ∨ y ∈ post → y ∈ collect_block_candidates block ∧ y ≠ e := by
    intro y hy
    have hm : y ∈ select_entries qsort (collect_block_candidates block) := by
      rw [hsp]
      rcases hy with hy | hy
      · exact List.mem_append_left _ hy
      · exact List.mem_append_right _ (List.mem_cons_of_mem _ hy)
    refine ⟨((mem_select_entries qsort hq _ y).mp hm).1, ?_⟩
    rintro rfl
    rcases hy with hy | hy
    · exact hpre hy
    · exact hpost hy
  have hdecl : temp_decl e (counter + pre.length) =
      StmtRef.synthesized e.type (make_temp_name (counter + pre.length))
        (NodeRef.parsed first.location) (e.occurrences.any occurrence_survives_dce) := by
    simp [temp_decl, hfs]
  refine ⟨pre.length, first, x, ?_, by simp [hocc], hx, hkey, ?_, ?_, ?_⟩
  · rw [← hlen, hsp]
    simp
  · rw [apply_cse_pass_eq qsort hq]
    simp only
    rw [layout_filter _ _ (fun _ => rfl), hsp, temp_decls_append]
    simp only [temp_decls, List.map_append, List.map_cons, List.filter_append]
    rw [temp_decls_filter_nil, List.filter_cons, temp_decls_filter_nil]
    · simp [hdecl, StmtRef.declares]
    · intro j y _ _
      simp only [temp_decl, StmtRef.declares, decide_eq_false_iff_not]
      intro h
      have := make_temp_name_inj _ _ h
      omega
    · intro j y _ hj
      simp only [temp_decl, StmtRef.declares, decide_eq_false_iff_not]
      intro h
      have := make_temp_name_inj _ _ h
      omega
  · rw [apply_cse_pass_eq qsort hq]
    simp only
    rw [layout_filter _ _ (fun _ => rfl), hsp, temp_decls_append]
    simp only [temp_decls, List.map_append, List.map_cons, List.filter_append]
    rw [temp_decls_filter_nil, List.filter_cons, temp_decls_filter_nil]
    · have : first.location ∈ entry_locations e := by
        rw [← hfs]
        exact entry_first_slot_mem e (by rw [hocc]; simp)
      simp [hdecl, StmtRef.initialized_from, this]
    · intro j y hy _
      obtain ⟨hyR, hne⟩ := hsub y (Or.inr hy)
      simp only [temp_decl, StmtRef.initialized_from, decide_eq_false_iff_not]
      exact first_slot_not_shared block e y he hyR hne
    · intro j y hy _
      obtain ⟨hyR, hne⟩ := hsub y (Or.inl hy)
      simp only [temp_decl, StmtRef.initialized_from, decide_eq_false_iff_not]
      exact first_slot_not_shared block e y he hyR hne
  · intro o ho
    rw [apply_cse_pass_eq qsort hq]
    simp only
    rw [hsp]
    apply replace_all_of_mem
    · unfold entry_locations
      exact List.mem_map_of_mem _ ho
    · intro y hy hmem
      obtain ⟨hyR, hne⟩ := hsub y (Or.inr hy)
      have hom : o.location ∈ entry_locations e := by
        unfold entry_locations
        exact List.mem_map_of_mem _ ho
      exact hne (registry_key_inj block y e hyR he
        (registry_entry_disjoint block y e hyR he _ hmem hom))

/-! ## Reading memory back -/

theorem load_node_empty : ∀ (e : AstExpr) (loc : Slot), load_node (fun _ => none) loc e = e
  | .binary t op left right, loc => by
    simp [load_node, load_node_empty left, load_node_empty right]
  | .unary t op operand, loc => by simp [load_node, load_node_empty operand]
  | .call t callee args, loc => by simp [load_node, load_list_empty args]
  | .array_literal t elements, loc => by simp [load_node, load_list_empty elements]
  | .subscript t array index, loc => by
    simp [load_node, load_node_empty array, load_node_empty index]
  | .int_literal _ _, loc => by simp [load_node]
  | .float_literal _ _, loc => by simp [load_node]
  | .bool_literal _ _, loc => by simp [load_node]
  | .string_literal _ _, loc => by simp [load_node]
  | .identifier _ _, loc => by simp [load_node]
where
  load_list_empty : ∀ (items : List AstExpr) (parent : Slot) (i : Nat),
      load_list (fun _ => none) parent i items = items
    | [], parent, i => by simp [load_list]
    | item :: rest, parent, i => by
      simp [load_list, load_node_empty item, load_list_empty rest]

theorem load_stmt_empty (i : Nat) (s : AstStmt) : load_stmt (fun _ => none) i s = s := by
  cases s with
  | decl t name init is_array is_used =>
    cases init <;> cases is_array <;> simp [load_stmt, load, load_node_empty]
  | assign target value => simp [load_stmt, load, load_node_empty]
  | array_assign array index value => simp [load_stmt, load, load_node_empty]
  | expr e => cases e <;> simp [load_stmt, load, load_node_empty]
  | return_stmt e => cases e <;> simp [load_stmt, load, load_node_empty]
  | while_stmt c body => simp [load_stmt]
  | for_stmt init c post body => simp [load_stmt]
  | block b => simp [load_stmt]

theorem range_filterMap_getElem {α : Type} (l : List α) :
    (List.range l.length).filterMap (fun i => l[i]?) = l := by
  induction l using List.reverseRecOn with
  | nil => rfl
  | append_singleton l a ih =>
    rw [List.length_append, List.length_singleton, List.range_succ, List.filterMap_append]
    have h1 : (List.range l.length).filterMap (fun i => (l ++ [a])[i]?) =
        (List.range l.length).filterMap (fun i => l[i]?) := by
      apply List.filterMap_congr
      intro i hi
      rw [List.mem_range] at hi
      rw [List.getElem?_append_left hi]
    rw [h1, ih]
    simp

theorem snapshot_parsed_range (block : AstBlock) (mem : Slot → Option AstExpr) :
    ((List.range block.length).map StmtRef.parsed).filterMap (load_stmt_ref block mem) =
      (List.range block.length).filterMap (fun i => (block[i]?).map (load_stmt mem i)) := by
  rw [List.filterMap_map]
  rfl

theorem snapshot_initial (block : AstBlock) (c : Nat) :
    snapshot block (initial_pass block c) = block := by
  show ((List.range block.length).map StmtRef.parsed).filterMap
    (load_stmt_ref block (fun _ => none)) = block
  rw [snapshot_parsed_range]
  have : (fun i => (block[i]?).map (load_stmt (fun _ => none) i)) = fun i => block[i]? := by
    funext i
    cases block[i]? <;> simp [load_stmt_empty]
  rw [this]
  exact range_filterMap_getElem block

theorem apply_cse_nothing_reusable (qsort : Qsort) (block : AstBlock) (entries : CseEntryList)
    (c : Nat) (h : ∀ e ∈ entries, e.occurrences.length < 2) :
    apply_cse_pass qsort block entries c = initial_pass block c := by
  unfold apply_cse_pass
  have : entries.filter (fun e => decide (2 ≤ e.occurrences.length)) = [] := by
    rw [List.filter_eq_nil_iff]
    intro e he
    have := h e he
    simp
    omega
  simp [this]

theorem range_filterMap_load (mem : Slot → Option AstExpr) (l : List AstStmt) :
    ∀ (pre : List AstStmt),
    (List.range' pre.length l.length).filterMap
        (fun i => ((pre ++ l)[i]?).map (load_stmt mem i)) =
      load_block mem pre.length l := by
  induction l with
  | nil => intro pre; simp [load_block]
  | cons s rest ih =>
    intro pre
    have := ih (pre ++ [s])
    simp only [List.length_append, List.length_singleton, List.append_assoc,
      List.singleton_append] at this
    simp only [List.length_cons, List.range'_succ, load_block]
    rw [List.filterMap_cons]
    simp only [List.getElem?_append_right (Nat.le_refl _), Nat.sub_self, List.getElem?_cons_zero,
      Option.map_some']
    rw [this]

theorem snapshot_parsed (block : AstBlock) (mem : Slot → Option AstExpr) :
    ((List.range block.length).map StmtRef.parsed).filterMap (load_stmt_ref block mem) =
      load_block mem 0 block := by
  rw [snapshot_parsed_range, List.range_eq_range']
  exact range_filterMap_load mem block []

theorem load_block_length (mem : Slot → Option AstExpr) (l : List AstStmt) : ∀ (k : Nat),
    (load_block mem k l).length = l.length := by
  induction l with
  | nil => intro k; rfl
  | cons s rest ih => intro k; simp [load_block, ih]

theorem load_block_getElem (mem : Slot → Option AstExpr) (l : List AstStmt) :
    ∀ (k i : Nat), (load_block mem k l)[i]? = (l[i]?).map (load_stmt mem (k + i)) := by
  induction l with
  | nil => intro k i; simp [load_block]
  | cons s rest ih =>
    intro k i
    cases i with
    | zero => simp [load_block]
    | succ i =>
      simp only [load_block, List.getElem?_cons_succ, ih]
      rw [show k + 1 + i = k + (i + 1) by omega]

theorem load_stmt_kind (mem : Slot → Option AstExpr) (i : Nat) (s : AstStmt) :
    (load_stmt mem i s).kind = s.kind := by
  cases s with
  | decl t name init is_array is_used =>
    cases init <;> cases is_array <;> rfl
  | expr e => cases e <;> rfl
  | return_stmt e => cases e <;> rfl
  | _ => rfl

theorem insert_statement_filter_parsed (l : List StmtRef) (i : Nat) (d : StmtRef)
    (hd : d.is_parsed = false) :
    (insert_statement l i d).filter StmtRef.is_parsed = l.filter StmtRef.is_parsed := by
  unfold insert_statement
  simp only [List.filter_append, List.filter_cons, hd, Bool.false_eq_true, if_false]
  rw [← List.filter_append, List.take_append_drop]

theorem apply_cse_entry_filter_parsed (block : AstBlock) (state : CsePass × Nat) (e : CseEntry) :
    (apply_cse_entry block state e).1.statements.filter StmtRef.is_parsed =
      state.1.statements.filter StmtRef.is_parsed := by
  unfold apply_cse_entry
  simp only
  split
  · rfl
  · split
    · rfl
    · split
      · rfl
      · exact insert_statement_filter_parsed _ _ _ rfl

theorem apply_cse_foldl_filter_parsed (block : AstBlock) (sel : List CseEntry) :
    ∀ (state : CsePass × Nat),
    (sel.foldl (apply_cse_entry block) state).1.statements.filter StmtRef.is_parsed =
      state.1.statements.filter StmtRef.is_parsed := by
  induction sel with
  | nil => intro state; rfl
  | cons e rest ih =>
    intro state
    rw [List.foldl_cons, ih, apply_cse_entry_filter_parsed]

theorem apply_cse_pass_filter_parsed (qsort : Qsort) (block : AstBlock) (entries : CseEntryList)
    (c : Nat) :
    (apply_cse_pass qsort block entries c).statements.filter StmtRef.is_parsed =
      (List.range block.length).map StmtRef.parsed := by
  have hinit : (initial_pass block c).statements.filter StmtRef.is_parsed =
      (List.range block.length).map StmtRef.parsed := by
    simp only [initial_pass]
    rw [List.filter_eq_self]
    intro a ha
    simp only [List.mem_map] at ha
    obtain ⟨i, _, rfl⟩ := ha
    rfl
  unfold apply_cse_pass
  split
  · exact hinit
  · split
    · exact hinit
    · rw [apply_cse_foldl_filter_parsed]
      exact hinit

theorem pre_existing_eq (qsort : Qsort) (block : AstBlock) (entries : CseEntryList) (c : Nat) :
    pre_existing block (apply_cse_pass qsort block entries c) =
      load_block (apply_cse_pass qsort block entries c).mem 0 block := by
  unfold pre_existing
  rw [apply_cse_pass_filter_parsed, snapshot_parsed]

theorem pre_existing_sublist (block : AstBlock) (pass : CsePass) :
    (pre_existing block pass).Sublist (snapshot block pass) :=
  List.Sublist.filterMap _ (List.filter_sublist _)

/-! ## The rewriter: statements of the specification -/

theorem example_sum_twice_registry :
    collect_block_candidates example_sum_twice = [example_sum_entry] := rfl

theorem example_sum_twice_apply_cse (qsort : Qsort) (hq : QsortContract qsort) :
    apply_cse qsort example_sum_twice (collect_block_candidates example_sum_twice) 0 =
      (example_sum_twice_rewritten, 1) := by
  have hsel : select_entries qsort (collect_block_candidates example_sum_twice) =
      [example_sum_entry] := by
    unfold select_entries
    rw [example_sum_twice_registry]
    exact qsort_singleton qsort hq example_sum_entry
  unfold apply_cse
  rw [apply_cse_pass_eq qsort hq, hsel]
  rfl

/-- C2: for every key the collector registers with two occurrences or more, `apply_cse`
builds exactly one declaration; it bears a fresh temporary name and the type of the entry,
its initializer is the node taken from the slot of the first occurrence, and every slot of
the entry, the first included, holds an identifier of that name and type afterwards.  For
`x = 2 + 3; y = 2 + 3;` the result is `tmp0 = 2 + 3; x = tmp0; y = tmp0;`. -/
theorem apply_cse_extracts_every_reusable_key (qsort : Qsort) (hq : QsortContract qsort)
    (block : AstBlock) (counter : Nat) (e : CseEntry)
    (he : e ∈ collect_block_candidates block) (h2 : 2 ≤ e.occurrences.length) :
    (∃ k first x,
      k < ((collect_block_candidates block).filter (fun e => 2 ≤ e.occurrences.length)).length ∧
      e.occurrences.head? = some first ∧
      slot_init block first.location = some x ∧ expr_make_key x = e.key ∧
      (apply_cse_pass qsort block (collect_block_candidates block) counter).statements.filter
          (StmtRef.declares (make_temp_name (counter + k))) =
        [StmtRef.synthesized e.type (make_temp_name (counter + k))
          (NodeRef.parsed first.location) (e.occurrences.any occurrence_survives_dce)] ∧
      (apply_cse_pass qsort block (collect_block_candidates block) counter).statements.filter
          (StmtRef.initialized_from (entry_locations e)) =
        [StmtRef.synthesized e.type (make_temp_name (counter + k))
          (NodeRef.parsed first.location) (e.occurrences.any occurrence_survives_dce)] ∧
      ∀ o ∈ e.occurrences,
        (apply_cse_pass qsort block (collect_block_candidates block) counter).mem o.location =
          some (AstExpr.identifier e.type (make_temp_name (counter + k)))) ∧
    apply_cse qsort example_sum_twice (collect_block_candidates example_sum_twice) 0 =
      (example_sum_twice_rewritten, 1) :=
  ⟨apply_cse_reusable_entry qsort hq block counter e he h2,
    example_sum_twice_apply_cse qsort hq⟩

theorem apply_cse_extracts_every_reusable_key_witness :
    QsortContract stable_qsort ∧
    example_sum_entry ∈ collect_block_candidates example_sum_twice ∧
    2 ≤ example_sum_entry.occurrences.length ∧
    (∃ k first x,
      k < ((collect_block_candidates example_sum_twice).filter
        (fun e => 2 ≤ e.occurrences.length)).length ∧
      example_sum_entry.occurrences.head? = some first ∧
      slot_init example_sum_twice first.location = some x ∧
      expr_make_key x = example_sum_entry.key ∧
      (apply_cse_pass stable_qsort example_sum_twice
          (collect_block_candidates example_sum_twice) 0).statements.filter
          (StmtRef.declares (make_temp_name (0 + k))) =
        [StmtRef.synthesized example_sum_entry.type (make_temp_name (0 + k))
          (NodeRef.parsed first.location)
          (example_sum_entry.occurrences.any occurrence_survives_dce)] ∧
      (apply_cse_pass stable_qsort example_sum_twice
          (collect_block_candidates example_sum_twice) 0).statements.filter
          (StmtRef.initialized_from (entry_locations example_sum_entry)) =
        [StmtRef.synthesized example_sum_entry.type (make_temp_name (0 + k))
          (NodeRef.parsed first.location)
          (example_sum_entry.occurrences.any occurrence_survives_dce)] ∧
      ∀ o ∈ example_sum_entry.occurrences,
        (apply_cse_pass stable_qsort example_sum_twice
          (collect_block_candidates example_sum_twice) 0).mem o.location =
          some (AstExpr.identifier example_sum_entry.type (make_temp_name (0 + k)))) ∧
    apply_cse stable_qsort example_sum_twice (collect_block_candidates example_sum_twice) 0 =
      (example_sum_twice_rewritten, 1) :=
  have hmem : example_sum_entry ∈ collect_block_candidates example_sum_twice := by
    rw [example_sum_twice_registry]
    exact List.mem_singleton.mpr rfl
  have hlen : 2 ≤ example_sum_entry.occurrences.length := by decide
  ⟨stable_qsort_contract, hmem, hlen,
    apply_cse_extracts_every_reusable_key stable_qsort stable_qsort_contract
      example_sum_twice 0 example_sum_entry hmem hlen⟩

theorem example_single_use_registry :
    collect_block_candidates example_single_use =
      [⟨"BIN:0:I:1|I:1", .TYPE_INT, 0, [⟨⟨0, [0]⟩, 0, .assign "a" example_product⟩]⟩,
       example_single_entry] := rfl

theorem apply_cse_single_occurrence (qsort : Qsort) (hq : QsortContract qsort)
    (block : AstBlock) (counter : Nat) (e : CseEntry)
    (he : e ∈ collect_block_candidates block) (o : CseOccurrence) (h1 : e.occurrences = [o]) :
    (apply_cse_pass qsort block (collect_block_candidates block) counter).mem o.location = none ∧
    (apply_cse_pass qsort block (collect_block_candidates block) counter).statements.filter
        (StmtRef.initialized_from [o.location]) = [] := by
  have hloc : o.location ∈ entry_locations e := by simp [entry_locations, h1]
  have hother : ∀ x ∈ select_entries qsort (collect_block_candidates block),
      x ∈ collect_block_candidates block ∧ o.location ∉ entry_locations x := by
    intro x hx
    obtain ⟨hxR, hx2⟩ := (mem_select_entries qsort hq _ x).mp hx
    refine ⟨hxR, ?_⟩
    intro hm
    have := registry_key_inj block x e hxR he
      (registry_entry_disjoint block x e hxR he _ hm hloc)
    rw [this, h1] at hx2
    simp at hx2
  rw [apply_cse_pass_eq qsort hq]
  constructor
  · exact replace_all_of_not_mem _ _ _ _ (fun x hx => (hother x hx).2)
  · simp only
    rw [layout_filter _ _ (fun _ => rfl)]
    apply temp_decls_filter_nil
    intro j x hx _
    simp only [temp_decl, StmtRef.initialized_from, decide_eq_false_iff_not,
      List.mem_singleton]
    intro heq
    obtain ⟨hxR, hnot⟩ := hother x hx
    apply hnot
    rw [← heq]
    exact entry_first_slot_mem x ((registryOf_collect block).nonempty x hxR)

theorem apply_cse_unchanged (qsort : Qsort) (block : AstBlock) (entries : CseEntryList)
    (counter : Nat) (h : ∀ x ∈ entries, x.occurrences.length < 2) :
    apply_cse qsort block entries counter = (block, counter) := by
  unfold apply_cse
  rw [apply_cse_nothing_reusable qsort block entries counter h]
  simp only [snapshot_initial]
  rfl

/-- C3: a candidate whose key is registered exactly once in the block is not extracted:
no declaration takes it as initializer and its slot is not overwritten.  When no key has
two occurrences `apply_cse` leaves the statement sequence and the counter as they were;
`a = (1 + 1) * 2; return a; b = 9;` gets no temporary. -/
theorem apply_cse_keeps_single_occurrences (qsort : Qsort) (hq : QsortContract qsort)
    (block : AstBlock) (counter : Nat) (e : CseEntry)
    (he : e ∈ collect_block_candidates block) (o : CseOccurrence) (h1 : e.occurrences = [o]) :
    (apply_cse_pass qsort block (collect_block_candidates block) counter).mem o.location = none ∧
    (apply_cse_pass qsort block (collect_block_candidates block) counter).statements.filter
        (StmtRef.initialized_from [o.location]) = [] ∧
    ((∀ x ∈ collect_block_candidates block, x.occurrences.length < 2) →
      apply_cse qsort block (collect_block_candidates block) counter = (block, counter)) ∧
    apply_cse qsort example_single_use (collect_block_candidates example_single_use) counter =
      (example_single_use, counter) := by
  refine ⟨(apply_cse_single_occurrence qsort hq block counter e he o h1).1,
    (apply_cse_single_occurrence qsort hq block counter e he o h1).2,
    apply_cse_unchanged qsort block _ counter, ?_⟩
  apply apply_cse_unchanged
  rw [example_single_use_registry]
  intro x hx
  simp only [List.mem_cons, List.mem_singleton, List.not_mem_nil, or_false] at hx
  rcases hx with rfl | rfl <;> decide

theorem apply_cse_keeps_single_occurrences_witness :
    QsortContract stable_qsort ∧
    example_single_entry ∈ collect_block_candidates example_single_use ∧
    example_single_entry.occurrences = [⟨⟨0, []⟩, 0, .assign "a" example_product⟩] ∧
    (apply_cse_pass stable_qsort example_single_use
        (collect_block_candidates example_single_use) 7).mem ⟨0, []⟩ = none ∧
    (apply_cse_pass stable_qsort example_single_use
        (collect_block_candidates example_single_use) 7).statements.filter
        (StmtRef.initialized_from [⟨0, []⟩]) = [] ∧
    ((∀ x ∈ collect_block_candidates example_single_use, x.occurrences.length < 2) →
      apply_cse stable_qsort example_single_use (collect_block_candidates example_single_use) 7
        = (example_single_use, 7)) ∧
    apply_cse stable_qsort example_single_use (collect_block_candidates example_single_use) 7 =
      (example_single_use, 7) :=
  have hmem : example_single_entry ∈ collect_block_candidates example_single_use := by
    rw [example_single_use_registry]
    exact List.mem_cons_of_mem _ (List.mem_singleton.mpr rfl)
  ⟨stable_qsort_contract, hmem, rfl,
    apply_cse_keeps_single_occurrences stable_qsort stable_qsort_contract example_single_use 7
      example_single_entry hmem ⟨⟨0, []⟩, 0, .assign "a" example_product⟩ rfl⟩

/-- C6: `apply_cse` only inserts declarations.  With the declarations it built deleted,
its statement array points to the statements of the block, each once and in their order;
each of them keeps its kind, and what is left of the output is the output of these. -/
theorem apply_cse_only_inserts (qsort : Qsort) (block : AstBlock) (entries : CseEntryList)
    (counter : Nat) :
    (apply_cse_pass qsort block entries counter).statements.filter StmtRef.is_parsed =
      (List.range block.length).map StmtRef.parsed ∧
    pre_existing block (apply_cse_pass qsort block entries counter) =
      load_block (apply_cse_pass qsort block entries counter).mem 0 block ∧
    (pre_existing block (apply_cse_pass qsort block entries counter)).length = block.length ∧
    (∀ i : Nat, ((pre_existing block (apply_cse_pass qsort block entries counter))[i]?).map
        AstStmt.kind = (block[i]?).map AstStmt.kind) ∧
    (pre_existing block (apply_cse_pass qsort block entries counter)).Sublist
      (apply_cse qsort block entries counter).1 := by
  refine ⟨apply_cse_pass_filter_parsed qsort block entries counter,
    pre_existing_eq qsort block entries counter, ?_, ?_, pre_existing_sublist _ _⟩
  · rw [pre_existing_eq, load_block_length]
  · intro i
    rw [pre_existing_eq, load_block_getElem, Option.map_map]
    apply Option.map_congr
    intro s _
    exact load_stmt_kind _ _ s

theorem synthesized_inits_parsed (l : List Nat) (rest : List StmtRef) :
    synthesized_inits (l.map StmtRef.parsed ++ rest) = synthesized_inits rest := by
  induction l with
  | nil => rfl
  | cons i l ih => simpa [synthesized_inits] using ih

theorem synthesized_inits_layout (n : Nat) : ∀ (sel : List CseEntry) (c g : Nat),
    synthesized_inits (layout n g (temp_decls c sel)) = sel.map entry_first_slot := by
  intro sel
  induction sel with
  | nil =>
    intro c g
    have := synthesized_inits_parsed (List.range' g (n - g)) []
    simpa [layout, temp_decls, synthesized_inits] using this
  | cons e rest ih =>
    intro c g
    simp only [temp_decls, layout, synthesized_inits_parsed, temp_decl, synthesized_inits,
      List.map_cons]
    rw [ih]

theorem apply_cse_decl_order (qsort : Qsort) (hq : QsortContract qsort) (block : AstBlock)
    (counter : Nat) :
    synthesized_inits
        (apply_cse_pass qsort block (collect_block_candidates block) counter).statements =
      (select_entries qsort (collect_block_candidates block)).map entry_first_slot := by
  rw [apply_cse_pass_eq qsort hq]
  exact synthesized_inits_layout _ _ _ _

/-- The order of the declarations for every sorting function that meets the contract of
`qsort`: the declarations built by `apply_cse` stand in the statement sequence in the order
`qsort` leaves the reusable entries in, which is ascending by first statement index;
entries of equal first statement index stand in registration order when the sorting
function is stable. -/
theorem apply_cse_decls_ascending (qsort : Qsort) (hq : QsortContract qsort)
    (block : AstBlock) (counter : Nat) :
    synthesized_inits
        (apply_cse_pass qsort block (collect_block_candidates block) counter).statements =
      (select_entries qsort (collect_block_candidates block)).map entry_first_slot ∧
    (select_entries qsort (collect_block_candidates block)).Perm
      ((collect_block_candidates block).filter (fun e => 2 ≤ e.occurrences.length)) ∧
    (select_entries qsort (collect_block_candidates block)).Pairwise
      (fun a b => a.first_stmt_index ≤ b.first_stmt_index) ∧
    (QsortStable qsort →
      decls_in_first_occurrence_order qsort block counter ∧
      ∀ i : Nat, (select_entries qsort (collect_block_candidates block)).filter
          (fun e => e.first_stmt_index = i) =
        ((collect_block_candidates block).filter (fun e => 2 ≤ e.occurrences.length)).filter
          (fun e => e.first_stmt_index = i)) := by
  refine ⟨apply_cse_decl_order qsort hq block counter, select_entries_perm qsort hq _,
    select_entries_sorted qsort hq _, ?_⟩
  intro hs
  constructor
  · unfold decls_in_first_occurrence_order
    rw [apply_cse_decl_order qsort hq]
    unfold select_entries
    rw [hs]
  · intro i
    unfold select_entries
    rw [hs, insertionSort_filter]

theorem apply_cse_decls_ascending_witness :
    QsortContract stable_qsort ∧
    synthesized_inits
        (apply_cse_pass stable_qsort example_nested (collect_block_candidates example_nested)
          0).statements =
      (select_entries stable_qsort (collect_block_candidates example_nested)).map
        entry_first_slot ∧
    (select_entries stable_qsort (collect_block_candidates example_nested)).Perm
      ((collect_block_candidates example_nested).filter (fun e => 2 ≤ e.occurrences.length)) ∧
    (select_entries stable_qsort (collect_block_candidates example_nested)).Pairwise
      (fun a b => a.first_stmt_index ≤ b.first_stmt_index) ∧
    (QsortStable stable_qsort →
      decls_in_first_occurrence_order stable_qsort example_nested 0 ∧
      ∀ i : Nat, (select_entries stable_qsort (collect_block_candidates example_nested)).filter
          (fun e => e.first_stmt_index = i) =
        ((collect_block_candidates example_nested).filter
          (fun e => 2 ≤ e.occurrences.length)).filter (fun e => e.first_stmt_index = i)) :=
  ⟨stable_qsort_contract,
    apply_cse_decls_ascending stable_qsort stable_qsort_contract example_nested 0⟩

/-- C5 fails on the code: `compare_entries_by_index` returns 0 for entries of equal first
statement index, and `qsort` makes no promise about the order of such elements. With a
sorting function that meets the contract of `qsort` and reverses ties, in
`x = (1 + 1) * 2; y = (1 + 1) * 2;` the key of `1 + 1` is registered before the key of
`(1 + 1) * 2`, both with first statement index 0, and the declaration for `(1 + 1) * 2`
comes first: `optimize_block` returns `__c2lua_cse_0 = __c2lua_cse_1 * 2;
__c2lua_cse_1 = 1 + 1; x = __c2lua_cse_0; y = __c2lua_cse_0;`, which reads
`__c2lua_cse_1` before it is declared. -/
theorem decls_in_first_occurrence_order_fails :
    QsortContract reversing_qsort ∧
    (collect_block_candidates example_nested).map
        (fun e => (e.key, e.first_stmt_index, entry_first_slot e, e.occurrences.length)) =
      [("BIN:0:I:1|I:1", 0, ⟨0, [0]⟩, 2), ("BIN:2:BIN:0:I:1|I:1|I:2", 0, ⟨0, []⟩, 2)] ∧
    synthesized_inits
        (apply_cse_pass reversing_qsort example_nested (collect_block_candidates example_nested)
          0).statements = [⟨0, []⟩, ⟨0, [0]⟩] ∧
    ¬ decls_in_first_occurrence_order reversing_qsort example_nested 0 ∧
    optimize_block reversing_qsort 2 0 example_nested = some (example_nested_reversed, 2) := by
  refine ⟨reversing_qsort_contract, rfl, rfl, ?_, rfl⟩
  unfold decls_in_first_occurrence_order
  rw [show synthesized_inits
        (apply_cse_pass reversing_qsort example_nested (collect_block_candidates example_nested)
          0).statements = [⟨0, []⟩, ⟨0, [0]⟩] from rfl,
    show (((collect_block_candidates example_nested).filter
        (fun e => 2 ≤ e.occurrences.length)).insertionSort
        (fun a b => compare_entries_by_index a b ≤ 0)).map entry_first_slot =
      [⟨0, [0]⟩, ⟨0, []⟩] from rfl]
  decide

/-! ## Canonical keys: statements of the specification -/

theorem expr_make_key_eq_iff (a b : AstExpr) (ha : expr_is_constant a = true)
    (hb : expr_is_constant b = true) :
    expr_make_key a = expr_make_key b ↔ key_equivalent a b :=
  ⟨key_equivalent_of_key_eq a b ha hb, key_eq_of_key_equivalent a b⟩

/-- C7 fails on the code at floating-point leaves: `%g` prints six significant digits, so
the literals `1.0000001` and `1.0000002` get the same key, alone and below an operator,
although they are not the same value. -/
theorem expr_make_key_merges_distinct_floats :
    expr_is_constant (.float_literal .TYPE_FLOAT double_1_0000001) = true ∧
    expr_is_constant (.float_literal .TYPE_FLOAT double_1_0000002) = true ∧
    expr_make_key (.float_literal .TYPE_FLOAT double_1_0000001) = "F:1" ∧
    expr_make_key (.float_literal .TYPE_FLOAT double_1_0000002) = "F:1" ∧
    ¬ structurally_identical (.float_literal .TYPE_FLOAT double_1_0000001)
      (.float_literal .TYPE_FLOAT double_1_0000002) ∧
    expr_is_candidate (.unary .TYPE_FLOAT 0 (.float_literal .TYPE_FLOAT double_1_0000001)) = true ∧
    expr_is_candidate (.unary .TYPE_FLOAT 0 (.float_literal .TYPE_FLOAT double_1_0000002)) = true ∧
    expr_make_key (.unary .TYPE_FLOAT 0 (.float_literal .TYPE_FLOAT double_1_0000001)) =
      expr_make_key (.unary .TYPE_FLOAT 0 (.float_literal .TYPE_FLOAT double_1_0000002)) ∧
    ¬ structurally_identical
      (.unary .TYPE_FLOAT 0 (.float_literal .TYPE_FLOAT double_1_0000001))
      (.unary .TYPE_FLOAT 0 (.float_literal .TYPE_FLOAT double_1_0000002)) := by
  refine ⟨rfl, rfl, by decide, by decide, ?_, rfl, rfl, by decide, ?_⟩
  · simp only [structurally_identical]
    decide
  · simp only [structurally_identical]
    decide

theorem not_key_equivalent_of_differ : ∀ (a b : AstExpr), differ_only_in_char_literal a b →
    ¬ key_equivalent a b
  | .int_literal t1 v1, .int_literal t2 v2, h => by
    simp only [differ_only_in_char_literal] at h
    simp only [key_equivalent]
    rintro ⟨hiff, _⟩
    rcases h.2 with ⟨h1, h2⟩ | ⟨h1, h2⟩
    · exact h2 (hiff.mp h1)
    · exact h1 (hiff.mpr h2)
  | .unary _ _ a, .unary _ _ b, h => by
    simp only [differ_only_in_char_literal] at h
    simp only [key_equivalent]
    rintro ⟨_, hk⟩
    exact not_key_equivalent_of_differ a b h.2.2 hk
  | .binary _ _ l1 r1, .binary _ _ l2 r2, h => by
    simp only [differ_only_in_char_literal] at h
    simp only [key_equivalent]
    rintro ⟨_, hl, hr⟩
    rcases h.2.2 with ⟨hd, _⟩ | ⟨_, hd⟩
    · exact not_key_equivalent_of_differ l1 l2 hd hl
    · exact not_key_equivalent_of_differ r1 r2 hd hr
  | .float_literal _ _, _, h => by simp [differ_only_in_char_literal] at h
  | .bool_literal _ _, _, h => by simp [differ_only_in_char_literal] at h
  | .string_literal _ _, _, h => by simp [differ_only_in_char_literal] at h
  | .identifier _ _, _, h => by simp [differ_only_in_char_literal] at h
  | .call _ _ _, _, h => by simp [differ_only_in_char_literal] at h
  | .array_literal _ _, _, h => by simp [differ_only_in_char_literal] at h
  | .subscript _ _ _, _, h => by simp [differ_only_in_char_literal] at h
  | .int_literal _ _, .float_literal _ _, h => by simp [differ_only_in_char_literal] at h

theorem occurrence_memory (qsort : Qsort) (hq : QsortContract qsort) (block : AstBlock)
    (counter : Nat) (e : CseEntry) (he : e ∈ collect_block_candidates block)
    (o : CseOccurrence) (ho : o ∈ e.occurrences) (t : TypeKind) (name : String)
    (hm : (apply_cse_pass qsort block (collect_block_candidates block) counter).mem o.location =
      some (AstExpr.identifier t name)) :
    (apply_cse_pass qsort block (collect_block_candidates block) counter).statements.filter
        (StmtRef.declares name) =
      [StmtRef.synthesized e.type name (NodeRef.parsed (entry_first_slot e))
        (e.occurrences.any occurrence_survives_dce)] := by
  by_cases h2 : 2 ≤ e.occurrences.length
  · obtain ⟨k, first, x, _, hhead, _, _, hdecl, _, hmem⟩ :=
      apply_cse_reusable_entry qsort hq block counter e he h2
    have := hmem o ho
    rw [hm] at this
    simp only [Option.some.injEq, AstExpr.identifier.injEq] at this
    have hf : entry_first_slot e = first.location := by
      unfold entry_first_slot
      cases hocc : e.occurrences with
      | nil => rw [hocc] at hhead; simp at hhead
      | cons a rest => rw [hocc] at hhead; simp at hhead; simp [hhead]
    rw [this.2, hf]
    exact hdecl
  · exfalso
    have hne := (registryOf_collect block).nonempty e he
    cases hocc : e.occurrences with
    | nil => exact hne hocc
    | cons a rest =>
      rw [hocc] at h2 ho
      have hrest : rest = [] := by
        cases rest with
        | nil => rfl
        | cons b r => simp at h2
      subst hrest
      simp only [List.mem_singleton] at ho
      subst ho
      have := (apply_cse_single_occurrence qsort hq block counter e he o hocc).1
      rw [this] at hm
      simp at hm

theorem distinct_keys_distinct_temporaries (qsort : Qsort) (hq : QsortContract qsort)
    (block : AstBlock) (counter : Nat) (e1 e2 : CseEntry)
    (he1 : e1 ∈ collect_block_candidates block) (he2 : e2 ∈ collect_block_candidates block)
    (o1 o2 : CseOccurrence) (ho1 : o1 ∈ e1.occurrences) (ho2 : o2 ∈ e2.occurrences)
    (hk : e1.key ≠ e2.key) :
    ¬ share_temporary
      (apply_cse_pass qsort block (collect_block_candidates block) counter).mem
      o1.location o2.location := by
  rintro ⟨t1, t2, name, h1, h2⟩
  have d1 := occurrence_memory qsort hq block counter e1 he1 o1 ho1 t1 name h1
  have d2 := occurrence_memory qsort hq block counter e2 he2 o2 ho2 t2 name h2
  rw [d1] at d2
  have hd := (List.cons.inj d2).1
  have hs : entry_first_slot e1 = entry_first_slot e2 := by
    injection hd with _ _ hinit _
    injection hinit
  have m1 := entry_first_slot_mem e1 ((registryOf_collect block).nonempty e1 he1)
  have m2 := entry_first_slot_mem e2 ((registryOf_collect block).nonempty e2 he2)
  rw [hs] at m1
  exact hk (registry_entry_disjoint block e1 e2 he1 he2 _ m1 m2)

theorem separate_entries_of_distinct_keys (qsort : Qsort) (hq : QsortContract qsort)
    (block : AstBlock) (counter : Nat) (e1 e2 : CseEntry)
    (he1 : e1 ∈ collect_block_candidates block) (he2 : e2 ∈ collect_block_candidates block)
    (o1 o2 : CseOccurrence) (ho1 : o1 ∈ e1.occurrences) (ho2 : o2 ∈ e2.occurrences)
    (x1 x2 : AstExpr) (hx1 : slot_init block o1.location = some x1)
    (hx2 : slot_init block o2.location = some x2)
    (hk : expr_make_key x1 ≠ expr_make_key x2) :
    e1 ≠ e2 ∧ ¬ share_temporary
      (apply_cse_pass qsort block (collect_block_candidates block) counter).mem
      o1.location o2.location := by
  obtain ⟨y1, hy1, hk1, _⟩ := registry_occurrence_spec block e1 he1 o1 ho1
  obtain ⟨y2, hy2, hk2, _⟩ := registry_occurrence_spec block e2 he2 o2 ho2
  rw [hx1] at hy1
  rw [hx2] at hy2
  simp only [Option.some.injEq] at hy1 hy2
  subst hy1 hy2
  have hkey : e1.key ≠ e2.key := by rw [← hk1, ← hk2]; exact hk
  exact ⟨fun h => hkey (by rw [h]),
    distinct_keys_distinct_temporaries qsort hq block counter e1 e2 he1 he2 o1 o2 ho1 ho2 hkey⟩

theorem constant_of_candidate (x : AstExpr) (h : expr_is_candidate x = true) :
    expr_is_constant x = true := by
  unfold expr_is_candidate at h
  split at h
  · split at h
    · simp at h
    · exact h
  · split at h
    · simp at h
    · exact h
  · simp at h

theorem key_ne_of_differ (a b : AstExpr) (ha : expr_is_constant a = true)
    (hb : expr_is_constant b = true) (h : differ_only_in_char_literal a b) :
    expr_make_key a ≠ expr_make_key b :=
  fun hk => not_key_equivalent_of_differ a b h (key_equivalent_of_key_eq a b ha hb hk)

theorem key_ne_of_swapped (t1 t2 : TypeKind) (op : Int) (l r : AstExpr)
    (hl : expr_is_constant l = true) (hr : expr_is_constant r = true)
    (h : expr_make_key l ≠ expr_make_key r) :
    expr_make_key (.binary t1 op l r) ≠ expr_make_key (.binary t2 op r l) := by
  intro hk
  have := key_equivalent_of_key_eq (.binary t1 op l r) (.binary t2 op r l)
    (by simp [expr_is_constant, hl, hr]) (by simp [expr_is_constant, hl, hr]) hk
  simp only [key_equivalent] at this
  exact h (key_eq_of_key_equivalent l r this.2.1)

/-- C8: an integer literal typed `char` never has the key of an integer literal of the same
value and another type; constant trees that differ only in such a literal have different
keys, so that their occurrences lie in different registry entries and never hold
references to one temporary.  `c = 'A'; n = 65;` comes out as it went in. -/
theorem char_literal_never_shares_temporary (qsort : Qsort) (hq : QsortContract qsort)
    (block : AstBlock) (counter : Nat) :
    (∀ (n : Int) (t : TypeKind), t ≠ TypeKind.TYPE_CHAR →
      expr_make_key (.int_literal .TYPE_CHAR n) ≠ expr_make_key (.int_literal t n)) ∧
    (∀ a b : AstExpr, expr_is_constant a = true → expr_is_constant b = true →
      differ_only_in_char_literal a b → expr_make_key a ≠ expr_make_key b) ∧
    (∀ (e1 e2 : CseEntry) (o1 o2 : CseOccurrence) (x1 x2 : AstExpr),
      e1 ∈ collect_block_candidates block → e2 ∈ collect_block_candidates block →
      o1 ∈ e1.occurrences → o2 ∈ e2.occurrences →
      slot_init block o1.location = some x1 → slot_init block o2.location = some x2 →
      differ_only_in_char_literal x1 x2 →
      e1 ≠ e2 ∧ ¬ share_temporary
        (apply_cse_pass qsort block (collect_block_candidates block) counter).mem
        o1.location o2.location) ∧
    apply_cse qsort example_char_and_int (collect_block_candidates example_char_and_int)
      counter = (example_char_and_int, counter) := by
  refine ⟨?_, key_ne_of_differ, ?_, ?_⟩
  · intro n t ht
    refine key_ne_of_differ (.int_literal .TYPE_CHAR n) (.int_literal t n) rfl rfl ?_
    simp only [differ_only_in_char_literal]
    simp [ht]
  · intro e1 e2 o1 o2 x1 x2 he1 he2 ho1 ho2 hx1 hx2 hd
    obtain ⟨y1, hy1, _, hc1, _⟩ := registry_occurrence_spec block e1 he1 o1 ho1
    obtain ⟨y2, hy2, _, hc2, _⟩ := registry_occurrence_spec block e2 he2 o2 ho2
    rw [hx1] at hy1
    rw [hx2] at hy2
    simp only [Option.some.injEq] at hy1 hy2
    subst hy1 hy2
    exact separate_entries_of_distinct_keys qsort hq block counter e1 e2 he1 he2 o1 o2 ho1 ho2
      x1 x2 hx1 hx2
      (key_ne_of_differ x1 x2 (constant_of_candidate x1 hc1) (constant_of_candidate x2 hc2) hd)
  · apply apply_cse_unchanged
    rw [show collect_block_candidates example_char_and_int = [] from rfl]
    simp

theorem char_literal_never_shares_temporary_witness :
    QsortContract stable_qsort ∧
    ((∀ (n : Int) (t : TypeKind), t ≠ TypeKind.TYPE_CHAR →
      expr_make_key (.int_literal .TYPE_CHAR n) ≠ expr_make_key (.int_literal t n)) ∧
    (∀ a b : AstExpr, expr_is_constant a = true → expr_is_constant b = true →
      differ_only_in_char_literal a b → expr_make_key a ≠ expr_make_key b) ∧
    (∀ (e1 e2 : CseEntry) (o1 o2 : CseOccurrence) (x1 x2 : AstExpr),
      e1 ∈ collect_block_candidates example_char_operands →
      e2 ∈ collect_block_candidates example_char_operands →
      o1 ∈ e1.occurrences → o2 ∈ e2.occurrences →
      slot_init example_char_operands o1.location = some x1 →
      slot_init example_char_operands o2.location = some x2 →
      differ_only_in_char_literal x1 x2 →
      e1 ≠ e2 ∧ ¬ share_temporary
        (apply_cse_pass stable_qsort example_char_operands
          (collect_block_candidates example_char_operands) 0).mem
        o1.location o2.location) ∧
    apply_cse stable_qsort example_char_and_int (collect_block_candidates example_char_and_int)
      0 = (example_char_and_int, 0)) ∧
    (apply_cse stable_qsort example_char_operands
        (collect_block_candidates example_char_operands) 0).1 =
      [.decl .TYPE_INT "__c2lua_cse_0" (some (.unary .TYPE_INT 0 (.int_literal .TYPE_CHAR 65)))
          false true,
       .assign "a" (.identifier .TYPE_INT "__c2lua_cse_0"),
       .decl .TYPE_INT "__c2lua_cse_1" (some (.unary .TYPE_INT 0 (.int_literal .TYPE_INT 65)))
          false true,
       .assign "b" (.identifier .TYPE_INT "__c2lua_cse_1"),
       .assign "c" (.identifier .TYPE_INT "__c2lua_cse_0"),
       .assign "d" (.identifier .TYPE_INT "__c2lua_cse_1")] :=
  ⟨stable_qsort_contract,
    char_literal_never_shares_temporary stable_qsort stable_qsort_contract
      example_char_operands 0, rfl⟩

/-- C9: swapping the operands of a binary node over constant operands of different keys
changes the key, so that the two nodes lie in different registry entries and never hold
references to one temporary. -/
theorem swapped_operands_never_merged (qsort : Qsort) (hq : QsortContract qsort)
    (block : AstBlock) (counter : Nat) :
    (∀ (t1 t2 : TypeKind) (op : Int) (l r : AstExpr),
      expr_is_constant l = true → expr_is_constant r = true →
      expr_make_key l ≠ expr_make_key r →
      expr_make_key (.binary t1 op l r) ≠ expr_make_key (.binary t2 op r l)) ∧
    (∀ (e1 e2 : CseEntry) (o1 o2 : CseOccurrence) (t1 t2 : TypeKind) (op : Int)
      (l r : AstExpr),
      e1 ∈ collect_block_candidates block → e2 ∈ collect_block_candidates block →
      o1 ∈ e1.occurrences → o2 ∈ e2.occurrences →
      slot_init block o1.location = some (.binary t1 op l r) →
      slot_init block o2.location = some (.binary t2 op r l) →
      expr_make_key l ≠ expr_make_key r →
      e1 ≠ e2 ∧ ¬ share_temporary
        (apply_cse_pass qsort block (collect_block_candidates block) counter).mem
        o1.location o2.location) := by
  refine ⟨key_ne_of_swapped, ?_⟩
  intro e1 e2 o1 o2 t1 t2 op l r he1 he2 ho1 ho2 hx1 hx2 hk
  obtain ⟨y1, hy1, _, hc1, _⟩ := registry_occurrence_spec block e1 he1 o1 ho1
  rw [hx1] at hy1
  simp only [Option.some.injEq] at hy1
  subst hy1
  have hc := constant_of_candidate _ hc1
  simp only [expr_is_constant, Bool.and_eq_true] at hc
  exact separate_entries_of_distinct_keys qsort hq block counter e1 e2 he1 he2 o1 o2 ho1 ho2
    _ _ hx1 hx2 (key_ne_of_swapped t1 t2 op l r hc.1 hc.2 hk)

theorem swapped_operands_never_merged_witness :
    QsortContract stable_qsort ∧
    ((∀ (t1 t2 : TypeKind) (op : Int) (l r : AstExpr),
      expr_is_constant l = true → expr_is_constant r = true →
      expr_make_key l ≠ expr_make_key r →
      expr_make_key (.binary t1 op l r) ≠ expr_make_key (.binary t2 op r l)) ∧
    (∀ (e1 e2 : CseEntry) (o1 o2 : CseOccurrence) (t1 t2 : TypeKind) (op : Int)
      (l r : AstExpr),
      e1 ∈ collect_block_candidates example_swapped_operands →
      e2 ∈ collect_block_candidates example_swapped_operands →
      o1 ∈ e1.occurrences → o2 ∈ e2.occurrences →
      slot_init example_swapped_operands o1.location = some (.binary t1 op l r) →
      slot_init example_swapped_operands o2.location = some (.binary t2 op r l) →
      expr_make_key l ≠ expr_make_key r →
      e1 ≠ e2 ∧ ¬ share_temporary
        (apply_cse_pass stable_qsort example_swapped_operands
          (collect_block_candidates example_swapped_operands) 0).mem
        o1.location o2.location)) ∧
    (apply_cse stable_qsort example_swapped_operands
        (collect_block_candidates example_swapped_operands) 0).1 =
      [.decl .TYPE_INT "__c2lua_cse_0"
          (some (.binary .TYPE_INT 0 (.int_literal .TYPE_INT 1) (.int_literal .TYPE_INT 2)))
          false true,
       .assign "a" (.identifier .TYPE_INT "__c2lua_cse_0"),
       .decl .TYPE_INT "__c2lua_cse_1"
          (some (.binary .TYPE_INT 0 (.int_literal .TYPE_INT 2) (.int_literal .TYPE_INT 1)))
          false true,
       .assign "b" (.identifier .TYPE_INT "__c2lua_cse_1"),
       .assign "c" (.identifier .TYPE_INT "__c2lua_cse_0"),
       .assign "d" (.identifier .TYPE_INT "__c2lua_cse_1")] :=
  ⟨stable_qsort_contract,
    swapped_operands_never_merged stable_qsort stable_qsort_contract
      example_swapped_operands 0, rfl⟩

/-! ## Loop headers -/

theorem load_stmt_loop (mem : Slot → Option AstExpr) (i : Nat) (s : AstStmt)
    (h : is_loop s = true) : load_stmt mem i s = s := by
  cases s <;> simp [is_loop] at h <;> rfl

theorem load_stmt_conditions (mem : Slot → Option AstExpr) (i : Nat) (s : AstStmt) :
    stmt_conditions (load_stmt mem i s) = stmt_conditions s := by
  cases s with
  | decl t name init is_array is_used =>
    cases init <;> cases is_array <;> rfl
  | expr e => cases e <;> rfl
  | return_stmt e => cases e <;> rfl
  | _ => rfl

theorem load_stmt_depth (mem : Slot → Option AstExpr) (i : Nat) (s : AstStmt) :
    stmt_depth (load_stmt mem i s) = stmt_depth s := by
  cases s with
  | decl t name init is_array is_used =>
    cases init <;> cases is_array <;> rfl
  | expr e => cases e <;> rfl
  | return_stmt e => cases e <;> rfl
  | _ => rfl

theorem load_block_conditions (mem : Slot → Option AstExpr) (l : List AstStmt) : ∀ (k : Nat),
    stmt_conditions.block_conditions (load_block mem k l) =
      stmt_conditions.block_conditions l := by
  induction l with
  | nil => intro k; rfl
  | cons s rest ih =>
    intro k
    simp only [load_block, stmt_conditions.block_conditions, load_stmt_conditions, ih]

theorem block_conditions_append (a b : List AstStmt) :
    stmt_conditions.block_conditions (a ++ b) =
      stmt_conditions.block_conditions a ++ stmt_conditions.block_conditions b := by
  induction a with
  | nil => rfl
  | cons s rest ih => simp [stmt_conditions.block_conditions, ih]

theorem snapshot_conditions (block : AstBlock) (mem : Slot → Option AstExpr)
    (refs : List StmtRef) :
    stmt_conditions.block_conditions (refs.filterMap (load_stmt_ref block mem)) =
      stmt_conditions.block_conditions
        ((refs.filter StmtRef.is_parsed).filterMap (load_stmt_ref block mem)) := by
  induction refs with
  | nil => rfl
  | cons r rest ih =>
    cases r with
    | parsed i =>
      simp only [List.filterMap_cons, List.filter_cons, StmtRef.is_parsed, if_true]
      cases h : load_stmt_ref block mem (StmtRef.parsed i) with
      | none => simpa using ih
      | some s => simp [stmt_conditions.block_conditions, ih]
    | synthesized t n init u =>
      simp only [List.filterMap_cons, List.filter_cons, StmtRef.is_parsed, load_stmt_ref]
      simpa [stmt_conditions.block_conditions, stmt_conditions] using ih

theorem apply_cse_conditions (qsort : Qsort) (block : AstBlock) (entries : CseEntryList)
    (c : Nat) :
    stmt_conditions.block_conditions (apply_cse qsort block entries c).1 =
      stmt_conditions.block_conditions block := by
  unfold apply_cse snapshot
  simp only
  rw [snapshot_conditions, apply_cse_pass_filter_parsed, snapshot_parsed, load_block_conditions]

/-! ## The driver: termination and loop conditions -/

theorem stmt_depth_block (b : List AstStmt) :
    stmt_depth (.block b) = stmt_depth.block_depth b + 1 := rfl

theorem stmt_depth_while (c : AstExpr) (body : AstStmt) :
    stmt_depth (.while_stmt c body) = stmt_depth body + 1 := rfl

theorem stmt_depth_for (init post : Option AstStmt) (c : Option AstExpr) (body : AstStmt) :
    stmt_depth (.for_stmt init c post body) =
      max (max (match init with | none => 0 | some s => stmt_depth s)
        (match post with | none => 0 | some s => stmt_depth s)) (stmt_depth body) + 1 := by
  cases init <;> cases post <;> rfl

theorem stmt_depth_pos (s : AstStmt) : 1 ≤ stmt_depth s := by
  cases s with
  | block b => rw [stmt_depth_block]; omega
  | while_stmt c body => rw [stmt_depth_while]; omega
  | for_stmt init c post body => rw [stmt_depth_for]; omega
  | decl _ _ _ _ _ => exact Nat.le_refl 1
  | assign _ _ => exact Nat.le_refl 1
  | array_assign _ _ _ => exact Nat.le_refl 1
  | expr _ => exact Nat.le_refl 1
  | return_stmt _ => exact Nat.le_refl 1

theorem optimize_children_block (qsort : Qsort) (fuel c : Nat) (b : List AstStmt) :
    optimize_statement_children qsort (fuel + 1) c (.block b) =
      match optimize_block qsort fuel c b with
      | none => none
      | some (b1, c1) => some (.block b1, c1) := rfl

theorem optimize_children_while (qsort : Qsort) (fuel c : Nat) (cond : AstExpr)
    (body : AstStmt) :
    optimize_statement_children qsort (fuel + 1) c (.while_stmt cond body) =
      match optimize_statement_children qsort fuel c body with
      | none => none
      | some (body1, c1) => some (.while_stmt cond body1, c1) := rfl

theorem optimize_children_for (qsort : Qsort) (fuel c : Nat) (init post : Option AstStmt)
    (cond : Option AstExpr) (body : AstStmt) :
    optimize_statement_children qsort (fuel + 1) c (.for_stmt init cond post body) =
      match optimize_optional (optimize_statement_children qsort fuel) c init with
      | none => none
      | some (init1, c1) =>
        match optimize_statement_children qsort fuel c1 body with
        | none => none
        | some (body1, c2) =>
          match optimize_optional (optimize_statement_children qsort fuel) c2 post with
          | none => none
          | some (post1, c3) => some (.for_stmt init1 cond post1 body1, c3) := rfl

theorem optimize_children_other (qsort : Qsort) (fuel c : Nat) (s : AstStmt)
    (h1 : is_loop s = false) (h2 : s.kind ≠ StmtKind.STMT_BLOCK) :
    optimize_statement_children qsort (fuel + 1) c s = some (s, c) := by
  cases s with
  | block b => exact absurd rfl h2
  | while_stmt cond body => simp [is_loop] at h1
  | for_stmt init cond post body => simp [is_loop] at h1
  | decl _ _ _ _ _ => rfl
  | assign _ _ => rfl
  | array_assign _ _ _ => rfl
  | expr _ => rfl
  | return_stmt _ => rfl

theorem optimize_block_succ (qsort : Qsort) (fuel c : Nat) (b : AstBlock) :
    optimize_block qsort (fuel + 1) c b =
      match optimize_each (optimize_statement_children qsort fuel)
        (apply_cse qsort b (collect_block_candidates b) c).2
        (apply_cse qsort b (collect_block_candidates b) c).1 with
      | none => none
      | some (statements, c1) => some (eliminate_unreachable statements, c1) := rfl

theorem block_depth_le_iff (l : List AstStmt) (d : Nat) :
    stmt_depth.block_depth l ≤ d ↔ 2 ≤ d ∧ ∀ s ∈ l, stmt_depth s + 1 ≤ d := by
  induction l with
  | nil => simp [stmt_depth.block_depth]
  | cons s rest ih =>
    simp only [stmt_depth.block_depth, Nat.max_le, ih, List.mem_cons, forall_eq_or_imp]
    constructor
    · rintro ⟨h1, h2, h3⟩
      exact ⟨h2, h1, h3⟩
    · rintro ⟨h1, h2, h3⟩
      exact ⟨h2, h1, h3⟩

theorem apply_cse_depth (qsort : Qsort) (block : AstBlock) (entries : CseEntryList) (c : Nat) :
    stmt_depth.block_depth (apply_cse qsort block entries c).1 ≤ stmt_depth.block_depth block := by
  have hb := (block_depth_le_iff block (stmt_depth.block_depth block)).mp (Nat.le_refl _)
  rw [block_depth_le_iff]
  refine ⟨hb.1, ?_⟩
  intro s hs
  unfold apply_cse snapshot at hs
  simp only [List.mem_filterMap] at hs
  obtain ⟨r, _, hr⟩ := hs
  cases r with
  | parsed i =>
    simp only [load_stmt_ref, Option.map_eq_some'] at hr
    obtain ⟨s0, hs0, rfl⟩ := hr
    rw [load_stmt_depth]
    exact hb.2 s0 (List.getElem?_mem hs0)
  | synthesized t n init u =>
    simp only [load_stmt_ref, Option.some.injEq] at hr
    subst hr
    exact hb.1

theorem optimize_each_isSome (f : Nat → AstStmt → Option (AstStmt × Nat)) (l : List AstStmt)
    (h : ∀ s ∈ l, ∀ c, (f c s).isSome = true) : ∀ c, (optimize_each f c l).isSome = true := by
  induction l with
  | nil => intro c; rfl
  | cons s rest ih =>
    intro c
    obtain ⟨⟨s1, c1⟩, hf⟩ := Option.isSome_iff_exists.mp (h s (List.mem_cons_self _ _) c)
    obtain ⟨⟨rest1, c2⟩, hr⟩ := Option.isSome_iff_exists.mp
      (ih (fun x hx => h x (List.mem_cons_of_mem _ hx)) c1)
    simp [optimize_each, hf, hr]

theorem optimize_optional_isSome (f : Nat → AstStmt → Option (AstStmt × Nat))
    (o : Option AstStmt) (h : ∀ s, o = some s → ∀ c, (f c s).isSome = true) :
    ∀ c, (optimize_optional f c o).isSome = true := by
  intro c
  cases o with
  | none => rfl
  | some s =>
    obtain ⟨⟨s1, c1⟩, hf⟩ := Option.isSome_iff_exists.mp (h s rfl c)
    simp [optimize_optional, hf]

theorem optimize_terminates (qsort : Qsort) : ∀ (fuel : Nat),
    (∀ (c : Nat) (b : AstBlock), stmt_depth.block_depth b ≤ fuel →
      (optimize_block qsort fuel c b).isSome = true) ∧
    (∀ (c : Nat) (s : AstStmt), stmt_depth s ≤ fuel →
      (optimize_statement_children qsort fuel c s).isSome = true) := by
  intro fuel
  induction fuel with
  | zero =>
    constructor
    · intro c b h
      have := ((block_depth_le_iff b 0).mp h).1
      omega
    · intro c s h
      have := stmt_depth_pos s
      omega
  | succ fuel ih =>
    constructor
    · intro c b h
      have hd := Nat.le_trans (apply_cse_depth qsort b (collect_block_candidates b) c) h
      have hall := ((block_depth_le_iff _ _).mp hd).2
      obtain ⟨⟨l1, c1⟩, hr⟩ := Option.isSome_iff_exists.mp
        (optimize_each_isSome (optimize_statement_children qsort fuel)
          (apply_cse qsort b (collect_block_candidates b) c).1
          (fun s hs c1 => ih.2 c1 s (by have := hall s hs; omega))
          (apply_cse qsort b (collect_block_candidates b) c).2)
      rw [optimize_block_succ, hr]
      rfl
    · intro c s h
      cases s with
      | block b =>
        rw [stmt_depth_block] at h
        obtain ⟨⟨b1, c1⟩, hr⟩ := Option.isSome_iff_exists.mp (ih.1 c b (by omega))
        rw [optimize_children_block, hr]
        rfl
      | while_stmt cond body =>
        rw [stmt_depth_while] at h
        obtain ⟨⟨b1, c1⟩, hr⟩ := Option.isSome_iff_exists.mp (ih.2 c body (by omega))
        rw [optimize_children_while, hr]
        rfl
      | for_stmt init cond post body =>
        rw [stmt_depth_for] at h
        obtain ⟨⟨init1, c1⟩, h1⟩ := Option.isSome_iff_exists.mp
          (optimize_optional_isSome (optimize_statement_children qsort fuel) init
            (fun s hs c1 => ih.2 c1 s (by subst hs; simp only at h; omega)) c)
        obtain ⟨⟨body1, c2⟩, h2⟩ := Option.isSome_iff_exists.mp (ih.2 c1 body (by omega))
        obtain ⟨⟨post1, c3⟩, h3⟩ := Option.isSome_iff_exists.mp
          (optimize_optional_isSome (optimize_statement_children qsort fuel) post
            (fun s hs c1 => ih.2 c1 s (by subst hs; simp only at h; omega)) c2)
        rw [optimize_children_for, h1]
        simp only
        rw [h2]
        simp only
        rw [h3]
        rfl
      | decl _ _ _ _ _ => rfl
      | assign _ _ => rfl
      | array_assign _ _ _ => rfl
      | expr _ => rfl
      | return_stmt _ => rfl

theorem stmt_conditions_while (c : AstExpr) (body : AstStmt) :
    stmt_conditions (.while_stmt c body) = some c :: stmt_conditions body := rfl

theorem stmt_conditions_for (init post : Option AstStmt) (c : Option AstExpr) (body : AstStmt) :
    stmt_conditions (.for_stmt init c post body) =
      c :: (optional_conditions init ++ stmt_conditions body ++ optional_conditions post) := by
  cases init <;> cases post <;> rfl

theorem stmt_conditions_block (b : List AstStmt) :
    stmt_conditions (.block b) = stmt_conditions.block_conditions b := rfl

theorem eliminate_unreachable_conditions (l : List AstStmt) :
    (stmt_conditions.block_conditions (eliminate_unreachable l)).Sublist
      (stmt_conditions.block_conditions l) := by
  unfold eliminate_unreachable
  rw [eliminate_unreachable_loop_false]
  have := block_conditions_append (l.take (l.findIdx is_return + 1))
    (l.drop (l.findIdx is_return + 1))
  rw [List.take_append_drop] at this
  rw [this]
  exact List.sublist_append_left _ _

theorem optimize_each_conditions (f : Nat → AstStmt → Option (AstStmt × Nat))
    (l : List AstStmt)
    (h : ∀ s ∈ l, ∀ c r, f c s = some r → (stmt_conditions r.1).Sublist (stmt_conditions s)) :
    ∀ c r, optimize_each f c l = some r →
      (stmt_conditions.block_conditions r.1).Sublist (stmt_conditions.block_conditions l) := by
  induction l with
  | nil =>
    intro c r hr
    simp only [optimize_each, Option.some.injEq] at hr
    subst hr
    exact List.Sublist.refl _
  | cons s rest ih =>
    intro c r hr
    unfold optimize_each at hr
    cases hf : f c s with
    | none => rw [hf] at hr; simp at hr
    | some r1 =>
      obtain ⟨s1, c1⟩ := r1
      rw [hf] at hr
      simp only at hr
      cases hrest : optimize_each f c1 rest with
      | none => rw [hrest] at hr; simp at hr
      | some r2 =>
        obtain ⟨rest1, c2⟩ := r2
        rw [hrest] at hr
        simp only [Option.some.injEq] at hr
        subst hr
        simp only [stmt_conditions.block_conditions]
        exact List.Sublist.append (h s (List.mem_cons_self _ _) c _ hf)
          (ih (fun x hx => h x (List.mem_cons_of_mem _ hx)) c1 _ hrest)

theorem optimize_optional_conditions (f : Nat → AstStmt → Option (AstStmt × Nat))
    (o : Option AstStmt)
    (h : ∀ s, o = some s → ∀ c r, f c s = some r →
      (stmt_conditions r.1).Sublist (stmt_conditions s)) :
    ∀ c r, optimize_optional f c o = some r →
      (optional_conditions r.1).Sublist (optional_conditions o) := by
  intro c r hr
  cases o with
  | none =>
    simp only [optimize_optional, Option.some.injEq] at hr
    subst hr
    exact List.Sublist.refl _
  | some s =>
    cases hf : f c s with
    | none => simp [optimize_optional, hf] at hr
    | some r1 =>
      obtain ⟨s1, c1⟩ := r1
      simp only [optimize_optional, hf, Option.some.injEq] at hr
      subst hr
      exact h s rfl c _ hf

theorem optimize_conditions (qsort : Qsort) : ∀ (fuel : Nat),
    (∀ (c : Nat) (b : AstBlock) (r : AstBlock × Nat), optimize_block qsort fuel c b = some r →
      (stmt_conditions.block_conditions r.1).Sublist (stmt_conditions.block_conditions b)) ∧
    (∀ (c : Nat) (s : AstStmt) (r : AstStmt × Nat),
      optimize_statement_children qsort fuel c s = some r →
      (stmt_conditions r.1).Sublist (stmt_conditions s)) := by
  intro fuel
  induction fuel with
  | zero =>
    constructor
    · intro c b r h
      simp [optimize_block] at h
    · intro c s r h
      simp [optimize_statement_children] at h
  | succ fuel ih =>
    constructor
    · intro c b r h
      rw [optimize_block_succ] at h
      cases hr : optimize_each (optimize_statement_children qsort fuel)
          (apply_cse qsort b (collect_block_candidates b) c).2
          (apply_cse qsort b (collect_block_candidates b) c).1 with
      | none => rw [hr] at h; simp at h
      | some r1 =>
        obtain ⟨l1, c1⟩ := r1
        rw [hr] at h
        simp only [Option.some.injEq] at h
        subst h
        have h1 := optimize_each_conditions (optimize_statement_children qsort fuel) _
          (fun s _ c r hs => ih.2 c s r hs) _ _ hr
        rw [apply_cse_conditions] at h1
        exact (eliminate_unreachable_conditions l1).trans h1
    · intro c s r h
      cases s with
      | block b =>
        rw [optimize_children_block] at h
        cases hr : optimize_block qsort fuel c b with
        | none => rw [hr] at h; simp at h
        | some r1 =>
          obtain ⟨b1, c1⟩ := r1
          rw [hr] at h
          simp only [Option.some.injEq] at h
          subst h
          exact ih.1 c b _ hr
      | while_stmt cond body =>
        rw [optimize_children_while] at h
        cases hr : optimize_statement_children qsort fuel c body with
        | none => rw [hr] at h; simp at h
        | some r1 =>
          obtain ⟨b1, c1⟩ := r1
          rw [hr] at h
          simp only [Option.some.injEq] at h
          subst h
          rw [stmt_conditions_while, stmt_conditions_while]
          exact List.Sublist.cons₂ _ (ih.2 c body _ hr)
      | for_stmt init cond post body =>
        rw [optimize_children_for] at h
        cases h1 : optimize_optional (optimize_statement_children qsort fuel) c init with
        | none => rw [h1] at h; simp at h
        | some r1 =>
          obtain ⟨init1, c1⟩ := r1
          rw [h1] at h
          simp only at h
          cases h2 : optimize_statement_children qsort fuel c1 body with
          | none => rw [h2] at h; simp at h
          | some r2 =>
            obtain ⟨body1, c2⟩ := r2
            rw [h2] at h
            simp only at h
            cases h3 : optimize_optional (optimize_statement_children qsort fuel) c2 post with
            | none => rw [h3] at h; simp at h
            | some r3 =>
              obtain ⟨post1, c3⟩ := r3
              rw [h3] at h
              simp only [Option.some.injEq] at h
              subst h
              rw [stmt_conditions_for, stmt_conditions_for]
              refine List.Sublist.cons₂ _ (List.Sublist.append (List.Sublist.append ?_ ?_) ?_)
              · exact optimize_optional_conditions _ init
                  (fun s _ c r hs => ih.2 c s r hs) c _ h1
              · exact ih.2 c1 body _ h2
              · exact optimize_optional_conditions _ post
                  (fun s _ c r hs => ih.2 c s r hs) c2 _ h3
      | decl t n i a u =>
        have h2 : some (AstStmt.decl t n i a u, c) = some r := h
        injection h2 with h2
        subst h2
        exact List.Sublist.refl _
      | assign t v =>
        have h2 : some (AstStmt.assign t v, c) = some r := h
        injection h2 with h2
        subst h2
        exact List.Sublist.refl _
      | array_assign a i v =>
        have h2 : some (AstStmt.array_assign a i v, c) = some r := h
        injection h2 with h2
        subst h2
        exact List.Sublist.refl _
      | expr e =>
        have h2 : some (AstStmt.expr e, c) = some r := h
        injection h2 with h2
        subst h2
        exact List.Sublist.refl _
      | return_stmt e =>
        have h2 : some (AstStmt.return_stmt e, c) = some r := h
        injection h2 with h2
        subst h2
        exact List.Sublist.refl _

theorem program_depth_le (fns : List AstFunction) (fn : AstFunction) (h : fn ∈ fns) :
    stmt_depth.block_depth fn.body ≤
      (fns.map (fun fn => stmt_depth.block_depth fn.body)).foldr max 0 := by
  induction fns with
  | nil => simp at h
  | cons f rest ih =>
    simp only [List.map_cons, List.foldr_cons]
    rcases List.mem_cons.mp h with rfl | h
    · exact Nat.le_max_left _ _
    · exact Nat.le_trans (ih h) (Nat.le_max_right _ _)

theorem optimize_functions_spec (qsort : Qsort) (fuel : Nat) (fns : List AstFunction)
    (h : ∀ fn ∈ fns, stmt_depth.block_depth fn.body ≤ fuel) :
    ∀ c, ∃ r, optimize_functions qsort fuel c fns = some r ∧
      (r.1.flatMap (fun fn => stmt_conditions.block_conditions fn.body)).Sublist
        (fns.flatMap (fun fn => stmt_conditions.block_conditions fn.body)) := by
  induction fns with
  | nil => intro c; exact ⟨([], c), rfl, List.Sublist.refl _⟩
  | cons fn rest ih =>
    intro c
    obtain ⟨⟨b1, c1⟩, hb⟩ := Option.isSome_iff_exists.mp
      ((optimize_terminates qsort fuel).1 c fn.body (h fn (List.mem_cons_self _ _)))
    obtain ⟨⟨rest1, c2⟩, hr, hsub⟩ := ih (fun x hx => h x (List.mem_cons_of_mem _ hx)) c1
    refine ⟨(⟨fn.name, fn.params, fn.return_type, b1⟩ :: rest1, c2), ?_, ?_⟩
    · simp [optimize_functions, optimize_function, hb, hr]
    · simp only [List.flatMap_cons]
      exact List.Sublist.append ((optimize_conditions qsort fuel).1 c fn.body _ hb) hsub

theorem registry_owner_not_loop (block : AstBlock) (e : CseEntry)
    (he : e ∈ collect_block_candidates block) (o : CseOccurrence) (ho : o ∈ e.occurrences) :
    is_loop o.stmt = false ∧ block[o.location.stmt]? = some o.stmt := by
  obtain ⟨v, hv, _, rfl⟩ := registry_occurrence_visit block e he o ho
  obtain ⟨_, h2, h3, _, root, h5, _⟩ := block_visits_spec block 0 v hv
  refine ⟨?_, by simpa [Visit.occurrence, h2] using h3⟩
  simp only [Visit.occurrence]
  cases hs : v.owner <;> simp [hs, stmt_slot, is_loop] at h5 ⊢

/-- C10: the collector never scans the condition of a `while` or `for` statement: such a
statement adds nothing to a registry, no occurrence is owned by one, `apply_cse` leaves it
as it is, `optimize_statement_children` hands its condition on unchanged, and the loop
conditions of the optimized program are conditions of the program as it was, in their
order. -/
theorem loop_conditions_untouched (qsort : Qsort) (fuel counter : Nat) (program : AstProgram)
    (h : program_depth program ≤ fuel) :
    (∀ (stmt : AstStmt) (i : Nat) (entries : CseEntryList), is_loop stmt = true →
      collect_statement_candidates stmt i entries = entries) ∧
    (∀ (block : AstBlock) (e : CseEntry) (o : CseOccurrence),
      e ∈ collect_block_candidates block → o ∈ e.occurrences →
      is_loop o.stmt = false ∧ block[o.location.stmt]? = some o.stmt) ∧
    (∀ (block : AstBlock) (entries : CseEntryList) (c i : Nat) (s : AstStmt),
      block[i]? = some s → is_loop s = true →
      (pre_existing block (apply_cse_pass qsort block entries c))[i]? = some s) ∧
    (∀ (n c : Nat) (cond : AstExpr) (body : AstStmt) (r : AstStmt × Nat),
      optimize_statement_children qsort n c (.while_stmt cond body) = some r →
      ∃ body1, r.1 = .while_stmt cond body1) ∧
    (∀ (n c : Nat) (init post : Option AstStmt) (cond : Option AstExpr) (body : AstStmt)
      (r : AstStmt × Nat),
      optimize_statement_children qsort n c (.for_stmt init cond post body) = some r →
      ∃ init1 post1 body1, r.1 = .for_stmt init1 cond post1 body1) ∧
    ∃ r, optimize_program qsort fuel counter program = some r ∧
      (program_conditions r.1).Sublist (program_conditions program) := by
  refine ⟨?_, ?_, ?_, ?_, ?_, ?_⟩
  · intro stmt i entries hl
    cases stmt <;> simp [is_loop] at hl <;> rfl
  · intro block e o he ho
    exact registry_owner_not_loop block e he o ho
  · intro block entries c i s hs hl
    rw [pre_existing_eq, load_block_getElem, hs]
    simp [load_stmt_loop _ _ s hl]
  · intro n c cond body r hr
    cases n with
    | zero => simp [optimize_statement_children] at hr
    | succ n =>
      rw [optimize_children_while] at hr
      cases hb : optimize_statement_children qsort n c body with
      | none => rw [hb] at hr; simp at hr
      | some r1 =>
        rw [hb] at hr
        simp only [Option.some.injEq] at hr
        subst hr
        exact ⟨r1.1, rfl⟩
  · intro n c init post cond body r hr
    cases n with
    | zero => simp [optimize_statement_children] at hr
    | succ n =>
      rw [optimize_children_for] at hr
      cases h1 : optimize_optional (optimize_statement_children qsort n) c init with
      | none => rw [h1] at hr; simp at hr
      | some r1 =>
        rw [h1] at hr
        simp only at hr
        cases h2 : optimize_statement_children qsort n r1.2 body with
        | none => rw [h2] at hr; simp at hr
        | some r2 =>
          rw [h2] at hr
          simp only at hr
          cases h3 : optimize_optional (optimize_statement_children qsort n) r2.2 post with
          | none => rw [h3] at hr; simp at hr
          | some r3 =>
            rw [h3] at hr
            simp only [Option.some.injEq] at hr
            subst hr
            exact ⟨r1.1, r3.1, r2.1, rfl⟩
  · obtain ⟨⟨fns, c1⟩, hr, hsub⟩ := optimize_functions_spec qsort fuel program.functions
      (fun fn hfn => Nat.le_trans (program_depth_le _ fn hfn) h) counter
    exact ⟨(⟨fns⟩, c1), by simp [optimize_program, hr], hsub⟩

theorem loop_conditions_untouched_witness :
    program_depth example_loop_program ≤ 5 ∧
    optimize_program stable_qsort 5 0 example_loop_program =
      some (example_loop_program_optimized, 1) ∧
    ((∀ (stmt : AstStmt) (i : Nat) (entries : CseEntryList), is_loop stmt = true →
      collect_statement_candidates stmt i entries = entries) ∧
    (∀ (block : AstBlock) (e : CseEntry) (o : CseOccurrence),
      e ∈ collect_block_candidates block → o ∈ e.occurrences →
      is_loop o.stmt = false ∧ block[o.location.stmt]? = some o.stmt) ∧
    (∀ (block : AstBlock) (entries : CseEntryList) (c i : Nat) (s : AstStmt),
      block[i]? = some s → is_loop s = true →
      (pre_existing block (apply_cse_pass stable_qsort block entries c))[i]? = some s) ∧
    (∀ (n c : Nat) (cond : AstExpr) (body : AstStmt) (r : AstStmt × Nat),
      optimize_statement_children stable_qsort n c (.while_stmt cond body) = some r →
      ∃ body1, r.1 = .while_stmt cond body1) ∧
    (∀ (n c : Nat) (init post : Option AstStmt) (cond : Option AstExpr) (body : AstStmt)
      (r : AstStmt × Nat),
      optimize_statement_children stable_qsort n c (.for_stmt init cond post body) = some r →
      ∃ init1 post1 body1, r.1 = .for_stmt init1 cond post1 body1) ∧
    ∃ r, optimize_program stable_qsort 5 0 example_loop_program = some r ∧
      (program_conditions r.1).Sublist (program_conditions example_loop_program)) :=
  ⟨by decide, rfl, loop_conditions_untouched stable_qsort 5 0 example_loop_program (by decide)⟩

/-! ## The pass as a whole -/

theorem example_two_floats_apply_cse (qsort : Qsort) (hq : QsortContract qsort) :
    apply_cse qsort example_two_floats (collect_block_candidates example_two_floats) 0 =
      (example_two_floats_optimized, 1) := by
  have hreg : (collect_block_candidates example_two_floats).filter
      (fun e => 2 ≤ e.occurrences.length) =
      [⟨"U:0:F:1", .TYPE_FLOAT, 0,
        [⟨⟨0, []⟩, 0, .assign "x" (.unary .TYPE_FLOAT 0
            (.float_literal .TYPE_FLOAT double_1_0000001))⟩,
         ⟨⟨1, []⟩, 1, .assign "y" (.unary .TYPE_FLOAT 0
            (.float_literal .TYPE_FLOAT double_1_0000002))⟩]⟩] := by
    rfl
  unfold apply_cse
  rw [apply_cse_pass_eq qsort hq]
  unfold select_entries
  rw [hreg, qsort_singleton qsort hq]
  rfl

/-- C1 fails on the code: in `x = -1.0000001; y = -1.0000002;` the two operands print
alike under `%g`, the two expressions get one key and one temporary, and `y` is assigned
the value computed for `x`, whatever order `qsort` leaves ties in. -/
theorem optimize_block_merges_distinct_floats (qsort : Qsort) (hq : QsortContract qsort) :
    optimize_block qsort 2 0 example_two_floats = some (example_two_floats_optimized, 1) ∧
    double_1_0000001 ≠ double_1_0000002 := by
  refine ⟨?_, by decide⟩
  rw [optimize_block_succ, example_two_floats_apply_cse qsort hq]
  rfl

theorem optimize_block_merges_distinct_floats_witness :
    QsortContract stable_qsort ∧
    (optimize_block stable_qsort 2 0 example_two_floats =
        some (example_two_floats_optimized, 1) ∧
      double_1_0000001 ≠ double_1_0000002) ∧
    QsortContract reversing_qsort ∧
    optimize_block reversing_qsort 2 0 example_nested = some (example_nested_reversed, 2) :=
  ⟨stable_qsort_contract,
    optimize_block_merges_distinct_floats stable_qsort stable_qsort_contract,
    reversing_qsort_contract, rfl⟩

/-! ## Temporary names -/

theorem synthesized_names_parsed (l : List Nat) (rest : List StmtRef) :
    synthesized_names (l.map StmtRef.parsed ++ rest) = synthesized_names rest := by
  induction l with
  | nil => rfl
  | cons i l ih => simpa [synthesized_names] using ih

theorem synthesized_names_layout (n : Nat) : ∀ (sel : List CseEntry) (c g : Nat),
    synthesized_names (layout n g (temp_decls c sel)) =
      (List.range' c sel.length).map make_temp_name := by
  intro sel
  induction sel with
  | nil =>
    intro c g
    have := synthesized_names_parsed (List.range' g (n - g)) []
    simpa [layout, temp_decls, synthesized_names] using this
  | cons e rest ih =>
    intro c g
    simp only [temp_decls, layout, synthesized_names_parsed, temp_decl, synthesized_names,
      List.length_cons, List.range'_succ, List.map_cons]
    rw [ih]

theorem temp_names_between_self (c : Nat) : temp_names_between c c = [] := by
  simp [temp_names_between]

theorem temp_names_between_append (c c1 c2 : Nat) (h1 : c ≤ c1) (h2 : c1 ≤ c2) :
    temp_names_between c c1 ++ temp_names_between c1 c2 = temp_names_between c c2 := by
  unfold temp_names_between
  rw [← List.map_append]
  congr 1
  have := List.range'_append_1 c (c1 - c) (c2 - c1)
  rw [show c + (c1 - c) = c1 by omega] at this
  rw [this]
  congr 1
  omega

theorem apply_cse_names (qsort : Qsort) (hq : QsortContract qsort) (block : AstBlock)
    (c : Nat) :
    c ≤ (apply_cse_pass qsort block (collect_block_candidates block) c).counter ∧
    synthesized_names (apply_cse_pass qsort block (collect_block_candidates block) c).statements =
      temp_names_between c (apply_cse_pass qsort block (collect_block_candidates block) c).counter := by
  rw [apply_cse_pass_eq qsort hq]
  simp only [synthesized_names_layout, temp_names_between]
  refine ⟨by omega, ?_⟩
  congr 2
  omega

theorem block_temp_names_succ (qsort : Qsort) (fuel c : Nat) (b : AstBlock) :
    block_temp_names qsort (fuel + 1) c b =
      synthesized_names (apply_cse_pass qsort b (collect_block_candidates b) c).statements ++
        names_each (optimize_statement_children qsort fuel) (children_temp_names qsort fuel)
          (apply_cse qsort b (collect_block_candidates b) c).2
          (apply_cse qsort b (collect_block_candidates b) c).1 := rfl

theorem children_temp_names_block (qsort : Qsort) (fuel c : Nat) (b : List AstStmt) :
    children_temp_names qsort (fuel + 1) c (.block b) = block_temp_names qsort fuel c b := rfl

theorem children_temp_names_while (qsort : Qsort) (fuel c : Nat) (cond : AstExpr)
    (body : AstStmt) :
    children_temp_names qsort (fuel + 1) c (.while_stmt cond body) =
      children_temp_names qsort fuel c body := rfl

theorem children_temp_names_for (qsort : Qsort) (fuel c : Nat) (init post : Option AstStmt)
    (cond : Option AstExpr) (body : AstStmt) :
    children_temp_names qsort (fuel + 1) c (.for_stmt init cond post body) =
      names_optional (children_temp_names qsort fuel) c init ++
        match optimize_optional (optimize_statement_children qsort fuel) c init with
        | none => []
        | some (_, c1) =>
          children_temp_names qsort fuel c1 body ++
            match optimize_statement_children qsort fuel c1 body with
            | none => []
            | some (_, c2) => names_optional (children_temp_names qsort fuel) c2 post := rfl

theorem children_temp_names_other (qsort : Qsort) (fuel c : Nat) (s : AstStmt)
    (h1 : is_loop s = false) (h2 : s.kind ≠ StmtKind.STMT_BLOCK) :
    children_temp_names qsort (fuel + 1) c s = [] := by
  cases s with
  | block b => exact absurd rfl h2
  | while_stmt cond body => simp [is_loop] at h1
  | for_stmt init cond post body => simp [is_loop] at h1
  | decl _ _ _ _ _ => rfl
  | assign _ _ => rfl
  | array_assign _ _ _ => rfl
  | expr _ => rfl
  | return_stmt _ => rfl

theorem names_each_spec (f : Nat → AstStmt → Option (AstStmt × Nat))
    (g : Nat → AstStmt → List String) (l : List AstStmt)
    (h : ∀ s ∈ l, ∀ c r, f c s = some r → c ≤ r.2 ∧ g c s = temp_names_between c r.2) :
    ∀ c r, optimize_each f c l = some r →
      c ≤ r.2 ∧ names_each f g c l = temp_names_between c r.2 := by
  induction l with
  | nil =>
    intro c r hr
    simp only [optimize_each, Option.some.injEq] at hr
    subst hr
    exact ⟨Nat.le_refl _, by simp [names_each, temp_names_between_self]⟩
  | cons s rest ih =>
    intro c r hr
    unfold optimize_each at hr
    cases hf : f c s with
    | none => rw [hf] at hr; simp at hr
    | some r1 =>
      obtain ⟨s1, c1⟩ := r1
      rw [hf] at hr
      simp only at hr
      cases hrest : optimize_each f c1 rest with
      | none => rw [hrest] at hr; simp at hr
      | some r2 =>
        obtain ⟨rest1, c2⟩ := r2
        rw [hrest] at hr
        simp only [Option.some.injEq] at hr
        subst hr
        obtain ⟨a1, a2⟩ := h s (List.mem_cons_self _ _) c _ hf
        obtain ⟨b1, b2⟩ := ih (fun x hx => h x (List.mem_cons_of_mem _ hx)) c1 _ hrest
        simp only at a1 a2 b1 b2 ⊢
        refine ⟨Nat.le_trans a1 b1, ?_⟩
        simp only [names_each, hf, a2, b2]
        exact temp_names_between_append c c1 c2 a1 b1

theorem names_optional_spec (f : Nat → AstStmt → Option (AstStmt × Nat))
    (g : Nat → AstStmt → List String) (o : Option AstStmt)
    (h : ∀ s, o = some s → ∀ c r, f c s = some r → c ≤ r.2 ∧ g c s = temp_names_between c r.2) :
    ∀ c r, optimize_optional f c o = some r →
      c ≤ r.2 ∧ names_optional g c o = temp_names_between c r.2 := by
  intro c r hr
  cases o with
  | none =>
    simp only [optimize_optional, Option.some.injEq] at hr
    subst hr
    exact ⟨Nat.le_refl _, by simp [names_optional, temp_names_between_self]⟩
  | some s =>
    cases hf : f c s with
    | none => simp [optimize_optional, hf] at hr
    | some r1 =>
      obtain ⟨s1, c1⟩ := r1
      simp only [optimize_optional, hf, Option.some.injEq] at hr
      subst hr
      exact h s rfl c _ hf

theorem optimize_names (qsort : Qsort) (hq : QsortContract qsort) : ∀ (fuel : Nat),
    (∀ (c : Nat) (b : AstBlock) (r : AstBlock × Nat), optimize_block qsort fuel c b = some r →
      c ≤ r.2 ∧ block_temp_names qsort fuel c b = temp_names_between c r.2) ∧
    (∀ (c : Nat) (s : AstStmt) (r : AstStmt × Nat),
      optimize_statement_children qsort fuel c s = some r →
      c ≤ r.2 ∧ children_temp_names qsort fuel c s = temp_names_between c r.2) := by
  intro fuel
  induction fuel with
  | zero =>
    constructor
    · intro c b r h
      simp [optimize_block] at h
    · intro c s r h
      simp [optimize_statement_children] at h
  | succ fuel ih =>
    constructor
    · intro c b r h
      rw [optimize_block_succ] at h
      cases hr : optimize_each (optimize_statement_children qsort fuel)
          (apply_cse qsort b (collect_block_candidates b) c).2
          (apply_cse qsort b (collect_block_candidates b) c).1 with
      | none => rw [hr] at h; simp at h
      | some r1 =>
        obtain ⟨l1, c1⟩ := r1
        rw [hr] at h
        simp only [Option.some.injEq] at h
        subst h
        obtain ⟨a1, a2⟩ := names_each_spec (optimize_statement_children qsort fuel)
          (children_temp_names qsort fuel) _ (fun s _ c r hs => ih.2 c s r hs) _ _ hr
        obtain ⟨b1, b2⟩ := apply_cse_names qsort hq b c
        simp only at a1 a2 ⊢
        refine ⟨Nat.le_trans b1 a1, ?_⟩
        rw [block_temp_names_succ, a2, b2]
        exact temp_names_between_append _ _ _ b1 a1
    · intro c s r h
      cases s with
      | block b =>
        rw [optimize_children_block] at h
        cases hr : optimize_block qsort fuel c b with
        | none => rw [hr] at h; simp at h
        | some r1 =>
          obtain ⟨b1, c1⟩ := r1
          rw [hr] at h
          simp only [Option.some.injEq] at h
          subst h
          rw [children_temp_names_block]
          exact ih.1 c b (b1, c1) hr
      | while_stmt cond body =>
        rw [optimize_children_while] at h
        cases hr : optimize_statement_children qsort fuel c body with
        | none => rw [hr] at h; simp at h
        | some r1 =>
          obtain ⟨b1, c1⟩ := r1
          rw [hr] at h
          simp only [Option.some.injEq] at h
          subst h
          rw [children_temp_names_while]
          exact ih.2 c body (b1, c1) hr
      | for_stmt init cond post body =>
        rw [optimize_children_for] at h
        cases h1 : optimize_optional (optimize_statement_children qsort fuel) c init with
        | none => rw [h1] at h; simp at h
        | some r1 =>
          obtain ⟨init1, c1⟩ := r1
          rw [h1] at h
          simp only at h
          cases h2 : optimize_statement_children qsort fuel c1 body with
          | none => rw [h2] at h; simp at h
          | some r2 =>
            obtain ⟨body1, c2⟩ := r2
            rw [h2] at h
            simp only at h
            cases h3 : optimize_optional (optimize_statement_children qsort fuel) c2 post with
            | none => rw [h3] at h; simp at h
            | some r3 =>
              obtain ⟨post1, c3⟩ := r3
              rw [h3] at h
              simp only [Option.some.injEq] at h
              subst h
              obtain ⟨a1, a2⟩ := names_optional_spec _ (children_temp_names qsort fuel) init
                (fun s _ c r hs => ih.2 c s r hs) c _ h1
              obtain ⟨b1, b2⟩ := ih.2 c1 body _ h2
              obtain ⟨d1, d2⟩ := names_optional_spec _ (children_temp_names qsort fuel) post
                (fun s _ c r hs => ih.2 c s r hs) c2 _ h3
              simp only at a1 a2 b1 b2 d1 d2 ⊢
              refine ⟨by omega, ?_⟩
              rw [children_temp_names_for, h1]
              simp only
              rw [h2]
              simp only
              rw [a2, b2, d2, temp_names_between_append c1 c2 c3 b1 d1,
                temp_names_between_append c c1 c3 a1 (by omega)]
      | decl t n i a u =>
        have h2 : some (AstStmt.decl t n i a u, c) = some r := h
        injection h2 with h2
        subst h2
        exact ⟨Nat.le_refl _, by rw [temp_names_between_self]; rfl⟩
      | assign t v =>
        have h2 : some (AstStmt.assign t v, c) = some r := h
        injection h2 with h2
        subst h2
        exact ⟨Nat.le_refl _, by rw [temp_names_between_self]; rfl⟩
      | array_assign a i v =>
        have h2 : some (AstStmt.array_assign a i v, c) = some r := h
        injection h2 with h2
        subst h2
        exact ⟨Nat.le_refl _, by rw [temp_names_between_self]; rfl⟩
      | expr e =>
        have h2 : some (AstStmt.expr e, c) = some r := h
        injection h2 with h2
        subst h2
        exact ⟨Nat.le_refl _, by rw [temp_names_between_self]; rfl⟩
      | return_stmt e =>
        have h2 : some (AstStmt.return_stmt e, c) = some r := h
        injection h2 with h2
        subst h2
        exact ⟨Nat.le_refl _, by rw [temp_names_between_self]; rfl⟩

theorem functions_names (qsort : Qsort) (hq : QsortContract qsort) (fuel : Nat)
    (fns : List AstFunction) (h : ∀ fn ∈ fns, stmt_depth.block_depth fn.body ≤ fuel) :
    ∀ c, ∃ r, optimize_functions qsort fuel c fns = some r ∧ c ≤ r.2 ∧
      functions_temp_names qsort fuel c fns = temp_names_between c r.2 := by
  induction fns with
  | nil => intro c; exact ⟨([], c), rfl, Nat.le_refl _, by simp [functions_temp_names, temp_names_between_self]⟩
  | cons fn rest ih =>
    intro c
    obtain ⟨⟨b1, c1⟩, hb⟩ := Option.isSome_iff_exists.mp
      ((optimize_terminates qsort fuel).1 c fn.body (h fn (List.mem_cons_self _ _)))
    obtain ⟨⟨rest1, c2⟩, hr, hle, hn⟩ := ih (fun x hx => h x (List.mem_cons_of_mem _ hx)) c1
    obtain ⟨a1, a2⟩ := (optimize_names qsort hq fuel).1 c fn.body _ hb
    simp only at a1 a2 hle hn
    refine ⟨(⟨fn.name, fn.params, fn.return_type, b1⟩ :: rest1, c2), ?_, by simp only; omega, ?_⟩
    · simp [optimize_functions, optimize_function, hb, hr]
    · simp only [functions_temp_names, optimize_function, hb, a2, hn]
      exact temp_names_between_append c c1 c2 a1 hle

theorem temp_names_between_nodup (c c1 : Nat) : (temp_names_between c c1).Nodup := by
  unfold temp_names_between
  exact List.Nodup.map (fun a b h => make_temp_name_inj a b h) (List.nodup_range' _ _)

theorem temp_names_between_getElem (c c1 k : Nat) (h : k < c1 - c) :
    (temp_names_between c c1)[k]? = some (make_temp_name (c + k)) := by
  unfold temp_names_between
  rw [List.getElem?_map, List.getElem?_range' _ _ h]
  simp

/-- C11: the temporary names handed out during `optimize_program`, across all functions and
nested blocks, are pairwise distinct: the counter is handed from each block and function to
the next, never decreases, and the name handed out in place `k` is `__c2lua_cse_` followed
by the decimal digits of the start value of the counter plus `k`. -/
theorem temp_names_pairwise_distinct (qsort : Qsort) (hq : QsortContract qsort)
    (fuel counter : Nat) (program : AstProgram) (h : program_depth program ≤ fuel) :
    (∃ r, optimize_program qsort fuel counter program = some r ∧ counter ≤ r.2 ∧
      program_temp_names qsort fuel counter program = temp_names_between counter r.2 ∧
      (program_temp_names qsort fuel counter program).length = r.2 - counter ∧
      ∀ k : Nat, k < r.2 - counter →
        (program_temp_names qsort fuel counter program)[k]? =
          some ("__c2lua_cse_" ++ fmt_zu (counter + k))) ∧
    (program_temp_names qsort fuel counter program).Nodup ∧
    (∀ (n c : Nat) (b : AstBlock) (r : AstBlock × Nat), optimize_block qsort n c b = some r →
      c ≤ r.2 ∧ block_temp_names qsort n c b = temp_names_between c r.2) ∧
    (∀ (n c : Nat) (s : AstStmt) (r : AstStmt × Nat),
      optimize_statement_children qsort n c s = some r →
      c ≤ r.2 ∧ children_temp_names qsort n c s = temp_names_between c r.2) := by
  obtain ⟨⟨fns, c1⟩, hr, hle, hn⟩ := functions_names qsort hq fuel program.functions
    (fun fn hfn => Nat.le_trans (program_depth_le _ fn hfn) h) counter
  have hp : program_temp_names qsort fuel counter program = temp_names_between counter c1 := hn
  refine ⟨⟨(⟨fns⟩, c1), by simp [optimize_program, hr], hle, hp, ?_, ?_⟩, ?_,
    fun n => (optimize_names qsort hq n).1, fun n => (optimize_names qsort hq n).2⟩
  · rw [hp]
    simp [temp_names_between]
  · intro k hk
    rw [hp]
    exact temp_names_between_getElem counter c1 k hk
  · rw [hp]
    exact temp_names_between_nodup _ _

theorem temp_names_pairwise_distinct_witness :
    QsortContract stable_qsort ∧ program_depth example_two_functions ≤ 5 ∧
    program_temp_names stable_qsort 5 0 example_two_functions =
      ["__c2lua_cse_0", "__c2lua_cse_1", "__c2lua_cse_2"] ∧
    ((∃ r, optimize_program stable_qsort 5 0 example_two_functions = some r ∧ 0 ≤ r.2 ∧
      program_temp_names stable_qsort 5 0 example_two_functions = temp_names_between 0 r.2 ∧
      (program_temp_names stable_qsort 5 0 example_two_functions).length = r.2 - 0 ∧
      ∀ k : Nat, k < r.2 - 0 →
        (program_temp_names stable_qsort 5 0 example_two_functions)[k]? =
          some ("__c2lua_cse_" ++ fmt_zu (0 + k))) ∧
    (program_temp_names stable_qsort 5 0 example_two_functions).Nodup ∧
    (∀ (n c : Nat) (b : AstBlock) (r : AstBlock × Nat),
      optimize_block stable_qsort n c b = some r →
      c ≤ r.2 ∧ block_temp_names stable_qsort n c b = temp_names_between c r.2) ∧
    (∀ (n c : Nat) (s : AstStmt) (r : AstStmt × Nat),
      optimize_statement_children stable_qsort n c s = some r →
      c ≤ r.2 ∧ children_temp_names stable_qsort n c s = temp_names_between c r.2)) :=
  ⟨stable_qsort_contract, by decide, rfl,
    temp_names_pairwise_distinct stable_qsort stable_qsort_contract 5 0 example_two_functions
      (by decide)⟩

/-! ## Temporary names and the names of the program -/

theorem make_temp_name_reserved (k : Nat) : is_reserved (make_temp_name k) = true := by
  unfold is_reserved make_temp_name reserved_prefix
  rw [List.isPrefixOf_iff_prefix, String.data_append]
  exact List.prefix_append _ _

theorem mem_insert_statement (l : List StmtRef) (i : Nat) (d x : StmtRef) :
    x ∈ insert_statement l i d ↔ x = d ∨ x ∈ l := by
  unfold insert_statement
  simp only [List.mem_append, List.mem_cons]
  constructor
  · rintro (h | h | h)
    · exact Or.inr (List.mem_of_mem_take h)
    · exact Or.inl h
    · exact Or.inr (List.mem_of_mem_drop h)
  · rintro (h | h)
    · exact Or.inr (Or.inl h)
    · have := List.take_append_drop (if i > l.length then l.length else i) l
      rw [← this] at h
      rcases List.mem_append.mp h with h | h
      · exact Or.inl h
      · exact Or.inr (Or.inr h)

theorem apply_cse_entry_names (block : AstBlock) (c : Nat) (state : CsePass × Nat)
    (e : CseEntry)
    (h : c ≤ state.1.counter ∧ ∀ t name init used,
      StmtRef.synthesized t name init used ∈ state.1.statements →
      ∃ k, c ≤ k ∧ k < state.1.counter ∧ name = make_temp_name k) :
    c ≤ (apply_cse_entry block state e).1.counter ∧ ∀ t name init used,
      StmtRef.synthesized t name init used ∈ (apply_cse_entry block state e).1.statements →
      ∃ k, c ≤ k ∧ k < (apply_cse_entry block state e).1.counter ∧ name = make_temp_name k := by
  unfold apply_cse_entry
  simp only
  split
  · exact h
  · split
    · exact h
    · split
      · exact h
      · refine ⟨by simp only; omega, ?_⟩
        intro t name init used hm
        simp only [mem_insert_statement] at hm
        rcases hm with hm | hm
        · injection hm with _ hn _ _
          exact ⟨state.1.counter, h.1, by simp, hn⟩
        · obtain ⟨k, h1, h2, h3⟩ := h.2 t name init used hm
          exact ⟨k, h1, by simp only; omega, h3⟩

theorem apply_cse_foldl_names (block : AstBlock) (c : Nat) (sel : List CseEntry) :
    ∀ (state : CsePass × Nat),
    (c ≤ state.1.counter ∧ ∀ t name init used,
      StmtRef.synthesized t name init used ∈ state.1.statements →
      ∃ k, c ≤ k ∧ k < state.1.counter ∧ name = make_temp_name k) →
    c ≤ (sel.foldl (apply_cse_entry block) state).1.counter ∧ ∀ t name init used,
      StmtRef.synthesized t name init used ∈
        (sel.foldl (apply_cse_entry block) state).1.statements →
      ∃ k, c ≤ k ∧ k < (sel.foldl (apply_cse_entry block) state).1.counter ∧
        name = make_temp_name k := by
  induction sel with
  | nil => intro state h; exact h
  | cons e rest ih =>
    intro state h
    rw [List.foldl_cons]
    exact ih _ (apply_cse_entry_names block c state e h)

theorem apply_cse_pass_names (qsort : Qsort) (block : AstBlock) (entries : CseEntryList)
    (c : Nat) :
    c ≤ (apply_cse_pass qsort block entries c).counter ∧ ∀ t name init used,
      StmtRef.synthesized t name init used ∈ (apply_cse_pass qsort block entries c).statements →
      ∃ k, c ≤ k ∧ k < (apply_cse_pass qsort block entries c).counter ∧
        name = make_temp_name k := by
  have hinit : c ≤ (initial_pass block c).counter ∧ ∀ t name init used,
      StmtRef.synthesized t name init used ∈ (initial_pass block c).statements →
      ∃ k, c ≤ k ∧ k < (initial_pass block c).counter ∧ name = make_temp_name k := by
    refine ⟨Nat.le_refl _, ?_⟩
    intro t name init used hm
    simp [initial_pass] at hm
  unfold apply_cse_pass
  split
  · exact hinit
  · split
    · exact hinit
    · exact apply_cse_foldl_names block c _ _ hinit

theorem mem_temp_names_between (c c1 : Nat) (name : String)
    (h : name ∈ temp_names_between c c1) : ∃ k, c ≤ k ∧ k < c1 ∧ name = make_temp_name k := by
  unfold temp_names_between at h
  simp only [List.mem_map, List.mem_range'_1] at h
  obtain ⟨k, ⟨h1, h2⟩, rfl⟩ := h
  exact ⟨k, h1, by omega, rfl⟩

/-- C12 as the code has it, for every program: every name `make_temp_name` hands out while
`optimize_program` runs, and the name of every declaration `apply_cse` inserts, begins with
`__c2lua_cse_`, and therefore differs from every variable, parameter and function name of
the program that does not begin with that prefix, whatever other names the program uses;
nothing in the pass looks at the names of the program.  A program none of whose names
begins with the prefix has no name in common with the temporaries. -/
theorem temp_names_reserved (qsort : Qsort) (hq : QsortContract qsort) (fuel counter : Nat)
    (program : AstProgram) (h : program_depth program ≤ fuel) :
    (∃ r, optimize_program qsort fuel counter program = some r) ∧
    (∀ name ∈ program_temp_names qsort fuel counter program,
      is_reserved name = true ∧
        ∀ u ∈ program_identifiers program, is_reserved u = false → name ≠ u) ∧
    (∀ (block : AstBlock) (entries : CseEntryList) (c : Nat) (t : TypeKind) (name : String)
      (init : NodeRef) (used : Bool),
      StmtRef.synthesized t name init used ∈
        (apply_cse_pass qsort block entries c).statements →
      is_reserved name = true ∧
        ∀ u ∈ program_identifiers program, is_reserved u = false → name ≠ u) ∧
    ((∀ u ∈ program_identifiers program, is_reserved u = false) →
      temp_names_avoid_identifiers qsort fuel counter program) := by
  obtain ⟨⟨fns, c1⟩, hopt, _, hn⟩ := functions_names qsort hq fuel program.functions
    (fun fn hfn => Nat.le_trans (program_depth_le _ fn hfn) h) counter
  have hp : program_temp_names qsort fuel counter program = temp_names_between counter c1 := hn
  have hres : ∀ name ∈ program_temp_names qsort fuel counter program,
      is_reserved name = true := by
    intro name hm
    rw [hp] at hm
    obtain ⟨k, _, _, rfl⟩ := mem_temp_names_between _ _ _ hm
    exact make_temp_name_reserved k
  have hdiff : ∀ name : String, is_reserved name = true →
      ∀ u ∈ program_identifiers program, is_reserved u = false → name ≠ u := by
    intro name hr u _ hu heq
    rw [heq, hu] at hr
    exact absurd hr (by decide)
  refine ⟨⟨(⟨fns⟩, c1), ?_⟩, fun name hm => ⟨hres name hm, hdiff name (hres name hm)⟩, ?_, ?_⟩
  · simp only [optimize_program]
    rw [hopt]
  · intro block entries c t name init used hm
    obtain ⟨k, _, _, rfl⟩ := (apply_cse_pass_names qsort block entries c).2 t name init used hm
    exact ⟨make_temp_name_reserved k, hdiff _ (make_temp_name_reserved k)⟩
  · intro hu name hm hmem
    exact hdiff name (hres name hm) name hmem (hu name hmem) rfl

theorem temp_names_reserved_witness :
    QsortContract stable_qsort ∧ program_depth example_collision ≤ 5 ∧
    program_identifiers example_collision = ["main", "__c2lua_cse_0", "x", "y"] ∧
    ((∃ r, optimize_program stable_qsort 5 0 example_collision = some r) ∧
    (∀ name ∈ program_temp_names stable_qsort 5 0 example_collision,
      is_reserved name = true ∧
        ∀ u ∈ program_identifiers example_collision, is_reserved u = false → name ≠ u) ∧
    (∀ (block : AstBlock) (entries : CseEntryList) (c : Nat) (t : TypeKind) (name : String)
      (init : NodeRef) (used : Bool),
      StmtRef.synthesized t name init used ∈
        (apply_cse_pass stable_qsort block entries c).statements →
      is_reserved name = true ∧
        ∀ u ∈ program_identifiers example_collision, is_reserved u = false → name ≠ u) ∧
    ((∀ u ∈ program_identifiers example_collision, is_reserved u = false) →
      temp_names_avoid_identifiers stable_qsort 5 0 example_collision)) :=
  ⟨stable_qsort_contract, by decide, by decide,
    temp_names_reserved stable_qsort stable_qsort_contract 5 0 example_collision (by decide)⟩

/-- C12 as stated fails: a program may itself declare a variable named `__c2lua_cse_0`;
in `int __c2lua_cse_0 = 7; x = 2 + 3; y = 2 + 3;` the declaration `apply_cse` inserts for
`2 + 3` gets that very name. -/
theorem temp_name_collides_with_identifier :
    QsortContract stable_qsort ∧ program_depth example_collision ≤ 5 ∧
    optimize_program stable_qsort 5 0 example_collision =
      some (example_collision_optimized, 1) ∧
    program_temp_names stable_qsort 5 0 example_collision = ["__c2lua_cse_0"] ∧
    "__c2lua_cse_0" ∈ program_identifiers example_collision ∧
    ¬ temp_names_avoid_identifiers stable_qsort 5 0 example_collision := by
  refine ⟨stable_qsort_contract, by decide, rfl, rfl, by decide, ?_⟩
  intro h
  exact h "__c2lua_cse_0" (by rw [show program_temp_names stable_qsort 5 0 example_collision =
    ["__c2lua_cse_0"] from rfl]; exact List.mem_singleton.mpr rfl) (by decide)

/-! ## Eligibility -/

theorem nil_or_snoc (l : List Nat) : l = [] ∨ ∃ l1 k, l = l1 ++ [k] := by
  rcases List.eq_nil_or_concat l with h | ⟨l1, k, h⟩
  · exact Or.inl h
  · exact Or.inr ⟨l1, k, by rw [h, List.concat_eq_append]⟩

theorem expr_at_snoc (root : AstExpr) (ext : List Nat) (k : Nat) :
    expr_at root (ext ++ [k]) = (expr_child k root).bind (fun c => expr_at c ext) := by
  rw [expr_at_append]
  simp [expr_at]

theorem structurally_constant_child (e c : AstExpr) (k : Nat)
    (hc : expr_child k e = some c) (h : structurally_constant e) : structurally_constant c := by
  intro ext y hy
  apply h (ext ++ [k]) y
  rw [expr_at_snoc, hc]
  exact hy

theorem constant_iff_structurally_constant : ∀ (e : AstExpr),
    expr_is_constant e = true ↔ structurally_constant e
  | .int_literal t v => by
    refine ⟨fun _ ext y hy => ?_, fun _ => rfl⟩
    rcases nil_or_snoc ext with rfl | ⟨ext1, k, rfl⟩
    · simp only [expr_at, Option.some.injEq] at hy
      subst hy
      exact Or.inl rfl
    · rw [expr_at_snoc] at hy
      simp [expr_child] at hy
  | .float_literal t v => by
    refine ⟨fun _ ext y hy => ?_, fun _ => rfl⟩
    rcases nil_or_snoc ext with rfl | ⟨ext1, k, rfl⟩
    · simp only [expr_at, Option.some.injEq] at hy
      subst hy
      exact Or.inl rfl
    · rw [expr_at_snoc] at hy
      simp [expr_child] at hy
  | .bool_literal t v => by
    refine ⟨fun _ ext y hy => ?_, fun _ => rfl⟩
    rcases nil_or_snoc ext with rfl | ⟨ext1, k, rfl⟩
    · simp only [expr_at, Option.some.injEq] at hy
      subst hy
      exact Or.inl rfl
    · rw [expr_at_snoc] at hy
      simp [expr_child] at hy
  | .string_literal t v => by
    refine ⟨fun _ ext y hy => ?_, fun _ => rfl⟩
    rcases nil_or_snoc ext with rfl | ⟨ext1, k, rfl⟩
    · simp only [expr_at, Option.some.injEq] at hy
      subst hy
      exact Or.inl rfl
    · rw [expr_at_snoc] at hy
      simp [expr_child] at hy
  | .unary t op operand => by
    have ih := constant_iff_structurally_constant operand
    constructor
    · intro h ext y hy
      rcases nil_or_snoc ext with rfl | ⟨ext1, k, rfl⟩
      · simp only [expr_at, Option.some.injEq] at hy
        subst hy
        exact Or.inr rfl
      · rw [expr_at_snoc] at hy
        simp only [expr_child] at hy
        split at hy
        · exact ih.mp (by simpa [expr_is_constant] using h) ext1 y (by simpa using hy)
        · simp at hy
    · intro h
      simp only [expr_is_constant]
      exact ih.mpr (structurally_constant_child _ operand 0 (by simp [expr_child]) h)
  | .binary t op left right => by
    have ihl := constant_iff_structurally_constant left
    have ihr := constant_iff_structurally_constant right
    constructor
    · intro h ext y hy
      simp only [expr_is_constant, Bool.and_eq_true] at h
      rcases nil_or_snoc ext with rfl | ⟨ext1, k, rfl⟩
      · simp only [expr_at, Option.some.injEq] at hy
        subst hy
        exact Or.inr rfl
      · rw [expr_at_snoc] at hy
        simp only [expr_child] at hy
        split at hy
        · exact ihl.mp h.1 ext1 y (by simpa using hy)
        · split at hy
          · exact ihr.mp h.2 ext1 y (by simpa using hy)
          · simp at hy
    · intro h
      simp only [expr_is_constant, Bool.and_eq_true]
      exact ⟨ihl.mpr (structurally_constant_child _ left 0 (by simp [expr_child]) h),
        ihr.mpr (structurally_constant_child _ right 1 (by simp [expr_child]) h)⟩
  | .identifier t n => by
    refine ⟨fun h => by simp [expr_is_constant] at h, fun h => ?_⟩
    have := h [] _ rfl
    simp [is_literal, is_operator] at this
  | .call t callee args => by
    refine ⟨fun h => by simp [expr_is_constant] at h, fun h => ?_⟩
    have := h [] _ rfl
    simp [is_literal, is_operator] at this
  | .array_literal t elements => by
    refine ⟨fun h => by simp [expr_is_constant] at h, fun h => ?_⟩
    have := h [] _ rfl
    simp [is_literal, is_operator] at this
  | .subscript t array index => by
    refine ⟨fun h => by simp [expr_is_constant] at h, fun h => ?_⟩
    have := h [] _ rfl
    simp [is_literal, is_operator] at this

theorem candidate_iff (e : AstExpr) :
    expr_is_candidate e = true ↔
      is_operator e = true ∧ e.type ≠ TypeKind.TYPE_UNKNOWN ∧ structurally_constant e := by
  rw [← constant_iff_structurally_constant]
  cases e <;> simp [expr_is_candidate, is_operator, AstExpr.type, expr_is_constant]

theorem candidate_nodes_complete : ∀ (e : AstExpr) (loc : Slot) (ext : List Nat) (x : AstExpr),
    expr_at e ext = some x → expr_is_candidate x = true →
    ((⟨loc.stmt, ext ++ loc.path⟩ : Slot), x) ∈ candidate_nodes loc e
  | .binary t op left right, loc, ext, x, hx, hc => by
    unfold candidate_nodes
    simp only [List.mem_append]
    rcases nil_or_snoc ext with rfl | ⟨ext1, k, rfl⟩
    · simp only [expr_at, Option.some.injEq] at hx
      subst hx
      right
      simp [hc]
    · rw [expr_at_snoc] at hx
      simp only [expr_child] at hx
      split at hx
      · rename_i hk
        subst hk
        have := candidate_nodes_complete left (loc.child 0) ext1 x (by simpa using hx) hc
        left; left
        simpa [Slot.child] using this
      · split at hx
        · rename_i hk
          subst hk
          have := candidate_nodes_complete right (loc.child 1) ext1 x (by simpa using hx) hc
          left; right
          simpa [Slot.child] using this
        · simp at hx
  | .unary t op operand, loc, ext, x, hx, hc => by
    unfold candidate_nodes
    simp only [List.mem_append]
    rcases nil_or_snoc ext with rfl | ⟨ext1, k, rfl⟩
    · simp only [expr_at, Option.some.injEq] at hx
      subst hx
      right
      simp [hc]
    · rw [expr_at_snoc] at hx
      simp only [expr_child] at hx
      split at hx
      · rename_i hk
        subst hk
        have := candidate_nodes_complete operand (loc.child 0) ext1 x (by simpa using hx) hc
        left
        simpa [Slot.child] using this
      · simp at hx
  | .call t callee args, loc, ext, x, hx, hc => by
    unfold candidate_nodes
    rcases nil_or_snoc ext with rfl | ⟨ext1, k, rfl⟩
    · simp only [expr_at, Option.some.injEq] at hx
      subst hx
      simp [expr_is_candidate] at hc
    · rw [expr_at_snoc] at hx
      simp only [expr_child] at hx
      cases hk : args[k]? with
      | none => rw [hk] at hx; simp at hx
      | some c =>
        rw [hk] at hx
        have := candidate_nodes_list_complete args loc 0 k c ext1 x hk (by simpa using hx) hc
        simpa using this
  | .array_literal t elements, loc, ext, x, hx, hc => by
    unfold candidate_nodes
    rcases nil_or_snoc ext with rfl | ⟨ext1, k, rfl⟩
    · simp only [expr_at, Option.some.injEq] at hx
      subst hx
      simp [expr_is_candidate] at hc
    · rw [expr_at_snoc] at hx
      simp only [expr_child] at hx
      cases hk : elements[k]? with
      | none => rw [hk] at hx; simp at hx
      | some c =>
        rw [hk] at hx
        have := candidate_nodes_list_complete elements loc 0 k c ext1 x hk (by simpa using hx) hc
        simpa using this
  | .subscript t array index, loc, ext, x, hx, hc => by
    unfold candidate_nodes
    simp only [List.mem_append]
    rcases nil_or_snoc ext with rfl | ⟨ext1, k, rfl⟩
    · simp only [expr_at, Option.some.injEq] at hx
      subst hx
      simp [expr_is_candidate] at hc
    · rw [expr_at_snoc] at hx
      simp only [expr_child] at hx
      split at hx
      · rename_i hk
        subst hk
        have := candidate_nodes_complete array (loc.child 0) ext1 x (by simpa using hx) hc
        left
        simpa [Slot.child] using this
      · split at hx
        · rename_i hk
          subst hk
          have := candidate_nodes_complete index (loc.child 1) ext1 x (by simpa using hx) hc
          right
          simpa [Slot.child] using this
        · simp at hx
  | .int_literal _ _, loc, ext, x, hx, hc => by
    rcases nil_or_snoc ext with rfl | ⟨ext1, k, rfl⟩
    · simp only [expr_at, Option.some.injEq] at hx
      subst hx
      simp [expr_is_candidate] at hc
    · rw [expr_at_snoc] at hx
      simp [expr_child] at hx
  | .float_literal _ _, loc, ext, x, hx, hc => by
    rcases nil_or_snoc ext with rfl | ⟨ext1, k, rfl⟩
    · simp only [expr_at, Option.some.injEq] at hx
      subst hx
      simp [expr_is_candidate] at hc
    · rw [expr_at_snoc] at hx
      simp [expr_child] at hx
  | .bool_literal _ _, loc, ext, x, hx, hc => by
    rcases nil_or_snoc ext with rfl | ⟨ext1, k, rfl⟩
    · simp only [expr_at, Option.some.injEq] at hx
      subst hx
      simp [expr_is_candidate] at hc
    · rw [expr_at_snoc] at hx
      simp [expr_child] at hx
  | .string_literal _ _, loc, ext, x, hx, hc => by
    rcases nil_or_snoc ext with rfl | ⟨ext1, k, rfl⟩
    · simp only [expr_at, Option.some.injEq] at hx
      subst hx
      simp [expr_is_candidate] at hc
    · rw [expr_at_snoc] at hx
      simp [expr_child] at hx
  | .identifier _ _, loc, ext, x, hx, hc => by
    rcases nil_or_snoc ext with rfl | ⟨ext1, k, rfl⟩
    · simp only [expr_at, Option.some.injEq] at hx
      subst hx
      simp [expr_is_candidate] at hc
    · rw [expr_at_snoc] at hx
      simp [expr_child] at hx
where
  candidate_nodes_list_complete : ∀ (items : List AstExpr) (parent : Slot) (i j : Nat)
      (c : AstExpr) (ext : List Nat) (x : AstExpr), items[j]? = some c →
      expr_at c ext = some x → expr_is_candidate x = true →
      ((⟨parent.stmt, ext ++ (i + j) :: parent.path⟩ : Slot), x) ∈
        candidate_nodes_list parent i items
    | [], parent, i, j, c, ext, x, hj, hx, hc => by simp at hj
    | item :: rest, parent, i, j, c, ext, x, hj, hx, hc => by
      unfold candidate_nodes_list
      simp only [List.mem_append]
      cases j with
      | zero =>
        simp only [List.getElem?_cons_zero, Option.some.injEq] at hj
        subst hj
        left
        have := candidate_nodes_complete item (parent.child i) ext x hx hc
        simpa [Slot.child] using this
      | succ j =>
        simp only [List.getElem?_cons_succ] at hj
        right
        have := candidate_nodes_list_complete rest parent (i + 1) j c ext x hj hx hc
        rw [show i + 1 + j = i + (j + 1) by omega] at this
        exact this

theorem register_visit_mem (entries : CseEntryList) (v : Visit) :
    ∃ e ∈ register_visit entries v, e.key = expr_make_key v.expr ∧
      v.occurrence ∈ e.occurrences := by
  rcases register_visit_cases entries v with ⟨_, h2⟩ | ⟨pre, e, post, _, h2, _, h4⟩
  · rw [h2]
    exact ⟨new_entry v, by simp, rfl, by simp [new_entry]⟩
  · rw [h4]
    exact ⟨extend_entry e v, by simp, h2, by simp [extend_entry]⟩

theorem register_visit_keeps (entries : CseEntryList) (v : Visit) (e : CseEntry)
    (o : CseOccurrence) (he : e ∈ entries) (ho : o ∈ e.occurrences) :
    ∃ e1 ∈ register_visit entries v, e1.key = e.key ∧ o ∈ e1.occurrences := by
  rcases register_visit_cases entries v with ⟨_, h2⟩ | ⟨pre, x, post, h1, _, _, h4⟩
  · rw [h2]
    exact ⟨e, List.mem_append_left _ he, rfl, ho⟩
  · rw [h4]
    subst h1
    simp only [List.mem_append, List.mem_cons] at he
    rcases he with he | rfl | he
    · exact ⟨e, by simp [he], rfl, ho⟩
    · exact ⟨extend_entry e v, by simp, rfl, by simp [extend_entry, ho]⟩
    · exact ⟨e, by simp [he], rfl, ho⟩

theorem foldl_register_keeps (visits : List Visit) : ∀ (entries : CseEntryList) (e : CseEntry)
    (o : CseOccurrence), e ∈ entries → o ∈ e.occurrences →
    ∃ e1 ∈ visits.foldl register_visit entries, e1.key = e.key ∧ o ∈ e1.occurrences := by
  induction visits with
  | nil => intro entries e o he ho; exact ⟨e, he, rfl, ho⟩
  | cons v rest ih =>
    intro entries e o he ho
    obtain ⟨e1, h1, h2, h3⟩ := register_visit_keeps entries v e o he ho
    obtain ⟨e2, g1, g2, g3⟩ := ih (register_visit entries v) e1 o h1 h3
    exact ⟨e2, g1, g2.trans h2, g3⟩

theorem foldl_register_mem (visits : List Visit) : ∀ (entries : CseEntryList) (v : Visit),
    v ∈ visits →
    ∃ e ∈ visits.foldl register_visit entries, e.key = expr_make_key v.expr ∧
      v.occurrence ∈ e.occurrences := by
  induction visits with
  | nil => intro entries v hv; simp at hv
  | cons w rest ih =>
    intro entries v hv
    rcases List.mem_cons.mp hv with rfl | hv
    · obtain ⟨e, h1, h2, h3⟩ := register_visit_mem entries v
      obtain ⟨e2, g1, g2, g3⟩ := foldl_register_keeps rest (register_visit entries v) e _ h1 h3
      exact ⟨e2, g1, g2.trans h2, g3⟩
    · exact ih (register_visit entries w) v hv

theorem collect_expr_registers (root : AstExpr) (loc : Slot) (i : Nat) (owner : AstStmt)
    (entries : CseEntryList) (ext : List Nat) (x : AstExpr) (hx : expr_at root ext = some x)
    (hc : expr_is_candidate x = true) :
    ∃ e ∈ collect_expr_candidates loc root i owner entries, e.key = expr_make_key x ∧
      (⟨⟨loc.stmt, ext ++ loc.path⟩, i, owner⟩ : CseOccurrence) ∈ e.occurrences := by
  rw [collect_expr_eq_foldl, foldl_register_map]
  have hm := candidate_nodes_complete root loc ext x hx hc
  exact foldl_register_mem _ entries ⟨⟨loc.stmt, ext ++ loc.path⟩, x, i, owner⟩
    (List.mem_map.mpr ⟨_, hm, rfl⟩)

/-- C14: `expr_is_candidate` holds exactly of the nodes whose variant is `Binary` or
`Unary`, whose type is not `Unknown` and which are structurally constant.  Identifier,
call, subscript and array-literal nodes never qualify themselves, and
`collect_expr_candidates` registers every qualifying node found anywhere below the
expression it is given, whatever nodes lie in between; in `f(1 + 2, a[-3])` it registers
`1 + 2` and `-3`. -/
theorem expr_is_candidate_iff (e : AstExpr) :
    (expr_is_candidate e = true ↔
      is_operator e = true ∧ e.type ≠ TypeKind.TYPE_UNKNOWN ∧ structurally_constant e) ∧
    (∀ (t : TypeKind) (name : String), expr_is_candidate (.identifier t name) = false) ∧
    (∀ (t : TypeKind) (callee : String) (args : List AstExpr),
      expr_is_candidate (.call t callee args) = false) ∧
    (∀ (t : TypeKind) (array index : AstExpr),
      expr_is_candidate (.subscript t array index) = false) ∧
    (∀ (t : TypeKind) (elements : List AstExpr),
      expr_is_candidate (.array_literal t elements) = false) ∧
    (∀ (loc : Slot) (i : Nat) (owner : AstStmt) (entries : CseEntryList) (ext : List Nat)
      (x : AstExpr), expr_at e ext = some x → expr_is_candidate x = true →
      ∃ entry ∈ collect_expr_candidates loc e i owner entries,
        entry.key = expr_make_key x ∧
        (⟨⟨loc.stmt, ext ++ loc.path⟩, i, owner⟩ : CseOccurrence) ∈ entry.occurrences) ∧
    (collect_expr_candidates ⟨0, []⟩ example_call 0 (.expr (some example_call)) []).map
        (fun entry => (entry.key, entry_locations entry)) =
      [("BIN:0:I:1|I:2", [⟨0, [0]⟩]), ("U:1:I:3", [⟨0, [1, 1]⟩])] :=
  ⟨candidate_iff e, fun _ _ => rfl, fun _ _ _ => rfl, fun _ _ _ => rfl, fun _ _ => rfl,
    fun loc i owner entries ext x hx hc => collect_expr_registers e loc i owner entries ext x hx hc,
    rfl⟩

/-! ## The flag `is_used` of a temporary -/

theorem registry_owner_slot (block : AstBlock) (e : CseEntry)
    (he : e ∈ collect_block_candidates block) (o : CseOccurrence) (ho : o ∈ e.occurrences) :
    ∃ root, stmt_slot o.stmt = some root := by
  obtain ⟨v, hv, _, rfl⟩ := registry_occurrence_visit block e he o ho
  obtain ⟨_, _, _, _, root, h5, _⟩ := block_visits_spec block 0 v hv
  exact ⟨root, h5⟩

theorem survives_iff_live_use (s : AstStmt) (root : AstExpr) (h : stmt_slot s = some root)
    (loc : Slot) (i : Nat) : occurrence_survives_dce ⟨loc, i, s⟩ = true ↔ is_live_use s := by
  cases s <;> simp [occurrence_survives_dce, is_live_use, stmt_slot] at h ⊢

theorem any_survives_iff (block : AstBlock) (e : CseEntry)
    (he : e ∈ collect_block_candidates block) :
    e.occurrences.any occurrence_survives_dce = true ↔ ∃ o ∈ e.occurrences, is_live_use o.stmt := by
  rw [List.any_eq_true]
  constructor
  · rintro ⟨o, ho, hs⟩
    obtain ⟨root, hr⟩ := registry_owner_slot block e he o ho
    exact ⟨o, ho, (survives_iff_live_use o.stmt root hr o.location o.stmt_index).mp hs⟩
  · rintro ⟨o, ho, hs⟩
    obtain ⟨root, hr⟩ := registry_owner_slot block e he o ho
    exact ⟨o, ho, (survives_iff_live_use o.stmt root hr o.location o.stmt_index).mpr hs⟩

/-- C15: the declaration `apply_cse` builds for a reusable entry is flagged used exactly
when the statement that owns one of the occurrences is an assignment, an array-slot
assignment, an expression statement, a return or a declaration flagged used; when every
occurrence is owned by a declaration whose flag is clear, the flag of the new declaration
stays clear. -/
theorem temp_flagged_used_iff_live_use (qsort : Qsort) (hq : QsortContract qsort)
    (block : AstBlock) (counter : Nat) (e : CseEntry)
    (he : e ∈ collect_block_candidates block) (h2 : 2 ≤ e.occurrences.length) :
    ∃ (k : Nat) (first : CseOccurrence) (flag : Bool),
      e.occurrences.head? = some first ∧
      (apply_cse_pass qsort block (collect_block_candidates block) counter).statements.filter
          (StmtRef.declares (make_temp_name (counter + k))) =
        [StmtRef.synthesized e.type (make_temp_name (counter + k))
          (NodeRef.parsed first.location) flag] ∧
      (∃ init, load_stmt_ref block
          (apply_cse_pass qsort block (collect_block_candidates block) counter).mem
          (StmtRef.synthesized e.type (make_temp_name (counter + k))
            (NodeRef.parsed first.location) flag) =
        some (AstStmt.decl e.type (make_temp_name (counter + k)) init false flag)) ∧
      (flag = true ↔ ∃ o ∈ e.occurrences, is_live_use o.stmt) ∧
      ((∀ o ∈ e.occurrences, ∃ t n i a, o.stmt = AstStmt.decl t n i a false) → flag = false) ∧
      (∀ o ∈ e.occurrences, block[o.stmt_index]? = some o.stmt ∧
        (o.stmt.kind = StmtKind.STMT_DECL ∨ o.stmt.kind = StmtKind.STMT_ASSIGN ∨
          o.stmt.kind = StmtKind.STMT_ARRAY_ASSIGN ∨ o.stmt.kind = StmtKind.STMT_EXPR ∨
          o.stmt.kind = StmtKind.STMT_RETURN)) := by
  obtain ⟨k, first, x, _, hhead, _, _, hdecl, _, _⟩ :=
    apply_cse_reusable_entry qsort hq block counter e he h2
  refine ⟨k, first, e.occurrences.any occurrence_survives_dce, hhead, hdecl, ?_,
    any_survives_iff block e he, ?_, ?_⟩
  · generalize e.occurrences.any occurrence_survives_dce = flag
    cases flag <;> exact ⟨_, rfl⟩
  · intro hall
    rw [Bool.eq_false_iff]
    intro hflag
    obtain ⟨o, ho, hl⟩ := (any_survives_iff block e he).mp hflag
    obtain ⟨t, n, i, a, hs⟩ := hall o ho
    rw [hs] at hl
    simp [is_live_use] at hl
  · intro o ho
    obtain ⟨_, _, _, _, hb, _⟩ := registry_occurrence_spec block e he o ho
    obtain ⟨root, hr⟩ := registry_owner_slot block e he o ho
    refine ⟨hb, ?_⟩
    cases hs : o.stmt <;> simp [hs, stmt_slot, AstStmt.kind] at hr ⊢

theorem temp_flagged_used_iff_live_use_witness :
    QsortContract stable_qsort ∧
    example_sum_entry ∈ collect_block_candidates example_sum_twice ∧
    2 ≤ example_sum_entry.occurrences.length ∧
    apply_cse stable_qsort example_sum_twice (collect_block_candidates example_sum_twice) 0 =
      (example_sum_twice_rewritten, 1) ∧
    apply_cse stable_qsort example_unused_decls (collect_block_candidates example_unused_decls)
      0 = (example_unused_decls_rewritten, 1) ∧
    ∃ (k : Nat) (first : CseOccurrence) (flag : Bool),
      example_sum_entry.occurrences.head? = some first ∧
      (apply_cse_pass stable_qsort example_sum_twice
          (collect_block_candidates example_sum_twice) 0).statements.filter
          (StmtRef.declares (make_temp_name (0 + k))) =
        [StmtRef.synthesized example_sum_entry.type (make_temp_name (0 + k))
          (NodeRef.parsed first.location) flag] ∧
      (∃ init, load_stmt_ref example_sum_twice
          (apply_cse_pass stable_qsort example_sum_twice
            (collect_block_candidates example_sum_twice) 0).mem
          (StmtRef.synthesized example_sum_entry.type (make_temp_name (0 + k))
            (NodeRef.parsed first.location) flag) =
        some (AstStmt.decl example_sum_entry.type (make_temp_name (0 + k)) init false flag)) ∧
      (flag = true ↔ ∃ o ∈ example_sum_entry.occurrences, is_live_use o.stmt) ∧
      ((∀ o ∈ example_sum_entry.occurrences, ∃ t n i a, o.stmt = AstStmt.decl t n i a false) →
        flag = false) ∧
      (∀ o ∈ example_sum_entry.occurrences, example_sum_twice[o.stmt_index]? = some o.stmt ∧
        (o.stmt.kind = StmtKind.STMT_DECL ∨ o.stmt.kind = StmtKind.STMT_ASSIGN ∨
          o.stmt.kind = StmtKind.STMT_ARRAY_ASSIGN ∨ o.stmt.kind = StmtKind.STMT_EXPR ∨
          o.stmt.kind = StmtKind.STMT_RETURN)) :=
  have hmem : example_sum_entry ∈ collect_block_candidates example_sum_twice := by
    rw [example_sum_twice_registry]
    exact List.mem_singleton.mpr rfl
  have hlen : 2 ≤ example_sum_entry.occurrences.length := by decide
  ⟨stable_qsort_contract, hmem, hlen, rfl, rfl,
    temp_flagged_used_iff_live_use stable_qsort stable_qsort_contract example_sum_twice 0
      example_sum_entry hmem hlen⟩

/-! ## Scopes -/

theorem collect_statement_nested (stmt : AstStmt) (i : Nat) (entries : CseEntryList)
    (h : is_nested_scope stmt = true) : collect_statement_candidates stmt i entries = entries := by
  cases stmt <;> simp [is_nested_scope] at h <;> rfl

theorem collect_block_loop_congr (b1 b2 : List AstStmt)
    (h : List.Forall₂ (fun s1 s2 => s1 = s2 ∨
      (is_nested_scope s1 = true ∧ is_nested_scope s2 = true)) b1 b2) :
    ∀ (i : Nat) (entries : CseEntryList),
      collect_block_loop i b1 entries = collect_block_loop i b2 entries := by
  induction h with
  | nil => intro i entries; rfl
  | cons hs _ ih =>
    intro i entries
    simp only [collect_block_loop]
    rcases hs with rfl | ⟨h1, h2⟩
    · exact ih _ _
    · rw [collect_statement_nested _ _ _ h1, collect_statement_nested _ _ _ h2]
      exact ih _ _

theorem registry_owner_kind (block : AstBlock) (e : CseEntry)
    (he : e ∈ collect_block_candidates block) (o : CseOccurrence) (ho : o ∈ e.occurrences) :
    block[o.stmt_index]? = some o.stmt ∧ o.location.stmt = o.stmt_index ∧
      is_nested_scope o.stmt = false := by
  obtain ⟨_, _, _, _, hb, hl⟩ := registry_occurrence_spec block e he o ho
  obtain ⟨root, hr⟩ := registry_owner_slot block e he o ho
  refine ⟨hb, hl, ?_⟩
  cases hs : o.stmt <;> simp [hs, stmt_slot, is_nested_scope] at hr ⊢

/-- C16: the registry of a block holds only occurrences located in statements of the block
itself, none of which is a nested block or a loop; such statements add nothing to it, so
that it does not depend on what nested scopes hold.  A nested block is handed to
`optimize_block`, which starts from an empty registry of its own and takes nothing but the
counter of temporary names from the enclosing scope.  An expression that occurs once in a
block and again only in nested scopes gets no temporary. -/
theorem dedup_stays_within_scope (qsort : Qsort) :
    (∀ (block : AstBlock) (e : CseEntry) (o : CseOccurrence),
      e ∈ collect_block_candidates block → o ∈ e.occurrences →
      block[o.stmt_index]? = some o.stmt ∧ o.location.stmt = o.stmt_index ∧
        is_nested_scope o.stmt = false) ∧
    (∀ (stmt : AstStmt) (i : Nat) (entries : CseEntryList), is_nested_scope stmt = true →
      collect_statement_candidates stmt i entries = entries) ∧
    (∀ b1 b2 : AstBlock,
      List.Forall₂ (fun s1 s2 => s1 = s2 ∨
        (is_nested_scope s1 = true ∧ is_nested_scope s2 = true)) b1 b2 →
      collect_block_candidates b1 = collect_block_candidates b2) ∧
    (∀ (fuel c : Nat) (b : AstBlock),
      optimize_statement_children qsort (fuel + 1) c (.block b) =
        (optimize_block qsort fuel c b).map (fun r => (AstStmt.block r.1, r.2))) ∧
    (∀ (fuel c : Nat) (b : AstBlock),
      optimize_block qsort (fuel + 1) c b =
        (optimize_each (optimize_statement_children qsort fuel)
          (apply_cse qsort b (collect_block_loop 0 b []) c).2
          (apply_cse qsort b (collect_block_loop 0 b []) c).1).map
          (fun r => (eliminate_unreachable r.1, r.2))) ∧
    (∀ (block : AstBlock) (c : Nat),
      (∀ e ∈ collect_block_candidates block, e.occurrences.length < 2) →
      apply_cse qsort block (collect_block_candidates block) c = (block, c)) ∧
    optimize_block stable_qsort 5 0 example_scopes = some (example_scopes, 0) ∧
    optimize_block stable_qsort 5 0 example_inner_scope =
      some (example_inner_scope_optimized, 1) := by
  refine ⟨fun block e o he ho => registry_owner_kind block e he o ho,
    collect_statement_nested, fun b1 b2 h => collect_block_loop_congr b1 b2 h 0 [], ?_, ?_,
    fun block c h => apply_cse_unchanged qsort block _ c h, rfl, rfl⟩
  · intro fuel c b
    rw [optimize_children_block]
    cases optimize_block qsort fuel c b <;> rfl
  · intro fuel c b
    rw [optimize_block_succ, show collect_block_loop 0 b [] = collect_block_candidates b from rfl]
    cases optimize_each (optimize_statement_children qsort fuel)
      (apply_cse qsort b (collect_block_candidates b) c).2
      (apply_cse qsort b (collect_block_candidates b) c).1 <;> rfl

/-! ## The order of the occurrences of an entry -/

theorem key_child_lt (p y : AstExpr) (k : Nat) (hp : is_operator p = true)
    (hc : expr_child k p = some y) :
    (expr_make_key y).length < (expr_make_key p).length := by
  cases p with
  | binary t op left right =>
    simp only [expr_child] at hc
    split at hc
    · simp only [Option.some.injEq] at hc
      subst hc
      simp only [expr_make_key, String.length_append]
      have : "|".length = 1 := rfl
      omega
    · split at hc
      · simp only [Option.some.injEq] at hc
        subst hc
        simp only [expr_make_key, String.length_append]
        have : "|".length = 1 := rfl
        omega
      · simp at hc
  | unary t op operand =>
    simp only [expr_child] at hc
    split at hc
    · simp only [Option.some.injEq] at hc
      subst hc
      simp only [expr_make_key, String.length_append]
      have : ":".length = 1 := rfl
      omega
    · simp at hc
  | _ => simp [is_operator] at hp

theorem literal_no_child (p : AstExpr) (k : Nat) (hp : is_literal p = true) :
    expr_child k p = none := by
  cases p <;> simp [is_literal] at hp <;> rfl

theorem key_below_le (x : AstExpr) (hx : structurally_constant x) :
    ∀ (ext : List Nat) (y : AstExpr), expr_at x ext = some y →
    (expr_make_key y).length ≤ (expr_make_key x).length ∧
      (ext ≠ [] → (expr_make_key y).length < (expr_make_key x).length) := by
  intro ext
  induction ext with
  | nil =>
    intro y hy
    simp only [expr_at, Option.some.injEq] at hy
    subst hy
    exact ⟨Nat.le_refl _, fun h => absurd rfl h⟩
  | cons k ext ih =>
    intro y hy
    simp only [expr_at] at hy
    cases hp : expr_at x ext with
    | none => rw [hp] at hy; simp at hy
    | some p =>
      rw [hp] at hy
      have hy : expr_child k p = some y := hy
      have hle := (ih p hp).1
      rcases hx ext p hp with hl | ho
      · rw [literal_no_child p k hl] at hy
        simp at hy
      · have := key_child_lt p y k ho hy
        exact ⟨by omega, fun _ => by omega⟩

theorem candidate_structurally_constant (x : AstExpr) (h : expr_is_candidate x = true) :
    structurally_constant x :=
  ((candidate_iff x).mp h).2.2

theorem key_ne_below (x : AstExpr) (hx : expr_is_candidate x = true) (c : AstExpr) (k : Nat)
    (hc : expr_child k x = some c) (loc : Slot) (s : Slot) (y : AstExpr)
    (hy : (s, y) ∈ candidate_nodes loc c) : expr_make_key y ≠ expr_make_key x := by
  obtain ⟨_, _, ext, _, hat⟩ := candidate_nodes_spec c loc s y hy
  have h1 := (key_below_le x (candidate_structurally_constant x hx) (ext ++ [k]) y
    (by rw [expr_at_snoc, hc]; exact hat)).2 (by simp)
  intro h
  rw [h] at h1
  omega

theorem filter_key_nil (x : AstExpr) (hx : expr_is_candidate x = true) (c : AstExpr) (k : Nat)
    (hc : expr_child k x = some c) (loc : Slot) :
    (candidate_nodes loc c).filter (fun p => expr_make_key p.2 = expr_make_key x) = [] := by
  rw [List.filter_eq_nil_iff]
  intro p hp
  simp only [decide_eq_true_eq]
  exact key_ne_below x hx c k hc loc p.1 p.2 hp

theorem candidates_sublist_preorder (K : String) : ∀ (e : AstExpr) (loc : Slot),
    (((candidate_nodes loc e).filter (fun p => expr_make_key p.2 = K)).map Prod.fst).Sublist
      (preorder_slots loc e)
  | .binary t op left right, loc => by
    unfold candidate_nodes preorder_slots
    have ihl := candidates_sublist_preorder K left (loc.child 0)
    have ihr := candidates_sublist_preorder K right (loc.child 1)
    by_cases hself : expr_is_candidate (.binary t op left right) = true ∧
        expr_make_key (.binary t op left right) = K
    · obtain ⟨hc, hk⟩ := hself
      subst hk
      simp only [List.filter_append, hc, if_true]
      rw [filter_key_nil _ hc left 0 (by simp [expr_child]),
        filter_key_nil _ hc right 1 (by simp [expr_child])]
      simp
    · have hnil : (if expr_is_candidate (.binary t op left right) = true
          then [(loc, AstExpr.binary t op left right)] else []).filter
          (fun p => expr_make_key p.2 = K) = [] := by
        split
        · rename_i hc
          have : expr_make_key (.binary t op left right) ≠ K := fun hk => hself ⟨hc, hk⟩
          simp [this]
        · rfl
      simp only [List.filter_append, hnil, List.append_nil, List.map_append]
      exact List.Sublist.cons _ (List.Sublist.append ihl ihr)
  | .unary t op operand, loc => by
    unfold candidate_nodes preorder_slots
    have ih := candidates_sublist_preorder K operand (loc.child 0)
    by_cases hself : expr_is_candidate (.unary t op operand) = true ∧
        expr_make_key (.unary t op operand) = K
    · obtain ⟨hc, hk⟩ := hself
      subst hk
      simp only [List.filter_append, hc, if_true]
      rw [filter_key_nil _ hc operand 0 (by simp [expr_child])]
      simp
    · have hnil : (if expr_is_candidate (.unary t op operand) = true
          then [(loc, AstExpr.unary t op operand)] else []).filter
          (fun p => expr_make_key p.2 = K) = [] := by
        split
        · rename_i hc
          have : expr_make_key (.unary t op operand) ≠ K := fun hk => hself ⟨hc, hk⟩
          simp [this]
        · rfl
      simp only [List.filter_append, hnil, List.append_nil]
      exact List.Sublist.cons _ ih
  | .call t callee args, loc => by
    unfold candidate_nodes preorder_slots
    exact List.Sublist.cons _ (candidates_list_sublist_preorder K args loc 0)
  | .array_literal t elements, loc => by
    unfold candidate_nodes preorder_slots
    exact List.Sublist.cons _ (candidates_list_sublist_preorder K elements loc 0)
  | .subscript t array index, loc => by
    unfold candidate_nodes preorder_slots
    simp only [List.filter_append, List.map_append]
    exact List.Sublist.cons _ (List.Sublist.append
      (candidates_sublist_preorder K array (loc.child 0))
      (candidates_sublist_preorder K index (loc.child 1)))
  | .int_literal _ _, loc => by simp [candidate_nodes]
  | .float_literal _ _, loc => by simp [candidate_nodes]
  | .bool_literal _ _, loc => by simp [candidate_nodes]
  | .string_literal _ _, loc => by simp [candidate_nodes]
  | .identifier _ _, loc => by simp [candidate_nodes]
where
  candidates_list_sublist_preorder (K : String) : ∀ (items : List AstExpr) (parent : Slot)
      (i : Nat),
      (((candidate_nodes_list parent i items).filter
        (fun p => expr_make_key p.2 = K)).map Prod.fst).Sublist
        (preorder_slots_list parent i items)
    | [], parent, i => by simp [candidate_nodes_list]
    | item :: rest, parent, i => by
      unfold candidate_nodes_list preorder_slots_list
      simp only [List.filter_append, List.map_append]
      exact List.Sublist.append (candidates_sublist_preorder K item (parent.child i))
        (candidates_list_sublist_preorder K rest parent (i + 1))

theorem stmt_visits_sublist_preorder (K : String) (i : Nat) (stmt : AstStmt) :
    (((stmt_visits i stmt).filter (fun v => expr_make_key v.expr = K)).map
      (fun v => v.location)).Sublist (stmt_preorder i stmt) := by
  unfold stmt_visits stmt_preorder
  cases stmt_slot stmt with
  | none => simp
  | some root =>
    have := candidates_sublist_preorder K root ⟨i, []⟩
    simp only [List.filter_map, List.map_map]
    exact this

theorem block_visits_sublist_preorder (K : String) (stmts : List AstStmt) : ∀ (i : Nat),
    (((block_visits i stmts).filter (fun v => expr_make_key v.expr = K)).map
      (fun v => v.location)).Sublist (block_preorder i stmts) := by
  induction stmts with
  | nil => intro i; simp [block_visits]
  | cons s rest ih =>
    intro i
    simp only [block_visits, block_preorder, List.filter_append, List.map_append]
    exact List.Sublist.append (stmt_visits_sublist_preorder K i s) (ih (i + 1))

theorem entry_locations_eq (block : AstBlock) (e : CseEntry)
    (he : e ∈ collect_block_candidates block) :
    entry_locations e =
      ((block_visits 0 block).filter (fun v => expr_make_key v.expr = e.key)).map
        (fun v => v.location) := by
  unfold entry_locations
  rw [(registryOf_collect block).occurrences_eq e he, List.map_map]
  rfl

theorem preorder_slots_path : ∀ (e : AstExpr) (loc : Slot) (s : Slot),
    s ∈ preorder_slots loc e → s.stmt = loc.stmt ∧ ∃ ext, s.path = ext ++ loc.path
  | .binary t op left right, loc, s, h => by
    unfold preorder_slots at h
    simp only [List.mem_cons, List.mem_append] at h
    rcases h with rfl | h | h
    · exact ⟨rfl, [], rfl⟩
    · obtain ⟨h1, ext, h2⟩ := preorder_slots_path left _ s h
      exact ⟨h1, ext ++ [0], by simp [h2, Slot.child]⟩
    · obtain ⟨h1, ext, h2⟩ := preorder_slots_path right _ s h
      exact ⟨h1, ext ++ [1], by simp [h2, Slot.child]⟩
  | .unary t op operand, loc, s, h => by
    unfold preorder_slots at h
    simp only [List.mem_cons] at h
    rcases h with rfl | h
    · exact ⟨rfl, [], rfl⟩
    · obtain ⟨h1, ext, h2⟩ := preorder_slots_path operand _ s h
      exact ⟨h1, ext ++ [0], by simp [h2, Slot.child]⟩
  | .call t callee args, loc, s, h => by
    unfold preorder_slots at h
    simp only [List.mem_cons] at h
    rcases h with rfl | h
    · exact ⟨rfl, [], rfl⟩
    · obtain ⟨h1, ext, j, h2⟩ := preorder_list_path args loc 0 s h
      exact ⟨h1, ext ++ [0 + j], by simp [h2]⟩
  | .array_literal t elements, loc, s, h => by
    unfold preorder_slots at h
    simp only [List.mem_cons] at h
    rcases h with rfl | h
    · exact ⟨rfl, [], rfl⟩
    · obtain ⟨h1, ext, j, h2⟩ := preorder_list_path elements loc 0 s h
      exact ⟨h1, ext ++ [0 + j], by simp [h2]⟩
  | .subscript t array index, loc, s, h => by
    unfold preorder_slots at h
    simp only [List.mem_cons, List.mem_append] at h
    rcases h with rfl | h | h
    · exact ⟨rfl, [], rfl⟩
    · obtain ⟨h1, ext, h2⟩ := preorder_slots_path array _ s h
      exact ⟨h1, ext ++ [0], by simp [h2, Slot.child]⟩
    · obtain ⟨h1, ext, h2⟩ := preorder_slots_path index _ s h
      exact ⟨h1, ext ++ [1], by simp [h2, Slot.child]⟩
  | .int_literal _ _, loc, s, h => by
    simp only [preorder_slots, List.mem_singleton] at h
    subst h
    exact ⟨rfl, [], rfl⟩
  | .float_literal _ _, loc, s, h => by
    simp only [preorder_slots, List.mem_singleton] at h
    subst h
    exact ⟨rfl, [], rfl⟩
  | .bool_literal _ _, loc, s, h => by
    simp only [preorder_slots, List.mem_singleton] at h
    subst h
    exact ⟨rfl, [], rfl⟩
  | .string_literal _ _, loc, s, h => by
    simp only [preorder_slots, List.mem_singleton] at h
    subst h
    exact ⟨rfl, [], rfl⟩
  | .identifier _ _, loc, s, h => by
    simp only [preorder_slots, List.mem_singleton] at h
    subst h
    exact ⟨rfl, [], rfl⟩
where
  preorder_list_path : ∀ (items : List AstExpr) (parent : Slot) (i : Nat) (s : Slot),
      s ∈ preorder_slots_list parent i items →
      s.stmt = parent.stmt ∧ ∃ ext j, s.path = ext ++ (i + j) :: parent.path
    | [], parent, i, s, h => by simp [preorder_slots_list] at h
    | item :: rest, parent, i, s, h => by
      unfold preorder_slots_list at h
      simp only [List.mem_append] at h
      rcases h with h | h
      · obtain ⟨h1, ext, h2⟩ := preorder_slots_path item _ s h
        exact ⟨h1, ext, 0, by simpa [Slot.child] using h2⟩
      · obtain ⟨h1, ext, j, h2⟩ := preorder_list_path rest parent (i + 1) s h
        refine ⟨h1, ext, j + 1, ?_⟩
        rw [h2]
        congr 2
        omega

theorem preorder_child_path (e : AstExpr) (loc : Slot) (k : Nat) (s : Slot)
    (h : s ∈ preorder_slots (loc.child k) e) : ∃ ext, s.path = ext ++ k :: loc.path := by
  obtain ⟨_, ext, hp⟩ := preorder_slots_path e (loc.child k) s h
  exact ⟨ext, hp⟩

theorem preorder_slots_nodup : ∀ (e : AstExpr) (loc : Slot), (preorder_slots loc e).Nodup
  | .binary t op left right, loc => by
    unfold preorder_slots
    rw [List.nodup_cons, List.nodup_append]
    refine ⟨?_, preorder_slots_nodup left _, preorder_slots_nodup right _, ?_⟩
    · intro h
      rcases List.mem_append.mp h with h | h
      · obtain ⟨ext, hp⟩ := preorder_child_path _ _ _ _ h
        exact path_ne_below _ _ _ hp
      · obtain ⟨ext, hp⟩ := preorder_child_path _ _ _ _ h
        exact path_ne_below _ _ _ hp
    · intro s h1 h2
      obtain ⟨e1, p1⟩ := preorder_child_path _ _ _ _ h1
      obtain ⟨e2, p2⟩ := preorder_child_path _ _ _ _ h2
      rw [p1] at p2
      exact absurd (path_child_eq _ _ _ _ _ p2) (by decide)
  | .unary t op operand, loc => by
    unfold preorder_slots
    rw [List.nodup_cons]
    refine ⟨?_, preorder_slots_nodup operand _⟩
    intro h
    obtain ⟨ext, hp⟩ := preorder_child_path _ _ _ _ h
    exact path_ne_below _ _ _ hp
  | .call t callee args, loc => by
    unfold preorder_slots
    rw [List.nodup_cons]
    refine ⟨?_, preorder_list_nodup args loc 0⟩
    intro h
    obtain ⟨_, ext, j, hp⟩ := preorder_slots_path.preorder_list_path args loc 0 _ h
    exact path_ne_below _ _ _ hp
  | .array_literal t elements, loc => by
    unfold preorder_slots
    rw [List.nodup_cons]
    refine ⟨?_, preorder_list_nodup elements loc 0⟩
    intro h
    obtain ⟨_, ext, j, hp⟩ := preorder_slots_path.preorder_list_path elements loc 0 _ h
    exact path_ne_below _ _ _ hp
  | .subscript t array index, loc => by
    unfold preorder_slots
    rw [List.nodup_cons, List.nodup_append]
    refine ⟨?_, preorder_slots_nodup array _, preorder_slots_nodup index _, ?_⟩
    · intro h
      rcases List.mem_append.mp h with h | h
      · obtain ⟨ext, hp⟩ := preorder_child_path _ _ _ _ h
        exact path_ne_below _ _ _ hp
      · obtain ⟨ext, hp⟩ := preorder_child_path _ _ _ _ h
        exact path_ne_below _ _ _ hp
    · intro s h1 h2
      obtain ⟨e1, p1⟩ := preorder_child_path _ _ _ _ h1
      obtain ⟨e2, p2⟩ := preorder_child_path _ _ _ _ h2
      rw [p1] at p2
      exact absurd (path_child_eq _ _ _ _ _ p2) (by decide)
  | .int_literal _ _, loc => by simp [preorder_slots]
  | .float_literal _ _, loc => by simp [preorder_slots]
  | .bool_literal _ _, loc => by simp [preorder_slots]
  | .string_literal _ _, loc => by simp [preorder_slots]
  | .identifier _ _, loc => by simp [preorder_slots]
where
  preorder_list_nodup : ∀ (items : List AstExpr) (parent : Slot) (i : Nat),
      (preorder_slots_list parent i items).Nodup
    | [], parent, i => by simp [preorder_slots_list]
    | item :: rest, parent, i => by
      unfold preorder_slots_list
      rw [List.nodup_append]
      refine ⟨preorder_slots_nodup item _, preorder_list_nodup rest parent (i + 1), ?_⟩
      intro s h1 h2
      obtain ⟨e1, p1⟩ := preorder_child_path _ _ _ _ h1
      obtain ⟨_, e2, j, p2⟩ := preorder_slots_path.preorder_list_path _ _ _ _ h2
      rw [p1] at p2
      have := path_child_eq _ _ _ _ _ p2
      omega

theorem stmt_preorder_stmt (i : Nat) (stmt : AstStmt) (s : Slot) (h : s ∈ stmt_preorder i stmt) :
    s.stmt = i := by
  unfold stmt_preorder at h
  split at h
  · exact (preorder_slots_path _ _ s h).1
  · simp at h

theorem block_preorder_stmt (stmts : List AstStmt) : ∀ (i : Nat) (s : Slot),
    s ∈ block_preorder i stmts → i ≤ s.stmt := by
  induction stmts with
  | nil => intro i s h; simp [block_preorder] at h
  | cons st rest ih =>
    intro i s h
    simp only [block_preorder, List.mem_append] at h
    rcases h with h | h
    · exact Nat.le_of_eq (stmt_preorder_stmt i st s h).symm
    · exact Nat.le_of_succ_le (ih (i + 1) s h)

theorem block_preorder_nodup (stmts : List AstStmt) : ∀ (i : Nat),
    (block_preorder i stmts).Nodup := by
  induction stmts with
  | nil => intro i; simp [block_preorder]
  | cons st rest ih =>
    intro i
    simp only [block_preorder]
    rw [List.nodup_append]
    refine ⟨?_, ih (i + 1), ?_⟩
    · unfold stmt_preorder
      split
      · exact preorder_slots_nodup _ _
      · simp
    · intro s h1 h2
      have a := stmt_preorder_stmt i st s h1
      have b := block_preorder_stmt rest (i + 1) s h2
      omega

/-- C17: the occurrences of a registry entry stand in discovery order.  Their statement
indices ascend, each is the index of the statement the slot lies in, and their slots come
in the order of the pre-order enumeration of the block's expression trees, statement after
statement, in which every slot has one position. -/
theorem occurrences_in_discovery_order (block : AstBlock) (e : CseEntry)
    (he : e ∈ collect_block_candidates block) :
    e.occurrences.Pairwise (fun a b => a.stmt_index ≤ b.stmt_index) ∧
    (∀ o ∈ e.occurrences, o.location.stmt = o.stmt_index ∧
      block[o.stmt_index]? = some o.stmt) ∧
    (e.occurrences.map (fun o => o.location)).Sublist (block_preorder 0 block) ∧
    (block_preorder 0 block).Nodup ∧
    (e.occurrences.map (fun o => o.location)).Nodup := by
  have hsub : (e.occurrences.map (fun o => o.location)).Sublist (block_preorder 0 block) := by
    have := entry_locations_eq block e he
    unfold entry_locations at this
    rw [this]
    exact block_visits_sublist_preorder e.key block 0
  refine ⟨registry_occurrences_sorted block e he, ?_, hsub, block_preorder_nodup block 0,
    List.Nodup.sublist hsub (block_preorder_nodup block 0)⟩
  intro o ho
  obtain ⟨_, _, _, _, hb, hl⟩ := registry_occurrence_spec block e he o ho
  exact ⟨hl, hb⟩

theorem occurrences_in_discovery_order_witness :
    example_repeated_entry ∈ collect_block_candidates example_repeated ∧
    block_preorder 0 example_repeated =
      [⟨0, []⟩, ⟨0, [0]⟩, ⟨0, [0, 0]⟩, ⟨0, [0, 0, 0]⟩, ⟨0, [1, 0, 0]⟩, ⟨0, [1, 0]⟩,
        ⟨0, [0, 1, 0]⟩, ⟨0, [1, 1, 0]⟩, ⟨0, [1]⟩, ⟨0, [0, 1]⟩, ⟨0, [1, 1]⟩,
        ⟨1, []⟩, ⟨1, [0]⟩, ⟨1, [1]⟩] ∧
    example_repeated_entry.occurrences.Pairwise (fun a b => a.stmt_index ≤ b.stmt_index) ∧
    (∀ o ∈ example_repeated_entry.occurrences, o.location.stmt = o.stmt_index ∧
      example_repeated[o.stmt_index]? = some o.stmt) ∧
    (example_repeated_entry.occurrences.map (fun o => o.location)).Sublist
      (block_preorder 0 example_repeated) ∧
    (block_preorder 0 example_repeated).Nodup ∧
    (example_repeated_entry.occurrences.map (fun o => o.location)).Nodup :=
  have hmem : example_repeated_entry ∈ collect_block_candidates example_repeated := by
    rw [show collect_block_candidates example_repeated = [example_repeated_entry] from rfl]
    exact List.mem_singleton.mpr rfl
  ⟨hmem, rfl, occurrences_in_discovery_order example_repeated example_repeated_entry hmem⟩

/-! ## The statement array around one statement -/

theorem layout_cons (n g f : Nat) (s : StmtRef) (rest : List (Nat × StmtRef)) :
    layout n g ((f, s) :: rest) =
      (List.range' g (f - g)).map StmtRef.parsed ++ s :: layout n f rest := rfl

theorem layout_append (n m : Nat) (x : StmtRef) (ds2 : List (Nat × StmtRef)) :
    ∀ (ds1 : List (Nat × StmtRef)) (g : Nat),
    layout n g (ds1 ++ (m, x) :: ds2) = layout m g ds1 ++ x :: layout n m ds2 := by
  intro ds1
  induction ds1 with
  | nil => intro g; rfl
  | cons d rest ih =>
    intro g
    obtain ⟨f, s⟩ := d
    rw [List.cons_append, layout_cons, layout_cons, ih, List.append_assoc]
    rfl

theorem layout_split_at (n m : Nat) (hm : m ≤ n) (ds2 : List (Nat × StmtRef))
    (h2 : ∀ d ∈ ds2, m ≤ d.1) :
    ∀ (ds1 : List (Nat × StmtRef)) (g : Nat), g ≤ m → (∀ d ∈ ds1, d.1 ≤ m) →
    layout n g (ds1 ++ ds2) = layout m g ds1 ++ layout n m ds2 := by
  intro ds1
  induction ds1 with
  | nil =>
    intro g hg _
    cases ds2 with
    | nil => simp only [List.append_nil, layout]; exact range_parsed_split g m n hg hm
    | cons d rest =>
      obtain ⟨f, s⟩ := d
      have hf : m ≤ f := h2 (f, s) (List.mem_cons_self _ _)
      simp only [List.nil_append, layout]
      rw [range_parsed_split g m f hg hf, List.append_assoc]
  | cons d rest ih =>
    intro g hg h1
    obtain ⟨f, s⟩ := d
    have hf : f ≤ m := h1 (f, s) (List.mem_cons_self _ _)
    rw [List.cons_append, layout_cons, layout_cons,
      ih f hf (fun d hd => h1 d (List.mem_cons_of_mem _ hd)), List.append_assoc]
    rfl

theorem layout_snoc (r : Nat) : ∀ (ds : List (Nat × StmtRef)) (g : Nat), g ≤ r →
    (∀ d ∈ ds, d.1 ≤ r) →
    layout (r + 1) g ds = layout r g ds ++ [StmtRef.parsed r] := by
  intro ds
  induction ds with
  | nil =>
    intro g hg _
    simp only [layout]
    have := range_parsed_split g r (r + 1) hg (Nat.le_succ r)
    rw [this]
    simp
  | cons d rest ih =>
    intro g hg h1
    obtain ⟨f, s⟩ := d
    have hf : f ≤ r := h1 (f, s) (List.mem_cons_self _ _)
    rw [layout_cons, layout_cons, ih f hf (fun d hd => h1 d (List.mem_cons_of_mem _ hd))]
    simp

theorem layout_mem (m : Nat) : ∀ (ds : List (Nat × StmtRef)) (g : Nat) (r : StmtRef),
    (∀ d ∈ ds, d.1 ≤ m) → r ∈ layout m g ds →
    (∃ i, i < m ∧ r = StmtRef.parsed i) ∨ (∃ d ∈ ds, r = d.2) := by
  intro ds
  induction ds with
  | nil =>
    intro g r _ hr
    simp only [layout, List.mem_map, List.mem_range'_1] at hr
    obtain ⟨i, ⟨h1, h2⟩, rfl⟩ := hr
    exact Or.inl ⟨i, by omega, rfl⟩
  | cons d rest ih =>
    intro g r h1 hr
    obtain ⟨f, s⟩ := d
    have hf : f ≤ m := h1 (f, s) (List.mem_cons_self _ _)
    rw [layout_cons] at hr
    simp only [List.mem_append, List.mem_cons, List.mem_map, List.mem_range'_1] at hr
    rcases hr with ⟨i, ⟨a1, a2⟩, rfl⟩ | rfl | hr
    · exact Or.inl ⟨i, by omega, rfl⟩
    · exact Or.inr ⟨(f, r), List.mem_cons_self _ _, rfl⟩
    · rcases ih f r (fun d hd => h1 d (List.mem_cons_of_mem _ hd)) hr with
        ⟨i, b2, rfl⟩ | ⟨d, hd, rfl⟩
      · exact Or.inl ⟨i, b2, rfl⟩
      · exact Or.inr ⟨d, List.mem_cons_of_mem _ hd, rfl⟩

theorem sorted_split (r : Nat) (l : List CseEntry)
    (hs : l.Pairwise (fun a b => a.first_stmt_index ≤ b.first_stmt_index)) :
    ∃ l1 l2, l = l1 ++ l2 ∧ (∀ x ∈ l1, x.first_stmt_index ≤ r) ∧
      (∀ x ∈ l2, r < x.first_stmt_index) := by
  induction l with
  | nil => exact ⟨[], [], rfl, by simp, by simp⟩
  | cons a rest ih =>
    have hp := List.pairwise_cons.mp hs
    by_cases ha : a.first_stmt_index ≤ r
    · obtain ⟨l1, l2, h1, h2, h3⟩ := ih hp.2
      refine ⟨a :: l1, l2, by simp [h1], ?_, h3⟩
      intro x hx
      rcases List.mem_cons.mp hx with rfl | hx
      · exact ha
      · exact h2 x hx
    · refine ⟨[], a :: rest, rfl, by simp, ?_⟩
      intro x hx
      rcases List.mem_cons.mp hx with rfl | hx
      · omega
      · have := hp.1 x hx
        omega

theorem load_stmt_is_return (mem : Slot → Option AstExpr) (i : Nat) (s : AstStmt) :
    is_return (load_stmt mem i s) = is_return s := by
  cases s with
  | decl t name init is_array is_used =>
    cases init <;> cases is_array <;> rfl
  | expr e => cases e <;> rfl
  | return_stmt e => cases e <;> rfl
  | _ => rfl

theorem optimize_each_append (f : Nat → AstStmt → Option (AstStmt × Nat)) (l1 l2 : List AstStmt) :
    ∀ (c : Nat) (r : List AstStmt × Nat), optimize_each f c (l1 ++ l2) = some r →
    ∃ r1 c1 r2, optimize_each f c l1 = some (r1, c1) ∧ optimize_each f c1 l2 = some (r2, r.2) ∧
      r.1 = r1 ++ r2 := by
  induction l1 with
  | nil =>
    intro c r hr
    exact ⟨[], c, r.1, rfl, hr, rfl⟩
  | cons s rest ih =>
    intro c r hr
    rw [List.cons_append] at hr
    unfold optimize_each at hr
    cases hf : f c s with
    | none => rw [hf] at hr; simp at hr
    | some p =>
      obtain ⟨s1, c1⟩ := p
      rw [hf] at hr
      simp only at hr
      cases hrest : optimize_each f c1 (rest ++ l2) with
      | none => rw [hrest] at hr; simp at hr
      | some q =>
        obtain ⟨rest1, c2⟩ := q
        rw [hrest] at hr
        simp only [Option.some.injEq] at hr
        subst hr
        obtain ⟨r1, c3, r2, g1, g2, g3⟩ := ih c1 _ hrest
        simp only at g3
        refine ⟨s1 :: r1, c3, r2, ?_, g2, by simp only [g3]; rfl⟩
        simp [optimize_each, hf, g1]

theorem children_kind (qsort : Qsort) (n c : Nat) (s : AstStmt) (r : AstStmt × Nat)
    (h : optimize_statement_children qsort n c s = some r) :
    r.1.kind = s.kind ∧ (is_nested_scope s = false → r = (s, c)) := by
  cases n with
  | zero => simp [optimize_statement_children] at h
  | succ n =>
    cases s with
    | block b =>
      rw [optimize_children_block] at h
      cases hb : optimize_block qsort n c b with
      | none => rw [hb] at h; simp at h
      | some p =>
        rw [hb] at h
        simp only [Option.some.injEq] at h
        subst h
        exact ⟨rfl, by simp [is_nested_scope]⟩
    | while_stmt cond body =>
      rw [optimize_children_while] at h
      cases hb : optimize_statement_children qsort n c body with
      | none => rw [hb] at h; simp at h
      | some p =>
        rw [hb] at h
        simp only [Option.some.injEq] at h
        subst h
        exact ⟨rfl, by simp [is_nested_scope]⟩
    | for_stmt init cond post body =>
      rw [optimize_children_for] at h
      cases h1 : optimize_optional (optimize_statement_children qsort n) c init with
      | none => rw [h1] at h; simp at h
      | some r1 =>
        rw [h1] at h
        simp only at h
        cases h2 : optimize_statement_children qsort n r1.2 body with
        | none => rw [h2] at h; simp at h
        | some r2 =>
          rw [h2] at h
          simp only at h
          cases h3 : optimize_optional (optimize_statement_children qsort n) r2.2 post with
          | none => rw [h3] at h; simp at h
          | some r3 =>
            rw [h3] at h
            simp only [Option.some.injEq] at h
            subst h
            exact ⟨rfl, by simp [is_nested_scope]⟩
    | decl t nm i a u =>
      have h2 : some (AstStmt.decl t nm i a u, c) = some r := h
      injection h2 with h2
      subst h2
      exact ⟨rfl, fun _ => rfl⟩
    | assign t v =>
      have h2 : some (AstStmt.assign t v, c) = some r := h
      injection h2 with h2
      subst h2
      exact ⟨rfl, fun _ => rfl⟩
    | array_assign a i v =>
      have h2 : some (AstStmt.array_assign a i v, c) = some r := h
      injection h2 with h2
      subst h2
      exact ⟨rfl, fun _ => rfl⟩
    | expr e =>
      have h2 : some (AstStmt.expr e, c) = some r := h
      injection h2 with h2
      subst h2
      exact ⟨rfl, fun _ => rfl⟩
    | return_stmt e =>
      have h2 : some (AstStmt.return_stmt e, c) = some r := h
      injection h2 with h2
      subst h2
      exact ⟨rfl, fun _ => rfl⟩

theorem optimize_each_forall2 (f : Nat → AstStmt → Option (AstStmt × Nat))
    (R : AstStmt → AstStmt → Prop) (l : List AstStmt)
    (h : ∀ s ∈ l, ∀ c r, f c s = some r → R s r.1) :
    ∀ c r, optimize_each f c l = some r → List.Forall₂ R l r.1 := by
  induction l with
  | nil =>
    intro c r hr
    simp only [optimize_each, Option.some.injEq] at hr
    subst hr
    exact List.Forall₂.nil
  | cons s rest ih =>
    intro c r hr
    unfold optimize_each at hr
    cases hf : f c s with
    | none => rw [hf] at hr; simp at hr
    | some p =>
      obtain ⟨s1, c1⟩ := p
      rw [hf] at hr
      simp only at hr
      cases hrest : optimize_each f c1 rest with
      | none => rw [hrest] at hr; simp at hr
      | some q =>
        obtain ⟨rest1, c2⟩ := q
        rw [hrest] at hr
        simp only [Option.some.injEq] at hr
        subst hr
        exact List.Forall₂.cons (h s (List.mem_cons_self _ _) c _ hf)
          (ih (fun x hx => h x (List.mem_cons_of_mem _ hx)) c1 _ hrest)

/-! ## Temporaries behind a `return` -/

theorem eliminate_unreachable_at_return (pre post : List AstStmt) (e : Option AstExpr)
    (h : ∀ s ∈ pre, is_return s = false) :
    eliminate_unreachable (pre ++ AstStmt.return_stmt e :: post) =
      pre ++ [AstStmt.return_stmt e] := by
  unfold eliminate_unreachable
  rw [eliminate_unreachable_loop_false, findIdx_is_return_append pre post e h]
  simp [List.take_append_eq_append_take]

theorem is_return_of_kind (s1 s2 : AstStmt) (h : s1.kind = s2.kind) :
    is_return s1 = is_return s2 := by
  cases s1 <;> cases s2 <;> simp [AstStmt.kind] at h <;> rfl

theorem optimize_each_singleton_simple (qsort : Qsort) (fuel c : Nat) (s : AstStmt)
    (r : List AstStmt × Nat) (hs : is_nested_scope s = false)
    (h : optimize_each (optimize_statement_children qsort fuel) c [s] = some r) :
    r = ([s], c) := by
  unfold optimize_each at h
  cases hf : optimize_statement_children qsort fuel c s with
  | none => rw [hf] at h; simp at h
  | some p =>
    rw [hf] at h
    have := (children_kind qsort fuel c s p hf).2 hs
    subst this
    simp only [optimize_each, Option.some.injEq] at h
    exact h.symm

theorem selected_first_lt (qsort : Qsort) (hq : QsortContract qsort) (block : AstBlock)
    (x : CseEntry) (hx : x ∈ select_entries qsort (collect_block_candidates block)) :
    x ∈ collect_block_candidates block ∧ 2 ≤ x.occurrences.length ∧
      x.first_stmt_index < block.length := by
  obtain ⟨h1, h2⟩ := (mem_select_entries qsort hq _ x).mp hx
  obtain ⟨_, _, _, _, _, hlt⟩ := registry_first_index block x h1
  exact ⟨h1, h2, hlt⟩

theorem temp_decls_first (sel : List CseEntry) (c : Nat) (d : Nat × StmtRef)
    (hd : d ∈ temp_decls c sel) : ∃ x ∈ sel, ∃ j, d = (x.first_stmt_index, temp_decl x j) := by
  obtain ⟨j, x, _, hx, _, rfl⟩ := temp_decls_mem sel c d hd
  exact ⟨x, hx, c + j, rfl⟩

theorem forall2_no_return (l l1 : List AstStmt)
    (h : List.Forall₂ (fun s s1 => s1.kind = s.kind) l l1)
    (hl : ∀ s ∈ l, is_return s = false) : ∀ s ∈ l1, is_return s = false := by
  induction h with
  | nil => intro s hs; simp at hs
  | cons hk _ ih =>
    intro s hs
    rcases List.mem_cons.mp hs with rfl | hs
    · rw [is_return_of_kind _ _ hk]
      exact hl _ (List.mem_cons_self _ _)
    · exact ih (fun x hx => hl x (List.mem_cons_of_mem _ hx)) s hs

theorem load_return (mem : Slot → Option AstExpr) (i : Nat) (x : Option AstExpr) :
    ∃ x1, load_stmt mem i (.return_stmt x) = .return_stmt x1 := by
  cases x with
  | none => exact ⟨none, rfl⟩
  | some e => exact ⟨some (load mem ⟨i, []⟩ e), rfl⟩

theorem load_stmt_ref_no_return (block : AstBlock) (mem : Slot → Option AstExpr) (r : Nat)
    (hfirst : ∀ i s, i < r → block[i]? = some s → is_return s = false)
    (ref : StmtRef) (s : AstStmt)
    (href : (∃ i, i < r ∧ ref = StmtRef.parsed i) ∨ ref.is_synthesized = true)
    (hs : load_stmt_ref block mem ref = some s) : is_return s = false := by
  rcases href with ⟨i, hi, rfl⟩ | href
  · simp only [load_stmt_ref, Option.map_eq_some'] at hs
    obtain ⟨s0, h0, rfl⟩ := hs
    rw [load_stmt_is_return]
    exact hfirst i s0 hi h0
  · cases ref with
    | parsed i => simp [StmtRef.is_synthesized] at href
    | synthesized t n init u =>
      simp only [load_stmt_ref, Option.some.injEq] at hs
      subst hs
      rfl

theorem example_after_return_optimize (qsort : Qsort) (hq : QsortContract qsort) :
    optimize_block qsort 2 0 example_after_return =
      some (example_after_return_optimized, 1) := by
  have hreg : (collect_block_candidates example_after_return).filter
      (fun e => 2 ≤ e.occurrences.length) = [example_after_return_entry] := rfl
  have happly : apply_cse qsort example_after_return
      (collect_block_candidates example_after_return) 0 =
      ([.assign "x" (.int_literal .TYPE_INT 5),
        .return_stmt (some (.identifier .TYPE_INT "x")),
        .decl .TYPE_INT "__c2lua_cse_0" (some example_one_plus_one) false true,
        .assign "y" (.identifier .TYPE_INT "__c2lua_cse_0"),
        .assign "z" (.identifier .TYPE_INT "__c2lua_cse_0")], 1) := by
    unfold apply_cse
    rw [apply_cse_pass_eq qsort hq]
    unfold select_entries
    rw [hreg, qsort_singleton qsort hq]
    rfl
  rw [optimize_block_succ, happly]
  rfl

/-- C13: when all occurrences of a reusable key lie in statements after the first `return`
of a block, `optimize_block` returns the statements of an initial part of the statement
array `apply_cse` leaves behind (their nested scopes optimized) in which there is neither
one of the statements that own the occurrences nor the declaration built for the key,
although that declaration was built.  For `x = 5; return x; y = 1 + 1; z = 1 + 1;` the
result is `x = 5; return x;`. -/
theorem temporaries_after_return_trimmed (qsort : Qsort) (hq : QsortContract qsort)
    (fuel counter : Nat) (block : AstBlock) (r : Nat) (x : Option AstExpr) (e : CseEntry)
    (hfuel : stmt_depth.block_depth block ≤ fuel + 1)
    (hret : block[r]? = some (AstStmt.return_stmt x))
    (hfirst : ∀ i s, i < r → block[i]? = some s → is_return s = false)
    (he : e ∈ collect_block_candidates block) (h2 : 2 ≤ e.occurrences.length)
    (hafter : ∀ o ∈ e.occurrences, r < o.stmt_index) :
    (∃ (n : Nat) (out : AstBlock) (c1 c2 : Nat),
      optimize_block qsort (fuel + 1) counter block = some (out, c2) ∧
      optimize_each (optimize_statement_children qsort fuel)
        (apply_cse_pass qsort block (collect_block_candidates block) counter).counter
        (((apply_cse_pass qsort block (collect_block_candidates block)
          counter).statements.take n).filterMap
          (load_stmt_ref block
            (apply_cse_pass qsort block (collect_block_candidates block) counter).mem)) =
        some (out, c1) ∧
      (∀ i : Nat, StmtRef.parsed i ∈ (apply_cse_pass qsort block
        (collect_block_candidates block) counter).statements.take n → i ≤ r) ∧
      (∀ o ∈ e.occurrences, StmtRef.parsed o.stmt_index ∉ (apply_cse_pass qsort block
        (collect_block_candidates block) counter).statements.take n) ∧
      ((apply_cse_pass qsort block (collect_block_candidates block)
        counter).statements.take n).filter (StmtRef.initialized_from (entry_locations e)) = [] ∧
      ((apply_cse_pass qsort block (collect_block_candidates block)
        counter).statements.filter (StmtRef.initialized_from (entry_locations e))).length = 1) ∧
    optimize_block qsort 2 0 example_after_return =
      some (example_after_return_optimized, 1) := by
  refine ⟨?_, example_after_return_optimize qsort hq⟩
  have hsorted := select_entries_sorted qsort hq (collect_block_candidates block)
  obtain ⟨sel1, sel2, hsel, hle, hgt⟩ := sorted_split r _ hsorted
  have hrlt : r < block.length := by
    by_contra hn
    rw [List.getElem?_eq_none (by omega)] at hret
    simp at hret
  have hd1 : ∀ d ∈ temp_decls counter sel1, d.1 ≤ r := by
    intro d hd
    obtain ⟨y, hy, j, rfl⟩ := temp_decls_first sel1 counter d hd
    exact hle y hy
  have hd2 : ∀ d ∈ temp_decls (counter + sel1.length) sel2, r + 1 ≤ d.1 := by
    intro d hd
    obtain ⟨y, hy, j, rfl⟩ := temp_decls_first sel2 _ d hd
    exact hgt y hy
  obtain ⟨k, first, x0, _, _, _, _, _, hinit, _⟩ :=
    apply_cse_reusable_entry qsort hq block counter e he h2
  have hlen1 : ((apply_cse_pass qsort block (collect_block_candidates block)
      counter).statements.filter (StmtRef.initialized_from (entry_locations e))).length = 1 := by
    rw [hinit]
    rfl
  obtain ⟨⟨out, c2⟩, hopt⟩ := Option.isSome_iff_exists.mp
    ((optimize_terminates qsort (fuel + 1)).1 counter block hfuel)
  have hsnap : (apply_cse qsort block (collect_block_candidates block) counter).1 =
      snapshot block (apply_cse_pass qsort block (collect_block_candidates block) counter) := rfl
  have hcnt : (apply_cse qsort block (collect_block_candidates block) counter).2 =
      (apply_cse_pass qsort block (collect_block_candidates block) counter).counter := rfl
  have hopt0 := hopt
  rw [optimize_block_succ, hsnap, hcnt] at hopt
  unfold snapshot at hopt
  have hS : (apply_cse_pass qsort block (collect_block_candidates block) counter).statements =
      (layout r 0 (temp_decls counter sel1) ++ [StmtRef.parsed r]) ++
        layout block.length (r + 1) (temp_decls (counter + sel1.length) sel2) := by
    rw [apply_cse_pass_eq qsort hq]
    simp only
    rw [hsel, temp_decls_append,
      layout_split_at block.length (r + 1) (by omega) _ hd2 _ 0 (Nat.zero_le _)
        (fun d hd => Nat.le_succ_of_le (hd1 d hd)),
      layout_snoc r _ 0 (Nat.zero_le _) hd1]
  generalize (apply_cse_pass qsort block (collect_block_candidates block) counter).mem = mem
    at hopt ⊢
  generalize (apply_cse_pass qsort block (collect_block_candidates block) counter).counter = cp
    at hopt ⊢
  rw [hS] at hopt hlen1 ⊢
  clear hS
  obtain ⟨x1, hx1⟩ := load_return mem r x
  have hloadr : load_stmt_ref block mem (StmtRef.parsed r) = some (AstStmt.return_stmt x1) := by
    simp [load_stmt_ref, hret, hx1]
  have hP : ∀ s ∈ (layout r 0 (temp_decls counter sel1)).filterMap (load_stmt_ref block mem),
      is_return s = false := by
    intro s hs
    obtain ⟨ref, href, hl⟩ := List.mem_filterMap.mp hs
    refine load_stmt_ref_no_return block mem r hfirst ref s ?_ hl
    rcases layout_mem r _ 0 ref hd1 href with ⟨i, hi, rfl⟩ | ⟨d, hd, rfl⟩
    · exact Or.inl ⟨i, hi, rfl⟩
    · obtain ⟨y, _, j, rfl⟩ := temp_decls_first sel1 counter d hd
      exact Or.inr rfl
  have htake : ((layout r 0 (temp_decls counter sel1) ++ [StmtRef.parsed r]) ++
        layout block.length (r + 1) (temp_decls (counter + sel1.length) sel2)).take
        ((layout r 0 (temp_decls counter sel1)).length + 1) =
      layout r 0 (temp_decls counter sel1) ++ [StmtRef.parsed r] := by
    rw [List.take_left' (by simp)]
  refine ⟨(layout r 0 (temp_decls counter sel1)).length + 1, out, ?_⟩
  rw [htake]
  simp only [List.filterMap_append, List.filterMap_cons, hloadr, List.filterMap_nil] at hopt ⊢
  cases hfull : optimize_each (optimize_statement_children qsort fuel) cp
      ((layout r 0 (temp_decls counter sel1)).filterMap (load_stmt_ref block mem) ++
          [AstStmt.return_stmt x1] ++
        (layout block.length (r + 1) (temp_decls (counter + sel1.length) sel2)).filterMap
          (load_stmt_ref block mem)) with
  | none => rw [hfull] at hopt; simp at hopt
  | some full =>
    rw [hfull] at hopt
    simp only [Option.some.injEq, Prod.mk.injEq] at hopt
    obtain ⟨r1, c1, r2, g1, g2, g3⟩ := optimize_each_append _ _ _ _ _ hfull
    obtain ⟨p1, cm, q1, a1, a2, a3⟩ := optimize_each_append _ _ _ _ _ g1
    have hq1 := optimize_each_singleton_simple qsort fuel cm (AstStmt.return_stmt x1) _ rfl a2
    simp only [Prod.mk.injEq] at hq1
    simp only at a3
    have hp1 : ∀ s ∈ p1, is_return s = false :=
      forall2_no_return _ _
        (optimize_each_forall2 _ (fun s s1 => s1.kind = s.kind) _
          (fun s _ c r hs => (children_kind qsort fuel c s r hs).1) _ _ a1) hP
    have hout : out = r1 := by
      rw [← hopt.1, g3, a3, hq1.1, List.append_assoc, List.singleton_append,
        eliminate_unreachable_at_return p1 r2 x1 hp1]
    refine ⟨c1, c2, hopt0, by rw [hout]; exact g1, ?_, ?_, ?_, hlen1⟩
    · intro i hi
      rcases List.mem_append.mp hi with hi | hi
      · rcases layout_mem r _ 0 _ hd1 hi with ⟨j, hj, hji⟩ | ⟨d, hd, hdi⟩
        · injection hji with hji
          omega
        · obtain ⟨y, _, j, rfl⟩ := temp_decls_first sel1 counter d hd
          simp [temp_decl] at hdi
      · simp only [List.mem_singleton] at hi
        injection hi with hi
        omega
    · intro o ho hi
      have hro := hafter o ho
      rcases List.mem_append.mp hi with hi | hi
      · rcases layout_mem r _ 0 _ hd1 hi with ⟨j, hj, hji⟩ | ⟨d, hd, hdi⟩
        · injection hji with hji
          omega
        · obtain ⟨y, _, j, rfl⟩ := temp_decls_first sel1 counter d hd
          simp [temp_decl] at hdi
      · simp only [List.mem_singleton] at hi
        injection hi with hi
        omega
    · rw [List.filter_eq_nil_iff]
      intro ref href
      rcases List.mem_append.mp href with hi | hi
      · rcases layout_mem r _ 0 _ hd1 hi with ⟨j, hj, rfl⟩ | ⟨d, hd, rfl⟩
        · simp [StmtRef.initialized_from]
        · obtain ⟨y, hy, j, rfl⟩ := temp_decls_first sel1 counter d hd
          simp only [temp_decl, StmtRef.initialized_from, decide_eq_true_eq]
          intro hmem
          have hysel : y ∈ select_entries qsort (collect_block_candidates block) := by
            rw [hsel]
            exact List.mem_append_left _ hy
          obtain ⟨hyR, _, _⟩ := selected_first_lt qsort hq block y hysel
          have hye : y = e := by
            by_contra hne
            exact first_slot_not_shared block e y he hyR hne hmem
          subst hye
          obtain ⟨f0, rest0, hocc, hf0, _, _⟩ := registry_first_index block y he
          have := hafter f0 (by rw [hocc]; simp)
          have := hle y hy
          omega
      · simp only [List.mem_singleton] at hi
        subst hi
        simp [StmtRef.initialized_from]

theorem temporaries_after_return_trimmed_witness :
    QsortContract stable_qsort ∧
    stmt_depth.block_depth example_after_return ≤ 1 + 1 ∧
    example_after_return[1]? = some (AstStmt.return_stmt (some (.identifier .TYPE_INT "x"))) ∧
    (∀ i s, i < 1 → example_after_return[i]? = some s → is_return s = false) ∧
    example_after_return_entry ∈ collect_block_candidates example_after_return ∧
    2 ≤ example_after_return_entry.occurrences.length ∧
    (∀ o ∈ example_after_return_entry.occurrences, 1 < o.stmt_index) ∧
    ((∃ (n : Nat) (out : AstBlock) (c1 c2 : Nat),
      optimize_block stable_qsort (1 + 1) 0 example_after_return = some (out, c2) ∧
      optimize_each (optimize_statement_children stable_qsort 1)
        (apply_cse_pass stable_qsort example_after_return
          (collect_block_candidates example_after_return) 0).counter
        (((apply_cse_pass stable_qsort example_after_return
          (collect_block_candidates example_after_return) 0).statements.take n).filterMap
          (load_stmt_ref example_after_return
            (apply_cse_pass stable_qsort example_after_return
              (collect_block_candidates example_after_return) 0).mem)) =
        some (out, c1) ∧
      (∀ i : Nat, StmtRef.parsed i ∈ (apply_cse_pass stable_qsort example_after_return
        (collect_block_candidates example_after_return) 0).statements.take n → i ≤ 1) ∧
      (∀ o ∈ example_after_return_entry.occurrences,
        StmtRef.parsed o.stmt_index ∉ (apply_cse_pass stable_qsort example_after_return
          (collect_block_candidates example_after_return) 0).statements.take n) ∧
      ((apply_cse_pass stable_qsort example_after_return
        (collect_block_candidates example_after_return) 0).statements.take n).filter
        (StmtRef.initialized_from (entry_locations example_after_return_entry)) = [] ∧
      ((apply_cse_pass stable_qsort example_after_return
        (collect_block_candidates example_after_return) 0).statements.filter
        (StmtRef.initialized_from (entry_locations example_after_return_entry))).length = 1) ∧
    optimize_block stable_qsort 2 0 example_after_return =
      some (example_after_return_optimized, 1)) :=
  have hfirst : ∀ i s, i < 1 → example_after_return[i]? = some s → is_return s = false := by
    intro i s hi h
    have h0 : i = 0 := by omega
    subst h0
    simp only [example_after_return, List.getElem?_cons_zero, Option.some.injEq] at h
    subst h
    rfl
  have hmem : example_after_return_entry ∈ collect_block_candidates example_after_return := by
    rw [show collect_block_candidates example_after_return = [example_after_return_entry]
      from rfl]
    exact List.mem_singleton.mpr rfl
  have hafter : ∀ o ∈ example_after_return_entry.occurrences, 1 < o.stmt_index := by
    intro o ho
    simp only [example_after_return_entry, List.mem_cons, List.mem_singleton,
      List.not_mem_nil, or_false] at ho
    rcases ho with rfl | rfl <;> decide
  ⟨stable_qsort_contract, by decide, rfl, hfirst, hmem, by decide, hafter,
    temporaries_after_return_trimmed stable_qsort stable_qsort_contract 1 0
      example_after_return 1 (some (.identifier .TYPE_INT "x")) example_after_return_entry
      (by decide) rfl hfirst hmem (by decide) hafter⟩

/-! ## The order of slots -/

theorem slot_lt_irrefl (s : Slot) : ¬ slot_lt s s := by
  rintro (h | ⟨_, h⟩)
  · omega
  · exact (asymm h h : False)

theorem slot_lt_asymm (s t : Slot) (h1 : slot_lt s t) (h2 : slot_lt t s) : False := by
  rcases h1 with h1 | ⟨e1, h1⟩ <;> rcases h2 with h2 | ⟨e2, h2⟩
  · omega
  · omega
  · omega
  · exact (asymm h1 h2 : False)

theorem below_irrefl (s t : Slot) (h1 : s.below t) (h2 : t.below s) : False := by
  obtain ⟨_, e1, n1, p1⟩ := h1
  obtain ⟨_, e2, n2, p2⟩ := h2
  have a := congrArg List.length p1
  have b := congrArg List.length p2
  simp only [List.length_append] at a b
  have : 0 < e1.length := List.length_pos.mpr n1
  have : 0 < e2.length := List.length_pos.mpr n2
  omega

theorem lex_extend : ∀ (a b x y : List Nat), List.Lex (fun m n : Nat => m < n) a b →
    (¬ ∃ z, b = a ++ z) → List.Lex (fun m n : Nat => m < n) (a ++ x) (b ++ y)
  | _, _, x, y, List.Lex.nil, hn => absurd ⟨_, rfl⟩ hn
  | _, _, x, y, @List.Lex.cons _ _ c l1 l2 h, hn => by
    refine List.Lex.cons (lex_extend l1 l2 x y h ?_)
    rintro ⟨z, hz⟩
    exact hn ⟨z, by rw [hz]; rfl⟩
  | _, _, x, y, List.Lex.rel h, _ => List.Lex.rel h

theorem slot_lt_extend (s t : Slot) (x y : List Nat) (h : slot_lt s t) (hn : ¬ t.below s) :
    slot_lt ⟨s.stmt, x ++ s.path⟩ ⟨t.stmt, y ++ t.path⟩ := by
  rcases h with h | ⟨he, h⟩
  · exact Or.inl h
  · refine Or.inr ⟨he, ?_⟩
    simp only [List.reverse_append]
    apply lex_extend _ _ _ _ h
    rintro ⟨z, hz⟩
    have hz2 : t.path = z.reverse ++ s.path := by
      have := congrArg List.reverse hz
      simpa using this
    by_cases hzn : z = []
    · subst hzn
      simp only [List.append_nil] at hz
      rw [hz] at h
      exact (asymm h h : False)
    · exact hn ⟨he.symm, z.reverse, by simpa using hzn, hz2⟩

theorem slot_lt_of_children (loc a b : Slot) (i j : Nat) (e1 e2 : List Nat) (hij : i < j)
    (ha : a.stmt = loc.stmt ∧ a.path = e1 ++ i :: loc.path)
    (hb : b.stmt = loc.stmt ∧ b.path = e2 ++ j :: loc.path) :
    slot_lt a b ∧ ¬ b.below a := by
  constructor
  · refine Or.inr ⟨ha.1.trans hb.1.symm, ?_⟩
    rw [ha.2, hb.2]
    simp only [List.reverse_append, List.reverse_cons, List.append_assoc, List.singleton_append]
    exact List.Lex.append_left _ (List.Lex.rel hij) _
  · rintro ⟨_, ext, _, hp⟩
    rw [ha.2, hb.2, ← List.append_assoc] at hp
    have := path_child_eq _ _ _ _ _ hp
    omega

theorem below_of_child (loc a : Slot) (k : Nat) (e1 : List Nat)
    (ha : a.stmt = loc.stmt ∧ a.path = e1 ++ k :: loc.path) : a.below loc :=
  ⟨ha.1, e1 ++ [k], by simp, by simp [ha.2]⟩

theorem candidate_nodes_child_slot (e : AstExpr) (loc : Slot) (k : Nat) (p : Slot × AstExpr)
    (h : p ∈ candidate_nodes (loc.child k) e) :
    ∃ ext, p.1.stmt = loc.stmt ∧ p.1.path = ext ++ k :: loc.path := by
  obtain ⟨_, hs, ext, hp, _⟩ := candidate_nodes_spec e (loc.child k) p.1 p.2 h
  exact ⟨ext, hs, hp⟩

theorem candidate_nodes_list_slot (items : List AstExpr) (parent : Slot) (k : Nat)
    (p : Slot × AstExpr) (h : p ∈ candidate_nodes_list parent k items) :
    ∃ ext j, p.1.stmt = parent.stmt ∧ p.1.path = ext ++ (k + j) :: parent.path := by
  obtain ⟨_, hs, ext, j, _, _, hp, _⟩ :=
    candidate_nodes_spec.candidate_nodes_list_spec items parent k p.1 p.2 h
  exact ⟨ext, j, hs, hp⟩

theorem candidate_nodes_order : ∀ (e : AstExpr) (loc : Slot),
    (candidate_nodes loc e).Pairwise
      (fun a b => a.1.below b.1 ∨ (slot_lt a.1 b.1 ∧ ¬ b.1.below a.1))
  | .binary t op left right, loc => by
    unfold candidate_nodes
    rw [List.pairwise_append, List.pairwise_append]
    refine ⟨⟨candidate_nodes_order left _, candidate_nodes_order right _, ?_⟩, ?_, ?_⟩
    · intro a ha b hb
      obtain ⟨e1, h1⟩ := candidate_nodes_child_slot _ _ _ a ha
      obtain ⟨e2, h2⟩ := candidate_nodes_child_slot _ _ _ b hb
      exact Or.inr (slot_lt_of_children loc a.1 b.1 0 1 e1 e2 (by decide) h1 h2)
    · split <;> simp
    · intro a ha b hb
      split at hb
      · simp only [List.mem_singleton] at hb
        subst hb
        rcases List.mem_append.mp ha with ha | ha
        · obtain ⟨e1, h1⟩ := candidate_nodes_child_slot _ _ _ a ha
          exact Or.inl (below_of_child loc a.1 0 e1 h1)
        · obtain ⟨e1, h1⟩ := candidate_nodes_child_slot _ _ _ a ha
          exact Or.inl (below_of_child loc a.1 1 e1 h1)
      · simp at hb
  | .unary t op operand, loc => by
    unfold candidate_nodes
    rw [List.pairwise_append]
    refine ⟨candidate_nodes_order operand _, ?_, ?_⟩
    · split <;> simp
    · intro a ha b hb
      split at hb
      · simp only [List.mem_singleton] at hb
        subst hb
        obtain ⟨e1, h1⟩ := candidate_nodes_child_slot _ _ _ a ha
        exact Or.inl (below_of_child loc a.1 0 e1 h1)
      · simp at hb
  | .call t callee args, loc => by
    unfold candidate_nodes
    exact candidate_nodes_list_order args loc 0
  | .array_literal t elements, loc => by
    unfold candidate_nodes
    exact candidate_nodes_list_order elements loc 0
  | .subscript t array index, loc => by
    unfold candidate_nodes
    rw [List.pairwise_append]
    refine ⟨candidate_nodes_order array _, candidate_nodes_order index _, ?_⟩
    intro a ha b hb
    obtain ⟨e1, h1⟩ := candidate_nodes_child_slot _ _ _ a ha
    obtain ⟨e2, h2⟩ := candidate_nodes_child_slot _ _ _ b hb
    exact Or.inr (slot_lt_of_children loc a.1 b.1 0 1 e1 e2 (by decide) h1 h2)
  | .int_literal _ _, loc => by simp [candidate_nodes]
  | .float_literal _ _, loc => by simp [candidate_nodes]
  | .bool_literal _ _, loc => by simp [candidate_nodes]
  | .string_literal _ _, loc => by simp [candidate_nodes]
  | .identifier _ _, loc => by simp [candidate_nodes]
where
  candidate_nodes_list_order : ∀ (items : List AstExpr) (parent : Slot) (i : Nat),
      (candidate_nodes_list parent i items).Pairwise
        (fun a b => a.1.below b.1 ∨ (slot_lt a.1 b.1 ∧ ¬ b.1.below a.1))
    | [], parent, i => by simp [candidate_nodes_list]
    | item :: rest, parent, i => by
      unfold candidate_nodes_list
      rw [List.pairwise_append]
      refine ⟨candidate_nodes_order item _, candidate_nodes_list_order rest parent (i + 1), ?_⟩
      intro a ha b hb
      obtain ⟨e1, h1⟩ := candidate_nodes_child_slot _ _ _ a ha
      obtain ⟨e2, j, h2⟩ := candidate_nodes_list_slot _ _ _ b hb
      exact Or.inr (slot_lt_of_children parent a.1 b.1 i (i + 1 + j) e1 e2 (by omega) h1 h2)

theorem stmt_visits_order (i : Nat) (stmt : AstStmt) :
    (stmt_visits i stmt).Pairwise (fun a b => a.location.below b.location ∨
      (slot_lt a.location b.location ∧ ¬ b.location.below a.location)) := by
  unfold stmt_visits
  split
  · rename_i root _
    rw [List.pairwise_map]
    exact candidate_nodes_order root ⟨i, []⟩
  · simp

theorem block_visits_order (stmts : List AstStmt) : ∀ (k : Nat),
    (block_visits k stmts).Pairwise (fun a b => a.location.below b.location ∨
      (slot_lt a.location b.location ∧ ¬ b.location.below a.location)) := by
  induction stmts with
  | nil => intro k; simp [block_visits]
  | cons s rest ih =>
    intro k
    simp only [block_visits]
    rw [List.pairwise_append]
    refine ⟨stmt_visits_order k s, ih (k + 1), ?_⟩
    intro a ha b hb
    have h1 := (stmt_visits_spec k s a ha).2.1
    have h2 := block_visits_spec rest (k + 1) b hb
    have hlt : a.location.stmt < b.location.stmt := by omega
    refine Or.inr ⟨Or.inl hlt, ?_⟩
    rintro ⟨he, _⟩
    omega

theorem slot_init_below (block : AstBlock) (s t : Slot) (x y : AstExpr) (ext : List Nat)
    (hs : s.stmt = t.stmt) (hp : s.path = ext ++ t.path)
    (ht : slot_init block t = some y) (hx : slot_init block s = some x) :
    expr_at y ext = some x := by
  unfold slot_init at ht hx
  rw [hs, hp] at hx
  cases hb : block[t.stmt]? with
  | none => rw [hb] at ht; simp at ht
  | some st =>
    rw [hb] at ht hx
    simp only [Option.some_bind] at ht hx
    cases hr : stmt_slot st with
    | none => rw [hr] at ht; simp at ht
    | some root =>
      rw [hr] at ht hx
      simp only [Option.some_bind] at ht hx
      rw [expr_at_append, ht] at hx
      simpa using hx

theorem slot_init_extend (block : AstBlock) (t : Slot) (x y : AstExpr) (ext : List Nat)
    (ht : slot_init block t = some y) (hx : expr_at y ext = some x) :
    slot_init block ⟨t.stmt, ext ++ t.path⟩ = some x := by
  unfold slot_init at ht ⊢
  cases hb : block[t.stmt]? with
  | none => rw [hb] at ht; simp at ht
  | some st =>
    rw [hb] at ht
    simp only [Option.some_bind] at ht ⊢
    cases hr : stmt_slot st with
    | none => rw [hr] at ht; simp at ht
    | some root =>
      rw [hr] at ht
      simp only [Option.some_bind] at ht ⊢
      rw [expr_at_append, ht]
      simpa using hx

theorem key_ne_of_below (block : AstBlock) (s t : Slot) (x y : AstExpr)
    (hx : slot_init block s = some x) (hy : slot_init block t = some y)
    (hc : expr_is_candidate y = true) (hb : s.below t) :
    expr_make_key x ≠ expr_make_key y := by
  obtain ⟨hs, ext, hne, hp⟩ := hb
  have hat := slot_init_below block s t x y ext hs hp hy hx
  have := (key_below_le y (candidate_structurally_constant y hc) ext x hat).2 hne
  intro h
  rw [h] at this
  omega

theorem registry_not_nested (block : AstBlock) (e : CseEntry)
    (he : e ∈ collect_block_candidates block) (o1 o2 : CseOccurrence)
    (h1 : o1 ∈ e.occurrences) (h2 : o2 ∈ e.occurrences) : ¬ o1.location.below o2.location := by
  obtain ⟨x, hx, hkx, _, _⟩ := registry_occurrence_spec block e he o1 h1
  obtain ⟨y, hy, hky, hcy, _⟩ := registry_occurrence_spec block e he o2 h2
  intro hb
  exact key_ne_of_below block _ _ x y hx hy hcy hb (hkx.trans hky.symm)

theorem registry_locations_sorted (block : AstBlock) (e : CseEntry)
    (he : e ∈ collect_block_candidates block) :
    e.occurrences.Pairwise (fun a b => slot_lt a.location b.location) := by
  have hreg := (registryOf_collect block).occurrences_eq e he
  have hpw : e.occurrences.Pairwise (fun a b => a.location.below b.location ∨
      (slot_lt a.location b.location ∧ ¬ b.location.below a.location)) := by
    rw [hreg, List.pairwise_map]
    exact List.Pairwise.sublist (List.filter_sublist _) (block_visits_order block 0)
  refine hpw.imp_of_mem ?_
  intro a b ha hb hab
  rcases hab with h | h
  · exact absurd h (registry_not_nested block e he a b ha hb)
  · exact h.1

theorem registry_first_le (block : AstBlock) (e : CseEntry)
    (he : e ∈ collect_block_candidates block) (o : CseOccurrence) (ho : o ∈ e.occurrences) :
    o.location = entry_first_slot e ∨ slot_lt (entry_first_slot e) o.location := by
  have hs := registry_locations_sorted block e he
  unfold entry_first_slot
  cases hocc : e.occurrences with
  | nil => rw [hocc] at ho; simp at ho
  | cons first rest =>
    rw [hocc] at ho hs
    rcases List.mem_cons.mp ho with rfl | ho
    · exact Or.inl rfl
    · exact Or.inr ((List.pairwise_cons.mp hs).1 o ho)

/-! ## The order of registration -/

theorem entry_first_slot_extend (e : CseEntry) (v : Visit) (h : e.occurrences ≠ []) :
    entry_first_slot (extend_entry e v) = entry_first_slot e := by
  unfold entry_first_slot extend_entry
  cases hocc : e.occurrences with
  | nil => exact absurd hocc h
  | cons a rest => simp

theorem first_slots_snoc (visits : List Visit) (entries : CseEntryList) (v : Visit)
    (hreg : RegistryOf visits entries)
    (h : (entries.map entry_first_slot).Sublist (visits.map (fun w => w.location))) :
    ((register_visit entries v).map entry_first_slot).Sublist
      ((visits ++ [v]).map (fun w => w.location)) := by
  rcases register_visit_cases entries v with ⟨_, h2⟩ | ⟨pre, e, post, h1, _, _, h4⟩
  · rw [h2, List.map_append, List.map_append]
    exact List.Sublist.append h (List.Sublist.refl _)
  · rw [h4]
    subst h1
    have hne := hreg.nonempty e (by simp)
    have : (pre ++ extend_entry e v :: post).map entry_first_slot =
        (pre ++ e :: post).map entry_first_slot := by
      simp [entry_first_slot_extend e v hne]
    have hv : (visits ++ [v]).map (fun w => w.location) =
        visits.map (fun w => w.location) ++ [v.location] := by simp
    rw [this, hv]
    exact h.trans (List.sublist_append_left _ _)

theorem first_slots_foldl (visits : List Visit) : ∀ (done : List Visit) (entries : CseEntryList),
    RegistryOf done entries →
    (entries.map entry_first_slot).Sublist (done.map (fun w => w.location)) →
    ((visits.foldl register_visit entries).map entry_first_slot).Sublist
      ((done ++ visits).map (fun w => w.location)) := by
  induction visits with
  | nil => intro done entries _ h; simpa using h
  | cons v rest ih =>
    intro done entries hreg h
    have := ih (done ++ [v]) (register_visit entries v) (registryOf_snoc done entries v hreg)
      (first_slots_snoc done entries v hreg h)
    simpa using this

theorem registry_first_slots (block : AstBlock) :
    ((collect_block_candidates block).map entry_first_slot).Sublist
      ((block_visits 0 block).map (fun w => w.location)) := by
  rw [collect_block_eq_foldl]
  simpa using first_slots_foldl (block_visits 0 block) [] [] registryOf_nil (by simp)

theorem registry_order (block : AstBlock) :
    (collect_block_candidates block).Pairwise (fun a b =>
      (entry_first_slot a).below (entry_first_slot b) ∨
        (slot_lt (entry_first_slot a) (entry_first_slot b) ∧
          ¬ (entry_first_slot b).below (entry_first_slot a))) := by
  have h1 := block_visits_order block 0
  have h2 : ((block_visits 0 block).map (fun w => w.location)).Pairwise
      (fun a b => a.below b ∨ (slot_lt a b ∧ ¬ b.below a)) := by
    rw [List.pairwise_map]
    exact h1
  have h3 := List.Pairwise.sublist (registry_first_slots block) h2
  rw [List.pairwise_map] at h3
  exact h3

theorem below_trans (a b c : Slot) (h1 : a.below b) (h2 : b.below c) : a.below c := by
  obtain ⟨s1, e1, n1, p1⟩ := h1
  obtain ⟨s2, e2, n2, p2⟩ := h2
  exact ⟨s1.trans s2, e1 ++ e2, by simp [n1], by rw [p1, p2, List.append_assoc]⟩

theorem entry_first_occurrence (block : AstBlock) (e : CseEntry)
    (he : e ∈ collect_block_candidates block) :
    ∃ first ∈ e.occurrences, first.location = entry_first_slot e ∧
      first.stmt_index = e.first_stmt_index ∧ (entry_first_slot e).stmt = e.first_stmt_index := by
  obtain ⟨first, rest, hocc, hf, hl, _⟩ := registry_first_index block e he
  refine ⟨first, by rw [hocc]; simp, by simp [entry_first_slot, hocc], hf.symm, ?_⟩
  simp [entry_first_slot, hocc, hl]

theorem not_registered_after (block : AstBlock) (e e1 : CseEntry)
    (he : e ∈ collect_block_candidates block)
    (o : CseOccurrence) (ho : o ∈ e.occurrences)
    (hb : o.location.below (entry_first_slot e1)) :
    ¬ [e1, e].Sublist (collect_block_candidates block) := by
  intro hsub
  have hpw := List.Pairwise.sublist hsub (registry_order block)
  have hT := (List.pairwise_cons.mp hpw).1 e (by simp)
  obtain ⟨first, hfm, hfl, _, _⟩ := entry_first_occurrence block e he
  rcases hT with h | ⟨h1, h2⟩
  · have := below_trans _ _ _ hb h
    rw [← hfl] at this
    exact registry_not_nested block e he o first ho hfm this
  · obtain ⟨hs, ext, hne, hp⟩ := hb
    have hext := slot_lt_extend (entry_first_slot e1) (entry_first_slot e) ext [] h1 h2
    have ho_eq : o.location = ⟨(entry_first_slot e1).stmt, ext ++ (entry_first_slot e1).path⟩ := by
      cases hloc : o.location with
      | mk s p =>
        rw [hloc] at hs hp
        simp only at hs hp
        rw [hs, hp]
    simp only [List.nil_append] at hext
    rw [← ho_eq] at hext
    rcases registry_first_le block e he o ho with h | h
    · rw [h] at hext
      exact slot_lt_irrefl _ hext
    · exact slot_lt_asymm _ _ hext h

theorem stable_contract (qsort : Qsort) (hs : QsortStable qsort) : QsortContract qsort := by
  intro l
  rw [hs l]
  exact insertionSort_contract l

theorem pair_sublist_of_mem (l1 l2 : List CseEntry) (a b : CseEntry) (ha : a ∈ l1) :
    [a, b].Sublist (l1 ++ b :: l2) := by
  have h1 : [a].Sublist l1 := List.singleton_sublist.mpr ha
  have h2 : [b].Sublist (b :: l2) := List.singleton_sublist.mpr (List.mem_cons_self _ _)
  exact List.Sublist.append h1 h2

theorem selected_before (qsort : Qsort) (hs : QsortStable qsort) (block : AstBlock)
    (e e1 : CseEntry) (pre post : List CseEntry)
    (hsel : select_entries qsort (collect_block_candidates block) = pre ++ e :: post)
    (he1 : e1 ∈ select_entries qsort (collect_block_candidates block))
    (o : CseOccurrence) (ho : o ∈ e.occurrences)
    (hb : o.location.below (entry_first_slot e1)) : e1 ∈ post := by
  have hq := stable_contract qsort hs
  have hesel : e ∈ select_entries qsort (collect_block_candidates block) := by
    rw [hsel]; simp
  obtain ⟨heR, _, _⟩ := selected_first_lt qsort hq block e hesel
  obtain ⟨he1R, _, _⟩ := selected_first_lt qsort hq block e1 he1
  obtain ⟨first, hfm, hfl, hfi, hfs⟩ := entry_first_occurrence block e heR
  obtain ⟨_, _, _, _, hfs1⟩ := entry_first_occurrence block e1 he1R
  rw [hsel] at he1
  simp only [List.mem_append, List.mem_cons] at he1
  rcases he1 with hpre | rfl | hpost
  · exfalso
    have hsub : [e1, e].Sublist (select_entries qsort (collect_block_candidates block)) := by
      rw [hsel]
      exact pair_sublist_of_mem pre post e1 e hpre
    have hsorted := List.Pairwise.sublist hsub
      (select_entries_sorted qsort hq (collect_block_candidates block))
    have hle1 := (List.pairwise_cons.mp hsorted).1 e (by simp)
    have hle2 := (registryOf_collect block).first_le e heR o ho
    obtain ⟨_, _, _, _, _, hol⟩ := registry_occurrence_spec block e heR o ho
    have hst := hb.1
    have heq : e1.first_stmt_index = e.first_stmt_index := by omega
    have hfilt := List.Sublist.filter (fun x : CseEntry => decide (x.first_stmt_index =
      e.first_stmt_index)) hsub
    have hpair : [e1, e].filter (fun x : CseEntry => decide (x.first_stmt_index =
        e.first_stmt_index)) = [e1, e] := by
      simp [heq]
    rw [hpair] at hfilt
    unfold select_entries at hfilt
    rw [hs, insertionSort_filter] at hfilt
    have hreg := hfilt.trans ((List.filter_sublist _).trans (List.filter_sublist _))
    exact not_registered_after block e e1 heR o ho hb hreg
  · exfalso
    rw [← hfl] at hb
    exact registry_not_nested block e1 heR o first ho hfm hb
  · exact hpost

/-! ## What memory holds when `apply_cse` returns -/

theorem selected_disjoint (qsort : Qsort) (hq : QsortContract qsort) (block : AstBlock)
    (e : CseEntry) (pre post : List CseEntry)
    (hsel : select_entries qsort (collect_block_candidates block) = pre ++ e :: post)
    (s : Slot) (hs : s ∈ entry_locations e) :
    (∀ x ∈ pre, s ∉ entry_locations x) ∧ (∀ x ∈ post, s ∉ entry_locations x) := by
  have hn := select_entries_nodup qsort hq block
  rw [hsel] at hn
  have hmem : ∀ x, x ∈ pre ∨ x ∈ post →
      x ∈ select_entries qsort (collect_block_candidates block) := by
    intro x hx
    rw [hsel]
    rcases hx with hx | hx
    · exact List.mem_append_left _ hx
    · exact List.mem_append_right _ (List.mem_cons_of_mem _ hx)
  have heR : e ∈ collect_block_candidates block :=
    ((mem_select_entries qsort hq _ e).mp (by rw [hsel]; simp)).1
  have key : ∀ x, x ∈ pre ∨ x ∈ post → s ∈ entry_locations x → x = e := by
    intro x hx hsx
    have hxR := ((mem_select_entries qsort hq _ x).mp (hmem x hx)).1
    exact registry_key_inj block x e hxR heR (registry_entry_disjoint block x e hxR heR s hsx hs)
  constructor
  · intro x hx hsx
    have := key x (Or.inl hx) hsx
    subst this
    exact (List.nodup_append.mp hn).2.2 hx (List.mem_cons_self _ _)
  · intro x hx hsx
    have := key x (Or.inr hx) hsx
    subst this
    exact (List.nodup_cons.mp (List.nodup_append.mp hn).2.1).1 hx

theorem pass_mem_cases (qsort : Qsort) (hq : QsortContract qsort) (block : AstBlock)
    (counter : Nat) (s : Slot) :
    ((apply_cse_pass qsort block (collect_block_candidates block) counter).mem s = none ∧
      ∀ e ∈ select_entries qsort (collect_block_candidates block), s ∉ entry_locations e) ∨
    (∃ pre e post, select_entries qsort (collect_block_candidates block) = pre ++ e :: post ∧
      s ∈ entry_locations e ∧
      (apply_cse_pass qsort block (collect_block_candidates block) counter).mem s =
        some (AstExpr.identifier e.type (make_temp_name (counter + pre.length)))) := by
  rw [apply_cse_pass_eq qsort hq]
  simp only
  by_cases h : ∃ e ∈ select_entries qsort (collect_block_candidates block), s ∈ entry_locations e
  · obtain ⟨e, he, hs⟩ := h
    obtain ⟨pre, post, hsel⟩ := List.append_of_mem he
    right
    refine ⟨pre, e, post, hsel, hs, ?_⟩
    rw [hsel]
    exact replace_all_of_mem s e post hs (selected_disjoint qsort hq block e pre post hsel s hs).2
      pre counter _
  · left
    have hall : ∀ e ∈ select_entries qsort (collect_block_candidates block),
        s ∉ entry_locations e := fun e he hs => h ⟨e, he, hs⟩
    exact ⟨replace_all_of_not_mem s _ _ _ hall, hall⟩

theorem pass_mem_identifier (qsort : Qsort) (hq : QsortContract qsort) (block : AstBlock)
    (counter : Nat) (s : Slot) (z : AstExpr)
    (h : (apply_cse_pass qsort block (collect_block_candidates block) counter).mem s = some z) :
    ∃ t name, z = AstExpr.identifier t name := by
  rcases pass_mem_cases qsort hq block counter s with ⟨h1, _⟩ | ⟨pre, e, post, _, _, h1⟩
  · rw [h1] at h; simp at h
  · rw [h1] at h
    simp only [Option.some.injEq] at h
    exact ⟨_, _, h.symm⟩

/-! ## Reading a tree through memory -/

theorem load_list_getElem (mem : Slot → Option AstExpr) (parent : Slot) :
    ∀ (items : List AstExpr) (i j : Nat),
    (load_list mem parent i items)[j]? = (items[j]?).map (load mem (parent.child (i + j))) := by
  intro items
  induction items with
  | nil => intro i j; simp [load_list]
  | cons item rest ih =>
    intro i j
    cases j with
    | zero => simp [load_list, load]
    | succ j =>
      simp only [load_list, List.getElem?_cons_succ, ih]
      rw [show i + 1 + j = i + (j + 1) by omega]

theorem expr_child_load (mem : Slot → Option AstExpr) (loc : Slot) (k : Nat) (x : AstExpr) :
    expr_child k (load_node mem loc x) = (expr_child k x).map (load mem (loc.child k)) := by
  cases x with
  | binary t op left right =>
    simp only [load_node, expr_child]
    split
    · rename_i hk; subst hk; rfl
    · split
      · rename_i hk; subst hk; rfl
      · rfl
  | unary t op operand =>
    simp only [load_node, expr_child]
    split
    · rename_i hk; subst hk; rfl
    · rfl
  | call t callee args =>
    simp only [load_node, expr_child]
    have := load_list_getElem mem loc args 0 k
    simpa using this
  | array_literal t elements =>
    simp only [load_node, expr_child]
    have := load_list_getElem mem loc elements 0 k
    simpa using this
  | subscript t array index =>
    simp only [load_node, expr_child]
    split
    · rename_i hk; subst hk; rfl
    · split
      · rename_i hk; subst hk; rfl
      · rfl
  | int_literal _ _ => rfl
  | float_literal _ _ => rfl
  | bool_literal _ _ => rfl
  | string_literal _ _ => rfl
  | identifier _ _ => rfl

theorem expr_at_load (mem : Slot → Option AstExpr)
    (hid : ∀ s z, mem s = some z → ∃ t n, z = AstExpr.identifier t n)
    (loc : Slot) (x : AstExpr) : ∀ (ext : List Nat) (y1 : AstExpr), ext ≠ [] →
    expr_at (load_node mem loc x) ext = some y1 →
    ∃ y, expr_at x ext = some y ∧ y1 = load mem ⟨loc.stmt, ext ++ loc.path⟩ y ∧
      slot_visible mem loc ext := by
  intro ext
  induction ext with
  | nil => intro y1 h; exact absurd rfl h
  | cons k ext ih =>
    intro y1 _ hy
    simp only [expr_at] at hy
    cases hp : expr_at (load_node mem loc x) ext with
    | none => rw [hp] at hy; simp at hy
    | some p1 =>
      rw [hp] at hy
      have hy : expr_child k p1 = some y1 := hy
      by_cases hnil : ext = []
      · subst hnil
        simp only [expr_at, Option.some.injEq] at hp
        subst hp
        rw [expr_child_load] at hy
        simp only [Option.map_eq_some'] at hy
        obtain ⟨y, hc, rfl⟩ := hy
        refine ⟨y, by simp [expr_at, hc], rfl, ?_⟩
        intro e1 e2 he h1 h2
        have := congrArg List.length he
        simp only [List.length_cons, List.length_nil, List.length_append] at this
        have := List.length_pos.mpr h1
        have := List.length_pos.mpr h2
        omega
      · obtain ⟨p, hpx, hp1, hvis⟩ := ih p1 hnil hp
        cases hm : mem ⟨loc.stmt, ext ++ loc.path⟩ with
        | some z =>
          obtain ⟨t, n, rfl⟩ := hid _ z hm
          simp only [load, hm, Option.getD_some] at hp1
          subst hp1
          simp [expr_child] at hy
        | none =>
          simp only [load, hm, Option.getD_none] at hp1
          subst hp1
          rw [expr_child_load] at hy
          simp only [Option.map_eq_some'] at hy
          obtain ⟨y, hc, rfl⟩ := hy
          refine ⟨y, by simp [expr_at, hpx, hc], rfl, ?_⟩
          intro e1 e2 he h1 h2
          cases e1 with
          | nil => exact absurd rfl h1
          | cons a e1 =>
            simp only [List.cons_append, List.cons.injEq] at he
            by_cases he1 : e1 = []
            · subst he1
              simp only [List.nil_append] at he
              rw [← he.2]
              exact hm
            · exact hvis e1 e2 he.2 he1 h2

theorem expr_at_load_visible (mem : Slot → Option AstExpr) (loc : Slot) (x : AstExpr) :
    ∀ (ext : List Nat) (y : AstExpr), ext ≠ [] → expr_at x ext = some y →
    slot_visible mem loc ext →
    expr_at (load_node mem loc x) ext = some (load mem ⟨loc.stmt, ext ++ loc.path⟩ y) := by
  intro ext
  induction ext with
  | nil => intro y h; exact absurd rfl h
  | cons k ext ih =>
    intro y _ hy hvis
    simp only [expr_at] at hy ⊢
    cases hp : expr_at x ext with
    | none => rw [hp] at hy; simp at hy
    | some p =>
      rw [hp] at hy
      have hy : expr_child k p = some y := hy
      by_cases hnil : ext = []
      · subst hnil
        simp only [expr_at, Option.some.injEq] at hp
        subst hp
        simp only [expr_at, Option.some_bind]
        rw [expr_child_load, hy]
        rfl
      · have hm : mem ⟨loc.stmt, ext ++ loc.path⟩ = none :=
          hvis [k] ext rfl (by simp) hnil
        have hv2 : slot_visible mem loc ext := by
          intro e1 e2 he h1 h2
          exact hvis (k :: e1) e2 (by rw [he]; rfl) (by simp) h2
        rw [ih p hnil hp hv2]
        simp only [Option.some_bind, load, hm, Option.getD_none]
        rw [expr_child_load, hy]
        rfl

theorem load_node_identifier (mem : Slot → Option AstExpr) (loc : Slot) (x : AstExpr)
    (t : TypeKind) (name : String) (h : load_node mem loc x = AstExpr.identifier t name) :
    x = AstExpr.identifier t name := by
  cases x <;> simp [load_node] at h ⊢
  exact h

theorem expr_at_identifier (t : TypeKind) (name : String) (ext : List Nat) (y : AstExpr)
    (h : expr_at (AstExpr.identifier t name) ext = some y) :
    ext = [] ∧ y = AstExpr.identifier t name := by
  rcases nil_or_snoc ext with rfl | ⟨ext1, k, rfl⟩
  · simp only [expr_at, Option.some.injEq] at h
    exact ⟨rfl, h.symm⟩
  · rw [expr_at_snoc] at h
    simp [expr_child] at h

theorem load_stmt_slot (mem : Slot → Option AstExpr) (i : Nat) (s : AstStmt) :
    stmt_slot (load_stmt mem i s) = (stmt_slot s).map (load mem ⟨i, []⟩) := by
  cases s with
  | decl t name init is_array is_used =>
    cases init <;> cases is_array <;> rfl
  | expr e => cases e <;> rfl
  | return_stmt e => cases e <;> rfl
  | _ => rfl

theorem filterMap_getElem {α β : Type} (f : α → Option β) (l : List α)
    (h : ∀ x ∈ l, (f x).isSome = true) : ∀ (p : Nat),
    (l.filterMap f)[p]? = (l[p]?).bind f := by
  induction l with
  | nil => intro p; simp
  | cons a rest ih =>
    intro p
    obtain ⟨b, hb⟩ := Option.isSome_iff_exists.mp (h a (List.mem_cons_self _ _))
    rw [List.filterMap_cons, hb]
    cases p with
    | zero => simp [hb]
    | succ p =>
      simp only [List.getElem?_cons_succ]
      exact ih (fun x hx => h x (List.mem_cons_of_mem _ hx)) p

theorem pass_statements_mem (qsort : Qsort) (hq : QsortContract qsort) (block : AstBlock)
    (counter : Nat) (ref : StmtRef)
    (h : ref ∈ (apply_cse_pass qsort block (collect_block_candidates block) counter).statements) :
    (∃ i, i < block.length ∧ ref = StmtRef.parsed i) ∨
    (∃ e ∈ select_entries qsort (collect_block_candidates block), ∃ j, ref = temp_decl e j) := by
  rw [apply_cse_pass_eq qsort hq] at h
  simp only at h
  have hb : ∀ d ∈ temp_decls counter (select_entries qsort (collect_block_candidates block)),
      d.1 ≤ block.length := by
    intro d hd
    obtain ⟨y, hy, j, rfl⟩ := temp_decls_first _ counter d hd
    exact Nat.le_of_lt (selected_first_lt qsort hq block y hy).2.2
  rcases layout_mem block.length _ 0 ref hb h with ⟨i, hi, rfl⟩ | ⟨d, hd, rfl⟩
  · exact Or.inl ⟨i, hi, rfl⟩
  · obtain ⟨y, hy, j, rfl⟩ := temp_decls_first _ counter d hd
    exact Or.inr ⟨y, hy, j, rfl⟩

theorem snapshot_getElem (qsort : Qsort) (hq : QsortContract qsort) (block : AstBlock)
    (counter : Nat) (p : Nat) :
    (snapshot block (apply_cse_pass qsort block (collect_block_candidates block) counter))[p]? =
      ((apply_cse_pass qsort block (collect_block_candidates block) counter).statements[p]?).bind
        (load_stmt_ref block
          (apply_cse_pass qsort block (collect_block_candidates block) counter).mem) := by
  unfold snapshot
  apply filterMap_getElem
  intro ref href
  rcases pass_statements_mem qsort hq block counter ref href with ⟨i, hi, rfl⟩ | ⟨e, _, j, rfl⟩
  · simp [load_stmt_ref, List.getElem?_eq_getElem hi]
  · rfl

theorem load_node_identifier_cases (mem : Slot → Option AstExpr)
    (hid : ∀ s z, mem s = some z → ∃ t n, z = AstExpr.identifier t n)
    (loc : Slot) (x : AstExpr) (ext : List Nat) (t : TypeKind) (name : String)
    (h : expr_at (load_node mem loc x) ext = some (AstExpr.identifier t name)) :
    expr_at x ext = some (AstExpr.identifier t name) ∨
    (ext ≠ [] ∧ mem ⟨loc.stmt, ext ++ loc.path⟩ = some (AstExpr.identifier t name) ∧
      ∃ y, expr_at x ext = some y) := by
  by_cases hnil : ext = []
  · subst hnil
    simp only [expr_at, Option.some.injEq] at h
    left
    simp only [expr_at, Option.some.injEq]
    exact load_node_identifier mem loc x t name h
  · obtain ⟨y, hy, hl, _⟩ := expr_at_load mem hid loc x ext _ hnil h
    cases hm : mem ⟨loc.stmt, ext ++ loc.path⟩ with
    | some z =>
      simp only [load, hm, Option.getD_some] at hl
      right
      exact ⟨hnil, by rw [hl], y, hy⟩
    | none =>
      simp only [load, hm, Option.getD_none] at hl
      left
      rw [hy, load_node_identifier mem _ y t name hl.symm]

theorem load_identifier_cases (mem : Slot → Option AstExpr)
    (hid : ∀ s z, mem s = some z → ∃ t n, z = AstExpr.identifier t n)
    (loc : Slot) (x : AstExpr) (ext : List Nat) (t : TypeKind) (name : String)
    (h : expr_at (load mem loc x) ext = some (AstExpr.identifier t name)) :
    expr_at x ext = some (AstExpr.identifier t name) ∨
    (mem ⟨loc.stmt, ext ++ loc.path⟩ = some (AstExpr.identifier t name) ∧
      ∃ y, expr_at x ext = some y) := by
  cases hm : mem loc with
  | some z =>
    obtain ⟨t1, n1, rfl⟩ := hid _ z hm
    simp only [load, hm, Option.getD_some] at h
    obtain ⟨rfl, h2⟩ := expr_at_identifier t1 n1 ext _ h
    right
    refine ⟨?_, x, rfl⟩
    simp only [List.nil_append]
    rw [hm, h2]
  | none =>
    simp only [load, hm, Option.getD_none] at h
    rcases load_node_identifier_cases mem hid loc x ext t name h with h1 | ⟨_, h2, h3⟩
    · exact Or.inl h1
    · exact Or.inr ⟨h2, h3⟩

theorem synthesized_names_mem : ∀ (l : List StmtRef) (p : Nat) (t : TypeKind) (name : String)
    (init : NodeRef) (used : Bool), l[p]? = some (StmtRef.synthesized t name init used) →
    name ∈ synthesized_names l := by
  intro l
  induction l with
  | nil => intro p t name init used h; simp at h
  | cons r rest ih =>
    intro p t name init used h
    cases p with
    | zero =>
      simp only [List.getElem?_cons_zero, Option.some.injEq] at h
      subst h
      simp [synthesized_names]
    | succ p =>
      simp only [List.getElem?_cons_succ] at h
      have := ih p t name init used h
      cases r with
      | parsed i => simpa [synthesized_names] using this
      | synthesized t1 n1 i1 u1 =>
        simp only [synthesized_names, List.mem_cons]
        exact Or.inr this

theorem decl_position_unique : ∀ (l : List StmtRef), (synthesized_names l).Nodup →
    ∀ (p q : Nat) (t t1 : TypeKind) (name : String) (init init1 : NodeRef) (used used1 : Bool),
    l[p]? = some (StmtRef.synthesized t name init used) →
    l[q]? = some (StmtRef.synthesized t1 name init1 used1) → p = q := by
  intro l
  induction l with
  | nil => intro _ p q t t1 name init init1 used used1 h; simp at h
  | cons r rest ih =>
    intro hn p q t t1 name init init1 used used1 hp hq
    have hrest : (synthesized_names rest).Nodup := by
      cases r with
      | parsed i => simpa [synthesized_names] using hn
      | synthesized t2 n2 i2 u2 =>
        simp only [synthesized_names, List.nodup_cons] at hn
        exact hn.2
    cases p with
    | zero =>
      cases q with
      | zero => rfl
      | succ q =>
        simp only [List.getElem?_cons_zero, Option.some.injEq] at hp
        simp only [List.getElem?_cons_succ] at hq
        subst hp
        simp only [synthesized_names, List.nodup_cons] at hn
        exact absurd (synthesized_names_mem rest q _ _ _ _ hq) hn.1
    | succ p =>
      cases q with
      | zero =>
        simp only [List.getElem?_cons_zero, Option.some.injEq] at hq
        simp only [List.getElem?_cons_succ] at hp
        subst hq
        simp only [synthesized_names, List.nodup_cons] at hn
        exact absurd (synthesized_names_mem rest p _ _ _ _ hp) hn.1
      | succ q =>
        simp only [List.getElem?_cons_succ] at hp hq
        rw [ih hrest p q t t1 name init init1 used used1 hp hq]

theorem getElem_after {α : Type} (A B : List α) (x X : α) (p : Nat)
    (h : (A ++ x :: B)[p]? = some X) (hA : X ∉ A) (hx : X ≠ x) : A.length < p := by
  by_contra hlt
  have hle : p ≤ A.length := Nat.le_of_not_lt hlt
  rcases Nat.lt_or_eq_of_le hle with h1 | h1
  · rw [List.getElem?_append_left h1] at h
    exact hA (List.getElem?_mem h)
  · subst h1
    rw [List.getElem?_append_right (Nat.le_refl _)] at h
    simp only [Nat.sub_self, List.getElem?_cons_zero, Option.some.injEq] at h
    exact hx h.symm

theorem pass_layout_split (qsort : Qsort) (hq : QsortContract qsort) (block : AstBlock)
    (counter : Nat) (e : CseEntry) (pre post : List CseEntry)
    (hsel : select_entries qsort (collect_block_candidates block) = pre ++ e :: post) :
    (apply_cse_pass qsort block (collect_block_candidates block) counter).statements =
      layout e.first_stmt_index 0 (temp_decls counter pre) ++
        temp_decl e (counter + pre.length) ::
          layout block.length e.first_stmt_index (temp_decls (counter + pre.length + 1) post) ∧
    (∀ r ∈ layout e.first_stmt_index 0 (temp_decls counter pre),
      (∃ i, i < e.first_stmt_index ∧ r = StmtRef.parsed i) ∨
        (∃ x ∈ pre, ∃ j, r = temp_decl x j)) := by
  have hsorted := select_entries_sorted qsort hq (collect_block_candidates block)
  rw [hsel] at hsorted
  constructor
  · rw [apply_cse_pass_eq qsort hq, hsel]
    simp only
    rw [temp_decls_append]
    show layout block.length 0 (temp_decls counter pre ++
      (e.first_stmt_index, temp_decl e (counter + pre.length)) ::
        temp_decls (counter + pre.length + 1) post) = _
    rw [layout_append]
  · intro r hr
    have hb : ∀ d ∈ temp_decls counter pre, d.1 ≤ e.first_stmt_index := by
      intro d hd
      obtain ⟨y, hy, j, rfl⟩ := temp_decls_first _ counter d hd
      exact (List.pairwise_append.mp hsorted).2.2 y hy e (List.mem_cons_self _ _)
    rcases layout_mem e.first_stmt_index _ 0 r hb hr with h | ⟨d, hd, rfl⟩
    · exact Or.inl h
    · obtain ⟨y, hy, j, rfl⟩ := temp_decls_first _ counter d hd
      exact Or.inr ⟨y, hy, j, rfl⟩

/-! ## Declarations come before the references to them -/

theorem first_slot_inj (block : AstBlock) (a b : CseEntry)
    (ha : a ∈ collect_block_candidates block) (hb : b ∈ collect_block_candidates block)
    (h : entry_first_slot a = entry_first_slot b) : a = b := by
  by_contra hne
  have h1 := first_slot_not_shared block b a hb ha hne
  obtain ⟨first, hf, hloc, _⟩ := entry_first_occurrence block b hb
  apply h1
  rw [h]
  unfold entry_locations
  exact List.mem_map.mpr ⟨first, hf, hloc⟩

theorem reference_entry (qsort : Qsort) (hq : QsortContract qsort) (block : AstBlock)
    (counter : Nat) (loc : Slot) (t : TypeKind) (name : String)
    (h : (apply_cse_pass qsort block (collect_block_candidates block) counter).mem loc =
      some (AstExpr.identifier t name)) :
    ∃ pre e post, select_entries qsort (collect_block_candidates block) = pre ++ e :: post ∧
      (∃ o ∈ e.occurrences, o.location = loc) ∧ t = e.type ∧
      name = make_temp_name (counter + pre.length) := by
  rcases pass_mem_cases qsort hq block counter loc with ⟨h1, _⟩ | ⟨pre, e, post, hsel, hloc, hm⟩
  · rw [h1] at h; simp at h
  · rw [hm] at h
    simp only [Option.some.injEq, AstExpr.identifier.injEq] at h
    unfold entry_locations at hloc
    obtain ⟨o, ho, rfl⟩ := List.mem_map.mp hloc
    exact ⟨pre, e, post, hsel, ⟨o, ho, rfl⟩, h.1.symm, h.2.symm⟩

theorem declaration_position (qsort : Qsort) (hq : QsortContract qsort) (block : AstBlock)
    (counter : Nat) (e : CseEntry) (pre post : List CseEntry)
    (hsel : select_entries qsort (collect_block_candidates block) = pre ++ e :: post) :
    ∃ init used,
      (apply_cse qsort block (collect_block_candidates block) counter).1[
        (layout e.first_stmt_index 0 (temp_decls counter pre)).length]? =
          some (AstStmt.decl e.type (make_temp_name (counter + pre.length)) init false used) ∧
      (∃ ptr, (apply_cse_pass qsort block (collect_block_candidates block) counter).statements[
        (layout e.first_stmt_index 0 (temp_decls counter pre)).length]? =
          some (StmtRef.synthesized e.type (make_temp_name (counter + pre.length)) ptr used)) ∧
      ∀ (d1 : Nat) (t1 : TypeKind) (ptr1 : NodeRef) (used1 : Bool),
        (apply_cse_pass qsort block (collect_block_candidates block) counter).statements[d1]? =
          some (StmtRef.synthesized t1 (make_temp_name (counter + pre.length)) ptr1 used1) →
        d1 = (layout e.first_stmt_index 0 (temp_decls counter pre)).length := by
  obtain ⟨hS, _⟩ := pass_layout_split qsort hq block counter e pre post hsel
  have hd : (apply_cse_pass qsort block (collect_block_candidates block) counter).statements[
      (layout e.first_stmt_index 0 (temp_decls counter pre)).length]? =
        some (temp_decl e (counter + pre.length)) := by
    rw [hS, List.getElem?_append_right (Nat.le_refl _)]
    simp
  refine ⟨load_ref block
      (apply_cse_pass qsort block (collect_block_candidates block) counter).mem
      (NodeRef.parsed (entry_first_slot e)), e.occurrences.any occurrence_survives_dce, ?_,
    ⟨_, hd⟩, ?_⟩
  · show (snapshot block _)[_]? = _
    rw [snapshot_getElem qsort hq, hd]
    simp [temp_decl, load_stmt_ref, mark_used, ast_stmt_make_decl]
  · intro d1 t1 ptr1 used1 h1
    have hn := (apply_cse_names qsort hq block counter).2
    have hnodup : (synthesized_names
        (apply_cse_pass qsort block (collect_block_candidates block) counter).statements).Nodup := by
      rw [hn]
      exact temp_names_between_nodup _ _
    exact decl_position_unique _ hnodup d1 _ t1 e.type _ ptr1 _ used1 _ h1 hd

theorem parsed_after_declaration (qsort : Qsort) (hq : QsortContract qsort) (block : AstBlock)
    (counter : Nat) (e : CseEntry) (pre post : List CseEntry)
    (hsel : select_entries qsort (collect_block_candidates block) = pre ++ e :: post)
    (p i : Nat) (hi : e.first_stmt_index ≤ i)
    (hp : (apply_cse_pass qsort block (collect_block_candidates block) counter).statements[p]? =
      some (StmtRef.parsed i)) :
    (layout e.first_stmt_index 0 (temp_decls counter pre)).length < p := by
  obtain ⟨hS, hA⟩ := pass_layout_split qsort hq block counter e pre post hsel
  rw [hS] at hp
  apply getElem_after _ _ _ _ p hp
  · intro hmem
    rcases hA _ hmem with ⟨i1, h1, h2⟩ | ⟨x, _, j, h2⟩
    · simp only [StmtRef.parsed.injEq] at h2
      omega
    · simp [temp_decl] at h2
  · simp [temp_decl]

theorem declaration_after_declaration (qsort : Qsort) (hq : QsortContract qsort)
    (block : AstBlock) (counter : Nat) (e e1 : CseEntry) (pre post : List CseEntry)
    (hsel : select_entries qsort (collect_block_candidates block) = pre ++ e :: post)
    (he1 : e1 ∈ post) (p j : Nat)
    (hp : (apply_cse_pass qsort block (collect_block_candidates block) counter).statements[p]? =
      some (temp_decl e1 j)) :
    (layout e.first_stmt_index 0 (temp_decls counter pre)).length < p := by
  obtain ⟨hS, hA⟩ := pass_layout_split qsort hq block counter e pre post hsel
  have hnodup := select_entries_nodup qsort hq block
  rw [hsel] at hnodup
  have hreg : ∀ x ∈ pre ++ e :: post, x ∈ collect_block_candidates block := by
    intro x hx
    rw [← hsel] at hx
    exact (selected_first_lt qsort hq block x hx).1
  have h1reg := hreg e1 (List.mem_append_right _ (List.mem_cons_of_mem _ he1))
  have hdisj := List.nodup_append.mp hnodup
  rw [hS] at hp
  apply getElem_after _ _ _ _ p hp
  · intro hmem
    rcases hA _ hmem with ⟨i1, _, h2⟩ | ⟨x, hx, j1, h2⟩
    · simp [temp_decl] at h2
    · simp only [temp_decl, StmtRef.synthesized.injEq, NodeRef.parsed.injEq] at h2
      have := first_slot_inj block e1 x h1reg (hreg x (List.mem_append_left _ hx)) h2.2.2.1
      subst this
      exact hdisj.2.2 hx (List.mem_cons_of_mem _ he1)
  · intro h2
    simp only [temp_decl, StmtRef.synthesized.injEq, NodeRef.parsed.injEq] at h2
    have := first_slot_inj block e1 e h1reg (hreg e (by simp)) h2.2.2.1
    subst this
    exact (List.nodup_cons.mp hdisj.2.1).1 he1

theorem identifier_slot_untouched (qsort : Qsort) (hq : QsortContract qsort)
    (block : AstBlock) (counter : Nat) (loc : Slot) (t : TypeKind) (name : String)
    (h : slot_init block loc = some (AstExpr.identifier t name)) :
    (apply_cse_pass qsort block (collect_block_candidates block) counter).mem loc = none := by
  rcases pass_mem_cases qsort hq block counter loc with ⟨h1, _⟩ | ⟨pre, e, post, hsel, hloc, _⟩
  · exact h1
  · exfalso
    have he := (selected_first_lt qsort hq block e (by rw [hsel]; simp)).1
    unfold entry_locations at hloc
    obtain ⟨o, ho, rfl⟩ := List.mem_map.mp hloc
    obtain ⟨x, hx, _, hc, _, _⟩ := registry_occurrence_spec block e he o ho
    rw [h] at hx
    simp only [Option.some.injEq] at hx
    subst hx
    simp [expr_is_candidate] at hc

/-- C18: definition before use. With a `qsort` that keeps entries of equal first statement
index in registration order, let `apply_cse` run on any block, and take any identifier node
found anywhere in the expression of statement `p` of the result. The slot it sits in is a
slot of the scanned block (below the expression field of a statement of the block, or below
the slot a built declaration took its initializer from). Either the pass never wrote to
that slot and the node is the identifier the program itself had there, or the node is a
reference written by the pass (`make_temp_identifier`), and then the result has at an index
`d < p` the declaration `apply_cse` built for that name and type; no other statement pointer
of the array leads to a built declaration of that name. This covers references in the
statements of the block and references inside the initializers of other built declarations,
also in a block that itself uses names of the form `__c2lua_cse_N`. -/
theorem temporaries_declared_before_use (qsort : Qsort) (hs : QsortStable qsort)
    (block : AstBlock) (counter p : Nat) (s : AstStmt) (root : AstExpr) (ext : List Nat)
    (t : TypeKind) (name : String)
    (hp : (apply_cse qsort block (collect_block_candidates block) counter).1[p]? = some s)
    (hroot : stmt_slot s = some root)
    (href : expr_at root ext = some (AstExpr.identifier t name)) :
    ∃ ref, (apply_cse_pass qsort block (collect_block_candidates block) counter).statements[p]? =
        some ref ∧
      ((slot_init block ⟨(ref_base ref).stmt, ext ++ (ref_base ref).path⟩ =
          some (AstExpr.identifier t name) ∧
        (apply_cse_pass qsort block (collect_block_candidates block) counter).mem
          ⟨(ref_base ref).stmt, ext ++ (ref_base ref).path⟩ = none) ∨
      ((apply_cse_pass qsort block (collect_block_candidates block) counter).mem
          ⟨(ref_base ref).stmt, ext ++ (ref_base ref).path⟩ =
            some (AstExpr.identifier t name) ∧
        ∃ d init used, d < p ∧
          (apply_cse qsort block (collect_block_candidates block) counter).1[d]? =
            some (AstStmt.decl t name init false used) ∧
          (∃ ptr, (apply_cse_pass qsort block (collect_block_candidates block)
            counter).statements[d]? = some (StmtRef.synthesized t name ptr used)) ∧
          ∀ (d1 : Nat) (t1 : TypeKind) (ptr1 : NodeRef) (used1 : Bool),
            (apply_cse_pass qsort block (collect_block_candidates block)
              counter).statements[d1]? = some (StmtRef.synthesized t1 name ptr1 used1) →
            d1 = d)) := by
  have hq := stable_contract qsort hs
  have hmemid := pass_mem_identifier qsort hq block counter
  have hreg := registryOf_collect block
  -- once the entry of the temporary is known and shown to be declared before `p`
  have finish : ∀ (pre post : List CseEntry) (e : CseEntry),
      select_entries qsort (collect_block_candidates block) = pre ++ e :: post →
      t = e.type → name = make_temp_name (counter + pre.length) →
      (layout e.first_stmt_index 0 (temp_decls counter pre)).length < p →
      ∃ d init used, d < p ∧
        (apply_cse qsort block (collect_block_candidates block) counter).1[d]? =
          some (AstStmt.decl t name init false used) ∧
        (∃ ptr, (apply_cse_pass qsort block (collect_block_candidates block)
          counter).statements[d]? = some (StmtRef.synthesized t name ptr used)) ∧
        ∀ (d1 : Nat) (t1 : TypeKind) (ptr1 : NodeRef) (used1 : Bool),
          (apply_cse_pass qsort block (collect_block_candidates block) counter).statements[d1]? =
            some (StmtRef.synthesized t1 name ptr1 used1) → d1 = d := by
    intro pre post e hsel ht hname hlt
    obtain ⟨init, used, h1, h2, h3⟩ := declaration_position qsort hq block counter e pre post hsel
    subst ht hname
    exact ⟨_, init, used, hlt, h1, h2, h3⟩
  have hp1 : (snapshot block
      (apply_cse_pass qsort block (collect_block_candidates block) counter))[p]? = some s := hp
  rw [snapshot_getElem qsort hq] at hp1
  cases href1 : (apply_cse_pass qsort block (collect_block_candidates block)
      counter).statements[p]? with
  | none => rw [href1] at hp1; simp at hp1
  | some ref =>
    rw [href1] at hp1
    simp only [Option.some_bind] at hp1
    refine ⟨ref, rfl, ?_⟩
    cases ref with
    | parsed i =>
      simp only [load_stmt_ref, Option.map_eq_some'] at hp1
      obtain ⟨s0, hs0, rfl⟩ := hp1
      rw [load_stmt_slot] at hroot
      simp only [Option.map_eq_some'] at hroot
      obtain ⟨root0, hroot0, rfl⟩ := hroot
      rcases load_identifier_cases _ hmemid ⟨i, []⟩ root0 ext t name href with h | ⟨h, _⟩
      · left
        have hinit : slot_init block ⟨i, ext ++ []⟩ = some (AstExpr.identifier t name) := by
          simp [slot_init, hs0, hroot0, h]
        exact ⟨hinit, identifier_slot_untouched qsort hq block counter _ t name hinit⟩
      · right
        refine ⟨h, ?_⟩
        obtain ⟨pre, e, post, hsel, ⟨o, ho, hloc⟩, ht, hname⟩ :=
          reference_entry qsort hq block counter _ t name h
        have he : e ∈ collect_block_candidates block :=
          (selected_first_lt qsort hq block e (by rw [hsel]; simp)).1
        obtain ⟨_, _, _, _, _, hidx⟩ := registry_occurrence_spec block e he o ho
        have hle := hreg.first_le e he o ho
        rw [hloc] at hidx
        have hi : e.first_stmt_index ≤ i := by
          have : i = o.stmt_index := hidx
          omega
        exact finish pre post e hsel ht hname
          (parsed_after_declaration qsort hq block counter e pre post hsel p i hi href1)
    | synthesized t1 n1 ptr1 u1 =>
      rcases pass_statements_mem qsort hq block counter _ (List.getElem?_mem href1) with
        ⟨i, _, h⟩ | ⟨e1, he1, j, h⟩
      · simp at h
      · rw [h] at hp1 href1 ⊢
        have he1reg := (selected_first_lt qsort hq block e1 he1).1
        simp only [temp_decl, load_stmt_ref, load_ref, Option.some.injEq] at hp1
        subst hp1
        simp only [mark_used, ast_stmt_make_decl, stmt_slot, Bool.false_eq_true, if_false,
          Option.map_eq_some'] at hroot
        obtain ⟨x0, hx0, rfl⟩ := hroot
        rcases load_node_identifier_cases _ hmemid (entry_first_slot e1) x0 ext t name href with
          h | ⟨hne, h, _⟩
        · left
          have hinit := slot_init_extend block _ _ _ ext hx0 h
          exact ⟨hinit, identifier_slot_untouched qsort hq block counter _ t name hinit⟩
        · right
          refine ⟨h, ?_⟩
          obtain ⟨pre, e, post, hsel, ⟨o, ho, hloc⟩, ht, hname⟩ :=
            reference_entry qsort hq block counter _ t name h
          have hbelow : o.location.below (entry_first_slot e1) := by
            rw [hloc]
            exact ⟨rfl, ext, hne, rfl⟩
          have hpost := selected_before qsort hs block e e1 pre post hsel he1 o ho hbelow
          exact finish pre post e hsel ht hname
            (declaration_after_declaration qsort hq block counter e e1 pre post hsel hpost p j
              href1)

theorem temporaries_declared_before_use_witness :
    (apply_cse stable_qsort example_sum_twice_named
      (collect_block_candidates example_sum_twice_named) 0).1 =
      [.decl .TYPE_INT "__c2lua_cse_0"
          (some (.binary .TYPE_INT 0 (.int_literal .TYPE_INT 2) (.int_literal .TYPE_INT 3)))
          false true,
        .assign "x" (.identifier .TYPE_INT "__c2lua_cse_0"),
        .assign "y" (.identifier .TYPE_INT "__c2lua_cse_0"),
        .assign "z" (.identifier .TYPE_INT "__c2lua_cse_0")] ∧
    (apply_cse_pass stable_qsort example_sum_twice_named
      (collect_block_candidates example_sum_twice_named) 0).statements[1]? =
        some (StmtRef.parsed 0) ∧
    slot_init example_sum_twice_named ⟨0, []⟩ =
      some (.binary .TYPE_INT 0 (.int_literal .TYPE_INT 2) (.int_literal .TYPE_INT 3)) ∧
    ∃ d init used, d < 1 ∧
      (apply_cse stable_qsort example_sum_twice_named
        (collect_block_candidates example_sum_twice_named) 0).1[d]? =
        some (AstStmt.decl .TYPE_INT "__c2lua_cse_0" init false used) ∧
      (∃ ptr, (apply_cse_pass stable_qsort example_sum_twice_named
        (collect_block_candidates example_sum_twice_named) 0).statements[d]? =
          some (StmtRef.synthesized .TYPE_INT "__c2lua_cse_0" ptr used)) ∧
      ∀ (d1 : Nat) (t1 : TypeKind) (ptr1 : NodeRef) (used1 : Bool),
        (apply_cse_pass stable_qsort example_sum_twice_named
          (collect_block_candidates example_sum_twice_named) 0).statements[d1]? =
            some (StmtRef.synthesized t1 "__c2lua_cse_0" ptr1 used1) →
        d1 = d := by
  refine ⟨rfl, rfl, rfl, ?_⟩
  obtain ⟨ref, href, h⟩ := temporaries_declared_before_use stable_qsort stable_qsort_stable
    example_sum_twice_named 0 1 (.assign "x" (.identifier .TYPE_INT "__c2lua_cse_0"))
    (.identifier .TYPE_INT "__c2lua_cse_0") [] .TYPE_INT "__c2lua_cse_0" rfl rfl rfl
  have hparsed : (apply_cse_pass stable_qsort example_sum_twice_named
      (collect_block_candidates example_sum_twice_named) 0).statements[1]? =
        some (StmtRef.parsed 0) := rfl
  rw [hparsed] at href
  simp only [Option.some.injEq] at href
  subst href
  rcases h with ⟨h1, _⟩ | ⟨_, h2⟩
  · have hinit : slot_init example_sum_twice_named
        ⟨(ref_base (StmtRef.parsed 0)).stmt, [] ++ (ref_base (StmtRef.parsed 0)).path⟩ =
        some (.binary .TYPE_INT 0 (.int_literal .TYPE_INT 2) (.int_literal .TYPE_INT 3)) := rfl
    rw [hinit] at h1
    simp at h1
  · exact h2

/-! ## The candidates of the rewritten block -/

theorem load_node_constant (mem : Slot → Option AstExpr)
    (hid : ∀ s z, mem s = some z → ∃ t n, z = AstExpr.identifier t n) :
    ∀ (x : AstExpr) (loc : Slot), expr_is_constant (load_node mem loc x) = true →
      load_node mem loc x = x
  | .binary t op left right, loc, h => by
    simp only [load_node, expr_is_constant, Bool.and_eq_true] at h ⊢
    have h0 : (mem (loc.child 0)).getD (load_node mem (loc.child 0) left) = left := by
      cases hm : mem (loc.child 0) with
      | some z =>
        obtain ⟨t1, n1, rfl⟩ := hid _ z hm
        have := h.1
        simp [hm, expr_is_constant] at this
      | none =>
        have := h.1
        simp only [hm, Option.getD_none] at this ⊢
        exact load_node_constant mem hid left _ this
    have h1 : (mem (loc.child 1)).getD (load_node mem (loc.child 1) right) = right := by
      cases hm : mem (loc.child 1) with
      | some z =>
        obtain ⟨t1, n1, rfl⟩ := hid _ z hm
        have := h.2
        simp [hm, expr_is_constant] at this
      | none =>
        have := h.2
        simp only [hm, Option.getD_none] at this ⊢
        exact load_node_constant mem hid right _ this
    rw [h0, h1]
  | .unary t op operand, loc, h => by
    simp only [load_node, expr_is_constant] at h ⊢
    have h0 : (mem (loc.child 0)).getD (load_node mem (loc.child 0) operand) = operand := by
      cases hm : mem (loc.child 0) with
      | some z =>
        obtain ⟨t1, n1, rfl⟩ := hid _ z hm
        simp [hm, expr_is_constant] at h
      | none =>
        simp only [hm, Option.getD_none] at h ⊢
        exact load_node_constant mem hid operand _ h
    rw [h0]
  | .call t callee args, loc, h => by simp [load_node, expr_is_constant] at h
  | .array_literal t elements, loc, h => by simp [load_node, expr_is_constant] at h
  | .subscript t array index, loc, h => by simp [load_node, expr_is_constant] at h
  | .int_literal t v, loc, _ => rfl
  | .float_literal t v, loc, _ => rfl
  | .bool_literal t v, loc, _ => rfl
  | .string_literal t v, loc, _ => rfl
  | .identifier t v, loc, _ => rfl

theorem candidate_is_constant (x : AstExpr) (h : expr_is_candidate x = true) :
    expr_is_constant x = true := by
  cases x <;> simp [expr_is_candidate] at h ⊢
  · exact h.2
  · exact h.2

theorem candidate_not_identifier (t : TypeKind) (name : String) :
    expr_is_candidate (AstExpr.identifier t name) = false := rfl

theorem load_node_candidate (mem : Slot → Option AstExpr)
    (hid : ∀ s z, mem s = some z → ∃ t n, z = AstExpr.identifier t n)
    (base : Slot) (root0 : AstExpr) (ext : List Nat) (y : AstExpr)
    (hy : expr_at (load_node mem base root0) ext = some y)
    (hc : expr_is_candidate y = true) :
    expr_at root0 ext = some y ∧
      ∀ ext1 ext2 : List Nat, ext = ext1 ++ ext2 → ext2 ≠ [] →
        mem ⟨base.stmt, ext2 ++ base.path⟩ = none := by
  by_cases hnil : ext = []
  · subst hnil
    simp only [expr_at, Option.some.injEq] at hy
    subst hy
    constructor
    · simp only [expr_at, Option.some.injEq]
      exact (load_node_constant mem hid root0 base (candidate_is_constant _ hc)).symm
    · intro e1 e2 he h2
      have := List.append_eq_nil.mp he.symm
      exact absurd this.2 h2
  · obtain ⟨y0, hy0, hl, hvis⟩ := expr_at_load mem hid base root0 ext y hnil hy
    cases hm : mem ⟨base.stmt, ext ++ base.path⟩ with
    | some z =>
      obtain ⟨t1, n1, rfl⟩ := hid _ z hm
      simp only [load, hm, Option.getD_some] at hl
      subst hl
      simp [expr_is_candidate] at hc
    | none =>
      simp only [load, hm, Option.getD_none] at hl
      subst hl
      constructor
      · rw [hy0, load_node_constant mem hid y0 _ (candidate_is_constant _ hc)]
      · intro e1 e2 he h2
        by_cases h1 : e1 = []
        · subst h1
          simp only [List.nil_append] at he
          rw [← he]
          exact hm
        · exact hvis e1 e2 he h1 h2

theorem stmt_visits_subset : ∀ (block : List AstStmt) (k i : Nat) (s : AstStmt),
    block[i]? = some s → ∀ v ∈ stmt_visits (k + i) s, v ∈ block_visits k block := by
  intro block
  induction block with
  | nil => intro k i s h; simp at h
  | cons s0 rest ih =>
    intro k i s h v hv
    simp only [block_visits, List.mem_append]
    cases i with
    | zero =>
      simp only [List.getElem?_cons_zero, Option.some.injEq] at h
      subst h
      exact Or.inl hv
    | succ i =>
      simp only [List.getElem?_cons_succ] at h
      right
      apply ih (k + 1) i s h
      have : k + 1 + i = k + (i + 1) := by omega
      rw [this]
      exact hv

theorem candidate_slot_registered (block : AstBlock) (loc : Slot) (y : AstExpr)
    (h : slot_init block loc = some y) (hc : expr_is_candidate y = true) :
    ∃ e ∈ collect_block_candidates block, e.key = expr_make_key y ∧ loc ∈ entry_locations e := by
  unfold slot_init at h
  cases hb : block[loc.stmt]? with
  | none => rw [hb] at h; simp at h
  | some s0 =>
    rw [hb] at h
    simp only [Option.some_bind] at h
    cases hr : stmt_slot s0 with
    | none => rw [hr] at h; simp at h
    | some root0 =>
      rw [hr] at h
      simp only [Option.some_bind] at h
      have hmem := candidate_nodes_complete root0 ⟨loc.stmt, []⟩ loc.path y h hc
      simp only [List.append_nil] at hmem
      have hv : (⟨loc, y, loc.stmt, s0⟩ : Visit) ∈ block_visits 0 block := by
        apply stmt_visits_subset block 0 loc.stmt s0 hb
        simp only [Nat.zero_add, stmt_visits, hr]
        exact List.mem_map.mpr ⟨(loc, y), hmem, rfl⟩
      have hreg := registryOf_collect block
      obtain ⟨e, he, hk⟩ := hreg.covered _ hv
      refine ⟨e, he, hk, ?_⟩
      unfold entry_locations
      rw [hreg.occurrences_eq e he]
      simp only [List.map_map, List.mem_map, List.mem_filter, decide_eq_true_eq]
      exact ⟨_, ⟨hv, hk.symm⟩, rfl⟩

theorem pass_statements_index (qsort : Qsort) (hq : QsortContract qsort) (block : AstBlock)
    (counter : Nat) (ref : StmtRef)
    (h : ref ∈ (apply_cse_pass qsort block (collect_block_candidates block) counter).statements) :
    (∃ i, i < block.length ∧ ref = StmtRef.parsed i) ∨
    (∃ e j, (select_entries qsort (collect_block_candidates block))[j]? = some e ∧
      ref = temp_decl e (counter + j)) := by
  rw [apply_cse_pass_eq qsort hq] at h
  simp only at h
  have hb : ∀ d ∈ temp_decls counter (select_entries qsort (collect_block_candidates block)),
      d.1 ≤ block.length := by
    intro d hd
    obtain ⟨y, hy, j, rfl⟩ := temp_decls_first _ counter d hd
    exact Nat.le_of_lt (selected_first_lt qsort hq block y hy).2.2
  rcases layout_mem block.length _ 0 ref hb h with ⟨i, hi, rfl⟩ | ⟨d, hd, rfl⟩
  · exact Or.inl ⟨i, hi, rfl⟩
  · obtain ⟨j, x, _, _, hj, rfl⟩ := temp_decls_mem _ counter d hd
    exact Or.inr ⟨x, j, hj, rfl⟩

theorem filter_position_unique {α : Type} (q : α → Bool) : ∀ (l : List α),
    (l.filter q).Nodup → ∀ (p1 p2 : Nat) (x : α), l[p1]? = some x → l[p2]? = some x →
    q x = true → p1 = p2 := by
  intro l
  induction l with
  | nil => intro _ p1 p2 x h; simp at h
  | cons a rest ih =>
    intro hn p1 p2 x h1 h2 hq
    have hrest : (rest.filter q).Nodup := by
      rw [List.filter_cons] at hn
      split at hn
      · exact (List.nodup_cons.mp hn).2
      · exact hn
    have hnot : ∀ p : Nat, rest[p]? = some x → a ≠ x := by
      intro p hp hax
      subst hax
      rw [List.filter_cons, if_pos hq] at hn
      exact (List.nodup_cons.mp hn).1 (List.mem_filter.mpr ⟨List.getElem?_mem hp, hq⟩)
    cases p1 with
    | zero =>
      cases p2 with
      | zero => rfl
      | succ p2 =>
        simp only [List.getElem?_cons_zero, Option.some.injEq] at h1
        simp only [List.getElem?_cons_succ] at h2
        exact absurd h1 (hnot p2 h2)
    | succ p1 =>
      cases p2 with
      | zero =>
        simp only [List.getElem?_cons_zero, Option.some.injEq] at h2
        simp only [List.getElem?_cons_succ] at h1
        exact absurd h2 (hnot p1 h1)
      | succ p2 =>
        simp only [List.getElem?_cons_succ] at h1 h2
        rw [ih hrest p1 p2 x h1 h2 hq]

theorem parsed_position_unique (qsort : Qsort) (block : AstBlock) (counter : Nat)
    (p1 p2 i : Nat)
    (h1 : (apply_cse_pass qsort block (collect_block_candidates block) counter).statements[p1]? =
      some (StmtRef.parsed i))
    (h2 : (apply_cse_pass qsort block (collect_block_candidates block) counter).statements[p2]? =
      some (StmtRef.parsed i)) : p1 = p2 := by
  apply filter_position_unique StmtRef.is_parsed _ _ p1 p2 _ h1 h2 rfl
  rw [apply_cse_pass_filter_parsed]
  exact List.Nodup.map (fun a b h => by simpa using h) (List.nodup_range _)

theorem selected_first_replaced (qsort : Qsort) (hq : QsortContract qsort) (block : AstBlock)
    (counter : Nat) (e : CseEntry)
    (he : e ∈ select_entries qsort (collect_block_candidates block)) (loc : Slot)
    (hloc : loc ∈ entry_locations e) :
    (apply_cse_pass qsort block (collect_block_candidates block) counter).mem loc ≠ none := by
  intro hnone
  rcases pass_mem_cases qsort hq block counter loc with ⟨_, h⟩ | ⟨_, _, _, _, _, h⟩
  · exact h e he hloc
  · rw [hnone] at h; simp at h

theorem first_slot_location (block : AstBlock) (e : CseEntry)
    (he : e ∈ collect_block_candidates block) : entry_first_slot e ∈ entry_locations e := by
  obtain ⟨first, hf, hloc, _⟩ := entry_first_occurrence block e he
  unfold entry_locations
  exact List.mem_map.mpr ⟨first, hf, hloc⟩

theorem output_candidate_origin (qsort : Qsort) (hq : QsortContract qsort) (block : AstBlock)
    (counter p : Nat) (s : AstStmt) (root : AstExpr) (ext : List Nat) (y : AstExpr)
    (hp : (apply_cse qsort block (collect_block_candidates block) counter).1[p]? = some s)
    (hroot : stmt_slot s = some root) (hy : expr_at root ext = some y)
    (hc : expr_is_candidate y = true) :
    ∃ ref, visible_at qsort block counter p ext ref ∧
      slot_init block ⟨(ref_base ref).stmt, ext ++ (ref_base ref).path⟩ = some y := by
  have hmemid := pass_mem_identifier qsort hq block counter
  have hp1 : (snapshot block
      (apply_cse_pass qsort block (collect_block_candidates block) counter))[p]? = some s := hp
  rw [snapshot_getElem qsort hq] at hp1
  cases href1 : (apply_cse_pass qsort block (collect_block_candidates block)
      counter).statements[p]? with
  | none => rw [href1] at hp1; simp at hp1
  | some ref =>
    rw [href1] at hp1
    simp only [Option.some_bind] at hp1
    cases ref with
    | parsed i =>
      simp only [load_stmt_ref, Option.map_eq_some'] at hp1
      obtain ⟨s0, hs0, rfl⟩ := hp1
      rw [load_stmt_slot] at hroot
      simp only [Option.map_eq_some'] at hroot
      obtain ⟨root0, hroot0, rfl⟩ := hroot
      cases hm : (apply_cse_pass qsort block (collect_block_candidates block) counter).mem
          ⟨i, []⟩ with
      | some z =>
        obtain ⟨t1, n1, rfl⟩ := hmemid _ z hm
        simp only [load, hm, Option.getD_some] at hy
        obtain ⟨_, rfl⟩ := expr_at_identifier t1 n1 ext _ hy
        simp [expr_is_candidate] at hc
      | none =>
        simp only [load, hm, Option.getD_none] at hy
        obtain ⟨h1, h2⟩ := load_node_candidate _ hmemid ⟨i, []⟩ root0 ext y hy hc
        refine ⟨StmtRef.parsed i, ⟨href1, h2, Or.inl ⟨i, rfl, hm⟩⟩, ?_⟩
        simp [ref_base, slot_init, hs0, hroot0, h1]
    | synthesized t1 n1 ptr1 u1 =>
      rcases pass_statements_index qsort hq block counter _ (List.getElem?_mem href1) with
        ⟨i, _, h⟩ | ⟨e1, j, hj, h⟩
      · simp at h
      · rw [h] at hp1 href1
        simp only [temp_decl, load_stmt_ref, load_ref, Option.some.injEq] at hp1
        subst hp1
        simp only [mark_used, ast_stmt_make_decl, stmt_slot, Bool.false_eq_true, if_false,
          Option.map_eq_some'] at hroot
        obtain ⟨x0, hx0, rfl⟩ := hroot
        obtain ⟨h1, h2⟩ := load_node_candidate _ hmemid (entry_first_slot e1) x0 ext y hy hc
        refine ⟨temp_decl e1 (counter + j), ⟨href1, h2, Or.inr ⟨e1, j, hj, rfl⟩⟩, ?_⟩
        exact slot_init_extend block _ _ _ ext hx0 h1

theorem visible_base_replaced (qsort : Qsort) (hq : QsortContract qsort) (block : AstBlock)
    (counter p : Nat) (ext : List Nat) (ref : StmtRef)
    (h : visible_at qsort block counter p ext ref)
    (hm : (apply_cse_pass qsort block (collect_block_candidates block) counter).mem
      (ref_base ref) = none) : ∃ i, ref = StmtRef.parsed i := by
  rcases h.2.2 with ⟨i, hi, _⟩ | ⟨e, j, hj, href⟩
  · exact ⟨i, hi⟩
  · exfalso
    have he := List.getElem?_mem hj
    have hereg := (selected_first_lt qsort hq block e he).1
    apply selected_first_replaced qsort hq block counter e he _
      (first_slot_location block e hereg)
    rw [href] at hm
    exact hm

theorem visible_same_base (qsort : Qsort) (hq : QsortContract qsort) (block : AstBlock)
    (counter p1 p2 : Nat) (ext1 ext2 : List Nat) (ref1 ref2 : StmtRef)
    (h1 : visible_at qsort block counter p1 ext1 ref1)
    (h2 : visible_at qsort block counter p2 ext2 ref2)
    (hb : ref_base ref1 = ref_base ref2) : p1 = p2 := by
  have hsel : ∀ (e : CseEntry) (j : Nat),
      (select_entries qsort (collect_block_candidates block))[j]? = some e →
      e ∈ collect_block_candidates block ∧
      (apply_cse_pass qsort block (collect_block_candidates block) counter).mem
        (entry_first_slot e) ≠ none := by
    intro e j hj
    have he := List.getElem?_mem hj
    have hereg := (selected_first_lt qsort hq block e he).1
    exact ⟨hereg, selected_first_replaced qsort hq block counter e he _
      (first_slot_location block e hereg)⟩
  rcases h1.2.2 with ⟨i1, hi1, hm1⟩ | ⟨e1, j1, hj1, hr1⟩
  · rcases h2.2.2 with ⟨i2, hi2, hm2⟩ | ⟨e2, j2, hj2, hr2⟩
    · subst hi1 hi2
      simp only [ref_base, Slot.mk.injEq, and_true] at hb
      subst hb
      exact parsed_position_unique qsort block counter p1 p2 i1 h1.1 h2.1
    · exfalso
      subst hi1 hr2
      apply (hsel e2 j2 hj2).2
      have : entry_first_slot e2 = ⟨i1, []⟩ := hb.symm
      rw [this]
      exact hm1
  · rcases h2.2.2 with ⟨i2, hi2, hm2⟩ | ⟨e2, j2, hj2, hr2⟩
    · exfalso
      subst hi2 hr1
      apply (hsel e1 j1 hj1).2
      have : entry_first_slot e1 = ⟨i2, []⟩ := hb
      rw [this]
      exact hm2
    · subst hr1 hr2
      have hbb : entry_first_slot e1 = entry_first_slot e2 := hb
      have hee := first_slot_inj block e1 e2 (hsel e1 j1 hj1).1 (hsel e2 j2 hj2).1 hbb
      subst hee
      have hnodup := select_entries_nodup qsort hq block
      have hlt : j1 < (select_entries qsort (collect_block_candidates block)).length := by
        by_contra hge
        rw [List.getElem?_eq_none (Nat.le_of_not_lt hge)] at hj1
        simp at hj1
      have hjj : j1 = j2 := List.getElem?_inj hlt hnodup (hj1.trans hj2.symm)
      subst hjj
      have hn := (apply_cse_names qsort hq block counter).2
      have hnd : (synthesized_names
          (apply_cse_pass qsort block (collect_block_candidates block) counter).statements).Nodup := by
        rw [hn]
        exact temp_names_between_nodup _ _
      exact decl_position_unique _ hnd p1 p2 _ _ _ _ _ _ _ h1.1 h2.1

theorem visible_origin_inj (qsort : Qsort) (hq : QsortContract qsort) (block : AstBlock)
    (counter p1 p2 : Nat) (ext1 ext2 : List Nat) (ref1 ref2 : StmtRef)
    (h1 : visible_at qsort block counter p1 ext1 ref1)
    (h2 : visible_at qsort block counter p2 ext2 ref2)
    (hs : (ref_base ref1).stmt = (ref_base ref2).stmt)
    (hpath : ext1 ++ (ref_base ref1).path = ext2 ++ (ref_base ref2).path) :
    p1 = p2 ∧ ext1 = ext2 := by
  have key : ∀ (q1 q2 : Nat) (x1 x2 : List Nat) (r1 r2 : StmtRef) (a : List Nat),
      visible_at qsort block counter q1 x1 r1 → visible_at qsort block counter q2 x2 r2 →
      (ref_base r1).stmt = (ref_base r2).stmt →
      x2 = x1 ++ a → (ref_base r1).path = a ++ (ref_base r2).path → q1 = q2 ∧ x1 = x2 := by
    intro q1 q2 x1 x2 r1 r2 a g1 g2 gs gx gp
    by_cases ha : a = []
    · subst ha
      simp only [List.append_nil] at gx
      simp only [List.nil_append] at gp
      have hb : ref_base r1 = ref_base r2 := by
        cases hb1 : ref_base r1
        cases hb2 : ref_base r2
        rw [hb1, hb2] at gs gp
        simp only at gs gp
        rw [gs, gp]
      exact ⟨visible_same_base qsort hq block counter q1 q2 x1 x2 r1 r2 g1 g2 hb, gx.symm⟩
    · exfalso
      have hm := g2.2.1 x1 a gx ha
      have hslot : (⟨(ref_base r2).stmt, a ++ (ref_base r2).path⟩ : Slot) = ref_base r1 := by
        cases hb1 : ref_base r1
        rw [hb1] at gs gp
        simp only at gs gp
        rw [← gs, ← gp]
      rw [hslot] at hm
      obtain ⟨i, hi⟩ := visible_base_replaced qsort hq block counter q1 x1 r1 g1 hm
      subst hi
      simp only [ref_base] at gp
      exact ha (List.append_eq_nil.mp gp.symm).1
  rcases List.append_eq_append_iff.mp hpath with ⟨a, ha1, ha2⟩ | ⟨a, ha1, ha2⟩
  · exact key p1 p2 ext1 ext2 ref1 ref2 a h1 h2 hs ha1 ha2
  · obtain ⟨g1, g2⟩ := key p2 p1 ext2 ext1 ref2 ref1 a h2 h1 hs.symm ha1 ha2
    exact ⟨g1.symm, g2.symm⟩

theorem length_le_one_of_same {α β : Type} (f : α → β) : ∀ (l : List α),
    (l.map f).Nodup → (∀ a ∈ l, ∀ b ∈ l, f a = f b) → l.length ≤ 1 := by
  intro l hn hsame
  match l, hn, hsame with
  | [], _, _ => simp
  | [_], _, _ => simp
  | a :: b :: rest, hn, hsame =>
    exfalso
    simp only [List.map_cons, List.nodup_cons, List.mem_cons] at hn
    exact hn.1 (Or.inl (hsame a (by simp) b (by simp)))

theorem mem_of_short {α : Type} (l : List α) (h : l.length < 2) (a b : α) (ha : a ∈ l)
    (hb : b ∈ l) : a = b := by
  match l, h, ha, hb with
  | [x], _, ha, hb =>
    simp only [List.mem_singleton] at ha hb
    rw [ha, hb]
  | _ :: _ :: _, h, _, _ =>
    simp only [List.length_cons] at h
    omega

theorem visible_candidate_slot (qsort : Qsort) (hq : QsortContract qsort) (block : AstBlock)
    (counter p : Nat) (ext : List Nat) (ref : StmtRef) (e : CseEntry)
    (hv : visible_at qsort block counter p ext ref)
    (he : e ∈ collect_block_candidates block) (h2 : 2 ≤ e.occurrences.length)
    (hloc : (⟨(ref_base ref).stmt, ext ++ (ref_base ref).path⟩ : Slot) ∈ entry_locations e) :
    (⟨(ref_base ref).stmt, ext ++ (ref_base ref).path⟩ : Slot) = entry_first_slot e := by
  have hsel : e ∈ select_entries qsort (collect_block_candidates block) :=
    (mem_select_entries qsort hq _ e).mpr ⟨he, h2⟩
  have hrep := selected_first_replaced qsort hq block counter e hsel _ hloc
  have hnil : ext = [] := by
    by_contra hne
    exact hrep (hv.2.1 [] ext rfl hne)
  subst hnil
  simp only [List.nil_append] at hloc hrep ⊢
  rcases hv.2.2 with ⟨i, hi, hm⟩ | ⟨e1, j, hj, hr⟩
  · subst hi
    exact absurd hm hrep
  · subst hr
    have he1 := (selected_first_lt qsort hq block e1 (List.getElem?_mem hj)).1
    by_cases hee : e1 = e
    · subst hee
      rfl
    · exact absurd hloc (first_slot_not_shared block e e1 he he1 hee)

theorem snapshot_keys_single (qsort : Qsort) (hq : QsortContract qsort) (block : AstBlock)
    (counter : Nat) (K : String) :
    ((block_visits 0 (apply_cse qsort block (collect_block_candidates block) counter).1).filter
      (fun v => expr_make_key v.expr = K)).length ≤ 1 := by
  apply length_le_one_of_same (fun v => v.location)
  · exact List.Nodup.sublist (List.Sublist.map _ (List.filter_sublist _))
      (block_visits_nodup _ 0)
  · intro v1 hv1 v2 hv2
    simp only [List.mem_filter, decide_eq_true_eq] at hv1 hv2
    obtain ⟨_, hst1, hown1, hc1, root1, hr1, hx1⟩ := block_visits_spec _ 0 v1 hv1.1
    obtain ⟨_, hst2, hown2, hc2, root2, hr2, hx2⟩ := block_visits_spec _ 0 v2 hv2.1
    simp only [Nat.sub_zero] at hown1 hown2
    obtain ⟨ref1, hvis1, hinit1⟩ := output_candidate_origin qsort hq block counter _ _ _ _ _
      hown1 hr1 hx1 hc1
    obtain ⟨ref2, hvis2, hinit2⟩ := output_candidate_origin qsort hq block counter _ _ _ _ _
      hown2 hr2 hx2 hc2
    obtain ⟨e1, he1, hk1, hl1⟩ := candidate_slot_registered block _ _ hinit1 hc1
    obtain ⟨e2, he2, hk2, hl2⟩ := candidate_slot_registered block _ _ hinit2 hc2
    have hee : e1 = e2 := registry_key_inj block e1 e2 he1 he2 (by rw [hk1, hk2, hv1.2, hv2.2])
    subst hee
    have hslot : (⟨(ref_base ref1).stmt, v1.location.path ++ (ref_base ref1).path⟩ : Slot) =
        ⟨(ref_base ref2).stmt, v2.location.path ++ (ref_base ref2).path⟩ := by
      by_cases h2 : 2 ≤ e1.occurrences.length
      · rw [visible_candidate_slot qsort hq block counter _ _ _ e1 hvis1 he1 h2 hl1,
          visible_candidate_slot qsort hq block counter _ _ _ e1 hvis2 he1 h2 hl2]
      · have hlen : (entry_locations e1).length < 2 := by
          unfold entry_locations
          rw [List.length_map]
          omega
        exact mem_of_short _ hlen _ _ hl1 hl2
    simp only [Slot.mk.injEq] at hslot
    obtain ⟨hp, hext⟩ := visible_origin_inj qsort hq block counter _ _ _ _ ref1 ref2 hvis1 hvis2
      hslot.1 hslot.2
    cases h1 : v1.location
    cases h2 : v2.location
    rw [h1] at hst1 hext
    rw [h2] at hst2 hext
    simp only at hst1 hst2 hext
    rw [hst1, hst2, hp, hext]

theorem stmt_visits_nested (i : Nat) (s : AstStmt) (h : is_nested_scope s = true) :
    stmt_visits i s = [] := by
  cases s <;> simp [is_nested_scope] at h <;> rfl

theorem block_visits_congr (b1 b2 : List AstStmt)
    (h : List.Forall₂ (fun s1 s2 => s1 = s2 ∨
      (is_nested_scope s1 = true ∧ is_nested_scope s2 = true)) b1 b2) :
    ∀ (i : Nat), block_visits i b1 = block_visits i b2 := by
  induction h with
  | nil => intro i; rfl
  | cons hs _ ih =>
    intro i
    simp only [block_visits]
    rw [ih (i + 1)]
    rcases hs with rfl | ⟨h1, h2⟩
    · rfl
    · rw [stmt_visits_nested i _ h1, stmt_visits_nested i _ h2]

theorem block_visits_take : ∀ (l : List AstStmt) (k i : Nat),
    (block_visits i (l.take k)).Sublist (block_visits i l) := by
  intro l
  induction l with
  | nil => intro k i; simp [block_visits]
  | cons s rest ih =>
    intro k i
    cases k with
    | zero => simp [block_visits]
    | succ k =>
      simp only [List.take_succ_cons, block_visits]
      exact List.Sublist.append (List.Sublist.refl _) (ih k (i + 1))

theorem single_occurrences_of_visits (block : AstBlock)
    (h : ∀ K : String,
      ((block_visits 0 block).filter (fun v => expr_make_key v.expr = K)).length ≤ 1) :
    ∀ e ∈ collect_block_candidates block, e.occurrences.length < 2 := by
  intro e he
  rw [(registryOf_collect block).occurrences_eq e he, List.length_map]
  exact Nat.lt_succ_of_le (h e.key)

/-! ## A second run of the driver -/

theorem eliminate_unreachable_idem (l : List AstStmt) :
    eliminate_unreachable (eliminate_unreachable l) = eliminate_unreachable l := by
  unfold eliminate_unreachable
  induction l with
  | nil => rfl
  | cons s rest ih =>
    rw [eliminate_unreachable_loop_flag, eliminate_unreachable_loop_flag]
    cases hr : is_return s with
    | true => rw [eliminate_unreachable_loop_true, eliminate_unreachable_loop_true]
    | false => rw [ih]

theorem optimize_each_fixed (f : Nat → AstStmt → Option (AstStmt × Nat)) :
    ∀ (l : List AstStmt), (∀ s ∈ l, ∀ c, f c s = some (s, c)) →
    ∀ c, optimize_each f c l = some (l, c) := by
  intro l
  induction l with
  | nil => intro _ c; rfl
  | cons s rest ih =>
    intro h c
    simp only [optimize_each]
    rw [h s (List.mem_cons_self _ _) c]
    simp only
    rw [ih (fun x hx => h x (List.mem_cons_of_mem _ hx)) c]

theorem forall2_right_mem {α β : Type} (R : α → β → Prop) (l1 : List α) (l2 : List β)
    (h : List.Forall₂ R l1 l2) : ∀ b ∈ l2, ∃ a ∈ l1, R a b := by
  induction h with
  | nil => intro b hb; simp at hb
  | cons hab _ ih =>
    intro b hb
    rcases List.mem_cons.mp hb with rfl | hb
    · exact ⟨_, List.mem_cons_self _ _, hab⟩
    · obtain ⟨a, ha, hr⟩ := ih b hb
      exact ⟨a, List.mem_cons_of_mem _ ha, hr⟩

theorem nested_of_kind (s1 s2 : AstStmt) (h : s1.kind = s2.kind) :
    is_nested_scope s1 = is_nested_scope s2 := by
  cases s1 <;> cases s2 <;> simp [AstStmt.kind] at h <;> rfl

theorem children_relation (qsort : Qsort) (fuel : Nat) (l : List AstStmt) (c : Nat)
    (r : List AstStmt × Nat)
    (h : optimize_each (optimize_statement_children qsort fuel) c l = some r) :
    List.Forall₂ (fun s1 s2 => s1 = s2 ∨
      (is_nested_scope s1 = true ∧ is_nested_scope s2 = true)) l r.1 := by
  apply optimize_each_forall2 _ _ l _ c r h
  intro s _ c0 r0 h0
  obtain ⟨hk, hsame⟩ := children_kind qsort fuel c0 s r0 h0
  cases hn : is_nested_scope s with
  | false =>
    left
    rw [hsame hn]
  | true =>
    right
    exact ⟨rfl, by rw [nested_of_kind _ _ hk, hn]⟩

theorem block_output_single (qsort : Qsort) (hq : QsortContract qsort) (fuel c : Nat)
    (b : AstBlock) (r : AstBlock × Nat) (h : optimize_block qsort (fuel + 1) c b = some r) :
    ∀ e ∈ collect_block_candidates r.1, e.occurrences.length < 2 := by
  rw [optimize_block_succ] at h
  cases hE : optimize_each (optimize_statement_children qsort fuel)
      (apply_cse qsort b (collect_block_candidates b) c).2
      (apply_cse qsort b (collect_block_candidates b) c).1 with
  | none => rw [hE] at h; simp at h
  | some r1 =>
    obtain ⟨L, c1⟩ := r1
    rw [hE] at h
    simp only [Option.some.injEq] at h
    subst h
    apply single_occurrences_of_visits
    intro K
    have hrel := children_relation qsort fuel _ _ _ hE
    have hcongr := block_visits_congr _ _ hrel 0
    simp only at hcongr
    show ((block_visits 0 (eliminate_unreachable L)).filter _).length ≤ 1
    unfold eliminate_unreachable
    rw [eliminate_unreachable_loop_false]
    have hsub := block_visits_take L (L.findIdx is_return + 1) 0
    rw [← hcongr] at hsub
    exact Nat.le_trans (List.Sublist.length_le (List.Sublist.filter _ hsub))
      (snapshot_keys_single qsort hq b c K)

theorem optimize_fixed_point (qsort : Qsort) (hq : QsortContract qsort) : ∀ (fuel : Nat),
    (∀ (c : Nat) (b : AstBlock) (r : AstBlock × Nat), optimize_block qsort fuel c b = some r →
      ∀ c2, optimize_block qsort fuel c2 r.1 = some (r.1, c2)) ∧
    (∀ (c : Nat) (s : AstStmt) (r : AstStmt × Nat),
      optimize_statement_children qsort fuel c s = some r →
      ∀ c2, optimize_statement_children qsort fuel c2 r.1 = some (r.1, c2)) := by
  intro fuel
  induction fuel with
  | zero =>
    constructor
    · intro c b r h; simp [optimize_block] at h
    · intro c s r h; simp [optimize_statement_children] at h
  | succ fuel ih =>
    have hopt : ∀ (c : Nat) (o : Option AstStmt) (r : Option AstStmt × Nat),
        optimize_optional (optimize_statement_children qsort fuel) c o = some r →
        ∀ c2, optimize_optional (optimize_statement_children qsort fuel) c2 r.1 =
          some (r.1, c2) := by
      intro c o r h c2
      cases o with
      | none =>
        simp only [optimize_optional, Option.some.injEq] at h
        subst h
        rfl
      | some s =>
        simp only [optimize_optional] at h
        cases hs : optimize_statement_children qsort fuel c s with
        | none => rw [hs] at h; simp at h
        | some r1 =>
          rw [hs] at h
          simp only [Option.some.injEq] at h
          subst h
          simp only [optimize_optional]
          rw [ih.2 c s r1 hs c2]
    have hother : ∀ s0 : AstStmt, is_loop s0 = false → s0.kind ≠ StmtKind.STMT_BLOCK →
        ∀ (c : Nat) (r : AstStmt × Nat),
        optimize_statement_children qsort (fuel + 1) c s0 = some r →
        ∀ c2, optimize_statement_children qsort (fuel + 1) c2 r.1 = some (r.1, c2) := by
      intro s0 h1 h2 c r h c2
      rw [optimize_children_other qsort fuel c s0 h1 h2] at h
      simp only [Option.some.injEq] at h
      subst h
      exact optimize_children_other qsort fuel c2 s0 h1 h2
    constructor
    · intro c b r h c2
      have hsingle := block_output_single qsort hq fuel c b r h
      rw [optimize_block_succ] at h
      cases hE : optimize_each (optimize_statement_children qsort fuel)
          (apply_cse qsort b (collect_block_candidates b) c).2
          (apply_cse qsort b (collect_block_candidates b) c).1 with
      | none => rw [hE] at h; simp at h
      | some r1 =>
        obtain ⟨L, c1⟩ := r1
        rw [hE] at h
        simp only [Option.some.injEq] at h
        subst h
        simp only at hsingle ⊢
        rw [optimize_block_succ, apply_cse_unchanged qsort _ _ c2 hsingle]
        simp only
        have hfix : ∀ s ∈ eliminate_unreachable L, ∀ c3,
            optimize_statement_children qsort fuel c3 s = some (s, c3) := by
          intro s hs c3
          have hsL : s ∈ L := by
            unfold eliminate_unreachable at hs
            rw [eliminate_unreachable_loop_false] at hs
            exact List.mem_of_mem_take hs
          have hall := optimize_each_forall2 (optimize_statement_children qsort fuel)
            (fun s0 s1 => ∃ c0 r0, optimize_statement_children qsort fuel c0 s0 = some r0 ∧
              r0.1 = s1) _ (fun s0 _ c0 r0 h0 => ⟨c0, r0, h0, rfl⟩) _ _ hE
          obtain ⟨s0, _, c0, r0, h0, rfl⟩ := forall2_right_mem _ _ _ hall s hsL
          exact ih.2 c0 s0 r0 h0 c3
        rw [optimize_each_fixed _ _ hfix c2]
        simp only
        rw [eliminate_unreachable_idem]
    · intro c s r h c2
      cases s with
      | block b =>
        rw [optimize_children_block] at h
        cases hb : optimize_block qsort fuel c b with
        | none => rw [hb] at h; simp at h
        | some r1 =>
          rw [hb] at h
          simp only [Option.some.injEq] at h
          subst h
          simp only
          rw [optimize_children_block, ih.1 c b r1 hb c2]
      | while_stmt cond body =>
        rw [optimize_children_while] at h
        cases hb : optimize_statement_children qsort fuel c body with
        | none => rw [hb] at h; simp at h
        | some r1 =>
          rw [hb] at h
          simp only [Option.some.injEq] at h
          subst h
          simp only
          rw [optimize_children_while, ih.2 c body r1 hb c2]
      | for_stmt init cond post body =>
        rw [optimize_children_for] at h
        cases h1 : optimize_optional (optimize_statement_children qsort fuel) c init with
        | none => rw [h1] at h; simp at h
        | some r1 =>
          rw [h1] at h
          simp only at h
          cases h2 : optimize_statement_children qsort fuel r1.2 body with
          | none => rw [h2] at h; simp at h
          | some r2 =>
            rw [h2] at h
            simp only at h
            cases h3 : optimize_optional (optimize_statement_children qsort fuel) r2.2 post with
            | none => rw [h3] at h; simp at h
            | some r3 =>
              rw [h3] at h
              simp only [Option.some.injEq] at h
              subst h
              simp only
              rw [optimize_children_for, hopt c init r1 h1 c2]
              simp only
              rw [ih.2 r1.2 body r2 h2 c2]
              simp only
              rw [hopt r2.2 post r3 h3 c2]
      | decl t name init is_array is_used =>
        exact hother (.decl t name init is_array is_used) rfl (by simp [AstStmt.kind]) c r h c2
      | assign target value =>
        exact hother (.assign target value) rfl (by simp [AstStmt.kind]) c r h c2
      | array_assign a i v =>
        exact hother (.array_assign a i v) rfl (by simp [AstStmt.kind]) c r h c2
      | expr e =>
        exact hother (.expr e) rfl (by simp [AstStmt.kind]) c r h c2
      | return_stmt e =>
        exact hother (.return_stmt e) rfl (by simp [AstStmt.kind]) c r h c2

theorem block_output_trimmed (qsort : Qsort) (fuel c : Nat) (b : AstBlock)
    (r : AstBlock × Nat) (h : optimize_block qsort fuel c b = some r) :
    eliminate_unreachable r.1 = r.1 := by
  cases fuel with
  | zero => simp [optimize_block] at h
  | succ fuel =>
    rw [optimize_block_succ] at h
    cases hE : optimize_each (optimize_statement_children qsort fuel)
        (apply_cse qsort b (collect_block_candidates b) c).2
        (apply_cse qsort b (collect_block_candidates b) c).1 with
    | none => rw [hE] at h; simp at h
    | some r1 =>
      rw [hE] at h
      simp only [Option.some.injEq] at h
      subst h
      exact eliminate_unreachable_idem _

/-- C19: `optimize_block` is idempotent on the tree. With fuel that covers the nesting depth
of a block, `optimize_block` returns a block `b1`; run again on `b1` from any counter value
`c2`, it returns `b1` itself with the counter still at `c2`. In that second run no key of
the registry has two occurrences, `apply_cse` leaves the block and the counter as they are,
no temporary name is handed out at any nesting level, and `eliminate_unreachable` removes no
statement. -/
theorem optimize_block_idempotent (qsort : Qsort) (hq : QsortContract qsort) (fuel c : Nat)
    (b : AstBlock) (hfuel : stmt_depth.block_depth b ≤ fuel) :
    ∃ b1 c1, optimize_block qsort fuel c b = some (b1, c1) ∧
      ∀ c2, optimize_block qsort fuel c2 b1 = some (b1, c2) ∧
        (∀ e ∈ collect_block_candidates b1, e.occurrences.length < 2) ∧
        apply_cse qsort b1 (collect_block_candidates b1) c2 = (b1, c2) ∧
        block_temp_names qsort fuel c2 b1 = [] ∧
        eliminate_unreachable b1 = b1 := by
  have hsome := (optimize_terminates qsort fuel).1 c b hfuel
  obtain ⟨r, hr⟩ := Option.isSome_iff_exists.mp hsome
  obtain ⟨b1, c1⟩ := r
  refine ⟨b1, c1, hr, fun c2 => ?_⟩
  have hfix := (optimize_fixed_point qsort hq fuel).1 c b (b1, c1) hr c2
  have hsingle : ∀ e ∈ collect_block_candidates b1, e.occurrences.length < 2 := by
    cases fuel with
    | zero => simp [optimize_block] at hr
    | succ fuel => exact block_output_single qsort hq fuel c b (b1, c1) hr
  refine ⟨hfix, hsingle, apply_cse_unchanged qsort b1 _ c2 hsingle, ?_,
    block_output_trimmed qsort fuel c b (b1, c1) hr⟩
  rw [((optimize_names qsort hq fuel).1 c2 b1 (b1, c2) hfix).2]
  exact temp_names_between_self c2

theorem optimize_block_idempotent_witness :
    QsortContract stable_qsort ∧ stmt_depth.block_depth example_nested ≤ 2 ∧
    ∃ b1 c1, optimize_block stable_qsort 2 0 example_nested = some (b1, c1) ∧
      ∀ c2, optimize_block stable_qsort 2 c2 b1 = some (b1, c2) ∧
        (∀ e ∈ collect_block_candidates b1, e.occurrences.length < 2) ∧
        apply_cse stable_qsort b1 (collect_block_candidates b1) c2 = (b1, c2) ∧
        block_temp_names stable_qsort 2 c2 b1 = [] ∧
        eliminate_unreachable b1 = b1 :=
  ⟨stable_qsort_contract, by decide,
    optimize_block_idempotent stable_qsort stable_qsort_contract 2 0 example_nested (by decide)⟩

/-! ## Declarations and the statements that refer to them -/

/-- C20 fails on the code: `compare_entries_by_index` returns 0 for entries of equal first
statement index and `qsort` makes no promise about the order of such elements. With a
sorting function that meets the contract of `qsort` and reverses ties, `optimize_block`
turns `x = (1 + 1) * 2; y = (1 + 1) * 2;` into `__c2lua_cse_0 = __c2lua_cse_1 * 2;
__c2lua_cse_1 = 1 + 1; x = __c2lua_cse_0; y = __c2lua_cse_0;`. Nothing is trimmed, the
declaration of `__c2lua_cse_1` remains at index 1, its one reference stands in the
statement at index 0, and no statement at a greater index mentions it. -/
theorem temporary_declared_after_its_reference :
    QsortContract reversing_qsort ∧
    optimize_block reversing_qsort 2 0 example_nested = some (example_nested_reversed, 2) ∧
    (apply_cse_pass reversing_qsort example_nested
      (collect_block_candidates example_nested) 0).statements[1]? =
        some (StmtRef.synthesized .TYPE_INT "__c2lua_cse_1" (NodeRef.parsed ⟨0, [0]⟩) true) ∧
    example_nested_reversed[1]? =
      some (AstStmt.decl .TYPE_INT "__c2lua_cse_1" (some example_one_plus_one) false true) ∧
    (∃ s root, example_nested_reversed[0]? = some s ∧ stmt_slot s = some root ∧
      expr_at root [0] = some (AstExpr.identifier .TYPE_INT "__c2lua_cse_1")) ∧
    ¬ ∃ (p : Nat) (s : AstStmt) (root : AstExpr) (ext : List Nat) (t : TypeKind),
      1 < p ∧ example_nested_reversed[p]? = some s ∧ stmt_slot s = some root ∧
        expr_at root ext = some (AstExpr.identifier t "__c2lua_cse_1") := by
  have hident : ∀ (ext : List Nat) (t : TypeKind),
      expr_at (AstExpr.identifier .TYPE_INT "__c2lua_cse_0") ext ≠
        some (AstExpr.identifier t "__c2lua_cse_1") := by
    intro ext t h
    have := (expr_at_identifier _ _ ext _ h).2
    simp only [AstExpr.identifier.injEq] at this
    exact absurd this.2 (by decide)
  refine ⟨reversing_qsort_contract, rfl, rfl, rfl, ⟨_, _, rfl, rfl, rfl⟩, ?_⟩
  rintro ⟨p, s, root, ext, t, hlt, hp, hroot, hext⟩
  match p, hlt, hp with
  | 2, _, hp =>
    simp only [example_nested_reversed, List.getElem?_cons_succ,
      List.getElem?_cons_zero, Option.some.injEq] at hp
    subst hp
    simp only [stmt_slot, Option.some.injEq] at hroot
    subst hroot
    exact hident ext t hext
  | 3, _, hp =>
    simp only [example_nested_reversed, List.getElem?_cons_succ,
      List.getElem?_cons_zero, Option.some.injEq] at hp
    subst hp
    simp only [stmt_slot, Option.some.injEq] at hroot
    subst hroot
    exact hident ext t hext
  | p + 4, _, hp => simp [example_nested_reversed] at hp

theorem key_equivalent_child (a b : AstExpr) (k : Nat) (x : AstExpr)
    (h : key_equivalent a b) (hx : expr_child k b = some x) :
    ∃ y, expr_child k a = some y ∧ key_equivalent y x := by
  cases a <;> cases b <;> simp only [key_equivalent] at h <;>
    simp only [expr_child, reduceCtorEq] at hx
  · rename_i l1 r1 _ _ l2 r2
    by_cases h0 : k = 0
    · rw [if_pos h0, Option.some.injEq] at hx
      subst hx
      exact ⟨l1, by simp [expr_child, h0], h.2.1⟩
    · rw [if_neg h0] at hx
      by_cases h1 : k = 1
      · rw [if_pos h1, Option.some.injEq] at hx
        subst hx
        exact ⟨r1, by simp [expr_child, h1], h.2.2⟩
      · rw [if_neg h1] at hx
        simp at hx
  · rename_i a1 _ _ b1
    by_cases h0 : k = 0
    · rw [if_pos h0, Option.some.injEq] at hx
      subst hx
      exact ⟨a1, by simp [expr_child, h0], h.2⟩
    · rw [if_neg h0] at hx
      simp at hx

theorem key_equivalent_at (a b : AstExpr) (h : key_equivalent a b) :
    ∀ (ext : List Nat) (x : AstExpr), expr_at b ext = some x →
    ∃ y, expr_at a ext = some y ∧ key_equivalent y x := by
  intro ext
  induction ext with
  | nil =>
    intro x hx
    simp only [expr_at, Option.some.injEq] at hx
    subst hx
    exact ⟨a, rfl, h⟩
  | cons k ext ih =>
    intro x hx
    simp only [expr_at] at hx ⊢
    cases hp : expr_at b ext with
    | none => rw [hp] at hx; simp at hx
    | some p =>
      rw [hp] at hx
      have hx : expr_child k p = some x := hx
      obtain ⟨q, hq, hqp⟩ := ih p hp
      obtain ⟨y, hy, hyx⟩ := key_equivalent_child q p k x hqp hx
      exact ⟨y, by rw [hq]; exact hy, hyx⟩

theorem key_equivalent_operator (y x : AstExpr) (h : key_equivalent y x)
    (hx : is_operator x = true) : is_operator y = true := by
  cases y <;> cases x <;> simp only [key_equivalent] at h <;> simp [is_operator] at hx ⊢

theorem constant_typed_child (p y : AstExpr) (k : Nat) (hc : expr_is_constant p = true)
    (ht : constant_typed p = true) (hy : expr_child k p = some y) :
    expr_is_constant y = true ∧ constant_typed y = true := by
  cases p <;> simp only [expr_child, reduceCtorEq] at hy <;>
    simp only [expr_is_constant, Bool.and_eq_true, Bool.false_eq_true] at hc <;>
    simp only [constant_typed, Bool.and_eq_true] at ht
  · by_cases h0 : k = 0
    · rw [if_pos h0, Option.some.injEq] at hy
      subst hy
      exact ⟨hc.1, ht.1.2⟩
    · rw [if_neg h0] at hy
      by_cases h1 : k = 1
      · rw [if_pos h1, Option.some.injEq] at hy
        subst hy
        exact ⟨hc.2, ht.2⟩
      · rw [if_neg h1] at hy
        simp at hy
  · by_cases h0 : k = 0
    · rw [if_pos h0, Option.some.injEq] at hy
      subst hy
      exact ⟨hc, ht.2⟩
    · rw [if_neg h0] at hy
      simp at hy

theorem constant_typed_at (x : AstExpr) (hc : expr_is_constant x = true)
    (ht : constant_typed x = true) : ∀ (ext : List Nat) (y : AstExpr),
    expr_at x ext = some y → expr_is_constant y = true ∧ constant_typed y = true := by
  intro ext
  induction ext with
  | nil =>
    intro y hy
    simp only [expr_at, Option.some.injEq] at hy
    subst hy
    exact ⟨hc, ht⟩
  | cons k ext ih =>
    intro y hy
    simp only [expr_at] at hy
    cases hp : expr_at x ext with
    | none => rw [hp] at hy; simp at hy
    | some p =>
      rw [hp] at hy
      have hy : expr_child k p = some y := hy
      obtain ⟨h1, h2⟩ := ih p hp
      exact constant_typed_child p y k h1 h2 hy

theorem candidate_of_typed (y : AstExpr) (ho : is_operator y = true)
    (hc : expr_is_constant y = true) (ht : constant_typed y = true) :
    expr_is_candidate y = true := by
  cases y <;> simp [is_operator] at ho
  · simp only [constant_typed, Bool.and_eq_true, decide_eq_true_eq] at ht
    simp only [expr_is_candidate, if_neg ht.1.1]
    exact hc
  · simp only [constant_typed, Bool.and_eq_true, decide_eq_true_eq] at ht
    simp only [expr_is_candidate, if_neg ht.1]
    exact hc

theorem candidate_operator (x : AstExpr) (h : expr_is_candidate x = true) :
    is_operator x = true := by
  cases x <;> simp [expr_is_candidate] at h <;> rfl

theorem candidate_slot_visit (block : AstBlock) (loc : Slot) (y : AstExpr)
    (h : slot_init block loc = some y) (hc : expr_is_candidate y = true) :
    ∃ v ∈ block_visits 0 block, v.expr = y ∧ v.location = loc := by
  unfold slot_init at h
  cases hb : block[loc.stmt]? with
  | none => rw [hb] at h; simp at h
  | some s0 =>
    rw [hb] at h
    simp only [Option.some_bind] at h
    cases hr : stmt_slot s0 with
    | none => rw [hr] at h; simp at h
    | some root0 =>
      rw [hr] at h
      simp only [Option.some_bind] at h
      have hmem := candidate_nodes_complete root0 ⟨loc.stmt, []⟩ loc.path y h hc
      simp only [List.append_nil] at hmem
      refine ⟨⟨loc, y, loc.stmt, s0⟩, ?_, rfl, rfl⟩
      apply stmt_visits_subset block 0 loc.stmt s0 hb
      simp only [Nat.zero_add, stmt_visits, hr]
      exact List.mem_map.mpr ⟨(loc, y), hmem, rfl⟩

theorem nearest_replaced (mem : Slot → Option AstExpr) (i : Nat) : ∀ (path : List Nat),
    (∀ ext t : List Nat, path = ext ++ t → ext ≠ [] → mem ⟨i, t⟩ = none) ∨
    (∃ ext t : List Nat, path = ext ++ t ∧ ext ≠ [] ∧ mem ⟨i, t⟩ ≠ none ∧
      ∀ ext1 ext2 : List Nat, ext = ext1 ++ ext2 → ext1 ≠ [] → ext2 ≠ [] →
        mem ⟨i, ext2 ++ t⟩ = none) := by
  intro path
  induction path with
  | nil =>
    left
    intro ext t h hne
    exact absurd (List.append_eq_nil.mp h.symm).1 hne
  | cons k rest ih =>
    by_cases hm : mem ⟨i, rest⟩ = none
    · rcases ih with hall | ⟨ext, t, hp, hne, hrep, hvis⟩
      · left
        intro ext t h hne
        cases ext with
        | nil => exact absurd rfl hne
        | cons a ext =>
          simp only [List.cons_append, List.cons.injEq] at h
          by_cases he : ext = []
          · subst he
            simp only [List.nil_append] at h
            rw [← h.2]
            exact hm
          · exact hall ext t h.2 he
      · right
        refine ⟨k :: ext, t, by rw [hp]; rfl, by simp, hrep, ?_⟩
        intro e1 e2 h h1 h2
        cases e1 with
        | nil => exact absurd rfl h1
        | cons a e1 =>
          simp only [List.cons_append, List.cons.injEq] at h
          by_cases he : e1 = []
          · subst he
            simp only [List.nil_append] at h
            rw [← h.2, ← hp]
            exact hm
          · exact hvis e1 e2 h.2 he h2
    · right
      refine ⟨[k], rest, rfl, by simp, hm, ?_⟩
      intro e1 e2 h h1 h2
      have := congrArg List.length h
      simp only [List.length_cons, List.length_nil, List.length_append] at this
      have := List.length_pos.mpr h1
      have := List.length_pos.mpr h2
      omega

theorem entry_slot_mem (qsort : Qsort) (hq : QsortContract qsort) (block : AstBlock)
    (counter : Nat) (e : CseEntry) (pre post : List CseEntry)
    (hsel : select_entries qsort (collect_block_candidates block) = pre ++ e :: post)
    (loc : Slot) (hloc : loc ∈ entry_locations e) :
    (apply_cse_pass qsort block (collect_block_candidates block) counter).mem loc =
      some (AstExpr.identifier e.type (make_temp_name (counter + pre.length))) := by
  rw [apply_cse_pass_eq qsort hq, hsel]
  exact replace_all_of_mem loc e post hloc
    (selected_disjoint qsort hq block e pre post hsel loc hloc).2 pre counter _

theorem layout_head (n : Nat) : ∀ (ds : List (Nat × StmtRef)) (f : Nat), f < n →
    (∀ d ∈ ds, f ≤ d.1) → ds.Pairwise (fun a b => a.1 ≤ b.1) →
    ∃ front back, layout n f ds = front ++ StmtRef.parsed f :: back ∧
      ∀ r ∈ front, ∃ d ∈ ds, r = d.2 := by
  intro ds
  induction ds with
  | nil =>
    intro f hf _ _
    refine ⟨[], (List.range' (f + 1) (n - f - 1)).map StmtRef.parsed, ?_, by simp⟩
    simp only [layout, List.nil_append]
    have : n - f = (n - f - 1) + 1 := by omega
    rw [this, List.range'_succ]
    rfl
  | cons d rest ih =>
    intro f hf hge hsorted
    obtain ⟨f1, r1⟩ := d
    rw [layout_cons]
    have hf1 : f ≤ f1 := hge (f1, r1) (List.mem_cons_self _ _)
    rcases Nat.lt_or_eq_of_le hf1 with hlt | heq
    · refine ⟨[], (List.range' (f + 1) (f1 - f - 1)).map StmtRef.parsed ++ r1 :: layout n f1 rest,
        ?_, by simp⟩
      have : f1 - f = (f1 - f - 1) + 1 := by omega
      rw [this, List.range'_succ]
      rfl
    · subst heq
      have hsorted1 := List.pairwise_cons.mp hsorted
      obtain ⟨front, back, hl, hfront⟩ := ih f hf
        (fun d hd => hsorted1.1 d hd) hsorted1.2
      refine ⟨r1 :: front, back, ?_, ?_⟩
      · simp only [Nat.sub_self, List.range'_zero, List.map_nil, List.nil_append, hl,
          List.cons_append]
      · intro r hr
        rcases List.mem_cons.mp hr with rfl | hr
        · exact ⟨(f, r), List.mem_cons_self _ _, rfl⟩
        · obtain ⟨d, hd, rfl⟩ := hfront r hr
          exact ⟨d, List.mem_cons_of_mem _ hd, rfl⟩

theorem temp_decls_sorted : ∀ (sel : List CseEntry) (c : Nat),
    sel.Pairwise (fun a b => a.first_stmt_index ≤ b.first_stmt_index) →
    (temp_decls c sel).Pairwise (fun a b => a.1 ≤ b.1) := by
  intro sel
  induction sel with
  | nil => intro c _; exact List.Pairwise.nil
  | cons e rest ih =>
    intro c h
    obtain ⟨h1, h2⟩ := List.pairwise_cons.mp h
    simp only [temp_decls]
    refine List.pairwise_cons.mpr ⟨?_, ih (c + 1) h2⟩
    intro d hd
    obtain ⟨x, hx, j, rfl⟩ := temp_decls_first rest (c + 1) d hd
    exact h1 x hx

theorem first_statement_position (qsort : Qsort) (hq : QsortContract qsort) (block : AstBlock)
    (counter : Nat) (e : CseEntry) (pre post : List CseEntry)
    (hsel : select_entries qsort (collect_block_candidates block) = pre ++ e :: post) :
    ∃ P, (layout e.first_stmt_index 0 (temp_decls counter pre)).length < P ∧
      (apply_cse_pass qsort block (collect_block_candidates block) counter).statements[P]? =
        some (StmtRef.parsed e.first_stmt_index) ∧
      ∀ q, (layout e.first_stmt_index 0 (temp_decls counter pre)).length ≤ q → q < P →
        ∃ t n ptr u,
          (apply_cse_pass qsort block (collect_block_candidates block) counter).statements[q]? =
            some (StmtRef.synthesized t n ptr u) := by
  obtain ⟨hS, _⟩ := pass_layout_split qsort hq block counter e pre post hsel
  have hsorted := select_entries_sorted qsort hq (collect_block_candidates block)
  rw [hsel] at hsorted
  have hpost := (List.pairwise_cons.mp (List.pairwise_append.mp hsorted).2.1)
  have hlt : e.first_stmt_index < block.length :=
    (selected_first_lt qsort hq block e (by rw [hsel]; simp)).2.2
  obtain ⟨front, back, hl, hfront⟩ := layout_head block.length
    (temp_decls (counter + pre.length + 1) post) e.first_stmt_index hlt
    (by
      intro d hd
      obtain ⟨x, hx, j, rfl⟩ := temp_decls_first post _ d hd
      exact hpost.1 x hx)
    (temp_decls_sorted post _ hpost.2)
  rw [hl] at hS
  refine ⟨(layout e.first_stmt_index 0 (temp_decls counter pre)).length + 1 + front.length,
    by omega, ?_, ?_⟩
  · rw [hS, List.getElem?_append_right (by omega)]
    have h1 : (layout e.first_stmt_index 0 (temp_decls counter pre)).length + 1 + front.length -
        (layout e.first_stmt_index 0 (temp_decls counter pre)).length = front.length + 1 := by
      omega
    rw [h1, List.getElem?_cons_succ, List.getElem?_append_right (Nat.le_refl _)]
    simp
  · intro q hq1 hq2
    rw [hS, List.getElem?_append_right hq1]
    rcases Nat.eq_or_lt_of_le hq1 with heq | hgt
    · rw [← heq]
      simp only [Nat.sub_self, List.getElem?_cons_zero, temp_decl]
      exact ⟨_, _, _, _, rfl⟩
    · have h1 : q - (layout e.first_stmt_index 0 (temp_decls counter pre)).length =
          (q - (layout e.first_stmt_index 0 (temp_decls counter pre)).length - 1) + 1 := by
        omega
      rw [h1, List.getElem?_cons_succ]
      have h2 : q - (layout e.first_stmt_index 0 (temp_decls counter pre)).length - 1 <
          front.length := by omega
      rw [List.getElem?_append_left h2, List.getElem?_eq_getElem h2]
      obtain ⟨d, hd, hr⟩ := hfront _ (List.getElem_mem h2)
      obtain ⟨x, _, j, rfl⟩ := temp_decls_first post _ d hd
      rw [hr]
      exact ⟨_, _, _, _, rfl⟩

theorem first_occurrence_hosted (block : AstBlock)
    (htyped : ∀ v ∈ block_visits 0 block, constant_typed v.expr = true)
    (e e1 : CseEntry) (he : e ∈ collect_block_candidates block)
    (he1 : e1 ∈ collect_block_candidates block)
    (a : Slot) (ha : a ∈ entry_locations e1) (ext : List Nat)
    (hfs : entry_first_slot e = ⟨a.stmt, ext ++ a.path⟩) : a = entry_first_slot e1 := by
  unfold entry_locations at ha
  obtain ⟨oa, hoa, hloca⟩ := List.mem_map.mp ha
  rcases registry_first_le block e1 he1 oa hoa with h | hlt
  · rw [← hloca, h]
  · exfalso
    rw [hloca] at hlt
    obtain ⟨o1, ho1, hloc1, _, _⟩ := entry_first_occurrence block e1 he1
    obtain ⟨x1, hx1, hk1, hc1, _, _⟩ := registry_occurrence_spec block e1 he1 o1 ho1
    obtain ⟨xa, hxa, hka, hca, _, _⟩ := registry_occurrence_spec block e1 he1 oa hoa
    obtain ⟨o, ho, hloc, _, _⟩ := entry_first_occurrence block e he
    obtain ⟨x, hx, hk, hc, _, _⟩ := registry_occurrence_spec block e he o ho
    rw [hloc1] at hx1
    rw [hloca] at hxa
    rw [hloc] at hx
    have hxext : expr_at xa ext = some x :=
      slot_init_below block (entry_first_slot e) a x xa ext (by rw [hfs]) (by rw [hfs]) hxa hx
    have hequiv := key_equivalent_of_key_eq x1 xa (candidate_is_constant _ hc1)
      (candidate_is_constant _ hca) (by rw [hk1, hka])
    obtain ⟨y, hy, hyx⟩ := key_equivalent_at x1 xa hequiv ext x hxext
    obtain ⟨v, hv, hvx, _⟩ := candidate_slot_visit block _ x1 hx1 hc1
    have ht1 : constant_typed x1 = true := by
      rw [← hvx]
      exact htyped v hv
    obtain ⟨hyc, hyt⟩ := constant_typed_at x1 (candidate_is_constant _ hc1) ht1 ext y hy
    have hycand := candidate_of_typed y
      (key_equivalent_operator y x hyx (candidate_operator x hc)) hyc hyt
    have hyslot := slot_init_extend block (entry_first_slot e1) y x1 ext hx1 hy
    obtain ⟨e2, he2, hk2, hl2⟩ := candidate_slot_registered block _ y hyslot hycand
    have hee : e2 = e := registry_key_inj block e2 e he2 he
      (by rw [hk2, key_eq_of_key_equivalent y x hyx, hk])
    subst hee
    unfold entry_locations at hl2
    obtain ⟨o2, ho2, hloc2⟩ := List.mem_map.mp hl2
    have hnot : ¬ a.below (entry_first_slot e1) := by
      have := registry_not_nested block e1 he1 oa o1 hoa ho1
      rw [hloca, hloc1] at this
      exact this
    have hext := slot_lt_extend (entry_first_slot e1) a ext ext hlt hnot
    rw [← hfs] at hext
    rcases registry_first_le block e2 he o2 ho2 with h | h
    · rw [hloc2] at h
      rw [h] at hext
      exact slot_lt_irrefl _ hext
    · rw [hloc2] at h
      exact slot_lt_asymm _ _ h hext

theorem slot_init_parts (block : AstBlock) (loc : Slot) (x : AstExpr)
    (h : slot_init block loc = some x) :
    ∃ s0 root0, block[loc.stmt]? = some s0 ∧ stmt_slot s0 = some root0 ∧
      expr_at root0 loc.path = some x := by
  unfold slot_init at h
  cases hb : block[loc.stmt]? with
  | none => rw [hb] at h; simp at h
  | some s0 =>
    rw [hb] at h
    simp only [Option.some_bind] at h
    cases hr : stmt_slot s0 with
    | none => rw [hr] at h; simp at h
    | some root0 =>
      rw [hr] at h
      exact ⟨s0, root0, rfl, hr, h⟩

theorem reference_visible (qsort : Qsort) (hs : QsortStable qsort) (block : AstBlock)
    (htyped : ∀ v ∈ block_visits 0 block, constant_typed v.expr = true)
    (counter : Nat) (e : CseEntry) (pre post : List CseEntry)
    (hsel : select_entries qsort (collect_block_candidates block) = pre ++ e :: post) :
    ∃ p s root ext, (layout e.first_stmt_index 0 (temp_decls counter pre)).length < p ∧
      (apply_cse qsort block (collect_block_candidates block) counter).1[p]? = some s ∧
      stmt_slot s = some root ∧
      expr_at root ext =
        some (AstExpr.identifier e.type (make_temp_name (counter + pre.length))) ∧
      ∀ q, (layout e.first_stmt_index 0 (temp_decls counter pre)).length ≤ q → q < p →
        ∃ t n ptr u,
          (apply_cse_pass qsort block (collect_block_candidates block) counter).statements[q]? =
            some (StmtRef.synthesized t n ptr u) := by
  have hq := stable_contract qsort hs
  have hesel : e ∈ select_entries qsort (collect_block_candidates block) := by
    rw [hsel]; simp
  have he := (selected_first_lt qsort hq block e hesel).1
  obtain ⟨o, ho, hloc, _, hstmt⟩ := entry_first_occurrence block e he
  obtain ⟨x, hx, _, hc, _, _⟩ := registry_occurrence_spec block e he o ho
  rw [hloc] at hx
  have hmem := entry_slot_mem qsort hq block counter e pre post hsel _
    (first_slot_location block e he)
  obtain ⟨P, hP1, hP2, hP3⟩ := first_statement_position qsort hq block counter e pre post hsel
  have hout : ∀ p : Nat, (apply_cse qsort block (collect_block_candidates block) counter).1[p]? =
      ((apply_cse_pass qsort block (collect_block_candidates block) counter).statements[p]?).bind
        (load_stmt_ref block
          (apply_cse_pass qsort block (collect_block_candidates block) counter).mem) :=
    fun p => snapshot_getElem qsort hq block counter p
  cases hfs : entry_first_slot e with
  | mk f path =>
  rw [hfs] at hx hmem hstmt
  simp only at hstmt
  rw [← hstmt] at hP2
  rcases nearest_replaced
      (apply_cse_pass qsort block (collect_block_candidates block) counter).mem f path with
    hall | ⟨ext, t, hp, hne, hrep, hvis⟩
  · -- the first slot is visible in the statement it lies in
    obtain ⟨s0, root0, hs0, hroot0, hx0⟩ := slot_init_parts block _ x hx
    simp only at hs0 hx0
    refine ⟨P, load_stmt (apply_cse_pass qsort block (collect_block_candidates block) counter).mem f s0,
      load (apply_cse_pass qsort block (collect_block_candidates block) counter).mem ⟨f, []⟩ root0,
      path, hP1, ?_, ?_, ?_, hP3⟩
    · rw [hout, hP2]
      simp [load_stmt_ref, hs0]
    · rw [load_stmt_slot, hroot0]
      rfl
    · by_cases hnil : path = []
      · subst hnil
        simp only [load, hmem, Option.getD_some, expr_at]
      · have hroot : (apply_cse_pass qsort block (collect_block_candidates block) counter).mem
            ⟨f, []⟩ = none := hall path [] (by simp) hnil
        simp only [load, hroot, Option.getD_none]
        have hv : slot_visible
            (apply_cse_pass qsort block (collect_block_candidates block) counter).mem
            ⟨f, []⟩ path := by
          intro e1 e2 h h1 _
          simp only [List.append_nil]
          exact hall e1 e2 h h1
        rw [expr_at_load_visible _ ⟨f, []⟩ root0 path x hnil hx0 hv]
        simp only [load, List.append_nil, hmem, Option.getD_some]
  · -- the first slot lies below the first slot of another selected entry
    cases hz : (apply_cse_pass qsort block (collect_block_candidates block) counter).mem
        ⟨f, t⟩ with
    | none => exact absurd hz hrep
    | some z =>
      obtain ⟨t1, n1, rfl⟩ := pass_mem_identifier qsort hq block counter _ z hz
      obtain ⟨pre2, e1, post2, hsel2, ⟨oa, hoa, hloca⟩, _, _⟩ :=
        reference_entry qsort hq block counter _ t1 n1 hz
      have he1sel : e1 ∈ select_entries qsort (collect_block_candidates block) := by
        rw [hsel2]; simp
      have he1 := (selected_first_lt qsort hq block e1 he1sel).1
      have ha : (⟨f, t⟩ : Slot) ∈ entry_locations e1 := by
        unfold entry_locations
        exact List.mem_map.mpr ⟨oa, hoa, hloca⟩
      have hhost := first_occurrence_hosted block htyped e e1 he he1 ⟨f, t⟩ ha ext
        (by rw [hfs, hp])
      have hbelow : o.location.below (entry_first_slot e1) := by
        rw [hloc, hfs, ← hhost]
        exact ⟨rfl, ext, hne, hp⟩
      have hpost := selected_before qsort hs block e e1 pre post hsel he1sel o ho hbelow
      obtain ⟨q1, q2, hq12⟩ := List.append_of_mem hpost
      have hsel3 : select_entries qsort (collect_block_candidates block) =
          (pre ++ e :: q1) ++ e1 :: q2 := by
        rw [hsel, hq12]
        simp
      obtain ⟨hS1, hA1⟩ := pass_layout_split qsort hq block counter e1 (pre ++ e :: q1) q2 hsel3
      have hdecl : (apply_cse_pass qsort block (collect_block_candidates block)
          counter).statements[(layout e1.first_stmt_index 0
            (temp_decls counter (pre ++ e :: q1))).length]? =
          some (temp_decl e1 (counter + (pre ++ e :: q1).length)) := by
        rw [hS1, List.getElem?_append_right (Nat.le_refl _)]
        simp
      have hlt := declaration_after_declaration qsort hq block counter e e1 pre post hsel hpost
        _ _ hdecl
      obtain ⟨o1, _, _, _, hstmt1⟩ := entry_first_occurrence block e1 he1
      rw [← hhost] at hstmt1
      simp only at hstmt1
      have hltP : (layout e1.first_stmt_index 0 (temp_decls counter (pre ++ e :: q1))).length <
          P := by
        by_contra hge
        rcases Nat.lt_or_eq_of_le (Nat.le_of_not_lt hge) with h1 | h1
        · have hP2a := hP2
          rw [hS1, List.getElem?_append_left h1] at hP2a
          rcases hA1 _ (List.getElem?_mem hP2a) with ⟨i, hi, h2⟩ | ⟨y, _, j, h2⟩
          · simp only [StmtRef.parsed.injEq] at h2
            omega
          · simp [temp_decl] at h2
        · rw [h1, hdecl] at hP2
          simp [temp_decl] at hP2
      obtain ⟨xa, hxa, _, _, _, _⟩ := registry_occurrence_spec block e1 he1 oa hoa
      rw [hloca] at hxa
      have hxext : expr_at xa ext = some x :=
        slot_init_below block ⟨f, path⟩ ⟨f, t⟩ x xa ext rfl hp hxa hx
      have hv : slot_visible
          (apply_cse_pass qsort block (collect_block_candidates block) counter).mem
          ⟨f, t⟩ ext := by
        intro e2 e3 h h2 h3
        exact hvis e2 e3 h h2 h3
      have hstmtout : ∃ u, (apply_cse qsort block (collect_block_candidates block)
          counter).1[(layout e1.first_stmt_index 0
            (temp_decls counter (pre ++ e :: q1))).length]? =
          some (AstStmt.decl e1.type (make_temp_name (counter + (pre ++ e :: q1).length))
            (some (load_node (apply_cse_pass qsort block (collect_block_candidates block) counter).mem
              ⟨f, t⟩ xa)) false u) := by
        refine ⟨e1.occurrences.any occurrence_survives_dce, ?_⟩
        rw [hout, hdecl]
        simp [temp_decl, load_stmt_ref, load_ref, ← hhost, hxa, mark_used, ast_stmt_make_decl]
      obtain ⟨u, hu⟩ := hstmtout
      refine ⟨_, _, load_node (apply_cse_pass qsort block (collect_block_candidates block) counter).mem
        ⟨f, t⟩ xa, ext, hlt, hu, rfl, ?_, ?_⟩
      · rw [expr_at_load_visible _ ⟨f, t⟩ xa ext x hne hxext hv]
        simp only [load, ← hp, hmem, Option.getD_some]
      · intro q hq1 hq2
        exact hP3 q hq1 (Nat.lt_trans hq2 hltP)

theorem forall2_getElem {α β : Type} (R : α → β → Prop) (l1 : List α) (l2 : List β)
    (h : List.Forall₂ R l1 l2) : ∀ (p : Nat) (a : α), l1[p]? = some a →
    ∃ b, l2[p]? = some b ∧ R a b := by
  induction h with
  | nil => intro p a ha; simp at ha
  | cons hab _ ih =>
    intro p a ha
    cases p with
    | zero =>
      simp only [List.getElem?_cons_zero, Option.some.injEq] at ha
      subst ha
      exact ⟨_, List.getElem?_cons_zero, hab⟩
    | succ p =>
      simp only [List.getElem?_cons_succ] at ha ⊢
      exact ih p a ha

theorem stmt_slot_not_nested (s : AstStmt) (root : AstExpr) (h : stmt_slot s = some root) :
    is_nested_scope s = false := by
  cases s <;> simp [stmt_slot] at h <;> rfl

theorem driver_keeps (qsort : Qsort) (fuel c : Nat) (b : AstBlock) (r : AstBlock × Nat)
    (h : optimize_block qsort (fuel + 1) c b = some r) (d p : Nat) (s : AstStmt)
    (hd : d < r.1.length)
    (hp : (apply_cse qsort b (collect_block_candidates b) c).1[p]? = some s)
    (hns : is_nested_scope s = false)
    (hbetween : ∀ q, d ≤ q → q < p → ∃ s1,
      (apply_cse qsort b (collect_block_candidates b) c).1[q]? = some s1 ∧
        is_return s1 = false) : r.1[p]? = some s := by
  rw [optimize_block_succ] at h
  cases hE : optimize_each (optimize_statement_children qsort fuel)
      (apply_cse qsort b (collect_block_candidates b) c).2
      (apply_cse qsort b (collect_block_candidates b) c).1 with
  | none => rw [hE] at h; simp at h
  | some r1 =>
    obtain ⟨L, c1⟩ := r1
    rw [hE] at h
    simp only [Option.some.injEq] at h
    subst h
    have hrel := optimize_each_forall2 (optimize_statement_children qsort fuel)
      (fun s0 s1 => s1.kind = s0.kind ∧ (is_nested_scope s0 = false → s1 = s0)) _
      (fun s0 _ c0 r0 h0 => by
        obtain ⟨hk, hsame⟩ := children_kind qsort fuel c0 s0 r0 h0
        exact ⟨hk, fun hn => by rw [hsame hn]⟩) _ _ hE
    simp only at hrel hd ⊢
    unfold eliminate_unreachable at hd ⊢
    rw [eliminate_unreachable_loop_false] at hd ⊢
    obtain ⟨s2, hs2, _, hsame⟩ := forall2_getElem _ _ _ hrel p s hp
    rw [hsame hns] at hs2
    have hdle : d ≤ L.findIdx is_return := by
      rw [List.length_take] at hd
      omega
    have hple : p ≤ L.findIdx is_return := by
      by_contra hgt
      have hlt : L.findIdx is_return < p := Nat.lt_of_not_le hgt
      obtain ⟨s1, hs1, hr1⟩ := hbetween _ hdle hlt
      obtain ⟨s3, hs3, hk3, _⟩ := forall2_getElem _ _ _ hrel _ s1 hs1
      have := List.findIdx_of_getElem?_eq_some hs3
      rw [is_return_of_kind s3 s1 hk3, hr1] at this
      exact absurd this (by simp)
    rw [List.getElem?_take_of_lt (Nat.lt_succ_of_le hple)]
    exact hs2

/-- What holds when ties keep their order: if `qsort` keeps entries of equal first statement
index in registration order and every operator node inside a candidate expression of the
block has a resolved type, every declaration built by `apply_cse` that remains in the
statement sequence `optimize_block` returns is mentioned, by an identifier node of its name
and type, in a statement that remains at a greater index of that sequence; so a built
declaration that no remaining statement mentions has been trimmed with the statements that
did. -/
theorem remaining_temporaries_referenced (qsort : Qsort) (hs : QsortStable qsort)
    (fuel c : Nat) (b : AstBlock) (hfuel : stmt_depth.block_depth b ≤ fuel)
    (htyped : ∀ v ∈ block_visits 0 b, constant_typed v.expr = true) :
    ∃ b1 c1, optimize_block qsort fuel c b = some (b1, c1) ∧
      (∀ (d : Nat) (t : TypeKind) (name : String) (ptr : NodeRef) (used : Bool),
        (apply_cse_pass qsort b (collect_block_candidates b) c).statements[d]? =
          some (StmtRef.synthesized t name ptr used) → d < b1.length →
        (∃ init, b1[d]? = some (AstStmt.decl t name init false used)) ∧
        ∃ p s root ext, d < p ∧ b1[p]? = some s ∧ stmt_slot s = some root ∧
          expr_at root ext = some (AstExpr.identifier t name)) ∧
      (∀ (d : Nat) (t : TypeKind) (name : String) (ptr : NodeRef) (used : Bool),
        (apply_cse_pass qsort b (collect_block_candidates b) c).statements[d]? =
          some (StmtRef.synthesized t name ptr used) →
        (∀ (p : Nat) (s : AstStmt) (root : AstExpr) (ext : List Nat),
          b1[p]? = some s → stmt_slot s = some root →
          expr_at root ext ≠ some (AstExpr.identifier t name)) → b1.length ≤ d) := by
  have hq := stable_contract qsort hs
  have hsome := (optimize_terminates qsort fuel).1 c b hfuel
  obtain ⟨r, hr⟩ := Option.isSome_iff_exists.mp hsome
  obtain ⟨b1, c1⟩ := r
  have main : ∀ (d : Nat) (t : TypeKind) (name : String) (ptr : NodeRef) (used : Bool),
      (apply_cse_pass qsort b (collect_block_candidates b) c).statements[d]? =
        some (StmtRef.synthesized t name ptr used) → d < b1.length →
      (∃ init, b1[d]? = some (AstStmt.decl t name init false used)) ∧
      ∃ p s root ext, d < p ∧ b1[p]? = some s ∧ stmt_slot s = some root ∧
        expr_at root ext = some (AstExpr.identifier t name) := by
    intro d t name ptr used hd hlen
    cases fuel with
    | zero => simp [optimize_block] at hr
    | succ fuel =>
      rcases pass_statements_index qsort hq b c _ (List.getElem?_mem hd) with
        ⟨i, _, h⟩ | ⟨e, j, hj, h⟩
      · simp at h
      · have hjlt : j < (select_entries qsort (collect_block_candidates b)).length := by
          by_contra hge
          rw [List.getElem?_eq_none (Nat.le_of_not_lt hge)] at hj
          simp at hj
        have hje : (select_entries qsort (collect_block_candidates b))[j] = e := by
          rw [List.getElem?_eq_getElem hjlt] at hj
          exact Option.some.inj hj
        have hsel : select_entries qsort (collect_block_candidates b) =
            (select_entries qsort (collect_block_candidates b)).take j ++
              e :: (select_entries qsort (collect_block_candidates b)).drop (j + 1) := by
          rw [← hje, ← List.drop_eq_getElem_cons hjlt, List.take_append_drop]
        have hprelen : ((select_entries qsort (collect_block_candidates b)).take j).length =
            j := by
          rw [List.length_take]
          omega
        simp only [temp_decl, StmtRef.synthesized.injEq] at h
        obtain ⟨ht, hname, hptr, hused⟩ := h
        obtain ⟨init, used1, hout, ⟨ptr1, hS⟩, huniq⟩ :=
          declaration_position qsort hq b c e _ _ hsel
        rw [hprelen] at hout hS huniq
        have hdpos := huniq d t ptr used (by rw [← hname]; exact hd)
        rw [← hdpos] at hout hS
        rw [hd] at hS
        simp only [Option.some.injEq, StmtRef.synthesized.injEq] at hS
        obtain ⟨p, s, root, ext, hlt, hps, hroot, hext, hbetween⟩ :=
          reference_visible qsort hs b htyped c e _ _ hsel
        rw [hprelen] at hext
        rw [← hdpos] at hlt hbetween
        have hdecls : ∀ q, d ≤ q → q < p → ∃ s1,
            (apply_cse qsort b (collect_block_candidates b) c).1[q]? = some s1 ∧
              is_return s1 = false := by
          intro q hq1 hq2
          obtain ⟨t2, n2, ptr2, u2, hq3⟩ := hbetween q hq1 hq2
          refine ⟨mark_used u2 (ast_stmt_make_decl t2 n2 (load_ref b
            (apply_cse_pass qsort b (collect_block_candidates b) c).mem ptr2)), ?_, ?_⟩
          · show (snapshot b _)[q]? = _
            rw [snapshot_getElem qsort hq, hq3]
            rfl
          · cases u2 <;> rfl
        constructor
        · refine ⟨init, ?_⟩
          have := driver_keeps qsort fuel c b (b1, c1) hr d d _ hlen hout rfl
            (fun q h1 h2 => absurd h1 (Nat.not_le_of_lt h2))
          rw [this, ht, hname, hS.2.2.2]
        · refine ⟨p, s, root, ext, hlt, ?_, hroot, ?_⟩
          · exact driver_keeps qsort fuel c b (b1, c1) hr d p s hlen hps
              (stmt_slot_not_nested s root hroot) hdecls
          · rw [hext, ht, hname]
  refine ⟨b1, c1, hr, main, ?_⟩
  intro d t name ptr used hd hnone
  by_contra hlt
  obtain ⟨_, p, s, root, ext, _, hp, hroot, hext⟩ :=
    main d t name ptr used hd (Nat.lt_of_not_le hlt)
  exact hnone p s root ext hp hroot hext

theorem remaining_temporaries_referenced_witness :
    QsortStable stable_qsort ∧ stmt_depth.block_depth example_nested ≤ 2 ∧
    (∀ v ∈ block_visits 0 example_nested, constant_typed v.expr = true) ∧
    ∃ b1 c1, optimize_block stable_qsort 2 0 example_nested = some (b1, c1) ∧
      (∀ (d : Nat) (t : TypeKind) (name : String) (ptr : NodeRef) (used : Bool),
        (apply_cse_pass stable_qsort example_nested
          (collect_block_candidates example_nested) 0).statements[d]? =
            some (StmtRef.synthesized t name ptr used) → d < b1.length →
        (∃ init, b1[d]? = some (AstStmt.decl t name init false used)) ∧
        ∃ p s root ext, d < p ∧ b1[p]? = some s ∧ stmt_slot s = some root ∧
          expr_at root ext = some (AstExpr.identifier t name)) ∧
      (∀ (d : Nat) (t : TypeKind) (name : String) (ptr : NodeRef) (used : Bool),
        (apply_cse_pass stable_qsort example_nested
          (collect_block_candidates example_nested) 0).statements[d]? =
            some (StmtRef.synthesized t name ptr used) →
        (∀ (p : Nat) (s : AstStmt) (root : AstExpr) (ext : List Nat),
          b1[p]? = some s → stmt_slot s = some root →
          expr_at root ext ≠ some (AstExpr.identifier t name)) → b1.length ≤ d) :=
  ⟨stable_qsort_stable, by decide, by decide,
    remaining_temporaries_referenced stable_qsort stable_qsort_stable 2 0 example_nested
      (by decide) (by decide)⟩

end C2Lua
